import Mathlib

/-!
# The thread-pool executor of the glow runtime

A shallow embedding of `lib/Runtime/Executor/ThreadPoolExecutor.cpp`.

* Pointers (`const DAGNode *`, `std::shared_ptr<ExecutionState>`) are natural
  numbers: a `NodePtr` is read through a `Graph`, a `StatePtr` indexes the list
  of `ExecutionState` objects of a `World`.
* `std::unordered_map` is an association list with `find`, `insert` (which keeps
  an existing entry), `operator[]` assignment and `erase`.
* `unsigned` counters are natural numbers below `UNSIGNED_MOD`; additions wrap.
* A failed `assert` or a null dereference is a `Fault`; every function that can
  reach one returns `Except Fault _`.
* The device managers and the thread pool are the environment: a call of
  `runFunction` is recorded as an outstanding `Job`, whose completion (with the
  error and the context the device hands back) is a step of the `World`.
  Calls that leave the executor are logged as `Event`s.
* Tracing (`TraceContext`, `TRACE_EVENT_*`, `ScopedTraceBlock`) only appends to
  an event sink and is left out.
-/

namespace glow
namespace runtime

/-- Number of values of the C++ type `unsigned`. -/
def UNSIGNED_MOD : Nat := 4294967296

abbrev RunIdentifierTy := Nat
abbrev DeviceIDTy := Nat
abbrev NodePtr := Nat
abbrev StatePtr := Nat
abbrev TypeRef := Nat
abbrev ResultCBTy := Nat

/-- The assertions and null dereferences of the source, and the two ways a
model step can have no result (`outOfFuel`, `notEnabled`). -/
inductive Fault
  | barrierDecrement      -- "Barrier decrement cannot be less than count!"
  | inputBindingsNotFound -- "Input bindings not found but should exist!"
  | nullContext           -- a moved-from std::unique_ptr<ExecutionContext> is used
  | placeholderNotCreated -- "Placeholder should have already been created"
  | inflightUnderflow     -- "More decrements than increments to inflight nodes!"
  | parentsDoneNotFound   -- "Node parents done counter should exist but not found!"
  | parentsDoneOverflow   -- "Node parents done counter incremented beyond limit!"
  | resultBindingsMissing -- "Execution result bindings should exist!"
  | outOfFuel             -- the breadth-first loop was cut off by the model
  | notEnabled            -- the label names no task of the world
  deriving DecidableEq, Repr

deriving instance DecidableEq for Except

/-- Error codes surfaced by the executor, and the errors of device managers. -/
inductive ErrorCode
  | RUNTIME_REQUEST_REFUSED
  | RUNTIME_DEVICE_NOT_FOUND
  | DEVICE_ERROR (code : Nat)
  deriving DecidableEq, Repr

/-- An `llvm::Error`: `none` is success. -/
abbrev Error := Option ErrorCode

/-! ## Collaborators that are not part of the executor's source file -/

/-- Modelled from the spec: the tensor, "opaque blob with a clone operation";
a tensor created for a type starts with payload `0`. -/
structure Tensor where
  type : TypeRef
  payload : Nat
  deriving DecidableEq, Repr

/-- Modelled from the spec: `Tensor::clone`. -/
def Tensor.clone (t : Tensor) : Tensor := t

/-- Modelled from the spec: the placeholder, "named, typed handle into a
bindings map; not trainable when created by the engine". -/
structure Placeholder where
  name : String
  type : TypeRef
  isTrainable : Bool
  deriving DecidableEq, Repr

/-- Modelled from the spec: the placeholder bindings, a "mapping from
placeholder identity → tensor slot", in insertion order. -/
abbrev PlaceholderBindings := List (Placeholder × Tensor)

namespace PlaceholderBindings

/-- Modelled from the spec: `getPlaceholderByName`, the placeholder registered
under `name`, or null. -/
def getPlaceholderByName (b : PlaceholderBindings) (name : String) : Option Placeholder :=
  (b.find? (fun e => e.1.name == name)).map (fun e => e.1)

/-- Modelled from the spec: `get`, the tensor slot of a placeholder, or null
(also for the null placeholder). -/
def get (b : PlaceholderBindings) : Option Placeholder → Option Tensor
  | none => none
  | some ph => (b.find? (fun e => e.1 == ph)).map (fun e => e.2)

/-- Modelled from the spec: `allocate`, a new slot for the placeholder holding a
fresh tensor of its type. -/
def allocate (b : PlaceholderBindings) (ph : Placeholder) : PlaceholderBindings :=
  b ++ [(ph, { type := ph.type, payload := 0 })]

/-- The write `*tensor = std::move(T)` through the pointer `get` returned for `ph`. -/
def assign : PlaceholderBindings → Placeholder → Tensor → PlaceholderBindings
  | [], _, _ => []
  | e :: rest, ph, t => if e.1 == ph then (e.1, t) :: rest else e :: assign rest ph t

/-- Modelled from the spec: `pairs`, every (placeholder, tensor) pair. -/
def pairs (b : PlaceholderBindings) : List (Placeholder × Tensor) := b

end PlaceholderBindings

/-- Modelled from the spec: the execution context, of which the executor uses
the placeholder bindings (the optional trace context is left out). -/
structure ExecutionContext where
  placeholderBindings : PlaceholderBindings
  deriving DecidableEq, Repr

/-- Modelled from the spec: the category of a symbol, "category ∈ {Placeholder, …}". -/
inductive SymbolCategory
  | Activation
  | Placeholder
  | Constant
  deriving DecidableEq, Repr

/-- Modelled from the spec: an entry of `runtimeBundle.symbolTable`. -/
structure RuntimeSymbolInfo where
  type : TypeRef
  symbolCategory : SymbolCategory
  deriving DecidableEq, Repr

/-- Modelled from the spec: the DAG node. `symbolTable` lists the table in
iteration order; `nextDevice` is what `getNextDevice()` returns. -/
structure DAGNode where
  name : String
  children : List NodePtr
  parents : List NodePtr
  symbolTable : List (String × RuntimeSymbolInfo)
  nextDevice : DeviceIDTy
  deriving DecidableEq, Repr

/-- The memory the node pointers point into. -/
abbrev Graph := NodePtr → DAGNode

/-! ## `std::unordered_map` -/

/-- `m.find(k)`: the mapped value, `none` for `end()`. -/
def mapFind {κ ν : Type} [DecidableEq κ] : List (κ × ν) → κ → Option ν
  | [], _ => none
  | e :: rest, k => if e.1 = k then some e.2 else mapFind rest k

/-- `m[k] = v`, and the write through an iterator that `find` returned. -/
def mapAssign {κ ν : Type} [DecidableEq κ] : List (κ × ν) → κ → ν → List (κ × ν)
  | [], k, v => [(k, v)]
  | e :: rest, k, v => if e.1 = k then (k, v) :: rest else e :: mapAssign rest k v

/-- `m.insert(std::make_pair(k, v))`: an existing entry is kept. -/
def mapInsert {κ ν : Type} [DecidableEq κ] (m : List (κ × ν)) (k : κ) (v : ν) : List (κ × ν) :=
  match mapFind m k with
  | some _ => m
  | none => m ++ [(k, v)]

/-- `m.erase(k)`. -/
def mapErase {κ ν : Type} [DecidableEq κ] (m : List (κ × ν)) (k : κ) : List (κ × ν) :=
  m.filter (fun e => e.1 ≠ k)

/-! ## InflightBarrier -/

structure InflightBarrier where
  count_ : Nat
  deriving DecidableEq, Repr

namespace InflightBarrier

/-- `InflightBarrier::decrement`: the assertion, then `count_ -= decr`. -/
def decrement (b : InflightBarrier) (decr : Nat) : Except Fault InflightBarrier :=
  if b.count_ ≥ decr then .ok { count_ := b.count_ - decr } else .error Fault.barrierDecrement

/-- `InflightBarrier::increment`: `count_ += incr` on an `unsigned`. -/
def increment (b : InflightBarrier) (incr : Nat) : InflightBarrier :=
  { count_ := (b.count_ + incr) % UNSIGNED_MOD }

/-- `InflightBarrier::count`. -/
def count (b : InflightBarrier) : Nat := b.count_

end InflightBarrier

/-! ## ExecutionState -/

/-- The members of `ExecutionState`. `self` is the address of the object, the
value of the `shared_ptr`s that point to it. A moved-from `unique_ptr` is
`none`. -/
structure ExecutionState where
  self : StatePtr
  runId_ : RunIdentifierTy
  cb_ : ResultCBTy
  resultCtx_ : Option ExecutionContext
  inflightNodes_ : Nat
  inputCtxs_ : List (NodePtr × Option ExecutionContext)
  nodeParentsDone_ : List (NodePtr × Nat)
  intermediatePlaceholders_ : List (String × Placeholder)
  errorContainer_ : Error
  deriving DecidableEq, Repr

namespace ExecutionState

/-- Modelled from the spec: setting the error container, which "accepts one
error; subsequent sets are ignored". -/
def setError (st : ExecutionState) (err : Error) : ExecutionState :=
  match st.errorContainer_ with
  | some _ => st
  | none => { st with errorContainer_ := err }

/-- Modelled from the spec: `containsErr` of the error container. -/
def containsErr (st : ExecutionState) : Bool := st.errorContainer_.isSome

/-- `ExecutionState::createOrGetPlaceholder`. -/
def createOrGetPlaceholder (st : ExecutionState) (name : String) (type : TypeRef) :
    Placeholder × ExecutionState :=
  match mapFind st.intermediatePlaceholders_ name with
  | some storedPh => (storedPh, st)
  | none =>
    let newPh : Placeholder := { name := name, type := type, isTrainable := false }
    (newPh, { st with
      intermediatePlaceholders_ := mapInsert st.intermediatePlaceholders_ name newPh })

/-- The loop over the symbol table in the constructor (lines 99-107): a slot is
allocated for every symbol of category Placeholder. -/
def allocateSymbols : List (String × RuntimeSymbolInfo) → ExecutionState → PlaceholderBindings →
    ExecutionState × PlaceholderBindings
  | [], st, b => (st, b)
  | symbolPair :: rest, st, b =>
    if symbolPair.2.symbolCategory = SymbolCategory.Placeholder then
      let r := st.createOrGetPlaceholder symbolPair.1 symbolPair.2.type
      allocateSymbols rest r.2 (b.allocate r.1)
    else
      allocateSymbols rest st b

/-- The body of the breadth-first loop of the constructor for the node taken
from the queue (lines 79-110); the children to push are computed by `bfs`. -/
def visit (G : Graph) (st : ExecutionState) (node : NodePtr) : ExecutionState :=
  let st1 := { st with nodeParentsDone_ := mapAssign st.nodeParentsDone_ node 0 }
  let r := allocateSymbols (G node).symbolTable st1 []
  { r.1 with
    inputCtxs_ := mapInsert r.1.inputCtxs_ node (some { placeholderBindings := r.2 }) }

/-- The breadth-first loop of the constructor (lines 74-120): `bfsQueue` is the
second argument; the first bounds the number of iterations. -/
def bfs (G : Graph) : Nat → List NodePtr → ExecutionState → Except Fault ExecutionState
  | _, [], st => .ok st
  | 0, _ :: _, _ => .error Fault.outOfFuel
  | fuel + 1, node :: bfsQueue, st =>
    let st1 := visit G st node
    bfs G fuel
      (bfsQueue ++ (G node).children.filter (fun child => (mapFind st1.nodeParentsDone_ child).isNone))
      st1

/-- `ExecutionState::ExecutionState`, for the object at address `self`. -/
def create (G : Graph) (fuel : Nat) (self : StatePtr) (id : RunIdentifierTy) (root : NodePtr)
    (resultContext : ExecutionContext) (doneCb : ResultCBTy) : Except Fault ExecutionState :=
  bfs G fuel (G root).children
    { self := self, runId_ := id, cb_ := doneCb, resultCtx_ := some resultContext,
      inflightNodes_ := 0, inputCtxs_ := [], nodeParentsDone_ := [],
      intermediatePlaceholders_ := [], errorContainer_ := none }

/-- `ExecutionState::insertIntoNodeCtx`. -/
def insertIntoNodeCtx (st : ExecutionState) (node : NodePtr) (name : String) (T : Tensor) :
    Except Fault ExecutionState :=
  match mapFind st.inputCtxs_ node with
  | none => .error Fault.inputBindingsNotFound
  | some none => .error Fault.nullContext
  | some (some ctx) =>
    let bindings := ctx.placeholderBindings
    match bindings.getPlaceholderByName name with
    | none => .error Fault.placeholderNotCreated
    | some ph =>
      match bindings.get (some ph) with
      | none => .error Fault.placeholderNotCreated
      | some _ =>
        .ok { st with
          inputCtxs_ := mapAssign st.inputCtxs_ node
            (some { placeholderBindings := bindings.assign ph T }) }

/-- `ExecutionState::getUniqueNodeContextPtr`: the context is moved out of the map. -/
def getUniqueNodeContextPtr (st : ExecutionState) (node : NodePtr) :
    Except Fault (Option ExecutionContext × ExecutionState) :=
  match mapFind st.inputCtxs_ node with
  | none => .error Fault.inputBindingsNotFound
  | some ctx => .ok (ctx, { st with inputCtxs_ := mapAssign st.inputCtxs_ node none })

/-- `ExecutionState::incrementInflightNodes`. -/
def incrementInflightNodes (st : ExecutionState) (increment : Nat) : ExecutionState :=
  { st with inflightNodes_ := (st.inflightNodes_ + increment) % UNSIGNED_MOD }

/-- `ExecutionState::decrementInflightNodes`. -/
def decrementInflightNodes (st : ExecutionState) (decrement : Nat) :
    Except Fault (Bool × ExecutionState) :=
  let previousValue := st.inflightNodes_
  if previousValue < decrement then .error Fault.inflightUnderflow
  else .ok (previousValue == decrement, { st with inflightNodes_ := previousValue - decrement })

/-- `ExecutionState::incrementNodeParentsDone`. -/
def incrementNodeParentsDone (G : Graph) (st : ExecutionState) (node : NodePtr) (increment : Nat) :
    Except Fault (Bool × ExecutionState) :=
  match mapFind st.nodeParentsDone_ node with
  | none => .error Fault.parentsDoneNotFound
  | some previousValue =>
    let numParents := (G node).parents.length % UNSIGNED_MOD
    let newValue := (previousValue + increment) % UNSIGNED_MOD
    if newValue > numParents then .error Fault.parentsDoneOverflow
    else .ok (newValue == numParents,
      { st with nodeParentsDone_ := mapAssign st.nodeParentsDone_ node newValue })

/-- `ExecutionState::insertIntoResultCtx`. -/
def insertIntoResultCtx (st : ExecutionState) (name : String) (T : Tensor) :
    Except Fault ExecutionState :=
  match st.resultCtx_ with
  | none => .error Fault.resultBindingsMissing
  | some resultCtx =>
    let resultBindings := resultCtx.placeholderBindings
    match resultBindings.getPlaceholderByName name with
    | none => .ok st
    | some ph =>
      match resultBindings.get (some ph) with
      | none => .ok st
      | some _ =>
        .ok { st with resultCtx_ := some { placeholderBindings := resultBindings.assign ph T } }

/-- `ExecutionState::getUniqueResultContextPtr`: the result context is moved out. -/
def getUniqueResultContextPtr (st : ExecutionState) :
    Except Fault (ExecutionContext × ExecutionState) :=
  match st.resultCtx_ with
  | none => .error Fault.resultBindingsMissing
  | some ctx => .ok (ctx, { st with resultCtx_ := none })

/-- `ExecutionState::getRawResultContextPtr`. -/
def getRawResultContextPtr (st : ExecutionState) : Except Fault ExecutionContext :=
  match st.resultCtx_ with
  | none => .error Fault.resultBindingsMissing
  | some ctx => .ok ctx

end ExecutionState

/-! ## ThreadPoolExecutor and its environment -/

/-- A call `deviceManager->runFunction(node->name, nodeCtx, completion)` whose
completion has not been handled yet: the execution state and node the
completion closure captured, and the context handed to the device. -/
structure Job where
  state : StatePtr
  node : NodePtr
  ctx : ExecutionContext
  deriving DecidableEq, Repr

/-- The calls the executor makes that the claims speak about, in the order in
which they happen. -/
inductive Event
  /-- The call `cb(runId, err, ctx)` of a result callback; `state` is the execution
  state the callback was taken from, `none` when `run` calls it directly. -/
  | callback (state : Option StatePtr) (cb : ResultCBTy) (runId : RunIdentifierTy)
      (err : Error) (ctx : ExecutionContext)
  /-- The call `node->getNextDevice()`. -/
  | getNextDevice (state : StatePtr) (node : NodePtr)
  /-- The call `deviceManager->runFunction(node->name, nodeCtx, ...)`. -/
  | runFunction (state : StatePtr) (node : NodePtr) (ctx : ExecutionContext)
  /-- The call `propagatePlaceholdersForNode(state, node, ctx)` has returned. -/
  | propagated (state : StatePtr) (node : NodePtr) (ctx : ExecutionContext)
  /-- The call `handleDeviceManagerResult(state, err, ctx, node)` has started. -/
  | handling (state : StatePtr) (node : NodePtr) (err : Error) (ctx : ExecutionContext)
  deriving DecidableEq, Repr

/-- The members of `ThreadPoolExecutor` (`deviceManagers_` by its keys,
`executionStates_` by the addresses it maps to), followed by the environment:
the outstanding `runFunction` calls and the log of events. -/
structure ThreadPoolExecutor where
  deviceManagers_ : List DeviceIDTy
  shuttingDown_ : Bool
  executionStates_ : List (RunIdentifierTy × StatePtr)
  inflightBarrier_ : InflightBarrier
  outstanding : List Job
  events : List Event
  deriving DecidableEq, Repr

namespace ThreadPoolExecutor

/-- Append an event to the log. -/
def log (ex : ThreadPoolExecutor) (e : Event) : ThreadPoolExecutor :=
  { ex with events := ex.events ++ [e] }

/-- The loop of `propagatePlaceholdersForNode` (lines 347-359) over the entries
of the node's symbol table. -/
def propagateSymbols (node : NodePtr) (ctx : ExecutionContext) :
    List (String × RuntimeSymbolInfo) → ExecutionState → Except Fault ExecutionState
  | [], st => .ok st
  | symbolPair :: rest, st =>
    let symbolName := symbolPair.1
    match ctx.placeholderBindings.getPlaceholderByName symbolName with
    | none => propagateSymbols node ctx rest st
    | some placeholder =>
      match ctx.placeholderBindings.get (some placeholder) with
      | none => .error Fault.nullContext
      | some tensor =>
        match st.insertIntoNodeCtx node symbolName tensor.clone with
        | .error f => .error f
        | .ok st1 => propagateSymbols node ctx rest st1

/-- `ThreadPoolExecutor::propagatePlaceholdersForNode`. -/
def propagatePlaceholdersForNode (G : Graph) (ex : ThreadPoolExecutor) (executionState : ExecutionState)
    (node : NodePtr) (ctx : ExecutionContext) :
    Except Fault (ThreadPoolExecutor × ExecutionState) :=
  match propagateSymbols node ctx (G node).symbolTable executionState with
  | .error f => .error f
  | .ok st => .ok (ex.log (Event.propagated executionState.self node ctx), st)

/-- The two decrements `executionState->decrementInflightNodes();
inflightBarrier_.decrement();` of `executeDAGNode`, whose result is dropped. -/
def markNoLongerExecuting (ex : ThreadPoolExecutor) (executionState : ExecutionState) :
    Except Fault (ThreadPoolExecutor × ExecutionState) :=
  match executionState.decrementInflightNodes 1 with
  | .error f => .error f
  | .ok r =>
    match ex.inflightBarrier_.decrement 1 with
    | .error f => .error f
    | .ok b => .ok ({ ex with inflightBarrier_ := b }, r.2)

/-- `ThreadPoolExecutor::executeDAGNode`. -/
def executeDAGNode (G : Graph) (ex : ThreadPoolExecutor) (executionState : ExecutionState)
    (node : NodePtr) : Except Fault (ThreadPoolExecutor × ExecutionState) :=
  if executionState.containsErr then
    markNoLongerExecuting ex executionState
  else
    let ex1 := ex.log (Event.getNextDevice executionState.self node)
    let currentDevice := (G node).nextDevice
    if currentDevice ∈ ex1.deviceManagers_ then
      match executionState.getUniqueNodeContextPtr node with
      | .error f => .error f
      | .ok (none, _) => .error Fault.nullContext
      | .ok (some nodeCtx, st1) =>
        .ok ({ ex1 with
                events := ex1.events ++ [Event.runFunction executionState.self node nodeCtx],
                outstanding := ex1.outstanding ++
                  [{ state := executionState.self, node := node, ctx := nodeCtx }] }, st1)
    else
      markNoLongerExecuting ex1 (executionState.setError (some ErrorCode.RUNTIME_DEVICE_NOT_FOUND))

/-- The loop of `propagateOutputPlaceholders` (lines 441-447). -/
def propagateOutputPairs : List (Placeholder × Tensor) → ExecutionState → Except Fault ExecutionState
  | [], st => .ok st
  | phTensorPair :: rest, st =>
    match st.insertIntoResultCtx phTensorPair.1.name phTensorPair.2 with
    | .error f => .error f
    | .ok st1 => propagateOutputPairs rest st1

/-- `ThreadPoolExecutor::propagateOutputPlaceholders`. -/
def propagateOutputPlaceholders (executionState : ExecutionState) (bindings : PlaceholderBindings) :
    Except Fault ExecutionState :=
  propagateOutputPairs bindings.pairs executionState

/-- The body of the loop over `node->children` in `handleDeviceManagerResult`
(lines 477-487), for one child. -/
def handleChild (G : Graph) (ctx : ExecutionContext) (ex : ThreadPoolExecutor)
    (executionState : ExecutionState) (child : NodePtr) :
    Except Fault (ThreadPoolExecutor × ExecutionState) :=
  match propagatePlaceholdersForNode G ex executionState child ctx with
  | .error f => .error f
  | .ok (ex1, st1) =>
    match st1.incrementNodeParentsDone G child 1 with
    | .error f => .error f
    | .ok (childReadyToExecute, st2) =>
      if childReadyToExecute then
        executeDAGNode G { ex1 with inflightBarrier_ := ex1.inflightBarrier_.increment 1 }
          (st2.incrementInflightNodes 1) child
      else .ok (ex1, st2)

/-- The loop over `node->children` in `handleDeviceManagerResult` (line 476). -/
def handleChildren (G : Graph) (ctx : ExecutionContext) :
    List NodePtr → ThreadPoolExecutor → ExecutionState →
    Except Fault (ThreadPoolExecutor × ExecutionState)
  | [], ex, st => .ok (ex, st)
  | child :: rest, ex, st =>
    match handleChild G ctx ex st child with
    | .error f => .error f
    | .ok (ex1, st1) => handleChildren G ctx rest ex1 st1

/-- The end of `handleDeviceManagerResult` (lines 494-519): the decrement of
`inflightNodes_`, the callback and the erasure when it reached zero, and the
decrement of the barrier. -/
def finishNode (ex : ThreadPoolExecutor) (executionState : ExecutionState) :
    Except Fault (ThreadPoolExecutor × ExecutionState) :=
  match executionState.decrementInflightNodes 1 with
  | .error f => .error f
  | .ok (noNodesInflight, st1) =>
    let after : Except Fault (ThreadPoolExecutor × ExecutionState) :=
      if noNodesInflight then
        match st1.getUniqueResultContextPtr with
        | .error f => .error f
        | .ok (resultCtx, st2) =>
          .ok ({ (ex.log (Event.callback (some st1.self) st1.cb_ st1.runId_ st1.errorContainer_
                    resultCtx)) with
                  executionStates_ := mapErase ex.executionStates_ st1.runId_ }, st2)
      else .ok (ex, st1)
    match after with
    | .error f => .error f
    | .ok (ex1, st2) =>
      match ex1.inflightBarrier_.decrement 1 with
      | .error f => .error f
      | .ok b => .ok ({ ex1 with inflightBarrier_ := b }, st2)

/-- `ThreadPoolExecutor::handleDeviceManagerResult`. -/
def handleDeviceManagerResult (G : Graph) (ex : ThreadPoolExecutor)
    (executionState : ExecutionState) (err : Error) (ctx : ExecutionContext) (node : NodePtr) :
    Except Fault (ThreadPoolExecutor × ExecutionState) :=
  let ex0 := ex.log (Event.handling executionState.self node err ctx)
  let runWasSuccess := err.isNone
  let st0 := executionState.setError err
  let propagatedOutputs : Except Fault (ThreadPoolExecutor × ExecutionState) :=
    if runWasSuccess then
      if (G node).children.isEmpty then
        match propagateOutputPlaceholders st0 ctx.placeholderBindings with
        | .error f => .error f
        | .ok st1 => .ok (ex0, st1)
      else handleChildren G ctx (G node).children ex0 st0
    else .ok (ex0, st0)
  match propagatedOutputs with
  | .error f => .error f
  | .ok (ex1, st1) => finishNode ex1 st1

/-- What `run` does before its dispatch loop (lines 280-326). The result holds
the new execution state, at address `self`, when the run was accepted. -/
def runPrologue (G : Graph) (fuel : Nat) (ex : ThreadPoolExecutor) (self : StatePtr)
    (root : Option NodePtr) (context : ExecutionContext) (runId : RunIdentifierTy)
    (cb : ResultCBTy) : Except Fault (ThreadPoolExecutor × Option ExecutionState) :=
  if ex.shuttingDown_ then
    .ok (ex.log (Event.callback none cb runId (some ErrorCode.RUNTIME_REQUEST_REFUSED) context),
      none)
  else
    match root with
    | none => .ok (ex.log (Event.callback none cb runId none context), none)
    | some rootNode =>
      match mapFind ex.executionStates_ runId with
      | some _ =>
        .ok (ex.log (Event.callback none cb runId (some ErrorCode.RUNTIME_REQUEST_REFUSED)
          context), none)
      | none =>
        match ExecutionState.create G fuel self runId rootNode context cb with
        | .error f => .error f
        | .ok executionState =>
          let numChildren := (G rootNode).children.length
          .ok ({ ex with
                  executionStates_ := mapInsert ex.executionStates_ runId self,
                  inflightBarrier_ := ex.inflightBarrier_.increment numChildren },
               some (executionState.incrementInflightNodes numChildren))

/-- The body of the dispatch loop of `run` (lines 329-335), for one child of root. -/
def runChild (G : Graph) (ex : ThreadPoolExecutor) (executionState : ExecutionState)
    (node : NodePtr) : Except Fault (ThreadPoolExecutor × ExecutionState) :=
  match executionState.getRawResultContextPtr with
  | .error f => .error f
  | .ok resultCtx =>
    match propagatePlaceholdersForNode G ex executionState node resultCtx with
    | .error f => .error f
    | .ok (ex1, st1) => executeDAGNode G ex1 st1 node

/-- The dispatch loop of `run` (line 328), executed without interruption. -/
def runChildren (G : Graph) : List NodePtr → ThreadPoolExecutor → ExecutionState →
    Except Fault (ThreadPoolExecutor × ExecutionState)
  | [], ex, st => .ok (ex, st)
  | node :: rest, ex, st =>
    match runChild G ex st node with
    | .error f => .error f
    | .ok (ex1, st1) => runChildren G rest ex1 st1

/-- `ThreadPoolExecutor::shutdown` up to the wait on the barrier. -/
def shutdown (ex : ThreadPoolExecutor) : ThreadPoolExecutor :=
  { ex with shuttingDown_ := true }

end ThreadPoolExecutor

/-! ## The executor with the threads that use it -/

/-- A call of `run` that is inside its dispatch loop: the execution state it
created and the children of root it has not dispatched yet. -/
structure RunFrame where
  state : StatePtr
  remaining : List NodePtr
  deriving DecidableEq, Repr

/-- The executor, the `ExecutionState` objects that were created (the object at
address `p` is `objects[p]`), and the calls of `run` in progress. -/
structure World where
  executor : ThreadPoolExecutor
  objects : List ExecutionState
  frames : List RunFrame
  deriving DecidableEq, Repr

/-- A fresh executor over the given device managers. -/
def World.init (deviceManagers : List DeviceIDTy) : World :=
  { executor := { deviceManagers_ := deviceManagers, shuttingDown_ := false,
                  executionStates_ := [], inflightBarrier_ := { count_ := 0 },
                  outstanding := [], events := [] },
    objects := [], frames := [] }

/-- What a thread does next. -/
inductive Label
  /-- A caller enters `run` and executes it up to the dispatch loop. -/
  | run (fuel : Nat) (root : Option NodePtr) (context : ExecutionContext)
      (runId : RunIdentifierTy) (cb : ResultCBTy)
  /-- The call of `run` numbered `frame` executes one iteration of its dispatch loop. -/
  | dispatch (frame : Nat)
  /-- The device manager completes the outstanding call numbered `job` with `err`
  and `resultCtx`, and a pool thread runs `handleDeviceManagerResult` for it. -/
  | complete (job : Nat) (err : Error) (resultCtx : ExecutionContext)
  /-- A caller enters `shutdown`. -/
  | shutdown
  deriving DecidableEq, Repr

/-- One step of the world. -/
def step (G : Graph) (w : World) : Label → Except Fault World
  | Label.run fuel root context runId cb =>
    match w.executor.runPrologue G fuel w.objects.length root context runId cb with
    | .error f => .error f
    | .ok (ex, none) => .ok { w with executor := ex }
    | .ok (ex, some st) =>
      .ok { executor := ex, objects := w.objects ++ [st],
            frames := w.frames ++
              [{ state := w.objects.length, remaining := (G (root.getD 0)).children }] }
  | Label.dispatch frame =>
    match w.frames[frame]? with
    | none => .error Fault.notEnabled
    | some fr =>
      match fr.remaining, w.objects[fr.state]? with
      | node :: rest, some st =>
        match w.executor.runChild G st node with
        | .error f => .error f
        | .ok (ex, st1) =>
          .ok { executor := ex, objects := w.objects.set fr.state st1,
                frames := w.frames.set frame { fr with remaining := rest } }
      | _, _ => .error Fault.notEnabled
  | Label.complete job err resultCtx =>
    match w.executor.outstanding[job]? with
    | none => .error Fault.notEnabled
    | some j =>
      match w.objects[j.state]? with
      | none => .error Fault.notEnabled
      | some st =>
        match ThreadPoolExecutor.handleDeviceManagerResult G
            { w.executor with outstanding := w.executor.outstanding.eraseIdx job }
            st err resultCtx j.node with
        | .error f => .error f
        | .ok (ex, st1) => .ok { w with executor := ex, objects := w.objects.set j.state st1 }
  | Label.shutdown => .ok { w with executor := w.executor.shutdown }

/-- Run a schedule: the labels one after the other. -/
def steps (G : Graph) : World → List Label → Except Fault World
  | w, [] => .ok w
  | w, l :: rest =>
    match step G w l with
    | .error f => .error f
    | .ok w1 => steps G w1 rest

/-- `ThreadPoolExecutor::run`, executed from entry to return with no other
thread running in between. -/
def run (G : Graph) (fuel : Nat) (w : World) (root : Option NodePtr) (context : ExecutionContext)
    (runId : RunIdentifierTy) (cb : ResultCBTy) : Except Fault World :=
  match w.executor.runPrologue G fuel w.objects.length root context runId cb with
  | .error f => .error f
  | .ok (ex, none) => .ok { w with executor := ex }
  | .ok (ex, some st) =>
    match ThreadPoolExecutor.runChildren G (G (root.getD 0)).children ex st with
    | .error f => .error f
    | .ok (ex1, st1) => .ok { w with executor := ex1, objects := w.objects ++ [st1] }

/-! ## Observations on a world -/

/-- The calls of result callbacks made so far for the execution state `p`. -/
def callbacksOf (w : World) (p : StatePtr) : List Event :=
  w.executor.events.filter (fun e =>
    match e with
    | Event.callback (some q) _ _ _ _ => q == p
    | _ => false)

/-- How many times `runFunction` was called for `node` in the run of state `p`. -/
def dispatchCount (w : World) (p : StatePtr) (node : NodePtr) : Nat :=
  w.executor.events.countP (fun e =>
    match e with
    | Event.runFunction q n _ => q == p && n == node
    | _ => false)

/-- The run of state `p` has nothing left to do: no call of `run` for it is
still in its dispatch loop and none of its `runFunction` calls is outstanding. -/
def quiescent (w : World) (p : StatePtr) : Bool :=
  w.frames.all (fun fr => fr.state != p || fr.remaining.isEmpty) &&
  w.executor.outstanding.all (fun j => j.state != p)


/-- Every call of a result callback made so far, by `run` itself or for any
execution state. -/
def callbacks (w : World) : List Event :=
  w.executor.events.filter (fun e =>
    match e with
    | Event.callback _ _ _ _ _ => true
    | _ => false)

/-- The sum of the `inflightNodes_` counters of all execution states. -/
def sumInflight (w : World) : Nat :=
  (w.objects.map (fun st => st.inflightNodes_)).sum

/-- The call `run(root, context, runId, cb)` refuses the request in world `w`: it
returns, and all it did was to call `cb(runId, RUNTIME_REQUEST_REFUSED, context)`;
the registry, the barrier, the outstanding device calls, the execution states
and the calls of `run` in progress are as before. -/
def refuses (G : Graph) (fuel : Nat) (w : World) (root : Option NodePtr)
    (context : ExecutionContext) (runId : RunIdentifierTy) (cb : ResultCBTy) : Prop :=
  run G fuel w root context runId cb = .ok
    { w with executor := (w.executor.log
        (Event.callback none cb runId (some ErrorCode.RUNTIME_REQUEST_REFUSED) context)) }

/-! ## Inputs of the scenarios -/

/-- A node whose symbol table holds the one Placeholder symbol `x`. -/
def scenarioNode (name : String) (children parents : List NodePtr) (device : DeviceIDTy) :
    DAGNode :=
  { name := name, children := children, parents := parents,
    symbolTable := [("x", { type := 0, symbolCategory := SymbolCategory.Placeholder })],
    nextDevice := device }

/-- A root sentinel with the given children. -/
def scenarioRoot (children : List NodePtr) : DAGNode :=
  { name := "root", children := children, parents := [], symbolTable := [], nextDevice := 0 }

/-- The context of the caller in the scenarios: `x` is bound to a tensor with payload 1. -/
def callerContext : ExecutionContext :=
  { placeholderBindings :=
      [({ name := "x", type := 0, isTrainable := false }, { type := 0, payload := 1 })] }

/-- Scenario S4: root (address 0) has the one child `A` (address 1), whose
`getNextDevice()` returns 99. -/
def missingDeviceGraph : Graph := fun p =>
  match p with
  | 0 => scenarioRoot [1]
  | _ => scenarioNode "A" [] [0] 99

/-- Root (address 0) with the two leaves `A` (address 1) and `B` (address 2), both
on device 0. -/
def twoLeavesGraph : Graph := fun p =>
  match p with
  | 0 => scenarioRoot [1, 2]
  | 1 => scenarioNode "A" [] [0] 0
  | _ => scenarioNode "B" [] [0] 0

/-- Scenario S5: the diamond root → {A, B} → C at addresses 0, 1, 2, 3. -/
def diamondGraph : Graph := fun p =>
  match p with
  | 0 => scenarioRoot [1, 2]
  | 1 => scenarioNode "A" [3] [0] 0
  | 2 => scenarioNode "B" [3] [0] 0
  | _ => scenarioNode "C" [] [1, 2] 0

/-- Scenario S6: root → {A, B}, A → C, B → D at addresses 0, 1, 2, 3, 4. -/
def midRunFailureGraph : Graph := fun p =>
  match p with
  | 0 => scenarioRoot [1, 2]
  | 1 => scenarioNode "A" [3] [0] 0
  | 2 => scenarioNode "B" [4] [0] 0
  | 3 => scenarioNode "C" [] [1] 0
  | _ => scenarioNode "D" [] [2] 0

/-- A root sentinel (address 0) without children. -/
def childlessRootGraph : Graph := fun _ => scenarioRoot []

/-! ## Relations used by the invariants -/

/-- The barrier of the executor and the counter `inflightNodes_` of one execution
state have moved by the same amount, as `unsigned` values. -/
def Balanced (ex : ThreadPoolExecutor) (st : ExecutionState) (ex1 : ThreadPoolExecutor)
    (st1 : ExecutionState) : Prop :=
  (ex1.inflightBarrier_.count_ + st.inflightNodes_) % UNSIGNED_MOD =
      (ex.inflightBarrier_.count_ + st1.inflightNodes_) % UNSIGNED_MOD ∧
    (ex.inflightBarrier_.count_ < UNSIGNED_MOD → ex1.inflightBarrier_.count_ < UNSIGNED_MOD)

/-- A schedule for the diamond of scenario S5: the run is accepted, `A` and `B` are
dispatched, then the devices complete `A`, `B` and `C` without error, each
handing back the context it was given. -/
def diamondSchedule : List Label :=
  [Label.run 8 (some 0) callerContext 1 7, Label.dispatch 0, Label.dispatch 0,
   Label.complete 0 none callerContext, Label.complete 0 none callerContext,
   Label.complete 0 none callerContext]

/-- The result of a run of the model, with the fresh executor standing in for a fault. -/
def worldAfter (G : Graph) (w : World) (schedule : List Label) : World :=
  match steps G w schedule with
  | .ok w1 => w1
  | .error _ => World.init []

/-- The schedule of the diamond after the call of `run` was accepted. -/
def diamondCompletions : List Label :=
  [Label.dispatch 0, Label.dispatch 0, Label.complete 0 none callerContext,
   Label.complete 0 none callerContext, Label.complete 0 none callerContext]

/-- The tensor that the caller's context of the scenarios binds `x` to. -/
def callerTensor : Tensor := { type := 0, payload := 1 }

/-! ## Graphs, schedules and the vocabulary of the run invariants -/

/-- The node `n` can be reached from the children of `root` along child edges. -/
inductive Reach (G : Graph) (root : NodePtr) : NodePtr → Prop
  | child {n : NodePtr} : n ∈ (G root).children → Reach G root n
  | step {m n : NodePtr} : Reach G root m → n ∈ (G m).children → Reach G root n

/-- The execution state an event belongs to; `none` for a callback that `run`
calls itself. -/
def Event.tag : Event → Option StatePtr
  | Event.callback s _ _ _ _ => s
  | Event.getNextDevice s _ => some s
  | Event.runFunction s _ _ => some s
  | Event.propagated s _ _ => some s
  | Event.handling s _ _ _ => some s

/-- The outstanding device calls of the run of state `p`. -/
def jobsOf (ex : ThreadPoolExecutor) (p : StatePtr) : List Job :=
  ex.outstanding.filter (fun j => j.state == p)

/-- The nodes of the run of state `p` that were handed to a device manager, in
the order of the `runFunction` calls in the log `evs`. -/
def dispatchedIn (evs : List Event) (p : StatePtr) : List NodePtr :=
  evs.filterMap (fun e =>
    match e with
    | Event.runFunction q n _ => if q = p then some n else none
    | _ => none)

/-- The nodes of the run of state `p` whose completion was given to
`handleDeviceManagerResult`, with or without error. -/
def handledIn (evs : List Event) (p : StatePtr) : List NodePtr :=
  evs.filterMap (fun e =>
    match e with
    | Event.handling q n _ _ => if q = p then some n else none
    | _ => none)

/-- The nodes of the run of state `p` whose completion was given to
`handleDeviceManagerResult` without error. -/
def handledOkIn (evs : List Event) (p : StatePtr) : List NodePtr :=
  evs.filterMap (fun e =>
    match e with
    | Event.handling q n none _ => if q = p then some n else none
    | _ => none)

/-- In the log `evs` of the run of state `p`, the completion of `q` was given to
`handleDeviceManagerResult` without error and with the context `ctx`, and later
a call `propagatePlaceholdersForNode(state, n, ctx)` with that context returned. -/
def Served (evs : List Event) (p : StatePtr) (q n : NodePtr) : Prop :=
  ∃ (ctx : ExecutionContext) (i j : Nat), i < j ∧
    evs[i]? = some (Event.handling p q none ctx) ∧ evs[j]? = some (Event.propagated p n ctx)

/-- The bindings `b` bind the name `x` to the tensor `v`: the lookup
`b.get(b.getPlaceholderByName(x))` finds `v`. -/
def Binds (b : PlaceholderBindings) (x : String) (v : Tensor) : Prop :=
  b.get (b.getPlaceholderByName x) = some v

/-- The names of the slots of the bindings, in order. -/
def slotNames (b : PlaceholderBindings) : List String := b.map (fun e => e.1.name)

/-- The names of the symbols of category Placeholder in a symbol table, in order. -/
def placeholderNames (symbolTable : List (String × RuntimeSymbolInfo)) : List String :=
  (symbolTable.filter (fun s => s.2.symbolCategory = SymbolCategory.Placeholder)).map
    (fun s => s.1)

/-- The executor `ex1` differs from `ex` by calls made for the execution state
`p`: events of `p` and outstanding device calls of `p` were appended; the
device managers and the shutdown flag are the same. -/
def Appends (p : StatePtr) (ex ex1 : ThreadPoolExecutor) : Prop :=
  ex1.deviceManagers_ = ex.deviceManagers_ ∧ ex1.shuttingDown_ = ex.shuttingDown_ ∧
    ∃ evs jobs, ex1.events = ex.events ++ evs ∧ ex1.outstanding = ex.outstanding ++ jobs ∧
      (∀ e ∈ evs, e.tag = some p) ∧ (∀ j ∈ jobs, j.state = p)

/-- Every completion in the schedule that belongs to the run of state `p` meets
the assumption `A` on the outstanding call, the error and the context that the
device hands back. -/
def allCompletions (G : Graph) (p : StatePtr) (A : Job → Error → ExecutionContext → Prop) :
    World → List Label → Prop
  | _, [] => True
  | w, l :: rest =>
    (match l with
      | Label.complete job err resultCtx =>
        ∀ j, w.executor.outstanding[job]? = some j → j.state = p → A j err resultCtx
      | _ => True) ∧
    ∀ w1, step G w l = .ok w1 → allCompletions G p A w1 rest

/-- The world `w1` is the world `w` after `run(root, context, runId, cb)` was
accepted: the call has created the execution state at address `p` and stands
before its dispatch loop, as call number `k`. -/
def Accepted (G : Graph) (w : World) (fuel : Nat) (root : NodePtr) (context : ExecutionContext)
    (runId : RunIdentifierTy) (cb : ResultCBTy) (w1 : World) (p : StatePtr) (k : Nat) : Prop :=
  step G w (Label.run fuel (some root) context runId cb) = .ok w1 ∧
    p = w.objects.length ∧ k = w.frames.length ∧ w1.objects.length = w.objects.length + 1

/-- The executor `ex1` differs from `ex` by what other runs than that of state `p`
did: the events that were appended belong to other states (or to none), and the
outstanding device calls of `p` are the same. -/
def ForeignChange (p : StatePtr) (ex ex1 : ThreadPoolExecutor) : Prop :=
  ex1.deviceManagers_ = ex.deviceManagers_ ∧
    (∃ evs, ex1.events = ex.events ++ evs ∧ ∀ e ∈ evs, e.tag ≠ some p) ∧
    jobsOf ex1 p = jobsOf ex p

/-- The frame of an invariant `INV` of the run of state `p`, whose call of `run` is
call number `k`, in an executor over the device managers `dm`: every object
knows its own address, the run has exactly the one call of `run`, and `INV` holds
of the executor, the execution state and the children of root not dispatched yet. -/
structure RunWorld (p : StatePtr) (k : Nat) (dm : List DeviceIDTy)
    (INV : ThreadPoolExecutor → ExecutionState → List NodePtr → Prop) (w : World) : Prop where
  selfs : ∀ (q : StatePtr) (st : ExecutionState), w.objects[q]? = some st → st.self = q
  devices : w.executor.deviceManagers_ = dm
  frameUnique : ∀ (i : Nat) (fr : RunFrame), w.frames[i]? = some fr → fr.state = p → i = k
  inv : ∃ st rem, w.objects[p]? = some st ∧
    w.frames[k]? = some { state := p, remaining := rem } ∧ INV w.executor st rem

/-- What every world reached from the fresh executor over the device managers
`dm` satisfies: every object knows its own address, and the calls of `run` in
progress, the outstanding device calls and the events refer to objects that
exist. -/
structure Scoped (dm : List DeviceIDTy) (w : World) : Prop where
  selfs : ∀ (q : StatePtr) (st : ExecutionState), w.objects[q]? = some st → st.self = q
  devices : w.executor.deviceManagers_ = dm
  frames : ∀ fr ∈ w.frames, fr.state < w.objects.length
  jobs : ∀ j ∈ w.executor.outstanding, j.state < w.objects.length
  events : ∀ e ∈ w.executor.events, ∀ q, e.tag = some q → q < w.objects.length

/-- The tensor in the first slot with the name `x`. -/
def lookupName (b : PlaceholderBindings) (x : String) : Option Tensor :=
  (b.find? (fun e => e.1.name == x)).map (fun e => e.2)

/-- Every slot of the bindings with the name `x` holds the tensor `v`. -/
def AllNamed (b : PlaceholderBindings) (x : String) (v : Tensor) : Prop :=
  ∀ e ∈ b, e.1.name = x → e.2 = v

/-- What holds of an execution state while the constructor runs and when it is
done: the memoized placeholders carry the name they are stored under and are
not trainable, every input context is present and has one slot per symbol of
category Placeholder of its node, in the order of the symbol table, and every
parents-done counter is 0. -/
structure Constructed (G : Graph) (st : ExecutionState) : Prop where
  memo : ∀ (k : String) (ph : Placeholder),
    mapFind st.intermediatePlaceholders_ k = some ph → ph.name = k ∧ ph.isTrainable = false
  slots : ∀ (n : NodePtr) (c : Option ExecutionContext), mapFind st.inputCtxs_ n = some c →
    ∃ ctx, c = some ctx ∧
      slotNames ctx.placeholderBindings = placeholderNames (G n).symbolTable
  counters : ∀ (n : NodePtr) (c : Nat), mapFind st.nodeParentsDone_ n = some c → c = 0

/-- The invariant behind the round trip of the name `x` with the tensor `v` in the
run of state `p` over `root`: the result context binds `x` to `v` as long as the
run holds it, every context handed to a device binds `x` to `v` in its only slot
of that name, no input context has two slots named `x`, and every context that
was delivered to the callback binds `x` to `v`. -/
structure RoundTrip (G : Graph) (root : NodePtr) (p : StatePtr) (x : String) (v : Tensor)
    (ex : ThreadPoolExecutor) (st : ExecutionState) (rem : List NodePtr) : Prop where
  result : ∀ rc, st.resultCtx_ = some rc → lookupName rc.placeholderBindings x = some v
  jobs : ∀ j ∈ ex.outstanding, j.state = p →
    Reach G root j.node ∧ lookupName j.ctx.placeholderBindings x = some v ∧
      AllNamed j.ctx.placeholderBindings x v
  slots : ∀ (n : NodePtr) (c : ExecutionContext), Reach G root n →
    mapFind st.inputCtxs_ n = some (some c) → (slotNames c.placeholderBindings).count x ≤ 1
  delivered : ∀ (cb : ResultCBTy) (id : RunIdentifierTy) (err : Error) (c : ExecutionContext),
    Event.callback (some p) cb id err c ∈ ex.events →
    lookupName c.placeholderBindings x = some v
  remaining : ∀ n ∈ rem, n ∈ (G root).children

/-- Run the schedule and check every completion that belongs to the run of state
`p` with `chk`; a step that faults ends the check. -/
def checkCompletions (G : Graph) (p : StatePtr) (chk : Job → Error → ExecutionContext → Bool) :
    World → List Label → Bool
  | _, [] => true
  | w, l :: rest =>
    (match l with
      | Label.complete job err resultCtx =>
        match w.executor.outstanding[job]? with
        | some j => j.state != p || chk j err resultCtx
        | none => true
      | _ => true) &&
    (match step G w l with
      | .ok w1 => checkCompletions G p chk w1 rest
      | .error _ => true)

/-- A well-formed graph under `root`: the children of root are distinct and are
children of no node that can be reached; every node that can be reached lists
distinct children; and for every other node `n` that can be reached, `n.parents`
lists, once each, exactly the reachable nodes that have `n` as a child, so that
`|n.parents|` is the number of child edges that point at `n`; that number fits
the `unsigned` counter. -/
structure WellFormedDAG (G : Graph) (root : NodePtr) : Prop where
  rootNodup : (G root).children.Nodup
  childrenNodup : ∀ m, Reach G root m → (G m).children.Nodup
  rootChildren : ∀ m, Reach G root m → ∀ c ∈ (G m).children, c ∉ (G root).children
  parentsNodup : ∀ n, Reach G root n → n ∉ (G root).children → (G n).parents.Nodup
  parents : ∀ n, Reach G root n → n ∉ (G root).children →
    ∀ m, m ∈ (G n).parents ↔ (Reach G root m ∧ n ∈ (G m).children)
  parentsFit : ∀ n, Reach G root n → (G n).parents.length < UNSIGNED_MOD

/-- The bookkeeping invariant of the run of state `p` over `root`. `rem` are the
children of root that `run` has not dispatched yet. Inside
`handleDeviceManagerResult` for the node `cur`, `post` are the children of `cur`
that the loop has not reached yet; between the steps `post` is empty. -/
structure Ledger (G : Graph) (root : NodePtr) (p : StatePtr) (cur : NodePtr)
    (post : List NodePtr) (ex : ThreadPoolExecutor) (st : ExecutionState)
    (rem : List NodePtr) : Prop where
  /-- The input context of a dispatched node has been moved out. -/
  moved : ∀ n ∈ dispatchedIn ex.events p, mapFind st.inputCtxs_ n = some none
  /-- No node was dispatched twice. -/
  dNodup : (dispatchedIn ex.events p).Nodup
  /-- Every dispatched node is either handled or outstanding. -/
  perm : (dispatchedIn ex.events p).Perm
    (handledIn ex.events p ++ (jobsOf ex p).map (fun j => j.node))
  reach : ∀ n ∈ dispatchedIn ex.events p, Reach G root n
  remSub : ∀ c ∈ rem, c ∈ (G root).children
  postNodup : post.Nodup
  postCur : ∀ n ∈ post, n ∈ (G cur).children
  /-- A counter holds the number of parents that were handled without error, less
  the increment that the running handler still owes. -/
  counters : ∀ (n : NodePtr) (c : Nat), Reach G root n → n ∉ (G root).children →
    mapFind st.nodeParentsDone_ n = some c →
    c + (if n ∈ post then 1 else 0) =
      ((handledOkIn ex.events p).filter (fun m => decide (n ∈ (G m).children))).length
  /-- Every parent handled without error has propagated into its children. -/
  served : ∀ q ∈ handledOkIn ex.events p, ∀ n ∈ (G q).children, (q = cur → n ∉ post) →
    Served ex.events p q n
  /-- When a node that is not a child of root was dispatched, every parent had
  propagated into it. -/
  servedAt : ∀ (i : Nat) (n : NodePtr) (c : ExecutionContext),
    ex.events[i]? = some (Event.runFunction p n c) → n ∉ (G root).children →
    ∀ q ∈ (G n).parents, Served (ex.events.take i) p q n

/-- The calls of result callbacks in the log `evs` for the execution state `p`. -/
def callbacksIn (evs : List Event) (p : StatePtr) : List Event :=
  evs.filter (fun e =>
    match e with
    | Event.callback (some q) _ _ _ _ => q == p
    | _ => false)

/-- The invariant of a run of state `p` over `root` in which no error occurs:
every device is registered in `dm` and every completion is without error.
`slack` is what `inflightNodes_` counts besides the outstanding device calls: the
children of root that `run` has not dispatched yet, and the node whose
completion is being handled. `post` are the children of that node that its
handler has not reached yet. -/
structure Flow (G : Graph) (root : NodePtr) (p : StatePtr) (dm : List DeviceIDTy)
    (cb : ResultCBTy) (runId : RunIdentifierTy) (slack : Nat) (post : List NodePtr)
    (ex : ThreadPoolExecutor) (st : ExecutionState) (rem : List NodePtr) : Prop where
  noErr : st.errorContainer_ = none
  devices : ex.deviceManagers_ = dm
  identity : st.cb_ = cb ∧ st.runId_ = runId ∧ st.self = p
  inflight : st.inflightNodes_ = (jobsOf ex p).length + slack
  remNodup : rem.Nodup
  remFresh : ∀ c ∈ rem, c ∉ dispatchedIn ex.events p
  allOk : handledIn ex.events p = handledOkIn ex.events p
  /-- The children of root that `run` has passed are dispatched. -/
  rootDone : ∀ c ∈ (G root).children, c ∉ rem → c ∈ dispatchedIn ex.events p
  /-- A node all of whose parents were handled is dispatched. -/
  ready : ∀ n, Reach G root n → n ∉ (G root).children → n ∉ post →
    (∀ q ∈ (G n).parents, q ∈ handledOkIn ex.events p) → n ∈ dispatchedIn ex.events p
  /-- No callback while nodes are in flight. -/
  cbNone : (0 < st.inflightNodes_ ∨ dispatchedIn ex.events p = []) → callbacksIn ex.events p = []
  /-- One callback, with success, once the counter is back at 0. -/
  cbDone : st.inflightNodes_ = 0 → dispatchedIn ex.events p ≠ [] →
    ∃ rc, callbacksIn ex.events p = [Event.callback (some p) cb runId none rc]

/-! ## Sequences of calls, for the contracts of the members of `ExecutionState` -/

/-- An execution state as the constructor leaves it for a root without children,
with `inflightNodes_` set to `c`. -/
def scenarioState (c : Nat) : ExecutionState :=
  { self := 0, runId_ := 1, cb_ := 7, resultCtx_ := some callerContext, inflightNodes_ := c,
    inputCtxs_ := [], nodeParentsDone_ := [], intermediatePlaceholders_ := [],
    errorContainer_ := none }

/-- The calls `incrementNodeParentsDone(node)` made `n` times in a row, with the
values they return. -/
def unitIncrements (G : Graph) (node : NodePtr) :
    Nat → ExecutionState → Except Fault (List Bool × ExecutionState)
  | 0, st => .ok ([], st)
  | n + 1, st =>
    match st.incrementNodeParentsDone G node 1 with
    | .error f => .error f
    | .ok (b, st1) =>
      match unitIncrements G node n st1 with
      | .error f => .error f
      | .ok (bs, st2) => .ok (b :: bs, st2)

/-- A call of `incrementInflightNodes(k)` or of `decrementInflightNodes(k)`. -/
inductive CounterCall
  | increment (k : Nat)
  | decrement (k : Nat)
  deriving DecidableEq, Repr

/-- A sequence of calls on `inflightNodes_`: for every call the value it returns
(`none` for an increment, which returns nothing) and the counter after it, and
the state after the last call. -/
def inflightCalls : List CounterCall → ExecutionState →
    Except Fault (List (Option Bool × Nat) × ExecutionState)
  | [], st => .ok ([], st)
  | CounterCall.increment k :: rest, st =>
    let st1 := st.incrementInflightNodes k
    match inflightCalls rest st1 with
    | .error f => .error f
    | .ok (tr, st2) => .ok ((none, st1.inflightNodes_) :: tr, st2)
  | CounterCall.decrement k :: rest, st =>
    match st.decrementInflightNodes k with
    | .error f => .error f
    | .ok (b, st1) =>
      match inflightCalls rest st1 with
      | .error f => .error f
      | .ok (tr, st2) => .ok ((some b, st1.inflightNodes_) :: tr, st2)

/-- No increment of the sequence takes `inflightNodes_` past the largest `unsigned`
value. -/
def incrementsFit : List CounterCall → ExecutionState → Bool
  | [], _ => true
  | CounterCall.increment k :: rest, st =>
    decide (st.inflightNodes_ + k < UNSIGNED_MOD) && incrementsFit rest (st.incrementInflightNodes k)
  | CounterCall.decrement k :: rest, st =>
    match st.decrementInflightNodes k with
    | .error _ => true
    | .ok (_, st1) => incrementsFit rest st1

/-- The state after a sequence of calls `createOrGetPlaceholder(name, type)`. -/
def createOrGetAll : List (String × TypeRef) → ExecutionState → ExecutionState
  | [], st => st
  | call :: rest, st => createOrGetAll rest (st.createOrGetPlaceholder call.1 call.2).2

/-- The nodes in the order in which the breadth-first loop of the constructor
takes them from the queue; the arguments are those of `ExecutionState.bfs`. -/
def bfsOrder (G : Graph) : Nat → List NodePtr → ExecutionState → List NodePtr
  | _, [], _ => []
  | 0, _ :: _, _ => []
  | fuel + 1, node :: bfsQueue, st =>
    let st1 := ExecutionState.visit G st node
    node :: bfsOrder G fuel
      (bfsQueue ++ (G node).children.filter (fun child => (mapFind st1.nodeParentsDone_ child).isNone))
      st1

/-- The nodes in the order in which the constructor takes them from its queue;
the arguments are those of `ExecutionState.create`. -/
def visitOrder (G : Graph) (fuel : Nat) (self : StatePtr) (id : RunIdentifierTy) (root : NodePtr)
    (resultContext : ExecutionContext) (doneCb : ResultCBTy) : List NodePtr :=
  bfsOrder G fuel (G root).children
    { self := self, runId_ := id, cb_ := doneCb, resultCtx_ := some resultContext,
      inflightNodes_ := 0, inputCtxs_ := [], nodeParentsDone_ := [],
      intermediatePlaceholders_ := [], errorContainer_ := none }

/-- The keys of a map, in order. -/
def mapKeys {κ ν : Type} (m : List (κ × ν)) : List κ := m.map (fun e => e.1)

/-- The event is a call that hands a node to a device: `getNextDevice` or
`runFunction`. -/
def Event.isDispatch : Event → Bool
  | Event.getNextDevice _ _ => true
  | Event.runFunction _ _ _ => true
  | _ => false

/-- A context as a device hands it back: `x` is bound to a tensor with payload 9. -/
def deviceContext : ExecutionContext :=
  { placeholderBindings :=
      [({ name := "x", type := 0, isTrainable := false }, { type := 0, payload := 9 })] }

/-- A schedule for a root with the children `A` and `B`: the run is accepted, `A`
and `B` are dispatched, and the device of `A` fails. -/
def firstChildFails : List Label :=
  [Label.run 8 (some 0) callerContext 1 7, Label.dispatch 0, Label.dispatch 0,
   Label.complete 0 (some (ErrorCode.DEVICE_ERROR 1)) callerContext]

/-- An executor over device 0 with one node in flight. -/
def afterErrorExecutor : ThreadPoolExecutor :=
  { (World.init [0]).executor with inflightBarrier_ := { count_ := 1 } }

/-- A state with one node in flight whose error slot holds the error of a device. -/
def afterErrorState : ExecutionState :=
  { scenarioState 1 with errorContainer_ := some (ErrorCode.DEVICE_ERROR 1) }

/-- The executor and the state after the last node of `afterErrorState` completed
with success and `deviceContext`. -/
def afterErrorResult : ThreadPoolExecutor × ExecutionState :=
  ({ (World.init [0]).executor with
      events := [Event.handling 0 2 none deviceContext,
        Event.callback (some 0) 7 1 (some (ErrorCode.DEVICE_ERROR 1)) deviceContext] },
   { scenarioState 0 with
      errorContainer_ := some (ErrorCode.DEVICE_ERROR 1), resultCtx_ := none })

/-! ## The breadth-first walk of the constructor -/

/-- The invariant of the breadth-first loop of the constructor, with `q` the
queue: both maps have the same keys, each once; a node with a key or in the queue
can be reached from the children of root; and the children of root and of every
node with a key have a key or are in the queue. -/
structure Walked (G : Graph) (root : NodePtr) (q : List NodePtr) (st : ExecutionState) :
    Prop where
  sameKeys : ∀ n, n ∈ mapKeys st.inputCtxs_ ↔ n ∈ mapKeys st.nodeParentsDone_
  visited : ∀ n ∈ mapKeys st.nodeParentsDone_, Reach G root n
  queued : ∀ n ∈ q, Reach G root n
  closed : ∀ n ∈ mapKeys st.nodeParentsDone_, ∀ c ∈ (G n).children,
    c ∈ mapKeys st.nodeParentsDone_ ∨ c ∈ q
  roots : ∀ c ∈ (G root).children, c ∈ mapKeys st.nodeParentsDone_ ∨ c ∈ q
  countersNodup : (mapKeys st.nodeParentsDone_).Nodup
  inputsNodup : (mapKeys st.inputCtxs_).Nodup

/-- What the constructor has built for the graph under `root`: the keys of
`inputCtxs_` and of `nodeParentsDone_` are the nodes that can be reached from the
children of root, each once; every counter is 0; `inflightNodes_` is 0; and the
input bindings of every such node have one slot for each of its symbols of
category Placeholder, and no other slot. -/
structure BuiltFor (G : Graph) (root : NodePtr) (st : ExecutionState) : Prop where
  counterKeys : ∀ n, n ∈ mapKeys st.nodeParentsDone_ ↔ Reach G root n
  inputKeys : ∀ n, n ∈ mapKeys st.inputCtxs_ ↔ Reach G root n
  countersOnce : (mapKeys st.nodeParentsDone_).Nodup
  inputsOnce : (mapKeys st.inputCtxs_).Nodup
  countersZero : ∀ n, Reach G root n → mapFind st.nodeParentsDone_ n = some 0
  inflightZero : st.inflightNodes_ = 0
  slots : ∀ n, Reach G root n → ∃ ctx, mapFind st.inputCtxs_ n = some (some ctx) ∧
    slotNames ctx.placeholderBindings = placeholderNames (G n).symbolTable

/-- How many of the nodes `nodes` have no parents-done counter yet. -/
def unvisitedCount (nodes : List NodePtr) (st : ExecutionState) : Nat :=
  nodes.countP (fun n => (mapFind st.nodeParentsDone_ n).isNone)

/-- How many entries of the queue are nodes that have a parents-done counter. -/
def staleCount (q : List NodePtr) (st : ExecutionState) : Nat :=
  q.countP (fun n => (mapFind st.nodeParentsDone_ n).isSome)

/-! ## The moment of the callback -/

/-- The part of `handleDeviceManagerResult` before the final decrements (lines
450-490): the error is recorded and the outputs are propagated. -/
def ThreadPoolExecutor.handleOutputs (G : Graph) (ex : ThreadPoolExecutor)
    (executionState : ExecutionState) (err : Error) (ctx : ExecutionContext) (node : NodePtr) :
    Except Fault (ThreadPoolExecutor × ExecutionState) :=
  let ex0 := ex.log (Event.handling executionState.self node err ctx)
  let runWasSuccess := err.isNone
  let st0 := executionState.setError err
  if runWasSuccess then
    if (G node).children.isEmpty then
      match ThreadPoolExecutor.propagateOutputPlaceholders st0 ctx.placeholderBindings with
      | .error f => .error f
      | .ok st1 => .ok (ex0, st1)
    else ThreadPoolExecutor.handleChildren G ctx (G node).children ex0 st0
  else .ok (ex0, st0)

/-- The sum of the `inflightNodes_` counters of the execution states other than
the one at address `p`. -/
def othersInflight (w : World) (p : StatePtr) : Nat :=
  ((w.objects.eraseIdx p).map (fun st => st.inflightNodes_)).sum

/-- A context without bindings. -/
def emptyContext : ExecutionContext := { placeholderBindings := [] }

/-- A node graph with a cycle (`A` → `B` → `A`), a shared child (`C`, a child of `A` and
of `B`), a node that is its own child (`C`) and duplicate entries in the children
lists of root and of `B`; root is at address 0, `A`, `B`, `C` at 1, 2, 3. -/
def tangledGraph : Graph := fun p =>
  match p with
  | 0 => scenarioRoot [1, 1, 2]
  | 1 => scenarioNode "A" [2, 3] [0, 2] 0
  | 2 => scenarioNode "B" [3, 1, 3] [0, 1] 0
  | _ => scenarioNode "C" [3] [1, 2, 3] 0

/-- Root (address 0) with the one child `A` (address 1), whose symbol table holds
the Placeholder symbol `x` and the Constant symbol `w`. -/
def constantGraph : Graph := fun p =>
  match p with
  | 0 => scenarioRoot [1]
  | _ =>
    { name := "A", children := [], parents := [0],
      symbolTable := [("x", { type := 0, symbolCategory := SymbolCategory.Placeholder }),
        ("w", { type := 0, symbolCategory := SymbolCategory.Constant })],
      nextDevice := 0 }

/-- A context of the caller that binds `x` and also the name `w`. -/
def weightContext : ExecutionContext :=
  { placeholderBindings :=
      [({ name := "x", type := 0, isTrainable := false }, { type := 0, payload := 1 }),
       ({ name := "w", type := 0, isTrainable := false }, { type := 0, payload := 5 })] }

/-- The state the constructor builds for `constantGraph`: the input bindings of `A`
have the one slot `x`. -/
def constantState : ExecutionState :=
  { self := 0, runId_ := 1, cb_ := 7, resultCtx_ := some weightContext, inflightNodes_ := 0,
    inputCtxs_ := [(1, some { placeholderBindings :=
      [({ name := "x", type := 0, isTrainable := false }, { type := 0, payload := 0 })] })],
    nodeParentsDone_ := [(1, 0)],
    intermediatePlaceholders_ := [("x", { name := "x", type := 0, isTrainable := false })],
    errorContainer_ := none }

/-- The counter `inflightNodes_` of the run of state `p` counts, as an `unsigned`,
the outstanding device calls of the run and `slack` more nodes: the children of
root that `run` has not dispatched yet and, inside `handleDeviceManagerResult`,
the node whose completion is being handled and the child that is about to be
handed to `executeDAGNode`. -/
def Tally (p : StatePtr) (slack : Nat) (ex : ThreadPoolExecutor) (st : ExecutionState) : Prop :=
  st.inflightNodes_ = ((jobsOf ex p).length + slack) % UNSIGNED_MOD

/-- The calls `executeDAGNode(executionState, child)` that the loop over
`node->children` in `handleDeviceManagerResult` (lines 476-487) makes, in order,
up to the first call that does not return: the child, the value of
`inflightNodes_` when the call is made, and its value when the call has returned
(`none` when it did not return). The function follows `handleChildren` and
`handleChild`. -/
def ThreadPoolExecutor.nestedCalls (G : Graph) (ctx : ExecutionContext) :
    List NodePtr → ThreadPoolExecutor → ExecutionState → List (NodePtr × Nat × Option Nat)
  | [], _, _ => []
  | child :: rest, ex, st =>
    match ThreadPoolExecutor.propagatePlaceholdersForNode G ex st child ctx with
    | .error _ => []
    | .ok (ex1, st1) =>
      match st1.incrementNodeParentsDone G child 1 with
      | .error _ => []
      | .ok (childReadyToExecute, st2) =>
        if childReadyToExecute then
          match ThreadPoolExecutor.executeDAGNode G
              { ex1 with inflightBarrier_ := ex1.inflightBarrier_.increment 1 }
              (st2.incrementInflightNodes 1) child with
          | .error _ => [(child, (st2.incrementInflightNodes 1).inflightNodes_, none)]
          | .ok (ex4, st4) =>
            (child, (st2.incrementInflightNodes 1).inflightNodes_, some st4.inflightNodes_) ::
              ThreadPoolExecutor.nestedCalls G ctx rest ex4 st4
        else ThreadPoolExecutor.nestedCalls G ctx rest ex1 st2

/-- The calls `executeDAGNode(executionState, child)` that
`handleDeviceManagerResult(executionState, err, ctx, node)` makes: none when the
node failed or has no children, else those of the loop over its children. -/
def ThreadPoolExecutor.handlerCalls (G : Graph) (ex : ThreadPoolExecutor)
    (executionState : ExecutionState) (err : Error) (ctx : ExecutionContext) (node : NodePtr) :
    List (NodePtr × Nat × Option Nat) :=
  if err.isNone then
    if (G node).children.isEmpty then []
    else ThreadPoolExecutor.nestedCalls G ctx (G node).children
      (ex.log (Event.handling executionState.self node err ctx)) (executionState.setError err)
  else []

/-- The world of the diamond of scenario S5 when `A` and `B` were dispatched and
the completion of `A` was handled: the call for `B` is outstanding. -/
def diamondJoinWorld : World :=
  worldAfter diamondGraph (World.init [0]) (diamondSchedule.take 4)

/-- The execution state of the run in `diamondJoinWorld`. -/
def diamondJoinState : ExecutionState :=
  { self := 0, runId_ := 1, cb_ := 7, resultCtx_ := some callerContext, inflightNodes_ := 1,
    inputCtxs_ := [(1, none), (2, none), (3, some callerContext)],
    nodeParentsDone_ := [(1, 0), (2, 0), (3, 1)],
    intermediatePlaceholders_ := [("x", { name := "x", type := 0, isTrainable := false })],
    errorContainer_ := none }

/-- The addresses `3, …, k + 2` of the leaves of `fanGraph k`. -/
def fanLeaves (k : Nat) : List NodePtr := (List.range k).map (fun (i : Nat) => i + 3)

/-- Root (address 0) with `k + 1` distinct children: `A` (address 1) and the `k`
leaves `fanLeaves k`. `A` has the one child `C` (address 2), whose only parent it
is. No node has a symbol, all are on device 0. -/
def fanGraph (k : Nat) : Graph := fun p =>
  if p = 0 then scenarioRoot (1 :: fanLeaves k)
  else if p = 1 then
    { name := "A", children := [2], parents := [0], symbolTable := [], nextDevice := 0 }
  else if p = 2 then
    { name := "C", children := [], parents := [1], symbolTable := [], nextDevice := 0 }
  else { name := "L", children := [], parents := [0], symbolTable := [], nextDevice := 0 }

/-- The run over `fanGraph k` is accepted (run 1, callback 7) and `A` is dispatched. -/
def fanSchedule (k : Nat) : List Label :=
  [Label.run (k + 2) (some 0) emptyContext 1 7, Label.dispatch 0]

/-- The execution state of the run over `fanGraph k` with `c` nodes in flight and
the input context `a` of `A`. -/
def fanState (k c : Nat) (a : Option ExecutionContext) : ExecutionState :=
  { self := 0, runId_ := 1, cb_ := 7, resultCtx_ := some emptyContext, inflightNodes_ := c,
    inputCtxs_ := (1, a) ::
      ((fanLeaves k).map (fun n => (n, some emptyContext)) ++ [(2, some emptyContext)]),
    nodeParentsDone_ := (1, 0) :: ((fanLeaves k).map (fun n => (n, 0)) ++ [(2, 0)]),
    intermediatePlaceholders_ := [], errorContainer_ := none }

/-- The world after the first step of `fanSchedule k`. -/
def fanAccepted (k : Nat) : World :=
  { executor :=
      { deviceManagers_ := [0], shuttingDown_ := false, executionStates_ := [(1, 0)],
        inflightBarrier_ := { count_ := (k + 1) % UNSIGNED_MOD },
        outstanding := [], events := [] },
    objects := [fanState k ((k + 1) % UNSIGNED_MOD) (some emptyContext)],
    frames := [{ state := 0, remaining := 1 :: fanLeaves k }] }

/-- The world after `fanSchedule k`: the call for `A` is outstanding, the leaves of
root are not dispatched yet. -/
def fanWorld (k : Nat) : World :=
  { executor :=
      { deviceManagers_ := [0], shuttingDown_ := false, executionStates_ := [(1, 0)],
        inflightBarrier_ := { count_ := (k + 1) % UNSIGNED_MOD },
        outstanding := [{ state := 0, node := 1, ctx := emptyContext }],
        events := [Event.propagated 0 1 emptyContext, Event.getNextDevice 0 1,
          Event.runFunction 0 1 emptyContext] },
    objects := [fanState k ((k + 1) % UNSIGNED_MOD) none],
    frames := [{ state := 0, remaining := fanLeaves k }] }

/-- A rank that grows along every child edge of `fanGraph k`. -/
def fanRank (p : NodePtr) : Nat := if p = 0 then 0 else if p = 1 then 1 else 2

/-- The fault `f` is none of the counter assertions: it is not the overflow of a
parents-done counter, not the underflow of `inflightNodes_`, and, when `C` holds,
not the decrement of the barrier below zero. -/
def CounterSafe (C : Prop) (f : Fault) : Prop :=
  f ≠ Fault.parentsDoneOverflow ∧ f ≠ Fault.inflightUnderflow ∧
    (C → f ≠ Fault.barrierDecrement)

/-- What holds of the run of state `p` over a well-formed graph besides `Ledger`:
the children of root that `run` has not dispatched yet are distinct and were
not dispatched; the counter of a dispatched node that is not a child of root has
reached the number of its parents; the counter of a child of root is 0; and only
nodes that can be reached have a counter. -/
structure Pending (G : Graph) (root : NodePtr) (p : StatePtr) (ex : ThreadPoolExecutor)
    (st : ExecutionState) (rem : List NodePtr) : Prop where
  remNodup : rem.Nodup
  remFresh : ∀ c ∈ rem, c ∉ dispatchedIn ex.events p
  full : ∀ n ∈ dispatchedIn ex.events p, n ∉ (G root).children →
    mapFind st.nodeParentsDone_ n = some (G n).parents.length
  rootZero : ∀ n ∈ (G root).children, ∀ c, mapFind st.nodeParentsDone_ n = some c → c = 0
  counterKeys : ∀ n c, mapFind st.nodeParentsDone_ n = some c → Reach G root n

/-! # Theorems -/

/-! ## The terminal transition inside `executeDAGNode` (C1, C2, C6, C9) -/

/-- C1, the code at a failing input: root has the leaves `A` and `B`, both on a
registered device; the run is accepted, `A` is dispatched, its device completes
with an error and the completion is handled before the dispatch loop of `run`
reaches `B`. Then `B` is cancelled inside `executeDAGNode`, which takes
`inflightNodes_` to 0 and drops the answer of `decrementInflightNodes`: every
completion has been handled, `run` has returned, nothing is outstanding, and no
result callback was called. -/
theorem callback_lost_when_failure_precedes_dispatch :
    (steps twoLeavesGraph (World.init [0])
        [Label.run 8 (some 0) callerContext 1 7, Label.dispatch 0,
         Label.complete 0 (some (ErrorCode.DEVICE_ERROR 3)) callerContext,
         Label.dispatch 0]).map
      (fun w => (callbacks w, quiescent w 0, w.executor.outstanding,
        w.objects.map (fun st => (st.inflightNodes_, st.errorContainer_)),
        w.executor.executionStates_)) =
    .ok ([], true, [], [(0, some (ErrorCode.DEVICE_ERROR 3))], [(1, 0)]) := by
  rfl

/-- C2, the code at the failing input (scenario S4): the executor has the device
manager 0 only, root has one child whose device is 99, the run id 1 is not
registered. `run` returns without calling the callback: the log holds the
propagation and the `getNextDevice` call only, no device call is outstanding,
`inflightNodes_` and the barrier are 0, the error container holds
`RUNTIME_DEVICE_NOT_FOUND` and the run stays registered. -/
theorem run_missing_device_no_callback :
    (run missingDeviceGraph 8 (World.init [0]) (some 0) callerContext 1 7).map
      (fun w => (w.executor.events, w.executor.outstanding, w.frames,
        w.objects.map (fun st => (st.inflightNodes_, st.errorContainer_, st.resultCtx_)),
        w.executor.inflightBarrier_.count, w.executor.executionStates_)) =
    .ok ([Event.propagated 0 1 callerContext, Event.getNextDevice 0 1], [], [],
      [(0, some ErrorCode.RUNTIME_DEVICE_NOT_FOUND, some callerContext)], 0, [(1, 0)]) := by
  rfl

/-- C6, the code at a failing input (scenario S6): root → {A, B}, A → C, B → D, and
the failure of `A` is handled before the dispatch loop of `run` reaches `B`. The
handler of `A` records the error and dispatches nothing, `C` and `D` are never
dispatched, but `B` is cancelled inside `executeDAGNode`, where the terminal
transition is dropped: the run is over and no callback was delivered. -/
theorem mid_run_failure_can_lose_callback :
    (steps midRunFailureGraph (World.init [0])
        [Label.run 8 (some 0) callerContext 1 7, Label.dispatch 0,
         Label.complete 0 (some (ErrorCode.DEVICE_ERROR 3)) callerContext,
         Label.dispatch 0]).map
      (fun w => (callbacks w, quiescent w 0, dispatchCount w 0 1, dispatchCount w 0 2,
        dispatchCount w 0 3, dispatchCount w 0 4,
        w.objects.map (fun st => (st.inflightNodes_, st.errorContainer_)))) =
    .ok ([], true, 1, 0, 0, 0, [(0, some (ErrorCode.DEVICE_ERROR 3))]) := by
  rfl

/-- C9, the code at the failing input: after the run of scenario S4 the counter
`inflightNodes_` of the run has reached 0, yet no callback was called and run id
1 is still registered, so that a second `run` with run id 1 is refused. -/
theorem registry_keeps_finished_run :
    ((run missingDeviceGraph 8 (World.init [0]) (some 0) callerContext 1 7).bind
      (fun w => (run missingDeviceGraph 8 w (some 0) callerContext 1 9).map
        (fun w2 => (w.objects.map (fun st => st.inflightNodes_), callbacks w,
          w.executor.executionStates_, callbacks w2, w2.executor.executionStates_)))) =
    .ok ([0], [], [(1, 0)],
      [Event.callback none 9 1 (some ErrorCode.RUNTIME_REQUEST_REFUSED) callerContext],
      [(1, 0)]) := by
  rfl

/-! ## Requests that `run` answers itself (C7, C8) -/

/-- C7: `run(root, ctx, runId, cb)` refuses the request (it returns after calling
`cb(runId, RUNTIME_REQUEST_REFUSED, ctx)` with the caller's context, and leaves
the registry, the barrier, every execution state, the outstanding device calls
and the dispatch loops in progress as they were) if and only if the executor is
shutting down, or root is non-null and `runId` is in the registry. -/
theorem run_refuses_iff (G : Graph) (fuel : Nat) (w : World) (root : Option NodePtr)
    (context : ExecutionContext) (runId : RunIdentifierTy) (cb : ResultCBTy) :
    refuses G fuel w root context runId cb ↔
      (w.executor.shuttingDown_ = true ∨
        (root ≠ none ∧ (mapFind w.executor.executionStates_ runId).isSome)) := by
  unfold refuses run ThreadPoolExecutor.runPrologue
  cases hs : w.executor.shuttingDown_
  · cases root with
    | none =>
      simp only [Bool.false_eq_true, if_false, false_or, ne_eq, not_true_eq_false, false_and,
        iff_false]
      intro h
      have h1 := congrArg (fun r => r.toOption.map (fun v => v.executor.events)) h
      simp [Except.toOption, ThreadPoolExecutor.log] at h1
    | some r =>
      cases hf : mapFind w.executor.executionStates_ runId with
      | some p => simp
      | none =>
        simp only [Bool.false_eq_true, if_false, false_or, ne_eq, Option.isSome_none, and_false,
          iff_false]
        intro h
        cases hc : ExecutionState.create G fuel w.objects.length runId r context cb with
        | error f => simp [hc] at h
        | ok st =>
          simp only [hc] at h
          split at h
          · cases h
          · have h1 := congrArg (fun r => r.toOption.map (fun v => v.objects.length)) h
            simp [Except.toOption] at h1
  · simp

/-- C8: when the executor is not shutting down, `run(nullptr, ctx, runId, cb)`
returns after one call of the callback, `cb(runId, success, ctx)` with the
caller's context; the only change of the world is that call in the log, so the
registry, the barrier count and every execution state are as before, whether or
not `runId` is registered. -/
theorem run_null_root (G : Graph) (fuel : Nat) (w : World) (context : ExecutionContext)
    (runId : RunIdentifierTy) (cb : ResultCBTy) (h : w.executor.shuttingDown_ = false) :
    run G fuel w none context runId cb =
        .ok { w with executor :=
          { w.executor with
            events := w.executor.events ++ [Event.callback none cb runId none context] } } ∧
      ∀ w1, run G fuel w none context runId cb = .ok w1 →
        callbacks w1 = callbacks w ++ [Event.callback none cb runId none context] ∧
        w1.executor.executionStates_ = w.executor.executionStates_ ∧
        w1.executor.inflightBarrier_.count = w.executor.inflightBarrier_.count ∧
        w1.objects = w.objects := by
  have hrun : run G fuel w none context runId cb =
      .ok { w with executor :=
        { w.executor with
          events := w.executor.events ++ [Event.callback none cb runId none context] } } := by
    simp [run, ThreadPoolExecutor.runPrologue, h, ThreadPoolExecutor.log]
  refine ⟨hrun, ?_⟩
  intro w1 h1
  rw [hrun] at h1
  injection h1 with h1
  subst h1
  simp [callbacks]

/-- Witness for C8: the fresh executor over device 0, and a null-root request
with run id 1 and callback 7. -/
theorem run_null_root_witness :
    (World.init [0]).executor.shuttingDown_ = false ∧
      run missingDeviceGraph 0 (World.init [0]) none callerContext 1 7 =
        .ok { (World.init [0]) with executor :=
          { (World.init [0]).executor with
            events := (World.init [0]).executor.events ++
              [Event.callback none 7 1 none callerContext] } } :=
  ⟨rfl, (run_null_root missingDeviceGraph 0 (World.init [0]) callerContext 1 7 rfl).1⟩

/-- C3, the code at the failing input: a root sentinel without children. The
graph is well-formed and acyclic, no device is needed and no node can fail; `run`
accepts the request, registers the execution state and returns. Nothing is
outstanding, so nothing will ever happen for this run: the callback is never
called, and the run stays registered. -/
theorem childless_root_never_calls_back :
    (run childlessRootGraph 8 (World.init [0]) (some 0) callerContext 1 7).map
      (fun w => (w.executor.events, w.executor.outstanding, quiescent w 0,
        w.objects.map (fun st => (st.inflightNodes_, st.errorContainer_)),
        w.executor.executionStates_)) =
    .ok ([], [], true, [(0, none)], [(1, 0)]) := by
  rfl

/-! ## What each operation changes -/

theorem markNoLongerExecuting_ok {ex : ThreadPoolExecutor} {st : ExecutionState}
    {r : ThreadPoolExecutor × ExecutionState}
    (h : ThreadPoolExecutor.markNoLongerExecuting ex st = .ok r) :
    1 ≤ st.inflightNodes_ ∧ 1 ≤ ex.inflightBarrier_.count_ ∧
      r = ({ ex with inflightBarrier_ := { count_ := ex.inflightBarrier_.count_ - 1 } },
           { st with inflightNodes_ := st.inflightNodes_ - 1 }) := by
  unfold ThreadPoolExecutor.markNoLongerExecuting ExecutionState.decrementInflightNodes
    InflightBarrier.decrement at h
  by_cases h1 : st.inflightNodes_ < 1
  · simp [h1] at h
  · by_cases h2 : ex.inflightBarrier_.count_ ≥ 1
    · simp [h1, h2] at h
      exact ⟨by omega, h2, h.symm⟩
    · simp [h1, h2] at h

theorem insertIntoNodeCtx_ok {st st1 : ExecutionState} {node : NodePtr} {name : String}
    {T : Tensor} (h : st.insertIntoNodeCtx node name T = .ok st1) :
    ∃ ctx ph, mapFind st.inputCtxs_ node = some (some ctx) ∧
      ctx.placeholderBindings.getPlaceholderByName name = some ph ∧
      st1 = { st with inputCtxs_ := (mapAssign st.inputCtxs_ node
                (some { placeholderBindings := ctx.placeholderBindings.assign ph T })) } := by
  unfold ExecutionState.insertIntoNodeCtx at h
  split at h
  · cases h
  · cases h
  · rename_i ctx hctx
    dsimp only at h
    split at h
    · cases h
    · rename_i ph hph
      split at h
      · cases h
      · injection h with h
        exact ⟨ctx, ph, hctx, hph, h.symm⟩

theorem propagateSymbols_frame {node : NodePtr} {ctx : ExecutionContext}
    (syms : List (String × RuntimeSymbolInfo)) {st st1 : ExecutionState}
    (h : ThreadPoolExecutor.propagateSymbols node ctx syms st = .ok st1) :
    st1 = { st with inputCtxs_ := st1.inputCtxs_ } := by
  induction syms generalizing st with
  | nil =>
    simp only [ThreadPoolExecutor.propagateSymbols] at h
    injection h with h
    subst h
    rfl
  | cons s rest ih =>
    simp only [ThreadPoolExecutor.propagateSymbols] at h
    split at h
    · exact ih h
    · split at h
      · cases h
      · split at h
        · cases h
        · rename_i st2 h2
          obtain ⟨c, ph, -, -, h3⟩ := insertIntoNodeCtx_ok h2
          have := ih h
          rw [this, h3]

theorem propagatePlaceholdersForNode_ok {G : Graph} {ex : ThreadPoolExecutor}
    {st : ExecutionState} {node : NodePtr} {ctx : ExecutionContext}
    {r : ThreadPoolExecutor × ExecutionState}
    (h : ThreadPoolExecutor.propagatePlaceholdersForNode G ex st node ctx = .ok r) :
    r.1 = ex.log (Event.propagated st.self node ctx) ∧
      ThreadPoolExecutor.propagateSymbols node ctx (G node).symbolTable st = .ok r.2 ∧
      r.2 = { st with inputCtxs_ := r.2.inputCtxs_ } := by
  unfold ThreadPoolExecutor.propagatePlaceholdersForNode at h
  split at h
  · cases h
  · rename_i st1 h1
    injection h with h
    subst h
    exact ⟨rfl, h1, propagateSymbols_frame _ h1⟩

/-- The three ways in which `executeDAGNode` returns. -/
theorem executeDAGNode_ok {G : Graph} {ex : ThreadPoolExecutor} {st : ExecutionState}
    {node : NodePtr} {r : ThreadPoolExecutor × ExecutionState}
    (h : ThreadPoolExecutor.executeDAGNode G ex st node = .ok r) :
    (st.errorContainer_.isSome = true ∧ ThreadPoolExecutor.markNoLongerExecuting ex st = .ok r) ∨
    (st.errorContainer_ = none ∧ (G node).nextDevice ∉ ex.deviceManagers_ ∧
      ThreadPoolExecutor.markNoLongerExecuting (ex.log (Event.getNextDevice st.self node))
        (st.setError (some ErrorCode.RUNTIME_DEVICE_NOT_FOUND)) = .ok r) ∨
    (st.errorContainer_ = none ∧ (G node).nextDevice ∈ ex.deviceManagers_ ∧
      ∃ nodeCtx, mapFind st.inputCtxs_ node = some (some nodeCtx) ∧
        r = ({ ex with
                events := ex.events ++
                  [Event.getNextDevice st.self node, Event.runFunction st.self node nodeCtx],
                outstanding := ex.outstanding ++
                  [{ state := st.self, node := node, ctx := nodeCtx }] },
             { st with inputCtxs_ := mapAssign st.inputCtxs_ node none })) := by
  unfold ThreadPoolExecutor.executeDAGNode at h
  by_cases he : st.containsErr = true
  · left
    rw [if_pos he] at h
    exact ⟨he, h⟩
  · right
    rw [if_neg he] at h
    have he1 : st.errorContainer_ = none := by
      simpa [ExecutionState.containsErr] using he
    by_cases hd : (G node).nextDevice ∈ ex.deviceManagers_
    · right
      simp only [ThreadPoolExecutor.log, hd, if_true] at h
      refine ⟨he1, hd, ?_⟩
      unfold ExecutionState.getUniqueNodeContextPtr at h
      cases hf : mapFind st.inputCtxs_ node with
      | none => simp [hf] at h
      | some c =>
        cases c with
        | none => simp [hf] at h
        | some nodeCtx =>
          simp [hf] at h
          exact ⟨nodeCtx, rfl, by rw [← h]⟩
    · left
      simp only [ThreadPoolExecutor.log, hd, if_false] at h
      exact ⟨he1, hd, h⟩

theorem incrementNodeParentsDone_ok {G : Graph} {st : ExecutionState} {node : NodePtr}
    {k : Nat} {r : Bool × ExecutionState}
    (h : st.incrementNodeParentsDone G node k = .ok r) :
    ∃ previousValue, mapFind st.nodeParentsDone_ node = some previousValue ∧
      (previousValue + k) % UNSIGNED_MOD ≤ (G node).parents.length % UNSIGNED_MOD ∧
      r.1 = ((previousValue + k) % UNSIGNED_MOD == (G node).parents.length % UNSIGNED_MOD) ∧
      r.2 = { st with nodeParentsDone_ :=
                (mapAssign st.nodeParentsDone_ node ((previousValue + k) % UNSIGNED_MOD)) } := by
  unfold ExecutionState.incrementNodeParentsDone at h
  split at h
  · cases h
  · rename_i prev hprev
    dsimp only at h
    split at h
    · cases h
    · rename_i hle
      injection h with h
      subst h
      exact ⟨prev, hprev, by omega, rfl, rfl⟩

theorem handleChild_ok {G : Graph} {ctx : ExecutionContext} {ex : ThreadPoolExecutor}
    {st : ExecutionState} {child : NodePtr} {r : ThreadPoolExecutor × ExecutionState}
    (h : ThreadPoolExecutor.handleChild G ctx ex st child = .ok r) :
    ∃ p q, ThreadPoolExecutor.propagatePlaceholdersForNode G ex st child ctx = .ok p ∧
      p.2.incrementNodeParentsDone G child 1 = .ok q ∧
      (q.1 = true →
        ThreadPoolExecutor.executeDAGNode G
          { p.1 with inflightBarrier_ := p.1.inflightBarrier_.increment 1 }
          (q.2.incrementInflightNodes 1) child = .ok r) ∧
      (q.1 = false → r = (p.1, q.2)) := by
  unfold ThreadPoolExecutor.handleChild at h
  split at h
  · cases h
  · rename_i ex1 st1 h1
    split at h
    · cases h
    · rename_i ready st2 h2
      refine ⟨(ex1, st1), (ready, st2), h1, h2, ?_, ?_⟩
      · intro hr
        simp only at hr
        simpa [hr] using h
      · intro hr
        simp only at hr
        simp only [hr, Bool.false_eq_true, if_false] at h
        injection h with h
        exact h.symm

/-- The two ways in which the end of `handleDeviceManagerResult` returns: with the
terminal transition (callback and erasure) or without. -/
theorem finishNode_ok {ex : ThreadPoolExecutor} {st : ExecutionState}
    {r : ThreadPoolExecutor × ExecutionState}
    (h : ThreadPoolExecutor.finishNode ex st = .ok r) :
    1 ≤ st.inflightNodes_ ∧ 1 ≤ ex.inflightBarrier_.count_ ∧
    ((st.inflightNodes_ = 1 ∧ ∃ resultCtx, st.resultCtx_ = some resultCtx ∧
        r = ({ ex with
                events := ex.events ++
                  [Event.callback (some st.self) st.cb_ st.runId_ st.errorContainer_ resultCtx],
                executionStates_ := mapErase ex.executionStates_ st.runId_,
                inflightBarrier_ := { count_ := ex.inflightBarrier_.count_ - 1 } },
             { st with inflightNodes_ := 0, resultCtx_ := none })) ∨
     (st.inflightNodes_ ≠ 1 ∧
        r = ({ ex with inflightBarrier_ := { count_ := ex.inflightBarrier_.count_ - 1 } },
             { st with inflightNodes_ := st.inflightNodes_ - 1 }))) := by
  unfold ThreadPoolExecutor.finishNode ExecutionState.decrementInflightNodes at h
  by_cases h1 : st.inflightNodes_ < 1
  · simp [h1] at h
  · simp only [h1, if_false] at h
    by_cases h2 : st.inflightNodes_ = 1
    · simp only [h2, beq_self_eq_true, if_true, ExecutionState.getUniqueResultContextPtr] at h
      cases hr : st.resultCtx_ with
      | none => simp [hr] at h
      | some rc =>
        simp only [hr, ThreadPoolExecutor.log, InflightBarrier.decrement] at h
        by_cases h3 : ex.inflightBarrier_.count_ ≥ 1
        · simp only [h3, if_true] at h
          injection h with h
          refine ⟨by omega, h3, Or.inl ⟨h2, rc, rfl, ?_⟩⟩
          rw [← h]
        · simp [h3] at h
    · have h2b : (st.inflightNodes_ == 1) = false := by simpa using h2
      simp only [h2b, Bool.false_eq_true, if_false, InflightBarrier.decrement] at h
      by_cases h3 : ex.inflightBarrier_.count_ ≥ 1
      · simp only [h3, if_true] at h
        injection h with h
        exact ⟨by omega, h3, Or.inr ⟨h2, h.symm⟩⟩
      · simp [h3] at h

theorem setError_none (st : ExecutionState) : st.setError none = st := by
  unfold ExecutionState.setError
  cases h : st.errorContainer_ with
  | none =>
    cases st
    simp_all
  | some e => rfl

theorem propagateOutputPairs_frame (pairs : List (Placeholder × Tensor))
    {st st1 : ExecutionState}
    (h : ThreadPoolExecutor.propagateOutputPairs pairs st = .ok st1) :
    st1 = { st with resultCtx_ := st1.resultCtx_ } ∧
      (st.resultCtx_.isSome = true → st1.resultCtx_.isSome = true) := by
  induction pairs generalizing st with
  | nil =>
    simp only [ThreadPoolExecutor.propagateOutputPairs] at h
    injection h with h
    subst h
    exact ⟨rfl, id⟩
  | cons e rest ih =>
    simp only [ThreadPoolExecutor.propagateOutputPairs] at h
    split at h
    · cases h
    · rename_i st2 h2
      have h3 := ih h
      unfold ExecutionState.insertIntoResultCtx at h2
      split at h2
      · cases h2
      · rename_i rc hrc
        dsimp only at h2
        split at h2
        · injection h2 with h2
          subst h2
          exact h3
        · split at h2
          · injection h2 with h2
            subst h2
            exact h3
          · injection h2 with h2
            subst h2
            refine ⟨?_, fun _ => h3.2 rfl⟩
            rw [h3.1]

/-- The stages of `handleDeviceManagerResult`: the propagation of the outputs,
which depends on the error and on the children of the node, and then the end. -/
theorem handleDeviceManagerResult_ok {G : Graph} {ex : ThreadPoolExecutor}
    {st : ExecutionState} {err : Error} {ctx : ExecutionContext} {node : NodePtr}
    {r : ThreadPoolExecutor × ExecutionState}
    (h : ThreadPoolExecutor.handleDeviceManagerResult G ex st err ctx node = .ok r) :
    ∃ p, ThreadPoolExecutor.finishNode p.1 p.2 = .ok r ∧
      ((err ≠ none ∧ p = (ex.log (Event.handling st.self node err ctx), st.setError err)) ∨
       (err = none ∧ (G node).children = [] ∧
          p.1 = ex.log (Event.handling st.self node err ctx) ∧
          ThreadPoolExecutor.propagateOutputPlaceholders st ctx.placeholderBindings = .ok p.2) ∨
       (err = none ∧ (G node).children ≠ [] ∧
          ThreadPoolExecutor.handleChildren G ctx (G node).children
            (ex.log (Event.handling st.self node err ctx)) st = .ok p)) := by
  unfold ThreadPoolExecutor.handleDeviceManagerResult at h
  dsimp only at h
  split at h
  · cases h
  · rename_i ex1 st1 h1
    refine ⟨(ex1, st1), h, ?_⟩
    cases err with
    | some e =>
      left
      simp only [Option.isNone_some, Bool.false_eq_true, if_false] at h1
      injection h1 with h1
      exact ⟨by simp, h1.symm⟩
    | none =>
      right
      simp only [Option.isNone_none, if_true, setError_none] at h1
      by_cases hc : (G node).children = []
      · left
        simp only [hc, List.isEmpty_nil, if_true] at h1
        split at h1
        · cases h1
        · rename_i st2 h2
          injection h1 with h1
          injection h1 with h1a h1b
          subst h1a h1b
          exact ⟨rfl, hc, rfl, h2⟩
      · right
        have hc2 : (G node).children.isEmpty = false := by
          cases hh : (G node).children with
          | nil => exact absurd hh hc
          | cons a l => rfl
        simp only [hc2, Bool.false_eq_true, if_false] at h1
        exact ⟨rfl, hc, h1⟩

namespace Balanced

theorem unchanged (ex : ThreadPoolExecutor) (st : ExecutionState) : Balanced ex st ex st :=
  ⟨by rw [Nat.add_comm], id⟩

theorem compose {ex ex1 ex2 : ThreadPoolExecutor} {st st1 st2 : ExecutionState}
    (h1 : Balanced ex st ex1 st1) (h2 : Balanced ex1 st1 ex2 st2) : Balanced ex st ex2 st2 := by
  unfold Balanced UNSIGNED_MOD at *
  refine ⟨?_, fun h => h2.2 (h1.2 h)⟩
  omega

end Balanced

theorem balanced_of_eq {ex ex1 : ThreadPoolExecutor} {st st1 : ExecutionState}
    (hb : ex1.inflightBarrier_ = ex.inflightBarrier_)
    (hs : st1.inflightNodes_ = st.inflightNodes_) : Balanced ex st ex1 st1 := by
  unfold Balanced
  rw [hb, hs]
  exact ⟨by rw [Nat.add_comm], id⟩

theorem balanced_markNoLongerExecuting {ex : ThreadPoolExecutor} {st : ExecutionState}
    {r : ThreadPoolExecutor × ExecutionState}
    (h : ThreadPoolExecutor.markNoLongerExecuting ex st = .ok r) : Balanced ex st r.1 r.2 := by
  obtain ⟨h1, h2, h3⟩ := markNoLongerExecuting_ok h
  subst h3
  unfold Balanced UNSIGNED_MOD
  dsimp only
  refine ⟨?_, fun _ => by omega⟩
  have : ex.inflightBarrier_.count_ - 1 + st.inflightNodes_ =
      ex.inflightBarrier_.count_ + (st.inflightNodes_ - 1) := by omega
  rw [this]

theorem balanced_executeDAGNode {G : Graph} {ex : ThreadPoolExecutor} {st : ExecutionState}
    {node : NodePtr} {r : ThreadPoolExecutor × ExecutionState}
    (h : ThreadPoolExecutor.executeDAGNode G ex st node = .ok r) : Balanced ex st r.1 r.2 := by
  rcases executeDAGNode_ok h with ⟨-, h1⟩ | ⟨he, -, h1⟩ | ⟨-, -, c, -, h1⟩
  · exact balanced_markNoLongerExecuting h1
  · have := balanced_markNoLongerExecuting h1
    simpa [Balanced, ThreadPoolExecutor.log, ExecutionState.setError, he] using this
  · subst h1
    exact balanced_of_eq rfl rfl

theorem balanced_propagate {G : Graph} {ex : ThreadPoolExecutor} {st : ExecutionState}
    {node : NodePtr} {ctx : ExecutionContext} {r : ThreadPoolExecutor × ExecutionState}
    (h : ThreadPoolExecutor.propagatePlaceholdersForNode G ex st node ctx = .ok r) :
    Balanced ex st r.1 r.2 := by
  obtain ⟨h1, -, h3⟩ := propagatePlaceholdersForNode_ok h
  apply balanced_of_eq
  · rw [h1]
    rfl
  · rw [h3]

theorem balanced_handleChild {G : Graph} {ctx : ExecutionContext} {ex : ThreadPoolExecutor}
    {st : ExecutionState} {child : NodePtr} {r : ThreadPoolExecutor × ExecutionState}
    (h : ThreadPoolExecutor.handleChild G ctx ex st child = .ok r) : Balanced ex st r.1 r.2 := by
  obtain ⟨p, q, h1, h2, h3, h4⟩ := handleChild_ok h
  have b1 := balanced_propagate h1
  obtain ⟨prev, -, -, -, hq⟩ := incrementNodeParentsDone_ok h2
  have b2 : Balanced p.1 p.2 p.1 q.2 := balanced_of_eq rfl (by rw [hq])
  cases hr : q.1 with
  | false =>
    rw [h4 hr]
    exact b1.compose b2
  | true =>
    have b3 := balanced_executeDAGNode (h3 hr)
    refine (b1.compose b2).compose (Balanced.compose ?_ b3)
    unfold Balanced UNSIGNED_MOD InflightBarrier.increment ExecutionState.incrementInflightNodes
      UNSIGNED_MOD
    dsimp only
    refine ⟨by omega, fun _ => by omega⟩

theorem balanced_handleChildren {G : Graph} {ctx : ExecutionContext} (children : List NodePtr)
    {ex : ThreadPoolExecutor} {st : ExecutionState} {r : ThreadPoolExecutor × ExecutionState}
    (h : ThreadPoolExecutor.handleChildren G ctx children ex st = .ok r) :
    Balanced ex st r.1 r.2 := by
  induction children generalizing ex st with
  | nil =>
    simp only [ThreadPoolExecutor.handleChildren] at h
    injection h with h
    subst h
    exact Balanced.unchanged _ _
  | cons c rest ih =>
    simp only [ThreadPoolExecutor.handleChildren] at h
    split at h
    · cases h
    · rename_i ex1 st1 h1
      exact (balanced_handleChild h1).compose (ih h)

theorem balanced_finishNode {ex : ThreadPoolExecutor} {st : ExecutionState}
    {r : ThreadPoolExecutor × ExecutionState}
    (h : ThreadPoolExecutor.finishNode ex st = .ok r) : Balanced ex st r.1 r.2 := by
  obtain ⟨h1, h2, h3⟩ := finishNode_ok h
  rcases h3 with ⟨h4, rc, -, h5⟩ | ⟨-, h5⟩
  · subst h5
    unfold Balanced UNSIGNED_MOD
    dsimp only
    refine ⟨?_, fun _ => by omega⟩
    have : ex.inflightBarrier_.count_ - 1 + st.inflightNodes_ =
        ex.inflightBarrier_.count_ + 0 := by omega
    rw [this]
  · subst h5
    unfold Balanced UNSIGNED_MOD
    dsimp only
    refine ⟨?_, fun _ => by omega⟩
    have : ex.inflightBarrier_.count_ - 1 + st.inflightNodes_ =
        ex.inflightBarrier_.count_ + (st.inflightNodes_ - 1) := by omega
    rw [this]

theorem balanced_handleDeviceManagerResult {G : Graph} {ex : ThreadPoolExecutor}
    {st : ExecutionState} {err : Error} {ctx : ExecutionContext} {node : NodePtr}
    {r : ThreadPoolExecutor × ExecutionState}
    (h : ThreadPoolExecutor.handleDeviceManagerResult G ex st err ctx node = .ok r) :
    Balanced ex st r.1 r.2 := by
  obtain ⟨p, hf, hp⟩ := handleDeviceManagerResult_ok h
  refine Balanced.compose ?_ (balanced_finishNode hf)
  rcases hp with ⟨-, hp⟩ | ⟨-, -, hp1, hp2⟩ | ⟨-, -, hp⟩
  · subst hp
    apply balanced_of_eq rfl
    unfold ExecutionState.setError
    split <;> rfl
  · apply balanced_of_eq
    · rw [hp1]
      rfl
    · rw [(propagateOutputPairs_frame _ hp2).1]
  · exact Balanced.compose
      (balanced_of_eq rfl rfl : Balanced ex st (ex.log (Event.handling st.self node err ctx)) st)
      (balanced_handleChildren _ hp)

theorem balanced_runChild {G : Graph} {ex : ThreadPoolExecutor} {st : ExecutionState}
    {node : NodePtr} {r : ThreadPoolExecutor × ExecutionState}
    (h : ThreadPoolExecutor.runChild G ex st node = .ok r) : Balanced ex st r.1 r.2 := by
  unfold ThreadPoolExecutor.runChild at h
  split at h
  · cases h
  · split at h
    · cases h
    · rename_i ex1 st1 h1
      exact (balanced_propagate h1).compose (balanced_executeDAGNode h)

/-! ## The constructor leaves the scalar members alone -/

theorem allocateSymbols_frame (syms : List (String × RuntimeSymbolInfo)) (st : ExecutionState)
    (b : PlaceholderBindings) :
    (ExecutionState.allocateSymbols syms st b).1 =
      { st with intermediatePlaceholders_ :=
          (ExecutionState.allocateSymbols syms st b).1.intermediatePlaceholders_ } := by
  induction syms generalizing st b with
  | nil => rfl
  | cons s rest ih =>
    simp only [ExecutionState.allocateSymbols]
    split
    · rw [ih]
      unfold ExecutionState.createOrGetPlaceholder
      split <;> rfl
    · exact ih st b

theorem visit_frame (G : Graph) (st : ExecutionState) (node : NodePtr) :
    ExecutionState.visit G st node =
      { st with
        nodeParentsDone_ := (ExecutionState.visit G st node).nodeParentsDone_,
        inputCtxs_ := (ExecutionState.visit G st node).inputCtxs_,
        intermediatePlaceholders_ := (ExecutionState.visit G st node).intermediatePlaceholders_ } := by
  unfold ExecutionState.visit
  dsimp only
  rw [allocateSymbols_frame]

theorem bfs_frame (G : Graph) (fuel : Nat) (queue : List NodePtr) {st st1 : ExecutionState}
    (h : ExecutionState.bfs G fuel queue st = .ok st1) :
    st1 = { st with
      nodeParentsDone_ := st1.nodeParentsDone_,
      inputCtxs_ := st1.inputCtxs_,
      intermediatePlaceholders_ := st1.intermediatePlaceholders_ } := by
  induction fuel generalizing queue st with
  | zero =>
    cases queue with
    | nil =>
      simp only [ExecutionState.bfs] at h
      injection h with h
      subst h
      rfl
    | cons n q => simp [ExecutionState.bfs] at h
  | succ k ih =>
    cases queue with
    | nil =>
      simp only [ExecutionState.bfs] at h
      injection h with h
      subst h
      rfl
    | cons n q =>
      simp only [ExecutionState.bfs] at h
      have h1 := ih _ h
      rw [h1, visit_frame]

theorem create_frame {G : Graph} {fuel : Nat} {self : StatePtr} {id : RunIdentifierTy}
    {root : NodePtr} {ctx : ExecutionContext} {cb : ResultCBTy} {st : ExecutionState}
    (h : ExecutionState.create G fuel self id root ctx cb = .ok st) :
    st.self = self ∧ st.runId_ = id ∧ st.cb_ = cb ∧ st.resultCtx_ = some ctx ∧
      st.inflightNodes_ = 0 ∧ st.errorContainer_ = none := by
  unfold ExecutionState.create at h
  have h1 := bfs_frame G fuel _ h
  rw [h1]
  simp

/-- What `run` has done when it reaches its dispatch loop. -/
theorem runPrologue_accept {G : Graph} {fuel : Nat} {ex ex1 : ThreadPoolExecutor}
    {self : StatePtr} {root : Option NodePtr} {ctx : ExecutionContext} {runId : RunIdentifierTy}
    {cb : ResultCBTy} {st1 : ExecutionState}
    (h : ex.runPrologue G fuel self root ctx runId cb = .ok (ex1, some st1)) :
    ∃ rootNode st, root = some rootNode ∧ ex.shuttingDown_ = false ∧
      mapFind ex.executionStates_ runId = none ∧
      ExecutionState.create G fuel self runId rootNode ctx cb = .ok st ∧
      st1 = st.incrementInflightNodes (G rootNode).children.length ∧
      ex1 = { ex with
        executionStates_ := mapInsert ex.executionStates_ runId self,
        inflightBarrier_ := ex.inflightBarrier_.increment (G rootNode).children.length } := by
  unfold ThreadPoolExecutor.runPrologue at h
  split at h
  · simp at h
  · rename_i hs
    split at h
    · simp at h
    · rename_i rootNode
      split at h
      · simp at h
      · rename_i hf
        split at h
        · cases h
        · rename_i st hc
          simp only [Except.ok.injEq, Prod.mk.injEq, Option.some.injEq] at h
          exact ⟨rootNode, st, rfl, by simpa using hs, hf, hc, h.2.symm, h.1.symm⟩

/-- A call of `run` that is answered by `run` itself leaves barrier alone. -/
theorem runPrologue_answer {G : Graph} {fuel : Nat} {ex ex1 : ThreadPoolExecutor}
    {self : StatePtr} {root : Option NodePtr} {ctx : ExecutionContext} {runId : RunIdentifierTy}
    {cb : ResultCBTy}
    (h : ex.runPrologue G fuel self root ctx runId cb = .ok (ex1, none)) :
    ∃ err, ex1 = ex.log (Event.callback none cb runId err ctx) := by
  unfold ThreadPoolExecutor.runPrologue at h
  split at h
  · simp only [Except.ok.injEq, Prod.mk.injEq, and_true] at h
    exact ⟨_, h.symm⟩
  · split at h
    · simp only [Except.ok.injEq, Prod.mk.injEq, and_true] at h
      exact ⟨_, h.symm⟩
    · split at h
      · simp only [Except.ok.injEq, Prod.mk.injEq, and_true] at h
        exact ⟨_, h.symm⟩
      · split at h
        · cases h
        · simp at h

/-! ## The barrier counts the nodes in flight (C10) -/

theorem sum_map_set {α : Type} (f : α → Nat) (l : List α) (i : Nat) (a b : α)
    (h : l[i]? = some a) :
    ((l.set i b).map f).sum + f a = (l.map f).sum + f b := by
  induction l generalizing i with
  | nil => simp at h
  | cons x xs ih =>
    cases i with
    | zero =>
      simp only [List.getElem?_cons_zero, Option.some.injEq] at h
      subst h
      simp only [List.set_cons_zero, List.map_cons, List.sum_cons]
      omega
    | succ j =>
      simp only [List.getElem?_cons_succ] at h
      have := ih j h
      simp only [List.set_cons_succ, List.map_cons, List.sum_cons]
      omega

/-- The invariant of C10 for one world. -/
theorem barrier_step {G : Graph} {w w1 : World} {l : Label}
    (h : step G w l = .ok w1)
    (hb : w.executor.inflightBarrier_.count_ < UNSIGNED_MOD)
    (hs : w.executor.inflightBarrier_.count_ = sumInflight w % UNSIGNED_MOD) :
    w1.executor.inflightBarrier_.count_ < UNSIGNED_MOD ∧
      w1.executor.inflightBarrier_.count_ = sumInflight w1 % UNSIGNED_MOD := by
  cases l with
  | run fuel root context runId cb =>
    simp only [step] at h
    split at h
    · cases h
    · rename_i ex h1
      injection h with h
      subst h
      obtain ⟨err, h2⟩ := runPrologue_answer h1
      subst h2
      exact ⟨hb, hs⟩
    · rename_i ex st h1
      injection h with h
      subst h
      obtain ⟨rootNode, st0, -, -, -, hc, hst, hex⟩ := runPrologue_accept h1
      have h0 := (create_frame hc).2.2.2.2.1
      subst hst hex
      unfold sumInflight at hs ⊢
      simp only [List.map_append, List.sum_append, List.map_cons, List.map_nil, List.sum_cons,
        List.sum_nil, ExecutionState.incrementInflightNodes, InflightBarrier.increment, h0]
      unfold UNSIGNED_MOD at *
      omega
  | dispatch frame =>
    simp only [step] at h
    split at h
    · cases h
    · rename_i fr hfr
      split at h
      · rename_i node rest st hrem hst
        split at h
        · cases h
        · rename_i ex st1 h1
          injection h with h
          subst h
          have hbal := balanced_runChild h1
          have hsum := sum_map_set (fun s => s.inflightNodes_) w.objects fr.state st st1 hst
          unfold sumInflight at hs ⊢
          unfold Balanced at hbal
          unfold UNSIGNED_MOD at *
          dsimp only at hbal hsum ⊢
          omega
      · cases h
  | complete job err resultCtx =>
    simp only [step] at h
    split at h
    · cases h
    · rename_i j hj
      split at h
      · cases h
      · rename_i st hst
        split at h
        · cases h
        · rename_i ex st1 h1
          injection h with h
          subst h
          have hbal := balanced_handleDeviceManagerResult h1
          have hsum := sum_map_set (fun s => s.inflightNodes_) w.objects j.state st st1 hst
          unfold sumInflight at hs ⊢
          unfold Balanced at hbal
          unfold UNSIGNED_MOD at *
          dsimp only at hbal hsum ⊢
          omega
  | shutdown =>
    simp only [step] at h
    injection h with h
    subst h
    exact ⟨hb, hs⟩

namespace Appends

theorem nothing (p : StatePtr) (ex : ThreadPoolExecutor) : Appends p ex ex :=
  ⟨rfl, rfl, [], [], by simp, by simp, by simp, by simp⟩

theorem andThen {p : StatePtr} {ex ex1 ex2 : ThreadPoolExecutor}
    (h1 : Appends p ex ex1) (h2 : Appends p ex1 ex2) : Appends p ex ex2 := by
  obtain ⟨a1, b1, e1, j1, c1, d1, f1, g1⟩ := h1
  obtain ⟨a2, b2, e2, j2, c2, d2, f2, g2⟩ := h2
  refine ⟨a2.trans a1, b2.trans b1, e1 ++ e2, j1 ++ j2, ?_, ?_, ?_, ?_⟩
  · rw [c2, c1, List.append_assoc]
  · rw [d2, d1, List.append_assoc]
  · intro e he
    rcases List.mem_append.1 he with h | h
    · exact f1 e h
    · exact f2 e h
  · intro j hj
    rcases List.mem_append.1 hj with h | h
    · exact g1 j h
    · exact g2 j h

theorem logged {p : StatePtr} (ex : ThreadPoolExecutor) (e : Event) (h : e.tag = some p) :
    Appends p ex (ex.log e) :=
  ⟨rfl, rfl, [e], [], rfl, by simp [ThreadPoolExecutor.log], by simpa using h, by simp⟩

theorem setBarrier {p : StatePtr} (ex : ThreadPoolExecutor) (b : InflightBarrier) :
    Appends p ex { ex with inflightBarrier_ := b } :=
  ⟨rfl, rfl, [], [], by simp, by simp, by simp, by simp⟩

end Appends

theorem appends_markNoLongerExecuting {ex : ThreadPoolExecutor} {st : ExecutionState}
    {r : ThreadPoolExecutor × ExecutionState}
    (h : ThreadPoolExecutor.markNoLongerExecuting ex st = .ok r) :
    Appends st.self ex r.1 ∧ r.2.self = st.self := by
  obtain ⟨-, -, h3⟩ := markNoLongerExecuting_ok h
  subst h3
  exact ⟨Appends.setBarrier _ _, rfl⟩

theorem setError_self (st : ExecutionState) (err : Error) : (st.setError err).self = st.self := by
  unfold ExecutionState.setError
  split <;> rfl

theorem appends_executeDAGNode {G : Graph} {ex : ThreadPoolExecutor} {st : ExecutionState}
    {node : NodePtr} {r : ThreadPoolExecutor × ExecutionState}
    (h : ThreadPoolExecutor.executeDAGNode G ex st node = .ok r) :
    Appends st.self ex r.1 ∧ r.2.self = st.self := by
  rcases executeDAGNode_ok h with ⟨-, h1⟩ | ⟨-, -, h1⟩ | ⟨-, -, c, -, h1⟩
  · exact appends_markNoLongerExecuting h1
  · have h2 := appends_markNoLongerExecuting h1
    rw [setError_self] at h2
    exact ⟨(Appends.logged ex (Event.getNextDevice st.self node) rfl).andThen h2.1, h2.2⟩
  · subst h1
    refine ⟨⟨rfl, rfl, _, _, rfl, rfl, ?_, ?_⟩, rfl⟩
    · intro e he
      simp only [List.mem_cons, List.mem_singleton, List.not_mem_nil, or_false] at he
      rcases he with he | he <;> subst he <;> rfl
    · intro j hj
      simp only [List.mem_singleton] at hj
      subst hj
      rfl

theorem appends_propagate {G : Graph} {ex : ThreadPoolExecutor} {st : ExecutionState}
    {node : NodePtr} {ctx : ExecutionContext} {r : ThreadPoolExecutor × ExecutionState}
    (h : ThreadPoolExecutor.propagatePlaceholdersForNode G ex st node ctx = .ok r) :
    Appends st.self ex r.1 ∧ r.2.self = st.self := by
  obtain ⟨h1, -, h3⟩ := propagatePlaceholdersForNode_ok h
  rw [h1, h3]
  exact ⟨Appends.logged ex (Event.propagated st.self node ctx) rfl, rfl⟩

theorem appends_handleChild {G : Graph} {ctx : ExecutionContext} {ex : ThreadPoolExecutor}
    {st : ExecutionState} {child : NodePtr} {r : ThreadPoolExecutor × ExecutionState}
    (h : ThreadPoolExecutor.handleChild G ctx ex st child = .ok r) :
    Appends st.self ex r.1 ∧ r.2.self = st.self := by
  obtain ⟨p, q, h1, h2, h3, h4⟩ := handleChild_ok h
  obtain ⟨a1, s1⟩ := appends_propagate h1
  obtain ⟨prev, -, -, -, hq⟩ := incrementNodeParentsDone_ok h2
  have s2 : q.2.self = st.self := by rw [hq]; exact s1
  cases hr : q.1 with
  | false =>
    rw [h4 hr]
    exact ⟨a1, s2⟩
  | true =>
    obtain ⟨a3, s3⟩ := appends_executeDAGNode (h3 hr)
    have s4 : (q.2.incrementInflightNodes 1).self = st.self := s2
    rw [s4] at a3 s3
    exact ⟨a1.andThen ((Appends.setBarrier _ _).andThen a3), s3⟩

theorem appends_handleChildren {G : Graph} {ctx : ExecutionContext} (children : List NodePtr)
    {ex : ThreadPoolExecutor} {st : ExecutionState} {r : ThreadPoolExecutor × ExecutionState}
    (h : ThreadPoolExecutor.handleChildren G ctx children ex st = .ok r) :
    Appends st.self ex r.1 ∧ r.2.self = st.self := by
  induction children generalizing ex st with
  | nil =>
    simp only [ThreadPoolExecutor.handleChildren] at h
    injection h with h
    subst h
    exact ⟨Appends.nothing _ _, rfl⟩
  | cons c rest ih =>
    simp only [ThreadPoolExecutor.handleChildren] at h
    split at h
    · cases h
    · rename_i ex1 st1 h1
      obtain ⟨a1, s1⟩ := appends_handleChild h1
      obtain ⟨a2, s2⟩ := ih h
      rw [s1] at a2 s2
      exact ⟨a1.andThen a2, s2⟩

theorem appends_finishNode {ex : ThreadPoolExecutor} {st : ExecutionState}
    {r : ThreadPoolExecutor × ExecutionState}
    (h : ThreadPoolExecutor.finishNode ex st = .ok r) :
    Appends st.self ex r.1 ∧ r.2.self = st.self := by
  obtain ⟨-, -, h3⟩ := finishNode_ok h
  rcases h3 with ⟨-, rc, -, h5⟩ | ⟨-, h5⟩
  · subst h5
    exact ⟨⟨rfl, rfl, _, [], rfl, by simp, by simp [Event.tag], by simp⟩, rfl⟩
  · subst h5
    exact ⟨Appends.setBarrier _ _, rfl⟩

theorem appends_handleDeviceManagerResult {G : Graph} {ex : ThreadPoolExecutor}
    {st : ExecutionState} {err : Error} {ctx : ExecutionContext} {node : NodePtr}
    {r : ThreadPoolExecutor × ExecutionState}
    (h : ThreadPoolExecutor.handleDeviceManagerResult G ex st err ctx node = .ok r) :
    Appends st.self ex r.1 ∧ r.2.self = st.self := by
  obtain ⟨p, hf, hp⟩ := handleDeviceManagerResult_ok h
  obtain ⟨a2, s2⟩ := appends_finishNode hf
  have a0 : Appends st.self ex (ex.log (Event.handling st.self node err ctx)) :=
    Appends.logged ex _ rfl
  rcases hp with ⟨-, hp⟩ | ⟨-, -, hp1, hp2⟩ | ⟨-, -, hp⟩
  · subst hp
    rw [setError_self] at a2 s2
    exact ⟨a0.andThen a2, s2⟩
  · have s1 : p.2.self = st.self := by rw [(propagateOutputPairs_frame _ hp2).1]
    rw [s1] at a2 s2
    rw [hp1] at a2
    exact ⟨a0.andThen a2, s2⟩
  · obtain ⟨a1, s1⟩ := appends_handleChildren _ hp
    rw [s1] at a2 s2
    exact ⟨a0.andThen (a1.andThen a2), s2⟩

theorem appends_runChild {G : Graph} {ex : ThreadPoolExecutor} {st : ExecutionState}
    {node : NodePtr} {r : ThreadPoolExecutor × ExecutionState}
    (h : ThreadPoolExecutor.runChild G ex st node = .ok r) :
    Appends st.self ex r.1 ∧ r.2.self = st.self := by
  unfold ThreadPoolExecutor.runChild at h
  split at h
  · cases h
  · split at h
    · cases h
    · rename_i ex1 st1 h1
      obtain ⟨a1, s1⟩ := appends_propagate h1
      obtain ⟨a2, s2⟩ := appends_executeDAGNode h
      rw [s1] at a2 s2
      exact ⟨a1.andThen a2, s2⟩

/-! ## From the operations to the schedules -/

theorem filter_eraseIdx_of_not {α : Type} (P : α → Bool) (l : List α) (i : Nat) (a : α)
    (h : l[i]? = some a) (ha : P a = false) : (l.eraseIdx i).filter P = l.filter P := by
  induction l generalizing i with
  | nil => simp at h
  | cons x xs ih =>
    cases i with
    | zero =>
      simp only [List.getElem?_cons_zero, Option.some.injEq] at h
      subst h
      simp [ha]
    | succ j =>
      simp only [List.getElem?_cons_succ] at h
      simp only [List.eraseIdx_cons_succ, List.filter_cons]
      rw [ih j h]

theorem getElem?_append_singleton {α : Type} (l : List α) (a b : α) (i : Nat)
    (h : (l ++ [a])[i]? = some b) :
    (i < l.length ∧ l[i]? = some b) ∨ (i = l.length ∧ b = a) := by
  rw [List.getElem?_append] at h
  split at h
  · rename_i hlt
    exact Or.inl ⟨hlt, h⟩
  · rename_i hge
    right
    cases hi : i - l.length with
    | zero =>
      rw [hi] at h
      simp only [List.getElem?_cons_zero, Option.some.injEq] at h
      exact ⟨by omega, h.symm⟩
    | succ m =>
      rw [hi] at h
      simp at h

theorem foreignChange_of_appends {p q : StatePtr} {ex ex1 : ThreadPoolExecutor}
    (h : Appends q ex ex1) (hq : q ≠ p) : ForeignChange p ex ex1 := by
  obtain ⟨a, -, evs, jobs, c, d, f, g⟩ := h
  refine ⟨a, ⟨evs, c, ?_⟩, ?_⟩
  · intro e he
    rw [f e he]
    simpa using hq
  · unfold jobsOf
    rw [d, List.filter_append]
    have : jobs.filter (fun j => j.state == p) = [] := by
      rw [List.filter_eq_nil_iff]
      intro j hj
      rw [g j hj]
      simpa using hq
    rw [this, List.append_nil]

/-- An invariant of one run that the dispatch loop of its `run` call and the
handling of its completions preserve, and that does not depend on what other
runs do, holds along every schedule. -/
theorem runWorld_steps (G : Graph) (p : StatePtr) (k : Nat) (dm : List DeviceIDTy)
    (A : Job → Error → ExecutionContext → Prop)
    (INV : ThreadPoolExecutor → ExecutionState → List NodePtr → Prop)
    (hstable : ∀ ex ex1 st rem, INV ex st rem → ForeignChange p ex ex1 → INV ex1 st rem)
    (hrun : ∀ ex st c rest r, ex.deviceManagers_ = dm → st.self = p → INV ex st (c :: rest) →
      ThreadPoolExecutor.runChild G ex st c = .ok r → INV r.1 r.2 rest)
    (hhandle : ∀ ex st rem i j err ctx r, ex.deviceManagers_ = dm → st.self = p →
      INV ex st rem → ex.outstanding[i]? = some j → j.state = p → A j err ctx →
      ThreadPoolExecutor.handleDeviceManagerResult G
        { ex with outstanding := ex.outstanding.eraseIdx i } st err ctx j.node = .ok r →
      INV r.1 r.2 rem) :
    ∀ (ls : List Label) (w w1 : World), RunWorld p k dm INV w → steps G w ls = .ok w1 →
      allCompletions G p A w ls → RunWorld p k dm INV w1 := by
  intro ls
  induction ls with
  | nil =>
    intro w w1 hw h _
    simp only [steps] at h
    injection h with h
    subst h
    exact hw
  | cons l rest ih =>
    intro w w1 hw h hA
    simp only [steps] at h
    split at h
    · cases h
    · rename_i w2 h2
      refine ih w2 w1 ?_ h (hA.2 w2 h2)
      obtain ⟨hself, hdm, huniq, st, rem, hst, hfr, hinv⟩ := hw
      have hp : p < w.objects.length := by
        rcases List.getElem?_eq_some.1 hst with ⟨hlt, -⟩
        exact hlt
      have hk : k < w.frames.length := by
        rcases List.getElem?_eq_some.1 hfr with ⟨hlt, -⟩
        exact hlt
      cases l with
      | run fuel root context runId cb =>
        simp only [step] at h2
        split at h2
        · cases h2
        · rename_i ex h3
          injection h2 with h2
          subst h2
          obtain ⟨err, h4⟩ := runPrologue_answer h3
          subst h4
          refine ⟨hself, hdm, huniq, st, rem, hst, hfr, hstable _ _ _ _ hinv ?_⟩
          exact ⟨rfl, ⟨[_], rfl, by simp [Event.tag]⟩, rfl⟩
        · rename_i ex st3 h3
          injection h2 with h2
          subst h2
          obtain ⟨rootNode, st0, -, -, -, hc, hst3, hex⟩ := runPrologue_accept h3
          have hs0 := (create_frame hc).1
          subst hst3 hex
          refine ⟨?_, hdm, ?_, st, rem, ?_, ?_, hstable _ _ _ _ hinv ?_⟩
          · intro q s hq
            rcases getElem?_append_singleton _ _ _ _ hq with ⟨-, hq1⟩ | ⟨hq1, hq2⟩
            · exact hself q s hq1
            · subst hq2
              simp only [ExecutionState.incrementInflightNodes, hs0]
              exact hq1.symm
          · intro i fr hi hfs
            rcases getElem?_append_singleton _ _ _ _ hi with ⟨-, hi1⟩ | ⟨-, hi2⟩
            · exact huniq i fr hi1 hfs
            · subst hi2
              have hlen : w.objects.length = p := hfs
              exact absurd hlen (Nat.ne_of_gt hp)
          · rw [List.getElem?_append_left hp]
            exact hst
          · rw [List.getElem?_append_left hk]
            exact hfr
          · exact ⟨rfl, ⟨[], by simp, by simp⟩, rfl⟩
      | dispatch frame =>
        simp only [step] at h2
        split at h2
        · cases h2
        · rename_i fr hfr2
          split at h2
          · rename_i node rest2 stq hrem hstq
            split at h2
            · cases h2
            · rename_i ex st1 h3
              injection h2 with h2
              subst h2
              have hsq := hself _ _ hstq
              obtain ⟨happ, hs1⟩ := appends_runChild h3
              rw [hsq] at happ hs1
              have hq2 : fr.state < w.objects.length := by
                rcases List.getElem?_eq_some.1 hstq with ⟨hlt, -⟩
                exact hlt
              have hfl : frame < w.frames.length := by
                rcases List.getElem?_eq_some.1 hfr2 with ⟨hlt, -⟩
                exact hlt
              have hselfs : ∀ (q : StatePtr) (s : ExecutionState),
                  (w.objects.set fr.state st1)[q]? = some s → s.self = q := by
                intro q s hq
                rw [List.getElem?_set] at hq
                split at hq
                · rename_i heq
                  simp only [hq2, if_true, Option.some.injEq] at hq
                  subst hq
                  rw [hs1, heq]
                · exact hself q s hq
              by_cases hqp : fr.state = p
              · have hfk := huniq frame fr hfr2 hqp
                subst hfk
                rw [hfr] at hfr2
                injection hfr2 with hfr2
                subst hfr2
                simp only at hrem hstq h3 hq2 happ hs1 hselfs ⊢
                rw [hst] at hstq
                injection hstq with hstq
                subst hstq
                subst hrem
                refine ⟨hselfs, happ.1.trans hdm, ?_, st1, rest2, ?_, ?_, ?_⟩
                · intro i fr2 hi hfs
                  rw [List.getElem?_set] at hi
                  split at hi
                  · rename_i heq
                    exact heq.symm
                  · exact huniq i fr2 hi hfs
                · rw [List.getElem?_set]
                  simp [hp]
                · rw [List.getElem?_set]
                  simp [hk]
                · exact hrun _ _ _ _ _ hdm hsq hinv h3
              · have hne : frame ≠ k := by
                  intro heq
                  subst heq
                  rw [hfr] at hfr2
                  injection hfr2 with hfr2
                  subst hfr2
                  exact hqp rfl
                refine ⟨hselfs, happ.1.trans hdm, ?_, st, rem, ?_, ?_, ?_⟩
                · intro i fr2 hi hfs
                  rw [List.getElem?_set] at hi
                  split at hi
                  · simp only [hfl, if_true, Option.some.injEq] at hi
                    subst hi
                    exact absurd hfs hqp
                  · exact huniq i fr2 hi hfs
                · rw [List.getElem?_set_ne hqp]
                  exact hst
                · rw [List.getElem?_set_ne hne]
                  exact hfr
                · exact hstable _ _ _ _ hinv (foreignChange_of_appends happ hqp)
          · cases h2
      | complete job err resultCtx =>
        simp only [step] at h2
        split at h2
        · cases h2
        · rename_i j hj
          split at h2
          · cases h2
          · rename_i stq hstq
            split at h2
            · cases h2
            · rename_i ex st1 h3
              injection h2 with h2
              subst h2
              have hsq := hself _ _ hstq
              obtain ⟨happ, hs1⟩ := appends_handleDeviceManagerResult h3
              rw [hsq] at happ hs1
              have hq2 : j.state < w.objects.length := by
                rcases List.getElem?_eq_some.1 hstq with ⟨hlt, -⟩
                exact hlt
              have hselfs : ∀ (q : StatePtr) (s : ExecutionState),
                  (w.objects.set j.state st1)[q]? = some s → s.self = q := by
                intro q s hq
                rw [List.getElem?_set] at hq
                split at hq
                · rename_i heq
                  simp only [hq2, if_true, Option.some.injEq] at hq
                  subst hq
                  rw [hs1, heq]
                · exact hself q s hq
              by_cases hqp : j.state = p
              · rw [hqp] at hstq hselfs hsq
                rw [hst] at hstq
                injection hstq with hstq
                subst hstq
                refine ⟨by rw [hqp]; exact hselfs, happ.1.trans hdm, huniq, st1, rem, ?_, hfr, ?_⟩
                · rw [hqp, List.getElem?_set]
                  simp [hp]
                · exact hhandle _ _ _ _ _ _ _ _ hdm hsq hinv hj hqp (hA.1 j hj hqp) h3
              · refine ⟨hselfs, happ.1.trans hdm, huniq, st, rem, ?_, hfr, ?_⟩
                · rw [List.getElem?_set_ne hqp]
                  exact hst
                · have hfc := foreignChange_of_appends happ hqp
                  refine hstable _ _ _ _ hinv ⟨hfc.1, hfc.2.1, ?_⟩
                  rw [hfc.2.2]
                  unfold jobsOf
                  exact filter_eraseIdx_of_not _ _ _ _ hj (by simpa using hqp)
      | shutdown =>
        simp only [step] at h2
        injection h2 with h2
        subst h2
        exact ⟨hself, hdm, huniq, st, rem, hst, hfr,
          hstable _ _ _ _ hinv ⟨rfl, ⟨[], by simp [ThreadPoolExecutor.shutdown], by simp⟩, rfl⟩⟩

theorem scoped_init (dm : List DeviceIDTy) : Scoped dm (World.init dm) :=
  ⟨by simp [World.init], rfl, by simp [World.init], by simp [World.init], by simp [World.init]⟩

theorem scoped_update {dm : List DeviceIDTy} {w : World} {q : StatePtr}
    {st st1 : ExecutionState} (ex0 : ThreadPoolExecutor) {ex1 : ThreadPoolExecutor}
    {frames1 : List RunFrame} (hw : Scoped dm w) (hst : w.objects[q]? = some st) (hs1 : st1.self = q)
    (hex0 : ex0.deviceManagers_ = w.executor.deviceManagers_ ∧ ex0.events = w.executor.events ∧
      ∀ j ∈ ex0.outstanding, j ∈ w.executor.outstanding)
    (happ : Appends q ex0 ex1)
    (hfr : ∀ fr ∈ frames1, ∃ fr0 ∈ w.frames, fr.state = fr0.state) :
    Scoped dm { executor := ex1, objects := w.objects.set q st1, frames := frames1 } := by
  have hq : q < w.objects.length := by
    rcases List.getElem?_eq_some.1 hst with ⟨hlt, -⟩
    exact hlt
  obtain ⟨a, -, evs, jobs, c, d, f, g⟩ := happ
  refine ⟨?_, ?_, ?_, ?_, ?_⟩
  · intro r s hr
    simp only [List.getElem?_set] at hr
    split at hr
    · rename_i heq
      simp only [hq, if_true, Option.some.injEq] at hr
      subst hr
      rw [hs1, heq]
    · exact hw.selfs r s hr
  · show ex1.deviceManagers_ = dm
    rw [a, hex0.1, hw.devices]
  · intro fr hfr1
    obtain ⟨fr0, hfr0, he⟩ := hfr fr hfr1
    simp only [List.length_set]
    rw [he]
    exact hw.frames fr0 hfr0
  · intro j hj
    simp only [List.length_set]
    change j ∈ ex1.outstanding at hj
    rw [d] at hj
    rcases List.mem_append.1 hj with h | h
    · exact hw.jobs j (hex0.2.2 j h)
    · rw [g j h]
      exact hq
  · intro e he r hr
    simp only [List.length_set]
    change e ∈ ex1.events at he
    rw [c, hex0.2.1] at he
    rcases List.mem_append.1 he with h | h
    · exact hw.events e h r hr
    · rw [f e h] at hr
      injection hr with hr
      rw [← hr]
      exact hq

theorem mem_of_mem_set {α : Type} {l : List α} {i : Nat} {a b : α}
    (h : b ∈ l.set i a) : b = a ∨ b ∈ l := by
  rcases List.mem_iff_getElem?.1 h with ⟨n, hn⟩
  rw [List.getElem?_set] at hn
  split at hn
  · split at hn
    · injection hn with hn
      exact Or.inl hn.symm
    · cases hn
  · exact Or.inr (List.mem_iff_getElem?.2 ⟨n, hn⟩)

theorem scoped_step {G : Graph} {dm : List DeviceIDTy} {w w1 : World} {l : Label}
    (hw : Scoped dm w) (h : step G w l = .ok w1) : Scoped dm w1 := by
  cases l with
  | run fuel root context runId cb =>
    simp only [step] at h
    split at h
    · cases h
    · rename_i ex h3
      injection h with h
      subst h
      obtain ⟨err, h4⟩ := runPrologue_answer h3
      subst h4
      refine ⟨hw.selfs, hw.devices, hw.frames, hw.jobs, ?_⟩
      intro e he q hq
      simp only [ThreadPoolExecutor.log, List.mem_append, List.mem_singleton] at he
      rcases he with he | he
      · exact hw.events e he q hq
      · subst he
        cases hq
    · rename_i ex st3 h3
      injection h with h
      subst h
      obtain ⟨rootNode, st0, -, -, -, hc, hst3, hex⟩ := runPrologue_accept h3
      have hs0 := (create_frame hc).1
      subst hst3 hex
      refine ⟨?_, hw.devices, ?_, ?_, ?_⟩
      · intro q s hq
        rcases getElem?_append_singleton _ _ _ _ hq with ⟨-, hq1⟩ | ⟨hq1, hq2⟩
        · exact hw.selfs q s hq1
        · subst hq2
          simp only [ExecutionState.incrementInflightNodes, hs0]
          exact hq1.symm
      · intro fr hfr
        simp only [List.length_append, List.length_singleton]
        rcases List.mem_append.1 hfr with h1 | h1
        · exact Nat.lt_succ_of_lt (hw.frames fr h1)
        · simp only [List.mem_singleton] at h1
          subst h1
          exact Nat.lt_succ_self _
      · intro j hj
        simp only [List.length_append, List.length_singleton]
        exact Nat.lt_succ_of_lt (hw.jobs j hj)
      · intro e he q hq
        simp only [List.length_append, List.length_singleton]
        exact Nat.lt_succ_of_lt (hw.events e he q hq)
  | dispatch frame =>
    simp only [step] at h
    split at h
    · cases h
    · rename_i fr hfr2
      split at h
      · rename_i node rest2 stq hrem hstq
        split at h
        · cases h
        · rename_i ex st1 h3
          injection h with h
          subst h
          have hsq := hw.selfs _ _ hstq
          obtain ⟨happ, hs1⟩ := appends_runChild h3
          rw [hsq] at happ hs1
          refine scoped_update w.executor hw hstq hs1 ⟨rfl, rfl, fun j hj => hj⟩ happ ?_
          intro fr1 hfr1
          rcases mem_of_mem_set hfr1 with h1 | h1
          · subst h1
            exact ⟨fr, List.mem_iff_getElem?.2 ⟨frame, hfr2⟩, rfl⟩
          · exact ⟨fr1, h1, rfl⟩
      · cases h
  | complete job err resultCtx =>
    simp only [step] at h
    split at h
    · cases h
    · rename_i j hj
      split at h
      · cases h
      · rename_i stq hstq
        split at h
        · cases h
        · rename_i ex st1 h3
          injection h with h
          subst h
          have hsq := hw.selfs _ _ hstq
          obtain ⟨happ, hs1⟩ := appends_handleDeviceManagerResult h3
          rw [hsq] at happ hs1
          refine scoped_update { w.executor with
            outstanding := w.executor.outstanding.eraseIdx job } hw hstq hs1 ⟨rfl, rfl, ?_⟩ happ ?_
          · intro j1 hj1
            exact (List.eraseIdx_sublist _ _).subset hj1
          · intro fr1 hfr1
            exact ⟨fr1, hfr1, rfl⟩
  | shutdown =>
    simp only [step] at h
    injection h with h
    subst h
    exact ⟨hw.selfs, hw.devices, hw.frames, hw.jobs, hw.events⟩

theorem scoped_steps {G : Graph} {dm : List DeviceIDTy} (ls : List Label) {w w1 : World}
    (hw : Scoped dm w) (h : steps G w ls = .ok w1) : Scoped dm w1 := by
  induction ls generalizing w with
  | nil =>
    simp only [steps] at h
    injection h with h
    subst h
    exact hw
  | cons l rest ih =>
    simp only [steps] at h
    split at h
    · cases h
    · rename_i w2 h2
      exact ih (scoped_step hw h2) h

/-- The world right after a run was accepted: the frame of the invariants of
that run holds once the invariant holds of the new execution state, in an
executor that has no event and no outstanding device call for it. -/
theorem runWorld_accepted {G : Graph} {dm : List DeviceIDTy} {w w1 : World} {fuel : Nat}
    {root : NodePtr} {context : ExecutionContext} {runId : RunIdentifierTy} {cb : ResultCBTy}
    {p : StatePtr} {k : Nat}
    (INV : ThreadPoolExecutor → ExecutionState → List NodePtr → Prop)
    (hw : Scoped dm w) (hacc : Accepted G w fuel root context runId cb w1 p k)
    (hinit : ∀ ex st0, ex.deviceManagers_ = dm → (∀ e ∈ ex.events, e.tag ≠ some p) →
      jobsOf ex p = [] → ExecutionState.create G fuel p runId root context cb = .ok st0 →
      INV ex (st0.incrementInflightNodes (G root).children.length) (G root).children) :
    RunWorld p k dm INV w1 := by
  obtain ⟨hstep, hp, hk, hlen⟩ := hacc
  simp only [step] at hstep
  split at hstep
  · cases hstep
  · rename_i ex h3
    injection hstep with hstep
    subst hstep
    simp at hlen
  · rename_i ex st3 h3
    injection hstep with hstep
    subst hstep
    obtain ⟨rootNode, st0, hroot, -, -, hc, hst3, hex⟩ := runPrologue_accept h3
    injection hroot with hroot
    subst hroot
    have hs0 := (create_frame hc).1
    subst hst3 hex hp hk
    refine ⟨?_, hw.devices, ?_, _, _, ?_, ?_, hinit _ _ hw.devices ?_ ?_ hc⟩
    · intro q s hq
      rcases getElem?_append_singleton _ _ _ _ hq with ⟨-, hq1⟩ | ⟨hq1, hq2⟩
      · exact hw.selfs q s hq1
      · subst hq2
        simp only [ExecutionState.incrementInflightNodes, hs0]
        exact hq1.symm
    · intro i fr hi hfs
      rcases getElem?_append_singleton _ _ _ _ hi with ⟨-, hi1⟩ | ⟨hi1, -⟩
      · have := hw.frames fr (List.mem_iff_getElem?.2 ⟨i, hi1⟩)
        rw [hfs] at this
        exact absurd this (Nat.lt_irrefl _)
      · exact hi1
    · simp
    · simp
    · intro e he htag
      exact absurd (hw.events e he _ htag) (Nat.lt_irrefl _)
    · unfold jobsOf
      rw [List.filter_eq_nil_iff]
      intro j hj hjs
      have := hw.jobs j hj
      simp only [beq_iff_eq] at hjs
      rw [hjs] at this
      exact absurd this (Nat.lt_irrefl _)

/-! ## Lookups in maps and bindings -/

theorem mapFind_mapAssign_self {κ ν : Type} [DecidableEq κ] (m : List (κ × ν)) (k : κ) (v : ν) :
    mapFind (mapAssign m k v) k = some v := by
  induction m with
  | nil => simp [mapAssign, mapFind]
  | cons e rest ih =>
    unfold mapAssign
    by_cases h : e.1 = k
    · simp [h, mapFind]
    · simp [h, mapFind, ih]

theorem mapFind_mapAssign_ne {κ ν : Type} [DecidableEq κ] (m : List (κ × ν)) {k k1 : κ} (v : ν)
    (hne : k1 ≠ k) : mapFind (mapAssign m k v) k1 = mapFind m k1 := by
  induction m with
  | nil =>
    simp [mapAssign, mapFind]
    exact fun h => hne h.symm
  | cons e rest ih =>
    unfold mapAssign
    by_cases h : e.1 = k
    · have h1 : e.1 ≠ k1 := fun (h2 : e.1 = k1) => hne (h2.symm.trans h)
      have h3 : ¬ k = k1 := fun (h2 : k = k1) => hne h2.symm
      simp [h, mapFind, h1, h3]
    · simp only [h, if_false, mapFind, ih]

theorem mapFind_append {κ ν : Type} [DecidableEq κ] (m m1 : List (κ × ν)) (k : κ) :
    mapFind (m ++ m1) k = (mapFind m k).orElse (fun _ => mapFind m1 k) := by
  induction m with
  | nil => simp [mapFind]
  | cons e rest ih =>
    by_cases h : e.1 = k
    · simp [mapFind, h]
    · simp [mapFind, h, ih]

theorem mapFind_mapInsert {κ ν : Type} [DecidableEq κ] (m : List (κ × ν)) (k k1 : κ) (v : ν) :
    mapFind (mapInsert m k v) k1 =
      (mapFind m k1).orElse (fun _ => if k = k1 then some v else none) := by
  unfold mapInsert
  split
  · rename_i w hw
    by_cases h : k = k1
    · subst h
      simp [hw]
    · cases hf : mapFind m k1 <;> simp [h]
  · rw [mapFind_append]
    simp [mapFind]

theorem getPlaceholderByName_name {b : PlaceholderBindings} {x : String} {ph : Placeholder}
    (h : b.getPlaceholderByName x = some ph) : ph.name = x := by
  unfold PlaceholderBindings.getPlaceholderByName at h
  cases hf : b.find? (fun e => e.1.name == x) with
  | none => simp [hf] at h
  | some e =>
    simp only [hf, Option.map_some', Option.some.injEq] at h
    subst h
    simpa using List.find?_some hf

/-- The lookup of the executor, by name and then by placeholder, finds the first
slot with that name. -/
theorem get_getPlaceholderByName (b : PlaceholderBindings) (x : String) :
    b.get (b.getPlaceholderByName x) = lookupName b x := by
  induction b with
  | nil => rfl
  | cons e rest ih =>
    by_cases h : e.1.name = x
    · simp [PlaceholderBindings.getPlaceholderByName, PlaceholderBindings.get, lookupName, h]
    · have h1 : PlaceholderBindings.getPlaceholderByName (e :: rest) x =
          PlaceholderBindings.getPlaceholderByName rest x := by
        simp [PlaceholderBindings.getPlaceholderByName, h]
      have h2 : lookupName (e :: rest) x = lookupName rest x := by
        simp [lookupName, h]
      rw [h1, h2, ← ih]
      cases hp : PlaceholderBindings.getPlaceholderByName rest x with
      | none => rfl
      | some ph =>
        have hn := getPlaceholderByName_name hp
        have hne : ¬ e.1 = ph := by
          intro heq
          rw [heq] at h
          exact h hn
        simp [PlaceholderBindings.get, hne]

theorem binds_iff (b : PlaceholderBindings) (x : String) (v : Tensor) :
    Binds b x v ↔ lookupName b x = some v := by
  unfold Binds
  rw [get_getPlaceholderByName]

theorem slotNames_assign (b : PlaceholderBindings) (ph : Placeholder) (t : Tensor) :
    slotNames (b.assign ph t) = slotNames b := by
  induction b with
  | nil => rfl
  | cons e rest ih =>
    unfold PlaceholderBindings.assign
    by_cases h : (e.1 == ph) = true
    · simp [h, slotNames]
    · simp only [slotNames] at ih
      simp [h, slotNames, ih]

/-- The write through the pointer found for the name `y` changes what the lookup
of `y` finds, and no other lookup. -/
theorem lookupName_assign {b : PlaceholderBindings} {y : String} {ph : Placeholder}
    (h : b.getPlaceholderByName y = some ph) (t : Tensor) (x : String) :
    lookupName (b.assign ph t) x = if x = y then some t else lookupName b x := by
  induction b with
  | nil => simp [PlaceholderBindings.getPlaceholderByName] at h
  | cons e rest ih =>
    by_cases hy : e.1.name = y
    · have hph : ph = e.1 := by
        simp [PlaceholderBindings.getPlaceholderByName, hy] at h
        exact h.symm
      subst hph
      by_cases hx : x = y
      · subst hx
        simp [PlaceholderBindings.assign, lookupName, hy]
      · have hx1 : ¬ e.1.name = x := fun h1 => hx (h1.symm.trans hy)
        simp [PlaceholderBindings.assign, lookupName, hx, hx1]
    · have h1 : PlaceholderBindings.getPlaceholderByName rest y = some ph := by
        simpa [PlaceholderBindings.getPlaceholderByName, hy] using h
      have hn := getPlaceholderByName_name h1
      have hne : ¬ e.1 = ph := by
        intro heq
        rw [heq] at hy
        exact hy hn
      have ih1 := ih h1
      by_cases hx : e.1.name = x
      · have hxy : ¬ x = y := fun h2 => hy (hx.trans h2)
        simp [PlaceholderBindings.assign, lookupName, hne, hx, hxy]
      · have hxb : (e.1.name == x) = false := by simpa using hx
        simp only [PlaceholderBindings.assign, beq_iff_eq, hne, if_false]
        simp only [lookupName, List.find?_cons, hxb] at ih1 ⊢
        exact ih1

theorem allNamed_of_count {b : PlaceholderBindings} {x : String} {v : Tensor}
    (hc : (slotNames b).count x ≤ 1) (hl : lookupName b x = some v) : AllNamed b x v := by
  induction b with
  | nil =>
    intro e he
    cases he
  | cons e rest ih =>
    intro e1 he1 hn1
    by_cases hx : e.1.name = x
    · have hv : e.2 = v := by
        simpa [lookupName, hx] using hl
      have hc1 : (slotNames rest).count x = 0 := by
        simp only [slotNames, List.map_cons, hx, List.count_cons_self] at hc ⊢
        omega
      rcases List.mem_cons.1 he1 with h | h
      · rw [h]
        exact hv
      · exfalso
        have : x ∈ slotNames rest := by
          rw [← hn1]
          exact List.mem_map.2 ⟨e1, h, rfl⟩
        exact absurd (List.count_pos_iff.2 this) (by omega)
    · have hl1 : lookupName rest x = some v := by
        simpa [lookupName, hx] using hl
      have hc1 : (slotNames rest).count x ≤ 1 := by
        simp only [slotNames, List.map_cons] at hc ⊢
        rw [List.count_cons_of_ne (fun h => hx h.symm)] at hc
        exact hc
      rcases List.mem_cons.1 he1 with h | h
      · rw [h] at hn1
        exact absurd hn1 hx
      · exact ih hc1 hl1 e1 h hn1

/-! ## The state the constructor builds -/

theorem createOrGetPlaceholder_memo {st : ExecutionState} (name : String) (type : TypeRef)
    (hm : ∀ (k : String) (ph : Placeholder),
      mapFind st.intermediatePlaceholders_ k = some ph → ph.name = k ∧ ph.isTrainable = false) :
    (st.createOrGetPlaceholder name type).1.name = name ∧
      ∀ (k : String) (ph : Placeholder),
        mapFind (st.createOrGetPlaceholder name type).2.intermediatePlaceholders_ k = some ph →
        ph.name = k ∧ ph.isTrainable = false := by
  unfold ExecutionState.createOrGetPlaceholder
  cases hf : mapFind st.intermediatePlaceholders_ name with
  | some ph => exact ⟨(hm name ph hf).1, hm⟩
  | none =>
    refine ⟨rfl, ?_⟩
    intro k ph hk
    simp only [mapFind_mapInsert] at hk
    cases hk1 : mapFind st.intermediatePlaceholders_ k with
    | some ph1 =>
      rw [hk1] at hk
      simp only [Option.orElse, Option.some.injEq] at hk
      subst hk
      exact hm k ph1 hk1
    | none =>
      rw [hk1] at hk
      simp only [Option.orElse] at hk
      split at hk
      · rename_i heq
        injection hk with hk
        subst hk
        exact ⟨heq, rfl⟩
      · cases hk

theorem allocateSymbols_names (syms : List (String × RuntimeSymbolInfo)) (st : ExecutionState)
    (b : PlaceholderBindings)
    (hm : ∀ (k : String) (ph : Placeholder),
      mapFind st.intermediatePlaceholders_ k = some ph → ph.name = k ∧ ph.isTrainable = false) :
    slotNames (ExecutionState.allocateSymbols syms st b).2 = slotNames b ++ placeholderNames syms ∧
      ∀ (k : String) (ph : Placeholder),
        mapFind (ExecutionState.allocateSymbols syms st b).1.intermediatePlaceholders_ k = some ph →
        ph.name = k ∧ ph.isTrainable = false := by
  induction syms generalizing st b with
  | nil => exact ⟨by simp [ExecutionState.allocateSymbols, placeholderNames], hm⟩
  | cons s rest ih =>
    simp only [ExecutionState.allocateSymbols]
    by_cases hc : s.2.symbolCategory = SymbolCategory.Placeholder
    · simp only [hc, if_true]
      obtain ⟨hn, hm1⟩ := createOrGetPlaceholder_memo s.1 s.2.type hm
      obtain ⟨h1, h2⟩ := ih (st.createOrGetPlaceholder s.1 s.2.type).2
        (PlaceholderBindings.allocate b (st.createOrGetPlaceholder s.1 s.2.type).1) hm1
      refine ⟨?_, h2⟩
      rw [h1]
      simp [slotNames, PlaceholderBindings.allocate, placeholderNames, hc, hn]
    · simp only [hc, if_false]
      obtain ⟨h1, h2⟩ := ih st b hm
      refine ⟨?_, h2⟩
      rw [h1]
      simp [placeholderNames, hc]

theorem constructed_visit {G : Graph} {st : ExecutionState} (node : NodePtr)
    (h : Constructed G st) : Constructed G (ExecutionState.visit G st node) := by
  obtain ⟨hm, hs, hc⟩ := h
  have hal := allocateSymbols_names (G node).symbolTable
    { st with nodeParentsDone_ := mapAssign st.nodeParentsDone_ node 0 } [] hm
  have hfr := allocateSymbols_frame (G node).symbolTable
    { st with nodeParentsDone_ := mapAssign st.nodeParentsDone_ node 0 } []
  refine ⟨?_, ?_, ?_⟩
  · intro k ph hk
    exact hal.2 k ph hk
  · intro n c hn
    simp only [ExecutionState.visit, mapFind_mapInsert] at hn
    rw [hfr] at hn
    simp only at hn
    cases hf : mapFind st.inputCtxs_ n with
    | some c1 =>
      rw [hf] at hn
      simp only [Option.orElse, Option.some.injEq] at hn
      subst hn
      exact hs n c1 hf
    | none =>
      rw [hf] at hn
      simp only [Option.orElse] at hn
      split at hn
      · rename_i heq
        injection hn with hn
        subst hn heq
        refine ⟨_, rfl, ?_⟩
        rw [hal.1]
        simp [slotNames]
      · cases hn
  · intro n c hn
    simp only [ExecutionState.visit] at hn
    rw [hfr] at hn
    simp only at hn
    by_cases hnn : n = node
    · subst hnn
      rw [mapFind_mapAssign_self] at hn
      injection hn with hn
      exact hn.symm
    · rw [mapFind_mapAssign_ne _ _ hnn] at hn
      exact hc n c hn

theorem constructed_bfs {G : Graph} (fuel : Nat) (queue : List NodePtr) {st st1 : ExecutionState}
    (h : Constructed G st) (hb : ExecutionState.bfs G fuel queue st = .ok st1) :
    Constructed G st1 := by
  induction fuel generalizing queue st with
  | zero =>
    cases queue with
    | nil =>
      simp only [ExecutionState.bfs] at hb
      injection hb with hb
      subst hb
      exact h
    | cons n q => simp [ExecutionState.bfs] at hb
  | succ k ih =>
    cases queue with
    | nil =>
      simp only [ExecutionState.bfs] at hb
      injection hb with hb
      subst hb
      exact h
    | cons n q =>
      simp only [ExecutionState.bfs] at hb
      exact ih _ (constructed_visit n h) hb

theorem constructed_create {G : Graph} {fuel : Nat} {self : StatePtr} {id : RunIdentifierTy}
    {root : NodePtr} {ctx : ExecutionContext} {cb : ResultCBTy} {st : ExecutionState}
    (h : ExecutionState.create G fuel self id root ctx cb = .ok st) : Constructed G st := by
  unfold ExecutionState.create at h
  refine constructed_bfs fuel _ ⟨?_, ?_, ?_⟩ h
  · intro k ph hk
    simp [mapFind] at hk
  · intro n c hn
    simp [mapFind] at hn
  · intro n c hn
    simp [mapFind] at hn

/-! ## The round trip of a name through a run (C5) -/

theorem allCompletions_of_check {G : Graph} {p : StatePtr}
    {A : Job → Error → ExecutionContext → Prop} (chk : Job → Error → ExecutionContext → Bool)
    (hchk : ∀ j err ctx, chk j err ctx = true → A j err ctx) (ls : List Label) (w : World)
    (h : checkCompletions G p chk w ls = true) : allCompletions G p A w ls := by
  induction ls generalizing w with
  | nil => trivial
  | cons l rest ih =>
    simp only [checkCompletions, Bool.and_eq_true] at h
    refine ⟨?_, ?_⟩
    · cases l with
      | complete job err resultCtx =>
        intro j hj hjp
        have h1 := h.1
        simp only [hj, hjp, bne_self_eq_false, Bool.false_or] at h1
        exact hchk _ _ _ h1
      | run _ _ _ _ _ => trivial
      | dispatch _ => trivial
      | shutdown => trivial
    · intro w1 hw1
      have h2 := h.2
      rw [hw1] at h2
      exact ih w1 h2

theorem lookupName_none_of_getPlaceholderByName {b : PlaceholderBindings} {x : String}
    (h : b.getPlaceholderByName x = none) : lookupName b x = none := by
  rw [← get_getPlaceholderByName, h]
  rfl

/-- What the loop of `propagatePlaceholdersForNode` does to the input contexts,
seen from a name `x` that the source context binds to `v`. -/
theorem propagateSymbols_lookup {node : NodePtr} {src : ExecutionContext} {x : String}
    {v : Tensor} (hsrc : lookupName src.placeholderBindings x = some v)
    (syms : List (String × RuntimeSymbolInfo)) {st st1 : ExecutionState}
    (h : ThreadPoolExecutor.propagateSymbols node src syms st = .ok st1) :
    (∀ m, m ≠ node → mapFind st1.inputCtxs_ m = mapFind st.inputCtxs_ m) ∧
    ((∃ c c1, mapFind st.inputCtxs_ node = some (some c) ∧
        mapFind st1.inputCtxs_ node = some (some c1) ∧
        slotNames c1.placeholderBindings = slotNames c.placeholderBindings ∧
        (lookupName c.placeholderBindings x = some v →
          lookupName c1.placeholderBindings x = some v) ∧
        (x ∈ syms.map Prod.fst → lookupName c1.placeholderBindings x = some v)) ∨
      (st1.inputCtxs_ = st.inputCtxs_ ∧ x ∉ syms.map Prod.fst)) := by
  induction syms generalizing st with
  | nil =>
    simp only [ThreadPoolExecutor.propagateSymbols] at h
    injection h with h
    subst h
    exact ⟨fun _ _ => rfl, Or.inr ⟨rfl, by simp⟩⟩
  | cons s rest ih =>
    simp only [ThreadPoolExecutor.propagateSymbols] at h
    split at h
    · rename_i hnone
      have hsx : s.1 ≠ x := by
        intro heq
        rw [heq] at hnone
        rw [lookupName_none_of_getPlaceholderByName hnone] at hsrc
        cases hsrc
      obtain ⟨h1, h2⟩ := ih h
      refine ⟨h1, ?_⟩
      rcases h2 with ⟨c, c1, a1, a2, a3, a4, a5⟩ | ⟨a1, a2⟩
      · left
        refine ⟨c, c1, a1, a2, a3, a4, ?_⟩
        intro hx
        simp only [List.map_cons, List.mem_cons] at hx
        rcases hx with hx | hx
        · exact absurd hx.symm hsx
        · exact a5 hx
      · right
        refine ⟨a1, ?_⟩
        simp only [List.map_cons, List.mem_cons, not_or]
        exact ⟨fun hx => hsx hx.symm, a2⟩
    · rename_i placeholder hsome
      split at h
      · cases h
      · rename_i tensor htensor
        split at h
        · cases h
        · rename_i st2 h2
          obtain ⟨ctx, ph, hctx, hph, hst2⟩ := insertIntoNodeCtx_ok h2
          have htl : lookupName src.placeholderBindings s.1 = some tensor := by
            rw [← get_getPlaceholderByName, hsome]
            exact htensor
          obtain ⟨h1, h3⟩ := ih h
          have hfind2 : mapFind st2.inputCtxs_ node =
              some (some { placeholderBindings := ctx.placeholderBindings.assign ph tensor.clone }) := by
            rw [hst2]
            exact mapFind_mapAssign_self _ _ _
          have hlook : ∀ (y : String),
              lookupName (ctx.placeholderBindings.assign ph tensor.clone) y =
                if y = s.1 then some tensor else lookupName ctx.placeholderBindings y := by
            intro y
            exact lookupName_assign hph _ y
          have hxv : x = s.1 → tensor = v := by
            intro hx
            rw [← hx, hsrc] at htl
            injection htl with htl
            exact htl.symm
          refine ⟨?_, Or.inl ?_⟩
          · intro m hm
            rw [h1 m hm, hst2]
            exact mapFind_mapAssign_ne _ _ hm
          · rcases h3 with ⟨c, c1, a1, a2, a3, a4, a5⟩ | ⟨a1, a2⟩
            · rw [hfind2] at a1
              injection a1 with a1
              injection a1 with a1
              subst a1
              refine ⟨ctx, c1, hctx, a2, ?_, ?_, ?_⟩
              · rw [a3]
                exact slotNames_assign _ _ _
              · intro hl
                apply a4
                rw [hlook x]
                split
                · rename_i hx
                  rw [hxv hx]
                · exact hl
              · intro hx
                simp only [List.map_cons, List.mem_cons] at hx
                by_cases hxs : x = s.1
                · apply a4
                  rw [hlook x, if_pos hxs, hxv hxs]
                · rcases hx with hx | hx
                  · exact absurd hx hxs
                  · exact a5 hx
            · refine ⟨ctx, _, hctx, by rw [a1]; exact hfind2, slotNames_assign _ _ _, ?_, ?_⟩
              · intro hl
                rw [hlook x]
                split
                · rename_i hx
                  rw [hxv hx]
                · exact hl
              · intro hx
                simp only [List.map_cons, List.mem_cons] at hx
                rcases hx with hx | hx
                · rw [hlook x, if_pos hx, hxv hx]
                · exact absurd hx a2

theorem setError_frame (st : ExecutionState) (err : Error) :
    (st.setError err).resultCtx_ = st.resultCtx_ ∧ (st.setError err).inputCtxs_ = st.inputCtxs_ ∧
      (st.setError err).nodeParentsDone_ = st.nodeParentsDone_ ∧
      (st.setError err).inflightNodes_ = st.inflightNodes_ ∧
      (st.setError err).cb_ = st.cb_ ∧ (st.setError err).runId_ = st.runId_ := by
  unfold ExecutionState.setError
  split <;> simp

namespace RoundTrip

variable {G : Graph} {root : NodePtr} {p : StatePtr} {x : String} {v : Tensor}

/-- The invariant reads the outstanding calls and the events of the executor, and
the result context and the input contexts of the state, and nothing else. -/
theorem rtCongr {ex ex1 : ThreadPoolExecutor} {st st1 : ExecutionState} {rem : List NodePtr}
    (h : RoundTrip G root p x v ex st rem) (ho : ex1.outstanding = ex.outstanding)
    (he : ex1.events = ex.events) (hr : st1.resultCtx_ = st.resultCtx_)
    (hi : st1.inputCtxs_ = st.inputCtxs_) : RoundTrip G root p x v ex1 st1 rem :=
  ⟨by rw [hr]; exact h.result, by rw [ho]; exact h.jobs, by rw [hi]; exact h.slots,
    by rw [he]; exact h.delivered, h.remaining⟩

/-- Logging an event that is not a callback keeps the invariant. -/
theorem rtLog {ex : ThreadPoolExecutor} {st : ExecutionState} {rem : List NodePtr}
    (h : RoundTrip G root p x v ex st rem) (e : Event)
    (hne : ∀ s cb id err c, e ≠ Event.callback s cb id err c) :
    RoundTrip G root p x v (ex.log e) st rem := by
  refine ⟨h.result, h.jobs, h.slots, ?_, h.remaining⟩
  intro cb id err c hc
  simp only [ThreadPoolExecutor.log, List.mem_append, List.mem_singleton] at hc
  rcases hc with hc | hc
  · exact h.delivered cb id err c hc
  · exact absurd hc.symm (hne _ _ _ _ _)

theorem rtPropagate {ex : ThreadPoolExecutor} {st : ExecutionState} {rem : List NodePtr}
    {n : NodePtr} {src : ExecutionContext} {r : ThreadPoolExecutor × ExecutionState}
    (h : RoundTrip G root p x v ex st rem) (hn : Reach G root n)
    (hsrc : lookupName src.placeholderBindings x = some v)
    (hx : x ∈ (G n).symbolTable.map Prod.fst)
    (hr : ThreadPoolExecutor.propagatePlaceholdersForNode G ex st n src = .ok r) :
    RoundTrip G root p x v r.1 r.2 rem ∧
      ∀ c1, mapFind r.2.inputCtxs_ n = some (some c1) →
        lookupName c1.placeholderBindings x = some v ∧ AllNamed c1.placeholderBindings x v := by
  obtain ⟨h1, h2, h3⟩ := propagatePlaceholdersForNode_ok hr
  obtain ⟨hoth, hnode⟩ := propagateSymbols_lookup hsrc _ h2
  rcases hnode with ⟨c, c1, a1, a2, a3, a4, a5⟩ | ⟨-, a2⟩
  · have hslots : ∀ (m : NodePtr) (cm : ExecutionContext), Reach G root m →
        mapFind r.2.inputCtxs_ m = some (some cm) →
        (slotNames cm.placeholderBindings).count x ≤ 1 := by
      intro m cm hm hcm
      by_cases hmn : m = n
      · subst hmn
        rw [a2] at hcm
        injection hcm with hcm
        injection hcm with hcm
        subst hcm
        rw [a3]
        exact h.slots m c hm a1
      · rw [hoth m hmn] at hcm
        exact h.slots m cm hm hcm
    refine ⟨?_, ?_⟩
    · rw [h1]
      have hb : RoundTrip G root p x v ex r.2 rem := by
        refine ⟨?_, h.jobs, hslots, h.delivered, h.remaining⟩
        rw [h3]
        exact h.result
      refine hb.rtLog _ ?_
      intro s cb id err c0 hc
      cases hc
    · intro c2 hc2
      rw [a2] at hc2
      injection hc2 with hc2
      injection hc2 with hc2
      subst hc2
      have hl := a5 hx
      exact ⟨hl, allNamed_of_count (hslots n c1 hn a2) hl⟩
  · exact absurd hx a2

theorem rtExecute {ex : ThreadPoolExecutor} {st : ExecutionState} {rem : List NodePtr}
    {n : NodePtr} {r : ThreadPoolExecutor × ExecutionState}
    (h : RoundTrip G root p x v ex st rem) (_hs : st.self = p) (hn : Reach G root n)
    (hc : ∀ c1, mapFind st.inputCtxs_ n = some (some c1) →
      lookupName c1.placeholderBindings x = some v ∧ AllNamed c1.placeholderBindings x v)
    (hr : ThreadPoolExecutor.executeDAGNode G ex st n = .ok r) :
    RoundTrip G root p x v r.1 r.2 rem := by
  rcases executeDAGNode_ok hr with ⟨-, h1⟩ | ⟨-, -, h1⟩ | ⟨-, -, c, hfind, h1⟩
  · obtain ⟨-, -, h3⟩ := markNoLongerExecuting_ok h1
    subst h3
    exact h.rtCongr rfl rfl rfl rfl
  · obtain ⟨-, -, h3⟩ := markNoLongerExecuting_ok h1
    subst h3
    have hf := setError_frame st (some ErrorCode.RUNTIME_DEVICE_NOT_FOUND)
    have hb : RoundTrip G root p x v (ex.log (Event.getNextDevice st.self n)) st rem := by
      refine h.rtLog _ ?_
      intro s cb id err c0 hc0
      cases hc0
    exact hb.rtCongr rfl rfl hf.1 hf.2.1
  · subst h1
    refine ⟨h.result, ?_, ?_, ?_, h.remaining⟩
    · intro j hj hjp
      simp only [List.mem_append, List.mem_singleton] at hj
      rcases hj with hj | hj
      · exact h.jobs j hj hjp
      · subst hj
        exact ⟨hn, hc c hfind⟩
    · intro m cm hm hcm
      simp only at hcm
      by_cases hmn : m = n
      · subst hmn
        rw [mapFind_mapAssign_self] at hcm
        cases hcm
      · rw [mapFind_mapAssign_ne _ _ hmn] at hcm
        exact h.slots m cm hm hcm
    · intro cb id err c0 hc0
      simp only [List.mem_append, List.mem_cons, List.mem_singleton, List.not_mem_nil,
        or_false] at hc0
      rcases hc0 with hc0 | hc0 | hc0
      · exact h.delivered cb id err c0 hc0
      · cases hc0
      · cases hc0

theorem rtHandleChild {ex : ThreadPoolExecutor} {st : ExecutionState} {rem : List NodePtr}
    {c : NodePtr} {ctx : ExecutionContext} {r : ThreadPoolExecutor × ExecutionState}
    (h : RoundTrip G root p x v ex st rem) (hs : st.self = p) (hn : Reach G root c)
    (hsrc : lookupName ctx.placeholderBindings x = some v)
    (hx : x ∈ (G c).symbolTable.map Prod.fst)
    (hr : ThreadPoolExecutor.handleChild G ctx ex st c = .ok r) :
    RoundTrip G root p x v r.1 r.2 rem := by
  obtain ⟨pr, q, h1, h2, h3, h4⟩ := handleChild_ok hr
  obtain ⟨i1, i2⟩ := h.rtPropagate hn hsrc hx h1
  obtain ⟨-, s1⟩ := appends_propagate h1
  obtain ⟨prev, -, -, -, hq⟩ := incrementNodeParentsDone_ok h2
  have i3 : RoundTrip G root p x v pr.1 q.2 rem :=
    i1.rtCongr rfl rfl (by rw [hq]) (by rw [hq])
  cases hready : q.1 with
  | false =>
    rw [h4 hready]
    exact i3
  | true =>
    have i4 : RoundTrip G root p x v
        { pr.1 with inflightBarrier_ := pr.1.inflightBarrier_.increment 1 }
        (q.2.incrementInflightNodes 1) rem := i3.rtCongr rfl rfl rfl rfl
    refine i4.rtExecute ?_ hn ?_ (h3 hready)
    · show q.2.self = p
      rw [hq]
      exact s1.trans hs
    · intro c1 hc1
      apply i2 c1
      have : (q.2.incrementInflightNodes 1).inputCtxs_ = pr.2.inputCtxs_ := by rw [hq]; rfl
      rw [← this]
      exact hc1

theorem rtHandleChildren {ctx : ExecutionContext} {rem : List NodePtr} (children : List NodePtr)
    {ex : ThreadPoolExecutor} {st : ExecutionState} {r : ThreadPoolExecutor × ExecutionState}
    (h : RoundTrip G root p x v ex st rem) (hs : st.self = p)
    (hn : ∀ c ∈ children, Reach G root c ∧ x ∈ (G c).symbolTable.map Prod.fst)
    (hsrc : lookupName ctx.placeholderBindings x = some v)
    (hr : ThreadPoolExecutor.handleChildren G ctx children ex st = .ok r) :
    RoundTrip G root p x v r.1 r.2 rem := by
  induction children generalizing ex st with
  | nil =>
    simp only [ThreadPoolExecutor.handleChildren] at hr
    injection hr with hr
    subst hr
    exact h
  | cons c rest ih =>
    simp only [ThreadPoolExecutor.handleChildren] at hr
    split at hr
    · cases hr
    · rename_i ex1 st1 h1
      have hc := hn c (List.mem_cons_self _ _)
      have i1 := h.rtHandleChild hs hc.1 hsrc hc.2 h1
      obtain ⟨-, s1⟩ := appends_handleChild h1
      exact ih i1 (s1.trans hs) (fun c1 hc1 => hn c1 (List.mem_cons_of_mem _ hc1)) hr

theorem rtOutputs {ex : ThreadPoolExecutor} {rem : List NodePtr}
    (pairs : List (Placeholder × Tensor)) {st st1 : ExecutionState}
    (h : RoundTrip G root p x v ex st rem) (hp : AllNamed pairs x v)
    (hr : ThreadPoolExecutor.propagateOutputPairs pairs st = .ok st1) :
    RoundTrip G root p x v ex st1 rem := by
  induction pairs generalizing st with
  | nil =>
    simp only [ThreadPoolExecutor.propagateOutputPairs] at hr
    injection hr with hr
    subst hr
    exact h
  | cons e rest ih =>
    simp only [ThreadPoolExecutor.propagateOutputPairs] at hr
    split at hr
    · cases hr
    · rename_i st2 h2
      refine ih ?_ (fun e1 he1 => hp e1 (List.mem_cons_of_mem _ he1)) hr
      unfold ExecutionState.insertIntoResultCtx at h2
      split at h2
      · cases h2
      · rename_i rc hrc
        dsimp only at h2
        split at h2
        · injection h2 with h2
          subst h2
          exact h
        · rename_i ph hph
          split at h2
          · injection h2 with h2
            subst h2
            exact h
          · injection h2 with h2
            subst h2
            refine ⟨?_, h.jobs, h.slots, h.delivered, h.remaining⟩
            intro rc1 hrc1
            simp only [Option.some.injEq] at hrc1
            subst hrc1
            simp only
            rw [lookupName_assign hph]
            split
            · rename_i hxe
              rw [hp e (List.mem_cons_self _ _) hxe.symm]
            · exact h.result rc hrc

theorem rtFinish {ex : ThreadPoolExecutor} {st : ExecutionState} {rem : List NodePtr}
    {r : ThreadPoolExecutor × ExecutionState}
    (h : RoundTrip G root p x v ex st rem) (_hs : st.self = p)
    (hr : ThreadPoolExecutor.finishNode ex st = .ok r) :
    RoundTrip G root p x v r.1 r.2 rem := by
  obtain ⟨-, -, h3⟩ := finishNode_ok hr
  rcases h3 with ⟨-, rc, hrc, h5⟩ | ⟨-, h5⟩
  · subst h5
    refine ⟨?_, h.jobs, h.slots, ?_, h.remaining⟩
    · intro rc1 hrc1
      cases hrc1
    · intro cb id err c0 hc0
      simp only [List.mem_append, List.mem_singleton] at hc0
      rcases hc0 with hc0 | hc0
      · exact h.delivered cb id err c0 hc0
      · injection hc0 with _ _ _ _ hctx
        rw [hctx]
        exact h.result rc hrc
  · subst h5
    exact h.rtCongr rfl rfl rfl rfl

theorem rtHandle {ex : ThreadPoolExecutor} {st : ExecutionState} {rem : List NodePtr}
    {i : Nat} {j : Job} {err : Error} {ctx : ExecutionContext}
    {r : ThreadPoolExecutor × ExecutionState}
    (hx : ∀ n, Reach G root n → x ∈ (G n).symbolTable.map Prod.fst)
    (h : RoundTrip G root p x v ex st rem) (hs : st.self = p)
    (hj : ex.outstanding[i]? = some j) (hjp : j.state = p) (hA : err = none ∧ ctx = j.ctx)
    (hr : ThreadPoolExecutor.handleDeviceManagerResult G
      { ex with outstanding := ex.outstanding.eraseIdx i } st err ctx j.node = .ok r) :
    RoundTrip G root p x v r.1 r.2 rem := by
  obtain ⟨herr, hctx⟩ := hA
  subst herr hctx
  obtain ⟨hreach, hlook, hall⟩ := h.jobs j (List.mem_iff_getElem?.2 ⟨i, hj⟩) hjp
  have hb : RoundTrip G root p x v { ex with outstanding := ex.outstanding.eraseIdx i } st
      rem := by
    refine ⟨h.result, ?_, h.slots, h.delivered, h.remaining⟩
    intro j1 hj1 hj1p
    exact h.jobs j1 ((List.eraseIdx_sublist _ _).subset hj1) hj1p
  have h0 : RoundTrip G root p x v
      (ThreadPoolExecutor.log { ex with outstanding := ex.outstanding.eraseIdx i }
        (Event.handling st.self j.node none j.ctx)) st rem := by
    refine hb.rtLog _ ?_
    intro s cb id err c0 hc0
    cases hc0
  obtain ⟨pr, hf, hp⟩ := handleDeviceManagerResult_ok hr
  rcases hp with ⟨hne, -⟩ | ⟨-, -, hp1, hp2⟩ | ⟨-, -, hp⟩
  · exact absurd rfl hne
  · have i1 : RoundTrip G root p x v pr.1 pr.2 rem := by
      rw [hp1]
      exact h0.rtOutputs _ hall hp2
    refine i1.rtFinish ?_ hf
    rw [(propagateOutputPairs_frame _ hp2).1]
    exact hs
  · have i1 := RoundTrip.rtHandleChildren _ h0 hs
      (fun c hc => ⟨Reach.step hreach hc, hx c (Reach.step hreach hc)⟩) hlook hp
    obtain ⟨-, s1⟩ := appends_handleChildren _ hp
    exact i1.rtFinish (s1.trans hs) hf

theorem rtRunChild {ex : ThreadPoolExecutor} {st : ExecutionState} {c : NodePtr}
    {rest : List NodePtr} {r : ThreadPoolExecutor × ExecutionState}
    (hx : ∀ n, Reach G root n → x ∈ (G n).symbolTable.map Prod.fst)
    (h : RoundTrip G root p x v ex st (c :: rest)) (hs : st.self = p)
    (hr : ThreadPoolExecutor.runChild G ex st c = .ok r) :
    RoundTrip G root p x v r.1 r.2 rest := by
  have hreach : Reach G root c := Reach.child (h.remaining c (List.mem_cons_self _ _))
  have h0 : RoundTrip G root p x v ex st rest :=
    ⟨h.result, h.jobs, h.slots, h.delivered,
      fun n hn => h.remaining n (List.mem_cons_of_mem _ hn)⟩
  unfold ThreadPoolExecutor.runChild ExecutionState.getRawResultContextPtr at hr
  split at hr
  · cases hr
  · rename_i rc hrc
    split at hrc
    · cases hrc
    · rename_i rc1 hrc1
      injection hrc with hrc
      subst hrc
      split at hr
      · cases hr
      · rename_i ex1 st1 h1
        obtain ⟨i1, i2⟩ := h0.rtPropagate hreach (h.result _ hrc1) (hx c hreach) h1
        obtain ⟨-, s1⟩ := appends_propagate h1
        exact i1.rtExecute (s1.trans hs) hreach i2 hr

theorem rtStable {ex ex1 : ThreadPoolExecutor} {st : ExecutionState} {rem : List NodePtr}
    (h : RoundTrip G root p x v ex st rem) (hf : ForeignChange p ex ex1) :
    RoundTrip G root p x v ex1 st rem := by
  obtain ⟨-, ⟨evs, hev, htag⟩, hjobs⟩ := hf
  refine ⟨h.result, ?_, h.slots, ?_, h.remaining⟩
  · intro j hj hjp
    have hm : j ∈ jobsOf ex1 p := by
      unfold jobsOf
      exact List.mem_filter.2 ⟨hj, by simpa using hjp⟩
    rw [hjobs] at hm
    exact h.jobs j (List.mem_filter.1 hm).1 hjp
  · intro cb id err c0 hc0
    rw [hev] at hc0
    rcases List.mem_append.1 hc0 with hc | hc
    · exact h.delivered cb id err c0 hc
    · exact absurd rfl (htag _ hc)

end RoundTrip

theorem placeholderNames_sublist (syms : List (String × RuntimeSymbolInfo)) :
    (placeholderNames syms).Sublist (syms.map Prod.fst) := by
  unfold placeholderNames
  exact List.Sublist.map _ (List.filter_sublist _)

theorem roundTrip_initial {G : Graph} {root : NodePtr} {p : StatePtr} {x : String} {v : Tensor}
    {fuel : Nat} {context : ExecutionContext} {runId : RunIdentifierTy} {cb : ResultCBTy}
    (hkeys : ∀ n, Reach G root n → ((G n).symbolTable.map Prod.fst).Nodup)
    (hv : Binds context.placeholderBindings x v)
    (ex : ThreadPoolExecutor) (st0 : ExecutionState)
    (hev : ∀ e ∈ ex.events, e.tag ≠ some p) (hjobs : jobsOf ex p = [])
    (hc : ExecutionState.create G fuel p runId root context cb = .ok st0) :
    RoundTrip G root p x v ex (st0.incrementInflightNodes (G root).children.length)
      (G root).children := by
  refine ⟨?_, ?_, ?_, ?_, fun n hn => hn⟩
  · intro rc hrc
    have h1 := (create_frame hc).2.2.2.1
    simp only [ExecutionState.incrementInflightNodes, h1, Option.some.injEq] at hrc
    subst hrc
    exact (binds_iff _ _ _).1 hv
  · intro j hj hjp
    have hm : j ∈ jobsOf ex p := by
      unfold jobsOf
      exact List.mem_filter.2 ⟨hj, by simpa using hjp⟩
    rw [hjobs] at hm
    cases hm
  · intro n c hn hfind
    obtain ⟨ctx, hctx, hnames⟩ := (constructed_create hc).slots n (some c) hfind
    injection hctx with hctx
    subst hctx
    rw [hnames]
    exact List.nodup_iff_count_le_one.1 ((hkeys n hn).sublist (placeholderNames_sublist _)) x
  · intro cb1 id err c hc1
    exact absurd rfl (hev _ hc1)

/-- C5 (round trip): a run is accepted by an executor in any state it can reach;
every node that can be reached from root's children has the Placeholder symbol
`x`, the keys of each symbol table are distinct, and the caller's context binds
`x` to `v`. If every device manager is the identity (each completion of the run
is without error and hands back the context the device was given), then along
every schedule every context delivered to the callback of the run binds `x` to
`v`. -/
theorem round_trip_identity (G : Graph) (dm : List DeviceIDTy) (before : List Label) (w0 : World)
    (h0 : steps G (World.init dm) before = .ok w0)
    (fuel : Nat) (root : NodePtr) (context : ExecutionContext) (runId : RunIdentifierTy)
    (cb : ResultCBTy) (w1 : World) (p : StatePtr) (k : Nat)
    (hacc : Accepted G w0 fuel root context runId cb w1 p k)
    (x : String) (v : Tensor)
    (hkeys : ∀ n, Reach G root n → ((G n).symbolTable.map Prod.fst).Nodup)
    (hx : ∀ n, Reach G root n → x ∈ placeholderNames (G n).symbolTable)
    (hv : Binds context.placeholderBindings x v)
    (after : List Label) (w : World) (h : steps G w1 after = .ok w)
    (hid : allCompletions G p (fun j err ctx => err = none ∧ ctx = j.ctx) w1 after) :
    ∀ (cb1 : ResultCBTy) (id : RunIdentifierTy) (err : Error) (c : ExecutionContext),
      Event.callback (some p) cb1 id err c ∈ w.executor.events →
      Binds c.placeholderBindings x v := by
  have hsc : Scoped dm w0 := scoped_steps before (scoped_init dm) h0
  have hx1 : ∀ n, Reach G root n → x ∈ (G n).symbolTable.map Prod.fst :=
    fun n hn => (placeholderNames_sublist _).subset (hx n hn)
  have hw1 : RunWorld p k dm (RoundTrip G root p x v) w1 :=
    runWorld_accepted _ hsc hacc
      (fun ex st0 _ hev hjobs hc => roundTrip_initial hkeys hv ex st0 hev hjobs hc)
  have hw := runWorld_steps G p k dm _ (RoundTrip G root p x v)
    (fun ex ex1 st rem hi hf => hi.rtStable hf)
    (fun ex st c rest r _ hs hi hr => hi.rtRunChild hx1 hs hr)
    (fun ex st rem i j err ctx r _ hs hi hj hjp hA hr => hi.rtHandle hx1 hs hj hjp hA hr)
    after w1 w hw1 h hid
  obtain ⟨st, rem, -, -, hinv⟩ := hw.inv
  intro cb1 id err c hc
  exact (binds_iff _ _ _).2 (hinv.delivered cb1 id err c hc)

theorem reach_diamondGraph {n : NodePtr} (h : Reach diamondGraph 0 n) :
    n = 1 ∨ n = 2 ∨ n = 3 := by
  induction h with
  | child hc =>
    simp only [diamondGraph, scenarioRoot, List.mem_cons, List.mem_singleton, List.not_mem_nil,
      or_false] at hc
    rcases hc with hc | hc
    · exact Or.inl hc
    · exact Or.inr (Or.inl hc)
  | step _ hc ih =>
    rcases ih with ih | ih | ih <;> subst ih <;>
      simp [diamondGraph, scenarioNode] at hc <;> simp [hc]

/-- Witness for C5: the diamond of scenario S5 with identity devices; the run is
accepted by the fresh executor and the callback receives a context in which `x`
is bound to the caller's tensor. -/
theorem round_trip_identity_witness :
    Event.callback (some 0) 7 1 none callerContext ∈
        (worldAfter diamondGraph (World.init [0]) diamondSchedule).executor.events ∧
      Binds callerContext.placeholderBindings "x" callerTensor :=
  ⟨by decide,
   round_trip_identity diamondGraph [0] [] (World.init [0]) rfl 8 0 callerContext 1 7
    (worldAfter diamondGraph (World.init [0]) [Label.run 8 (some 0) callerContext 1 7]) 0 0
    ⟨rfl, rfl, rfl, rfl⟩ "x" callerTensor
    (fun n hn => by
      rcases reach_diamondGraph hn with h | h | h <;> subst h <;> decide)
    (fun n hn => by
      rcases reach_diamondGraph hn with h | h | h <;> subst h <;> decide)
    (by unfold Binds; decide) diamondCompletions
    (worldAfter diamondGraph (World.init [0]) diamondSchedule) rfl
    (allCompletions_of_check
      (fun j err ctx => decide (err = none) && decide (ctx = j.ctx))
      (fun j err ctx hc => by simpa using hc) _ _ rfl)
    7 1 none callerContext (by decide)⟩

/-! ## The bookkeeping of a run (C3, C4) -/

theorem filter_eraseIdx_of_mem {α : Type} (P : α → Bool) (l : List α) (i : Nat) (a : α)
    (h : l[i]? = some a) (ha : P a = true) :
    ∃ l1 l2, l.filter P = l1 ++ a :: l2 ∧ (l.eraseIdx i).filter P = l1 ++ l2 := by
  induction l generalizing i with
  | nil => simp at h
  | cons x xs ih =>
    cases i with
    | zero =>
      simp only [List.getElem?_cons_zero, Option.some.injEq] at h
      subst h
      exact ⟨[], xs.filter P, by simp [ha], by simp⟩
    | succ k =>
      simp only [List.getElem?_cons_succ] at h
      obtain ⟨l1, l2, h1, h2⟩ := ih k h
      by_cases hx : P x = true
      · exact ⟨x :: l1, l2, by simp [hx, h1], by simp [hx, h2]⟩
      · exact ⟨l1, l2, by simp [hx, h1], by simp [hx, h2]⟩

theorem dispatchedIn_append (a b : List Event) (p : StatePtr) :
    dispatchedIn (a ++ b) p = dispatchedIn a p ++ dispatchedIn b p := by
  simp [dispatchedIn, List.filterMap_append]

theorem handledIn_append (a b : List Event) (p : StatePtr) :
    handledIn (a ++ b) p = handledIn a p ++ handledIn b p := by
  simp [handledIn, List.filterMap_append]

theorem handledOkIn_append (a b : List Event) (p : StatePtr) :
    handledOkIn (a ++ b) p = handledOkIn a p ++ handledOkIn b p := by
  simp [handledOkIn, List.filterMap_append]

theorem handledOkIn_sublist (evs : List Event) (p : StatePtr) :
    (handledOkIn evs p).Sublist (handledIn evs p) := by
  induction evs with
  | nil => simp [handledOkIn, handledIn]
  | cons e rest ih =>
    have h1 : handledOkIn (e :: rest) p = handledOkIn [e] p ++ handledOkIn rest p :=
      handledOkIn_append [e] rest p
    have h2 : handledIn (e :: rest) p = handledIn [e] p ++ handledIn rest p :=
      handledIn_append [e] rest p
    rw [h1, h2]
    refine List.Sublist.append ?_ ih
    cases e with
    | handling q n err c =>
      cases err with
      | none =>
        by_cases hq : q = p <;> simp [handledOkIn, handledIn, List.filterMap_cons, hq]
      | some e1 => simp [handledOkIn, handledIn, List.filterMap_cons]
    | callback _ _ _ _ _ => simp [handledOkIn, handledIn]
    | getNextDevice _ _ => simp [handledOkIn, handledIn]
    | runFunction _ _ _ => simp [handledOkIn, handledIn]
    | propagated _ _ _ => simp [handledOkIn, handledIn]

theorem handledOkIn_nil_of_handledIn {evs : List Event} {p : StatePtr}
    (h : handledIn evs p = []) : handledOkIn evs p = [] := by
  have := handledOkIn_sublist evs p
  rw [h] at this
  exact List.sublist_nil.1 this

/-- Events of other execution states than `p` are no dispatches and no completions
of the run of `p`. -/
theorem quiet_of_tags {evs : List Event} {p : StatePtr} (h : ∀ e ∈ evs, e.tag ≠ some p) :
    dispatchedIn evs p = [] ∧ handledIn evs p = [] := by
  induction evs with
  | nil => exact ⟨rfl, rfl⟩
  | cons e rest ih =>
    have hr := ih (fun e1 he1 => h e1 (List.mem_cons_of_mem _ he1))
    have he := h e (List.mem_cons_self _ _)
    have h1 : dispatchedIn (e :: rest) p = dispatchedIn [e] p ++ dispatchedIn rest p :=
      dispatchedIn_append [e] rest p
    have h2 : handledIn (e :: rest) p = handledIn [e] p ++ handledIn rest p :=
      handledIn_append [e] rest p
    rw [h1, h2, hr.1, hr.2]
    cases e with
    | handling q n err c =>
      have hq : q ≠ p := fun hqp => he (by rw [hqp]; rfl)
      simp [dispatchedIn, handledIn, hq]
    | callback _ _ _ _ _ => simp [dispatchedIn, handledIn]
    | getNextDevice _ _ => simp [dispatchedIn, handledIn]
    | runFunction q n c =>
      have hq : q ≠ p := fun hqp => he (by rw [hqp]; rfl)
      simp [dispatchedIn, handledIn, hq]
    | propagated _ _ _ => simp [dispatchedIn, handledIn]

theorem mem_dispatchedIn {evs : List Event} {p : StatePtr} {n : NodePtr} :
    n ∈ dispatchedIn evs p ↔ ∃ c, Event.runFunction p n c ∈ evs := by
  unfold dispatchedIn
  rw [List.mem_filterMap]
  constructor
  · rintro ⟨e, he, hm⟩
    cases e with
    | runFunction q m c =>
      simp only at hm
      split at hm
      · rename_i hq
        injection hm with hm
        subst hq hm
        exact ⟨c, he⟩
      · cases hm
    | handling _ _ _ _ => cases hm
    | callback _ _ _ _ _ => cases hm
    | getNextDevice _ _ => cases hm
    | propagated _ _ _ => cases hm
  · rintro ⟨c, hc⟩
    exact ⟨_, hc, by simp⟩

namespace Served

theorem append {evs : List Event} {p : StatePtr} {q n : NodePtr} (h : Served evs p q n)
    (more : List Event) : Served (evs ++ more) p q n := by
  obtain ⟨ctx, i, j, hij, hi, hj⟩ := h
  refine ⟨ctx, i, j, hij, ?_, ?_⟩
  · rw [List.getElem?_append_left (List.getElem?_eq_some.1 hi).1]
    exact hi
  · rw [List.getElem?_append_left (List.getElem?_eq_some.1 hj).1]
    exact hj

theorem of_take {evs : List Event} {p : StatePtr} {q n : NodePtr} {i : Nat}
    (h : Served (evs.take i) p q n) : Served evs p q n := by
  have := h.append (evs.drop i)
  rwa [List.take_append_drop] at this

/-- The handling event is in the log and the propagation is logged now. -/
theorem now {evs : List Event} {p : StatePtr} {q n : NodePtr} {ctx : ExecutionContext}
    (h : Event.handling p q none ctx ∈ evs) :
    Served (evs ++ [Event.propagated p n ctx]) p q n := by
  obtain ⟨i, hi⟩ := List.mem_iff_getElem?.1 h
  have hlt := (List.getElem?_eq_some.1 hi).1
  refine ⟨ctx, i, evs.length, hlt, ?_, ?_⟩
  · rw [List.getElem?_append_left hlt]
    exact hi
  · rw [List.getElem?_append_right (Nat.le_refl _)]
    simp

end Served

namespace Ledger

variable {G : Graph} {root : NodePtr} {p : StatePtr}

/-- Appending events that are neither dispatches nor completions of the run
keeps the invariant, as long as the outstanding calls and the counters of the
run stay and no moved context comes back. -/
theorem quiet {cur : NodePtr} {post rem : List NodePtr} {ex ex1 : ThreadPoolExecutor}
    {st st1 : ExecutionState} (h : Ledger G root p cur post ex st rem) (evs : List Event)
    (hev : ex1.events = ex.events ++ evs) (hd : dispatchedIn evs p = [])
    (hh : handledIn evs p = []) (hj : jobsOf ex1 p = jobsOf ex p)
    (hi : ∀ n, mapFind st.inputCtxs_ n = some none → mapFind st1.inputCtxs_ n = some none)
    (hc : st1.nodeParentsDone_ = st.nodeParentsDone_) :
    Ledger G root p cur post ex1 st1 rem := by
  have hD : dispatchedIn ex1.events p = dispatchedIn ex.events p := by
    rw [hev, dispatchedIn_append, hd, List.append_nil]
  have hH : handledIn ex1.events p = handledIn ex.events p := by
    rw [hev, handledIn_append, hh, List.append_nil]
  have hHo : handledOkIn ex1.events p = handledOkIn ex.events p := by
    rw [hev, handledOkIn_append, handledOkIn_nil_of_handledIn hh, List.append_nil]
  refine ⟨?_, ?_, ?_, ?_, h.remSub, h.postNodup, h.postCur, ?_, ?_, ?_⟩
  · intro n hn
    rw [hD] at hn
    exact hi n (h.moved n hn)
  · rw [hD]
    exact h.dNodup
  · rw [hD, hH, hj]
    exact h.perm
  · intro n hn
    rw [hD] at hn
    exact h.reach n hn
  · intro n c hn hnr hf
    rw [hc] at hf
    rw [hHo]
    exact h.counters n c hn hnr hf
  · intro q hq n hn hcond
    rw [hHo] at hq
    rw [hev]
    exact (h.served q hq n hn hcond).append evs
  · intro i n c hi1 hnr q hq
    rw [hev] at hi1 ⊢
    by_cases hlt : i < ex.events.length
    · rw [List.getElem?_append_left hlt] at hi1
      rw [List.take_append_of_le_length (Nat.le_of_lt hlt)]
      exact h.servedAt i n c hi1 hnr q hq
    · rw [List.getElem?_append_right (Nat.le_of_not_lt hlt)] at hi1
      have hm : n ∈ dispatchedIn evs p :=
        mem_dispatchedIn.2 ⟨c, List.mem_iff_getElem?.2 ⟨_, hi1⟩⟩
      rw [hd] at hm
      cases hm

/-- Between the steps the node that was handled last does not matter. -/
theorem forget {cur cur1 : NodePtr} {rem : List NodePtr} {ex : ThreadPoolExecutor}
    {st : ExecutionState} (h : Ledger G root p cur [] ex st rem) :
    Ledger G root p cur1 [] ex st rem :=
  ⟨h.moved, h.dNodup, h.perm, h.reach, h.remSub, List.nodup_nil,
    fun n hn => absurd hn (List.not_mem_nil n), h.counters,
    fun q hq n hn _ => h.served q hq n hn (fun _ => List.not_mem_nil n), h.servedAt⟩

/-- The effect of the dispatch at the end of `executeDAGNode`. -/
theorem dispatch {cur : NodePtr} {post rem : List NodePtr} {ex : ThreadPoolExecutor}
    {st : ExecutionState} (h : Ledger G root p cur post ex st rem) {c : NodePtr}
    {nodeCtx : ExecutionContext} (hfind : mapFind st.inputCtxs_ c = some (some nodeCtx))
    (hreach : Reach G root c)
    (hserved : c ∉ (G root).children → ∀ q ∈ (G c).parents, Served ex.events p q c) :
    Ledger G root p cur post
      { ex with
        events := ex.events ++ [Event.getNextDevice p c, Event.runFunction p c nodeCtx],
        outstanding := ex.outstanding ++ [{ state := p, node := c, ctx := nodeCtx }] }
      { st with inputCtxs_ := mapAssign st.inputCtxs_ c none } rem := by
  have hcD : c ∉ dispatchedIn ex.events p := by
    intro hc
    rw [h.moved c hc] at hfind
    cases hfind
  have hD : dispatchedIn (ex.events ++ [Event.getNextDevice p c, Event.runFunction p c nodeCtx]) p
      = dispatchedIn ex.events p ++ [c] := by
    rw [dispatchedIn_append]
    simp [dispatchedIn]
  have hH : handledIn (ex.events ++ [Event.getNextDevice p c, Event.runFunction p c nodeCtx]) p
      = handledIn ex.events p := by
    rw [handledIn_append]
    simp [handledIn]
  have hHo : handledOkIn
      (ex.events ++ [Event.getNextDevice p c, Event.runFunction p c nodeCtx]) p
      = handledOkIn ex.events p := by
    rw [handledOkIn_append]
    simp [handledOkIn]
  have hJ : jobsOf { ex with
        events := ex.events ++ [Event.getNextDevice p c, Event.runFunction p c nodeCtx],
        outstanding := ex.outstanding ++ [{ state := p, node := c, ctx := nodeCtx }] } p
      = jobsOf ex p ++ [{ state := p, node := c, ctx := nodeCtx }] := by
    simp [jobsOf, List.filter_append]
  refine ⟨?_, ?_, ?_, ?_, h.remSub, h.postNodup, h.postCur, ?_, ?_, ?_⟩
  · intro n hn
    simp only [hD, List.mem_append, List.mem_singleton] at hn
    by_cases hnc : n = c
    · subst hnc
      exact mapFind_mapAssign_self _ _ _
    · rcases hn with hn | hn
      · simp only
        rw [mapFind_mapAssign_ne _ _ hnc]
        exact h.moved n hn
      · exact absurd hn hnc
  · simp only [hD]
    refine List.Nodup.append h.dNodup (List.nodup_singleton c) ?_
    intro a ha hac
    simp only [List.mem_singleton] at hac
    subst hac
    exact hcD ha
  · simp only [hD, hH, hJ, List.map_append, List.map_cons, List.map_nil, ← List.append_assoc]
    exact List.Perm.append_right _ h.perm
  · intro n hn
    simp only [hD, List.mem_append, List.mem_singleton] at hn
    rcases hn with hn | hn
    · exact h.reach n hn
    · rw [hn]
      exact hreach
  · intro n k hn hnr hf
    simp only [hHo]
    exact h.counters n k hn hnr hf
  · intro q hq n hn hcond
    simp only [hHo] at hq
    exact (h.served q hq n hn hcond).append _
  · intro i n k hi1 hnr q hq
    simp only at hi1 ⊢
    by_cases hlt : i < ex.events.length
    · rw [List.getElem?_append_left hlt] at hi1
      rw [List.take_append_of_le_length (Nat.le_of_lt hlt)]
      exact h.servedAt i n k hi1 hnr q hq
    · rw [List.getElem?_append_right (Nat.le_of_not_lt hlt)] at hi1
      have hi2 : i - ex.events.length = 1 ∧ n = c := by
        cases hk : i - ex.events.length with
        | zero => simp [hk] at hi1
        | succ m =>
          cases m with
          | zero =>
            simp [hk] at hi1
            exact ⟨rfl, hi1.1.symm⟩
          | succ m1 => simp [hk] at hi1
      obtain ⟨hi3, hnc⟩ := hi2
      subst hnc
      have htake : (ex.events ++ [Event.getNextDevice p n, Event.runFunction p n nodeCtx]).take i
          = ex.events ++ [Event.getNextDevice p n] := by
        have hi4 : i = ex.events.length + 1 := by omega
        rw [hi4, List.take_append]
        simp
      rw [htake]
      exact (hserved hnr q hq).append _

end Ledger

theorem propagateSymbols_keeps_moved {node : NodePtr} {ctx : ExecutionContext}
    (syms : List (String × RuntimeSymbolInfo)) {st st1 : ExecutionState}
    (h : ThreadPoolExecutor.propagateSymbols node ctx syms st = .ok st1) (n : NodePtr)
    (hn : mapFind st.inputCtxs_ n = some none) : mapFind st1.inputCtxs_ n = some none := by
  induction syms generalizing st with
  | nil =>
    simp only [ThreadPoolExecutor.propagateSymbols] at h
    injection h with h
    subst h
    exact hn
  | cons s rest ih =>
    simp only [ThreadPoolExecutor.propagateSymbols] at h
    split at h
    · exact ih h hn
    · split at h
      · cases h
      · split at h
        · cases h
        · rename_i st2 h2
          obtain ⟨c, ph, hc, -, h3⟩ := insertIntoNodeCtx_ok h2
          apply ih h
          rw [h3]
          by_cases hnn : n = node
          · subst hnn
            rw [hc] at hn
            cases hn
          · simp only
            rw [mapFind_mapAssign_ne _ _ hnn]
            exact hn

namespace Ledger

variable {G : Graph} {root : NodePtr} {p : StatePtr}

theorem handledOk_nodup {cur : NodePtr} {post rem : List NodePtr} {ex : ThreadPoolExecutor}
    {st : ExecutionState} (h : Ledger G root p cur post ex st rem) :
    (handledOkIn ex.events p).Nodup := by
  have h1 : (handledIn ex.events p ++ (jobsOf ex p).map (fun j => j.node)).Nodup :=
    (h.perm.nodup_iff).1 h.dNodup
  exact (List.Nodup.of_append_left h1).sublist (handledOkIn_sublist _ _)

theorem handledOk_reach {cur : NodePtr} {post rem : List NodePtr} {ex : ThreadPoolExecutor}
    {st : ExecutionState} (h : Ledger G root p cur post ex st rem) {q : NodePtr}
    (hq : q ∈ handledOkIn ex.events p) : Reach G root q := by
  apply h.reach
  apply h.perm.symm.subset
  exact List.mem_append_left _ ((handledOkIn_sublist _ _).subset hq)

/-- The parents of `c` that were handled without error are among `c.parents`. -/
theorem credited_le {cur : NodePtr} {post rem : List NodePtr} {ex : ThreadPoolExecutor}
    {st : ExecutionState} (hwf : WellFormedDAG G root) (h : Ledger G root p cur post ex st rem)
    {c : NodePtr} (hc : Reach G root c) (hnr : c ∉ (G root).children) :
    (((handledOkIn ex.events p).filter (fun m => decide (c ∈ (G m).children))).Subperm
      (G c).parents) := by
  apply List.subperm_of_subset (h.handledOk_nodup.filter _)
  intro q hq
  rw [List.mem_filter] at hq
  exact (hwf.parents c hc hnr q).2 ⟨h.handledOk_reach hq.1, by simpa using hq.2⟩

/-- The increment of the parents-done counter of the child `c` in the handler of
`cur`, after the outputs of `cur` were propagated into `c`. -/
theorem credit {cur c : NodePtr} {rest rem : List NodePtr} {ex : ThreadPoolExecutor}
    {st : ExecutionState} (hwf : WellFormedDAG G root)
    (h : Ledger G root p cur (c :: rest) ex st rem) (hcur : Reach G root cur)
    (hsv : Served ex.events p cur c) {r : Bool × ExecutionState}
    (hr : st.incrementNodeParentsDone G c 1 = .ok r) :
    Ledger G root p cur rest ex r.2 rem ∧
      (r.1 = true → ∀ q ∈ (G c).parents, Served ex.events p q c) := by
  obtain ⟨prev, hfind, hle, hready, hr2⟩ := incrementNodeParentsDone_ok hr
  have hcc : c ∈ (G cur).children := h.postCur c (List.mem_cons_self _ _)
  have hreach : Reach G root c := Reach.step hcur hcc
  have hnr : c ∉ (G root).children := hwf.rootChildren cur hcur c hcc
  have hcount := h.counters c prev hreach hnr hfind
  simp only [List.mem_cons, true_or, if_true] at hcount
  have hsub := h.credited_le hwf hreach hnr
  have hlen := hsub.length_le
  have hfit := hwf.parentsFit c hreach
  have hcrest : c ∉ rest := (List.nodup_cons.1 h.postNodup).1
  have hnew : (prev + 1) % UNSIGNED_MOD =
      ((handledOkIn ex.events p).filter (fun m => decide (c ∈ (G m).children))).length := by
    rw [hcount]
    exact Nat.mod_eq_of_lt (Nat.lt_of_le_of_lt hlen hfit)
  refine ⟨?_, ?_⟩
  · rw [hr2]
    refine ⟨h.moved, h.dNodup, h.perm, h.reach, h.remSub, (List.nodup_cons.1 h.postNodup).2,
      fun n hn => h.postCur n (List.mem_cons_of_mem _ hn), ?_, ?_, h.servedAt⟩
    · intro n k hn hnr1 hf
      simp only at hf
      by_cases hnc : n = c
      · subst hnc
        rw [mapFind_mapAssign_self] at hf
        injection hf with hf
        rw [← hf, if_neg hcrest, Nat.add_zero]
        exact hnew
      · rw [mapFind_mapAssign_ne _ _ hnc] at hf
        have := h.counters n k hn hnr1 hf
        simp only [List.mem_cons, hnc, false_or] at this
        exact this
    · intro q hq n hn hcond
      by_cases hqc : q = cur ∧ n = c
      · rw [hqc.1, hqc.2]
        exact hsv
      · apply h.served q hq n hn
        intro hq1 hmem
        rcases List.mem_cons.1 hmem with h1 | h1
        · exact hqc ⟨hq1, h1⟩
        · exact hcond hq1 h1
  · intro hr1
    rw [hready] at hr1
    have heq : ((handledOkIn ex.events p).filter (fun m => decide (c ∈ (G m).children))).length
        = (G c).parents.length := by
      have h1 : (prev + 1) % UNSIGNED_MOD = (G c).parents.length % UNSIGNED_MOD := by
        simpa using hr1
      rw [hnew, Nat.mod_eq_of_lt hfit] at h1
      exact h1
    have hperm := hsub.perm_of_length_le (Nat.le_of_eq heq.symm)
    intro q hq
    have hqF := hperm.symm.subset hq
    rw [List.mem_filter] at hqF
    by_cases hqc : q = cur
    · rw [hqc]
      exact hsv
    · exact h.served q hqF.1 c (by simpa using hqF.2) (fun h1 => absurd h1 hqc)

/-- The start of `handleDeviceManagerResult` for an outstanding call of the run
that completed without error. -/
theorem enter {cur0 : NodePtr} {rem : List NodePtr} {ex : ThreadPoolExecutor}
    {st : ExecutionState} (hwf : WellFormedDAG G root) (h : Ledger G root p cur0 [] ex st rem)
    {i : Nat} {j : Job} (hj : ex.outstanding[i]? = some j) (hjp : j.state = p)
    (ctx : ExecutionContext) :
    Reach G root j.node ∧
      Ledger G root p j.node (G j.node).children
        (ThreadPoolExecutor.log { ex with outstanding := ex.outstanding.eraseIdx i }
          (Event.handling p j.node none ctx)) st rem := by
  obtain ⟨l1, l2, hf1, hf2⟩ := filter_eraseIdx_of_mem (fun j => j.state == p) _ _ _ hj
    (by simpa using hjp)
  have hJ : jobsOf ex p = l1 ++ j :: l2 := hf1
  have hmD : j.node ∈ dispatchedIn ex.events p := by
    apply h.perm.symm.subset
    rw [hJ]
    simp
  have hreach := h.reach _ hmD
  have hnd : (handledIn ex.events p ++ (jobsOf ex p).map (fun j => j.node)).Nodup :=
    (h.perm.nodup_iff).1 h.dNodup
  have hmH : j.node ∉ handledIn ex.events p := by
    intro hm
    have := List.disjoint_of_nodup_append hnd hm
    apply this
    rw [hJ]
    simp
  have hmHo : j.node ∉ handledOkIn ex.events p :=
    fun hm => hmH ((handledOkIn_sublist _ _).subset hm)
  refine ⟨hreach, ?_, ?_, ?_, ?_, h.remSub, hwf.childrenNodup _ hreach, fun n hn => hn,
    ?_, ?_, ?_⟩
  · intro n hn
    simp only [ThreadPoolExecutor.log, dispatchedIn_append] at hn
    simp only [dispatchedIn, List.filterMap_cons, List.filterMap_nil, List.append_nil] at hn
    exact h.moved n hn
  · simp only [ThreadPoolExecutor.log, dispatchedIn_append]
    simp only [dispatchedIn, List.filterMap_cons, List.filterMap_nil, List.append_nil]
    exact h.dNodup
  · have hJ2 : jobsOf (ThreadPoolExecutor.log
        { ex with outstanding := ex.outstanding.eraseIdx i }
        (Event.handling p j.node none ctx)) p = l1 ++ l2 := hf2
    rw [hJ2]
    simp only [ThreadPoolExecutor.log, dispatchedIn_append, handledIn_append]
    simp only [dispatchedIn, handledIn, List.filterMap_cons, List.filterMap_nil, List.append_nil,
      if_true]
    refine h.perm.trans ?_
    rw [hJ]
    simp only [handledIn, List.map_append, List.map_cons, List.append_assoc]
    refine List.Perm.append_left _ ?_
    exact List.perm_middle
  · intro n hn
    simp only [ThreadPoolExecutor.log, dispatchedIn_append] at hn
    simp only [dispatchedIn, List.filterMap_cons, List.filterMap_nil, List.append_nil] at hn
    exact h.reach n hn
  · intro n k hn hnr hf
    have h1 := h.counters n k hn hnr hf
    simp only [List.not_mem_nil, if_false, Nat.add_zero] at h1
    simp only [ThreadPoolExecutor.log, handledOkIn_append]
    simp only [handledOkIn, List.filterMap_cons, List.filterMap_nil, if_true, List.filter_append,
      List.length_append]
    simp only [handledOkIn] at h1
    rw [← h1]
    by_cases hm : n ∈ (G j.node).children <;> simp [hm]
  · intro q hq n hn hcond
    simp only [ThreadPoolExecutor.log, handledOkIn_append, List.mem_append] at hq
    simp only [ThreadPoolExecutor.log]
    rcases hq with hq | hq
    · exact (h.served q hq n hn (fun _ => List.not_mem_nil n)).append _
    · simp only [handledOkIn, List.filterMap_cons, List.filterMap_nil, if_true,
        List.mem_singleton] at hq
      subst hq
      exact absurd hn (hcond rfl)
  · intro k n c hk hnr q hq
    simp only [ThreadPoolExecutor.log] at hk ⊢
    by_cases hlt : k < ex.events.length
    · rw [List.getElem?_append_left hlt] at hk
      rw [List.take_append_of_le_length (Nat.le_of_lt hlt)]
      exact h.servedAt k n c hk hnr q hq
    · rw [List.getElem?_append_right (Nat.le_of_not_lt hlt)] at hk
      cases hk1 : k - ex.events.length with
      | zero => simp [hk1] at hk
      | succ m => simp [hk1] at hk

/-- The start of `handleDeviceManagerResult` for an outstanding call of the run
that completed with an error. -/
theorem enterFailed {cur0 : NodePtr} {rem : List NodePtr} {ex : ThreadPoolExecutor}
    {st : ExecutionState} (h : Ledger G root p cur0 [] ex st rem)
    {i : Nat} {j : Job} (hj : ex.outstanding[i]? = some j) (hjp : j.state = p)
    (e : ErrorCode) (ctx : ExecutionContext) :
    Ledger G root p j.node []
      (ThreadPoolExecutor.log { ex with outstanding := ex.outstanding.eraseIdx i }
        (Event.handling p j.node (some e) ctx)) st rem := by
  obtain ⟨l1, l2, hf1, hf2⟩ := filter_eraseIdx_of_mem (fun j => j.state == p) _ _ _ hj
    (by simpa using hjp)
  have hJ : jobsOf ex p = l1 ++ j :: l2 := hf1
  refine ⟨?_, ?_, ?_, ?_, h.remSub, List.nodup_nil, fun n hn => absurd hn (List.not_mem_nil n),
    ?_, ?_, ?_⟩
  · intro n hn
    simp only [ThreadPoolExecutor.log, dispatchedIn_append] at hn
    simp only [dispatchedIn, List.filterMap_cons, List.filterMap_nil, List.append_nil] at hn
    exact h.moved n hn
  · simp only [ThreadPoolExecutor.log, dispatchedIn_append]
    simp only [dispatchedIn, List.filterMap_cons, List.filterMap_nil, List.append_nil]
    exact h.dNodup
  · have hJ2 : jobsOf (ThreadPoolExecutor.log
        { ex with outstanding := ex.outstanding.eraseIdx i }
        (Event.handling p j.node (some e) ctx)) p = l1 ++ l2 := hf2
    rw [hJ2]
    simp only [ThreadPoolExecutor.log, dispatchedIn_append, handledIn_append]
    simp only [dispatchedIn, handledIn, List.filterMap_cons, List.filterMap_nil, List.append_nil,
      if_true]
    refine h.perm.trans ?_
    rw [hJ]
    simp only [handledIn, List.map_append, List.map_cons, List.append_assoc]
    refine List.Perm.append_left _ ?_
    exact List.perm_middle
  · intro n hn
    simp only [ThreadPoolExecutor.log, dispatchedIn_append] at hn
    simp only [dispatchedIn, List.filterMap_cons, List.filterMap_nil, List.append_nil] at hn
    exact h.reach n hn
  · intro n k hn hnr hf
    have h1 := h.counters n k hn hnr hf
    simp only [ThreadPoolExecutor.log, handledOkIn_append]
    simp only [handledOkIn, List.filterMap_cons, List.filterMap_nil, List.append_nil]
    simp only [handledOkIn] at h1
    exact h1
  · intro q hq n hn hcond
    simp only [ThreadPoolExecutor.log, handledOkIn_append, List.mem_append] at hq
    simp only [ThreadPoolExecutor.log]
    rcases hq with hq | hq
    · exact (h.served q hq n hn (fun _ => List.not_mem_nil n)).append _
    · simp [handledOkIn] at hq
  · intro k n c hk hnr q hq
    simp only [ThreadPoolExecutor.log] at hk ⊢
    by_cases hlt : k < ex.events.length
    · rw [List.getElem?_append_left hlt] at hk
      rw [List.take_append_of_le_length (Nat.le_of_lt hlt)]
      exact h.servedAt k n c hk hnr q hq
    · rw [List.getElem?_append_right (Nat.le_of_not_lt hlt)] at hk
      cases hk1 : k - ex.events.length with
      | zero => simp [hk1] at hk
      | succ m => simp [hk1] at hk

end Ledger

namespace Ledger

variable {G : Graph} {root : NodePtr} {p : StatePtr}

theorem propagate {cur : NodePtr} {post rem : List NodePtr} {ex : ThreadPoolExecutor}
    {st : ExecutionState} {n : NodePtr} {src : ExecutionContext}
    {r : ThreadPoolExecutor × ExecutionState}
    (h : Ledger G root p cur post ex st rem) (hs : st.self = p)
    (hr : ThreadPoolExecutor.propagatePlaceholdersForNode G ex st n src = .ok r) :
    Ledger G root p cur post r.1 r.2 rem ∧
      r.1.events = ex.events ++ [Event.propagated p n src] := by
  obtain ⟨h1, h2, h3⟩ := propagatePlaceholdersForNode_ok hr
  have hev : r.1.events = ex.events ++ [Event.propagated p n src] := by
    rw [h1, hs]
    rfl
  refine ⟨h.quiet [Event.propagated p n src] hev (by simp [dispatchedIn])
    (by simp [handledIn]) (by rw [h1]; rfl) ?_ (by rw [h3]), hev⟩
  intro m hm
  exact propagateSymbols_keeps_moved _ h2 m hm

theorem execute {cur : NodePtr} {post rem : List NodePtr} {ex : ThreadPoolExecutor}
    {st : ExecutionState} {c : NodePtr} {r : ThreadPoolExecutor × ExecutionState}
    (h : Ledger G root p cur post ex st rem) (hs : st.self = p) (hreach : Reach G root c)
    (hserved : c ∉ (G root).children → ∀ q ∈ (G c).parents, Served ex.events p q c)
    (hr : ThreadPoolExecutor.executeDAGNode G ex st c = .ok r) :
    Ledger G root p cur post r.1 r.2 rem := by
  rcases executeDAGNode_ok hr with ⟨-, h1⟩ | ⟨-, -, h1⟩ | ⟨-, -, nodeCtx, hfind, h1⟩
  · obtain ⟨-, -, h3⟩ := markNoLongerExecuting_ok h1
    subst h3
    exact h.quiet [] (by simp) rfl rfl rfl (fun _ hn => hn) rfl
  · obtain ⟨-, -, h3⟩ := markNoLongerExecuting_ok h1
    subst h3
    have hf := setError_frame st (some ErrorCode.RUNTIME_DEVICE_NOT_FOUND)
    refine h.quiet [Event.getNextDevice st.self c] rfl (by simp [dispatchedIn])
      (by simp [handledIn]) rfl ?_ hf.2.2.1
    intro n hn
    simp only
    rw [hf.2.1]
    exact hn
  · subst h1 hs
    exact h.dispatch hfind hreach hserved

theorem handleChild {cur c : NodePtr} {rest rem : List NodePtr} {ex : ThreadPoolExecutor}
    {st : ExecutionState} {ctx : ExecutionContext} {r : ThreadPoolExecutor × ExecutionState}
    (hwf : WellFormedDAG G root) (h : Ledger G root p cur (c :: rest) ex st rem)
    (hs : st.self = p) (hcur : Reach G root cur)
    (hlog : Event.handling p cur none ctx ∈ ex.events)
    (hr : ThreadPoolExecutor.handleChild G ctx ex st c = .ok r) :
    Ledger G root p cur rest r.1 r.2 rem ∧ Event.handling p cur none ctx ∈ r.1.events := by
  obtain ⟨pr, q, h1, h2, h3, h4⟩ := handleChild_ok hr
  obtain ⟨i1, hev⟩ := h.propagate hs h1
  obtain ⟨-, s1⟩ := appends_propagate h1
  have hsv : Served pr.1.events p cur c := by
    rw [hev]
    exact Served.now hlog
  obtain ⟨i2, i3⟩ := i1.credit hwf hcur hsv h2
  obtain ⟨prev, -, -, -, hq⟩ := incrementNodeParentsDone_ok h2
  have hlog1 : Event.handling p cur none ctx ∈ pr.1.events := by
    rw [hev]
    exact List.mem_append_left _ hlog
  have hcc : c ∈ (G cur).children := h.postCur c (List.mem_cons_self _ _)
  cases hready : q.1 with
  | false =>
    rw [h4 hready]
    exact ⟨i2, hlog1⟩
  | true =>
    have i4 : Ledger G root p cur rest
        { pr.1 with inflightBarrier_ := pr.1.inflightBarrier_.increment 1 }
        (q.2.incrementInflightNodes 1) rem :=
      i2.quiet [] (by simp) rfl rfl rfl (fun _ hn => hn) rfl
    have hs2 : (q.2.incrementInflightNodes 1).self = p := by
      show q.2.self = p
      rw [hq]
      exact s1.trans hs
    refine ⟨i4.execute hs2 (Reach.step hcur hcc) (fun _ => i3 hready) (h3 hready), ?_⟩
    obtain ⟨⟨-, -, evs, jobs, he, -, -, -⟩, -⟩ := appends_executeDAGNode (h3 hready)
    rw [he]
    exact List.mem_append_left _ hlog1

theorem handleChildren {cur : NodePtr} {rem : List NodePtr} {ctx : ExecutionContext}
    (hwf : WellFormedDAG G root) (post : List NodePtr) {ex : ThreadPoolExecutor}
    {st : ExecutionState} {r : ThreadPoolExecutor × ExecutionState}
    (h : Ledger G root p cur post ex st rem) (hs : st.self = p) (hcur : Reach G root cur)
    (hlog : Event.handling p cur none ctx ∈ ex.events)
    (hr : ThreadPoolExecutor.handleChildren G ctx post ex st = .ok r) :
    Ledger G root p cur [] r.1 r.2 rem := by
  induction post generalizing ex st with
  | nil =>
    simp only [ThreadPoolExecutor.handleChildren] at hr
    injection hr with hr
    subst hr
    exact h
  | cons c rest ih =>
    simp only [ThreadPoolExecutor.handleChildren] at hr
    split at hr
    · cases hr
    · rename_i ex1 st1 h1
      obtain ⟨i1, hlog1⟩ := h.handleChild hwf hs hcur hlog h1
      obtain ⟨-, s1⟩ := appends_handleChild h1
      exact ih i1 (s1.trans hs) hlog1 hr

theorem finishNode {cur : NodePtr} {rem : List NodePtr} {ex : ThreadPoolExecutor}
    {st : ExecutionState} {r : ThreadPoolExecutor × ExecutionState}
    (h : Ledger G root p cur [] ex st rem)
    (hr : ThreadPoolExecutor.finishNode ex st = .ok r) :
    Ledger G root p cur [] r.1 r.2 rem := by
  obtain ⟨-, -, h3⟩ := finishNode_ok hr
  rcases h3 with ⟨-, rc, -, h5⟩ | ⟨-, h5⟩
  · subst h5
    exact h.quiet [Event.callback (some st.self) st.cb_ st.runId_ st.errorContainer_ rc] rfl
      (by simp [dispatchedIn]) (by simp [handledIn]) rfl (fun _ hn => hn) rfl
  · subst h5
    exact h.quiet [] (by simp) rfl rfl rfl (fun _ hn => hn) rfl

theorem handle {cur0 : NodePtr} {rem : List NodePtr} {ex : ThreadPoolExecutor}
    {st : ExecutionState} {i : Nat} {j : Job} {err : Error} {ctx : ExecutionContext}
    {r : ThreadPoolExecutor × ExecutionState}
    (hwf : WellFormedDAG G root) (h : Ledger G root p cur0 [] ex st rem) (hs : st.self = p)
    (hj : ex.outstanding[i]? = some j) (hjp : j.state = p)
    (hr : ThreadPoolExecutor.handleDeviceManagerResult G
      { ex with outstanding := ex.outstanding.eraseIdx i } st err ctx j.node = .ok r) :
    Ledger G root p cur0 [] r.1 r.2 rem := by
  obtain ⟨pr, hf, hp⟩ := handleDeviceManagerResult_ok hr
  rw [hs] at hp
  rcases hp with ⟨hne, hp⟩ | ⟨he, hch, hp1, hp2⟩ | ⟨he, -, hp⟩
  · cases err with
    | none => exact absurd rfl hne
    | some e =>
      have i1 := h.enterFailed hj hjp e ctx
      have hfr := setError_frame st (some e)
      have i2 : Ledger G root p j.node [] pr.1 pr.2 rem := by
        rw [hp]
        refine i1.quiet [] (by simp) rfl rfl rfl ?_ hfr.2.2.1
        intro n hn
        simp only
        rw [hfr.2.1]
        exact hn
      exact (i2.finishNode hf).forget
  · subst he
    obtain ⟨-, i1⟩ := h.enter hwf hj hjp ctx
    rw [hch] at i1
    have hfr := (propagateOutputPairs_frame _ hp2).1
    have i2 : Ledger G root p j.node [] pr.1 pr.2 rem := by
      refine i1.quiet [] (by rw [hp1]; simp) rfl rfl (by rw [hp1]) ?_ (by rw [hfr])
      intro n hn
      rw [hfr]
      exact hn
    exact (i2.finishNode hf).forget
  · subst he
    obtain ⟨hreach, i1⟩ := h.enter hwf hj hjp ctx
    have i2 := i1.handleChildren hwf _ hs hreach
      (by simp [ThreadPoolExecutor.log]) hp
    exact (i2.finishNode hf).forget

theorem runChild {cur : NodePtr} {ex : ThreadPoolExecutor} {st : ExecutionState} {c : NodePtr}
    {rest : List NodePtr} {r : ThreadPoolExecutor × ExecutionState}
    (h : Ledger G root p cur [] ex st (c :: rest)) (hs : st.self = p)
    (hr : ThreadPoolExecutor.runChild G ex st c = .ok r) :
    Ledger G root p cur [] r.1 r.2 rest := by
  have hc : c ∈ (G root).children := h.remSub c (List.mem_cons_self _ _)
  have h0 : Ledger G root p cur [] ex st rest :=
    ⟨h.moved, h.dNodup, h.perm, h.reach, fun n hn => h.remSub n (List.mem_cons_of_mem _ hn),
      h.postNodup, h.postCur, h.counters, h.served, h.servedAt⟩
  unfold ThreadPoolExecutor.runChild at hr
  split at hr
  · cases hr
  · split at hr
    · cases hr
    · rename_i ex1 st1 h1
      obtain ⟨i1, -⟩ := h0.propagate hs h1
      obtain ⟨-, s1⟩ := appends_propagate h1
      exact i1.execute (s1.trans hs) (Reach.child hc) (fun hn => absurd hc hn) hr

theorem stable {cur : NodePtr} {rem : List NodePtr} {ex ex1 : ThreadPoolExecutor}
    {st : ExecutionState} (h : Ledger G root p cur [] ex st rem) (hf : ForeignChange p ex ex1) :
    Ledger G root p cur [] ex1 st rem := by
  obtain ⟨-, ⟨evs, hev, htag⟩, hjobs⟩ := hf
  obtain ⟨hd, hh⟩ := quiet_of_tags htag
  exact h.quiet evs hev hd hh hjobs (fun _ hn => hn) rfl

theorem initial {fuel : Nat} {context : ExecutionContext} {runId : RunIdentifierTy}
    {cb : ResultCBTy} (ex : ThreadPoolExecutor) (st0 : ExecutionState)
    (hev : ∀ e ∈ ex.events, e.tag ≠ some p) (hjobs : jobsOf ex p = [])
    (hc : ExecutionState.create G fuel p runId root context cb = .ok st0) :
    Ledger G root p root [] ex (st0.incrementInflightNodes (G root).children.length)
      (G root).children := by
  obtain ⟨hd, hh⟩ := quiet_of_tags hev
  have hho := handledOkIn_nil_of_handledIn hh
  refine ⟨?_, ?_, ?_, ?_, fun n hn => hn, List.nodup_nil,
    fun n hn => absurd hn (List.not_mem_nil n), ?_, ?_, ?_⟩
  · intro n hn
    rw [hd] at hn
    cases hn
  · rw [hd]
    exact List.nodup_nil
  · rw [hd, hh, hjobs]
    exact List.Perm.refl _
  · intro n hn
    rw [hd] at hn
    cases hn
  · intro n c _ _ hf
    rw [hho]
    have := (constructed_create hc).counters n c hf
    simp [this]
  · intro q hq
    rw [hho] at hq
    cases hq
  · intro i n c hi
    have hm : n ∈ dispatchedIn ex.events p :=
      mem_dispatchedIn.2 ⟨c, List.mem_iff_getElem?.2 ⟨i, hi⟩⟩
    rw [hd] at hm
    cases hm

end Ledger

theorem allCompletions_trivial (G : Graph) (p : StatePtr) (ls : List Label) (w : World) :
    allCompletions G p (fun _ _ _ => True) w ls := by
  induction ls generalizing w with
  | nil => trivial
  | cons l rest ih =>
    refine ⟨?_, fun w1 _ => ih w1⟩
    cases l <;> simp

theorem wellFormed_diamondGraph : WellFormedDAG diamondGraph 0 := by
  refine ⟨by decide, ?_, ?_, ?_, ?_, ?_⟩
  · intro m hm
    rcases reach_diamondGraph hm with h | h | h <;> subst h <;> decide
  · intro m hm c hc
    rcases reach_diamondGraph hm with h | h | h <;> subst h <;>
      simp [diamondGraph, scenarioNode] at hc <;> subst hc <;> decide
  · intro n hn _
    rcases reach_diamondGraph hn with h | h | h <;> subst h <;> decide
  · intro n hn hnr m
    rcases reach_diamondGraph hn with h | h | h
    · subst h
      exact absurd (by decide) hnr
    · subst h
      exact absurd (by decide) hnr
    · subst h
      constructor
      · intro hm
        simp only [diamondGraph, scenarioNode, List.mem_cons, List.mem_singleton,
          List.not_mem_nil, or_false] at hm
        rcases hm with hm | hm <;> subst hm
        · exact ⟨Reach.child (by decide), by decide⟩
        · exact ⟨Reach.child (by decide), by decide⟩
      · rintro ⟨hm, hc⟩
        rcases reach_diamondGraph hm with h | h | h <;> subst h
        · decide
        · decide
        · simp [diamondGraph, scenarioNode] at hc
  · intro n hn
    rcases reach_diamondGraph hn with h | h | h <;> subst h <;> decide

theorem callbacksIn_append (a b : List Event) (p : StatePtr) :
    callbacksIn (a ++ b) p = callbacksIn a p ++ callbacksIn b p := by
  simp [callbacksIn, List.filter_append]

theorem callbacksIn_of_tags {evs : List Event} {p : StatePtr} (h : ∀ e ∈ evs, e.tag ≠ some p) :
    callbacksIn evs p = [] := by
  unfold callbacksIn
  rw [List.filter_eq_nil_iff]
  intro e he
  have ht := h e he
  cases e with
  | callback s c i er rc =>
    cases s with
    | none => simp
    | some q =>
      simp only [Event.tag, ne_eq, Option.some.injEq] at ht
      simpa using ht
  | getNextDevice s n => simp
  | runFunction s n c => simp
  | propagated s n c => simp
  | handling s n er c => simp

theorem dispatchCount_eq (w : World) (p : StatePtr) (n : NodePtr) :
    dispatchCount w p n = (dispatchedIn w.executor.events p).count n := by
  unfold dispatchCount dispatchedIn
  induction w.executor.events with
  | nil => rfl
  | cons e rest ih =>
    rw [List.countP_cons, ih]
    cases e with
    | runFunction q m c =>
      by_cases hq : q = p
      · by_cases hm : m = n
        · simp [List.filterMap_cons, hq, hm]
        · simp [List.filterMap_cons, hq, hm, List.count_cons]
      · simp [List.filterMap_cons, hq]
    | callback s c i er rc => simp [List.filterMap_cons]
    | getNextDevice s m => simp [List.filterMap_cons]
    | propagated s m c => simp [List.filterMap_cons]
    | handling s m er c => simp [List.filterMap_cons]

/-- A node that can be reached is a child of root or of a node that can be reached. -/
theorem reach_cases {G : Graph} {root n : NodePtr} (h : Reach G root n) :
    n ∈ (G root).children ∨ ∃ m, Reach G root m ∧ n ∈ (G m).children := by
  cases h with
  | child hc => exact Or.inl hc
  | step hm hc => exact Or.inr ⟨_, hm, hc⟩

theorem length_le_of_nodup_subset {l nodes : List NodePtr} (hl : l.Nodup)
    (hs : ∀ n ∈ l, n ∈ nodes) : l.length ≤ nodes.length :=
  (List.subperm_of_subset hl hs).length_le

section

variable {G : Graph} {root : NodePtr} {p : StatePtr} {dm : List DeviceIDTy} {cb : ResultCBTy}
  {runId : RunIdentifierTy}

/-- Appending events that are no dispatches, completions or callbacks of the run
keeps the invariant, as long as the outstanding calls and the scalar members of
the state stay. -/
theorem flow_quiet {slack : Nat} {post rem : List NodePtr} {ex ex1 : ThreadPoolExecutor}
    {st st1 : ExecutionState} (h : Flow G root p dm cb runId slack post ex st rem)
    (evs : List Event) (hev : ex1.events = ex.events ++ evs) (hd : dispatchedIn evs p = [])
    (hh : handledIn evs p = []) (hc : callbacksIn evs p = [])
    (hj : jobsOf ex1 p = jobsOf ex p) (hdm : ex1.deviceManagers_ = ex.deviceManagers_)
    (he : st1.errorContainer_ = st.errorContainer_)
    (hid : st1.cb_ = st.cb_ ∧ st1.runId_ = st.runId_ ∧ st1.self = st.self)
    (hin : st1.inflightNodes_ = st.inflightNodes_) :
    Flow G root p dm cb runId slack post ex1 st1 rem := by
  have hD : dispatchedIn ex1.events p = dispatchedIn ex.events p := by
    rw [hev, dispatchedIn_append, hd, List.append_nil]
  have hH : handledIn ex1.events p = handledIn ex.events p := by
    rw [hev, handledIn_append, hh, List.append_nil]
  have hHo : handledOkIn ex1.events p = handledOkIn ex.events p := by
    rw [hev, handledOkIn_append, handledOkIn_nil_of_handledIn hh, List.append_nil]
  have hC : callbacksIn ex1.events p = callbacksIn ex.events p := by
    rw [hev, callbacksIn_append, hc, List.append_nil]
  refine ⟨he.trans h.noErr, hdm.trans h.devices, ?_, ?_, h.remNodup, ?_, ?_, ?_, ?_, ?_, ?_⟩
  · rw [hid.1, hid.2.1, hid.2.2]
    exact h.identity
  · rw [hin, hj]
    exact h.inflight
  · rw [hD]
    exact h.remFresh
  · rw [hH, hHo]
    exact h.allOk
  · rw [hD]
    exact h.rootDone
  · rw [hD, hHo]
    exact h.ready
  · rw [hD, hC, hin]
    exact h.cbNone
  · rw [hD, hC, hin]
    exact h.cbDone

/-- The effect of the dispatch at the end of `executeDAGNode` for the node `c`,
which leaves the children of root to dispatch (`rem` to `rem1`) or the children
that the handler has to look at (`post` to `post1`). -/
theorem flow_dispatch {slack : Nat} {post post1 rem rem1 : List NodePtr}
    {ex : ThreadPoolExecutor} {st : ExecutionState}
    (h : Flow G root p dm cb runId (slack + 1) post ex st rem) {c : NodePtr}
    {nodeCtx : ExecutionContext} (hrem1 : rem1.Nodup) (hsub : ∀ n ∈ rem1, n ∈ rem)
    (hc1 : c ∉ rem1) (hrest : ∀ n ∈ rem, n ∉ rem1 → n = c)
    (hpost : ∀ n, n ∉ post1 → n = c ∨ n ∉ post) :
    Flow G root p dm cb runId slack post1
      { ex with
        events := ex.events ++
          [Event.getNextDevice st.self c, Event.runFunction st.self c nodeCtx],
        outstanding := ex.outstanding ++ [{ state := st.self, node := c, ctx := nodeCtx }] }
      { st with inputCtxs_ := mapAssign st.inputCtxs_ c none } rem1 := by
  have hs := h.identity.2.2
  subst hs
  have hD : dispatchedIn
      (ex.events ++ [Event.getNextDevice st.self c, Event.runFunction st.self c nodeCtx]) st.self
      = dispatchedIn ex.events st.self ++ [c] := by
    rw [dispatchedIn_append]
    simp [dispatchedIn]
  have hH : handledIn
      (ex.events ++ [Event.getNextDevice st.self c, Event.runFunction st.self c nodeCtx]) st.self
      = handledIn ex.events st.self := by
    rw [handledIn_append]
    simp [handledIn]
  have hHo : handledOkIn
      (ex.events ++ [Event.getNextDevice st.self c, Event.runFunction st.self c nodeCtx]) st.self
      = handledOkIn ex.events st.self := by
    rw [handledOkIn_append]
    simp [handledOkIn]
  have hC : callbacksIn
      (ex.events ++ [Event.getNextDevice st.self c, Event.runFunction st.self c nodeCtx]) st.self
      = callbacksIn ex.events st.self := by
    rw [callbacksIn_append]
    simp [callbacksIn]
  have hJ : jobsOf { ex with
        events := ex.events ++
          [Event.getNextDevice st.self c, Event.runFunction st.self c nodeCtx],
        outstanding := ex.outstanding ++ [{ state := st.self, node := c, ctx := nodeCtx }] }
        st.self
      = jobsOf ex st.self ++ [{ state := st.self, node := c, ctx := nodeCtx }] := by
    simp [jobsOf, List.filter_append]
  have hin := h.inflight
  refine ⟨h.noErr, h.devices, h.identity, ?_, hrem1, ?_, ?_, ?_, ?_, ?_, ?_⟩
  · simp only [hJ, List.length_append, List.length_singleton]
    omega
  · intro n hn
    simp only [hD, List.mem_append, List.mem_singleton, not_or]
    refine ⟨h.remFresh n (hsub n hn), ?_⟩
    intro hnc
    subst hnc
    exact hc1 hn
  · simp only [hH, hHo]
    exact h.allOk
  · intro n hn hnr
    simp only [hD, List.mem_append, List.mem_singleton]
    by_cases hnrem : n ∈ rem
    · exact Or.inr (hrest n hnrem hnr)
    · exact Or.inl (h.rootDone n hn hnrem)
  · intro n hn hnr hnp hpar
    simp only [hD, List.mem_append, List.mem_singleton]
    simp only [hHo] at hpar
    rcases hpost n hnp with hnc | hnp1
    · exact Or.inr hnc
    · exact Or.inl (h.ready n hn hnr hnp1 hpar)
  · intro _
    simp only [hC]
    exact h.cbNone (Or.inl (by omega))
  · intro h0
    simp only [hJ, List.length_append, List.length_singleton] at hin
    simp only at h0
    omega

/-- With the device of `c` registered and no error stored, `executeDAGNode`
dispatches `c`. -/
theorem flow_execute {slack : Nat} {post post1 rem rem1 : List NodePtr}
    {ex : ThreadPoolExecutor} {st : ExecutionState}
    (h : Flow G root p dm cb runId (slack + 1) post ex st rem) {c : NodePtr}
    (hdev : (G c).nextDevice ∈ dm) (hrem1 : rem1.Nodup) (hsub : ∀ n ∈ rem1, n ∈ rem)
    (hc1 : c ∉ rem1) (hrest : ∀ n ∈ rem, n ∉ rem1 → n = c)
    (hpost : ∀ n, n ∉ post1 → n = c ∨ n ∉ post)
    {r : ThreadPoolExecutor × ExecutionState}
    (hr : ThreadPoolExecutor.executeDAGNode G ex st c = .ok r) :
    Flow G root p dm cb runId slack post1 r.1 r.2 rem1 := by
  rcases executeDAGNode_ok hr with ⟨he, -⟩ | ⟨-, hnd, -⟩ | ⟨-, -, nodeCtx, -, h1⟩
  · rw [h.noErr] at he
    cases he
  · rw [h.devices] at hnd
    exact absurd hdev hnd
  · subst h1
    exact flow_dispatch h hrem1 hsub hc1 hrest hpost

end

section

variable {G : Graph} {root : NodePtr} {p : StatePtr} {dm : List DeviceIDTy} {cb : ResultCBTy}
  {runId : RunIdentifierTy}

/-- The nodes in flight are distinct nodes of the graph: with a node `m` handled
and a node `c` not dispatched yet, the outstanding calls and the children of
root still to dispatch leave room for two more. -/
theorem flow_bound {nodes : List NodePtr} (hnodes : ∀ n, Reach G root n → n ∈ nodes)
    {cur : NodePtr} {post post1 rem : List NodePtr} {slack : Nat} {ex : ThreadPoolExecutor}
    {st : ExecutionState} (hL : Ledger G root p cur post ex st rem)
    (hF : Flow G root p dm cb runId slack post1 ex st rem) {c m : NodePtr}
    (hc : Reach G root c) (hcD : c ∉ dispatchedIn ex.events p) (hcrem : c ∉ rem)
    (hm : m ∈ handledIn ex.events p) :
    (jobsOf ex p).length + rem.length + 2 ≤ nodes.length := by
  have hnd : (c :: (rem ++ dispatchedIn ex.events p)).Nodup := by
    refine List.nodup_cons.2 ⟨?_, List.Nodup.append hF.remNodup hL.dNodup ?_⟩
    · intro hmem
      rcases List.mem_append.1 hmem with h1 | h1
      · exact hcrem h1
      · exact hcD h1
    · intro a ha haD
      exact hF.remFresh a ha haD
  have hsub : ∀ n ∈ c :: (rem ++ dispatchedIn ex.events p), n ∈ nodes := by
    intro n hn
    rcases List.mem_cons.1 hn with h1 | h1
    · rw [h1]
      exact hnodes c hc
    · rcases List.mem_append.1 h1 with h2 | h2
      · exact hnodes n (Reach.child (hL.remSub n h2))
      · exact hnodes n (hL.reach n h2)
  have hlen := length_le_of_nodup_subset hnd hsub
  have hperm := hL.perm.length_eq
  have hpos : 0 < (handledIn ex.events p).length := List.length_pos_of_mem hm
  simp only [List.length_cons, List.length_append, List.length_map] at hlen hperm
  omega

/-- A counter that has not reached the number of parents misses a parent. -/
theorem credit_complete {cur c : NodePtr} {rest rem : List NodePtr} {ex : ThreadPoolExecutor}
    {st : ExecutionState} (hwf : WellFormedDAG G root)
    (h : Ledger G root p cur rest ex st rem) (hc : Reach G root c)
    (hnr : c ∉ (G root).children) (hcr : c ∉ rest) {v : Nat}
    (hf : mapFind st.nodeParentsDone_ c = some v)
    (hall : ∀ q ∈ (G c).parents, q ∈ handledOkIn ex.events p) :
    v = (G c).parents.length := by
  have hcount := h.counters c v hc hnr hf
  simp only [hcr, if_false, Nat.add_zero] at hcount
  have h1 := (h.credited_le hwf hc hnr).length_le
  have h2 : (G c).parents.length ≤
      ((handledOkIn ex.events p).filter (fun m => decide (c ∈ (G m).children))).length := by
    apply length_le_of_nodup_subset (hwf.parentsNodup c hc hnr)
    intro q hq
    rw [List.mem_filter]
    exact ⟨hall q hq, by simpa using ((hwf.parents c hc hnr q).1 hq).2⟩
  omega

/-- The increment of `inflightNodes_` (and of the barrier) before a child is run. -/
theorem flow_increment {slack : Nat} {post rem : List NodePtr} {ex : ThreadPoolExecutor}
    {st : ExecutionState} (h : Flow G root p dm cb runId slack post ex st rem)
    (hpos : 0 < slack) (hfit : st.inflightNodes_ + 1 < UNSIGNED_MOD) (b : InflightBarrier) :
    Flow G root p dm cb runId (slack + 1) post { ex with inflightBarrier_ := b }
      (st.incrementInflightNodes 1) rem := by
  have hin := h.inflight
  have hnew : (st.incrementInflightNodes 1).inflightNodes_ = st.inflightNodes_ + 1 := by
    show (st.inflightNodes_ + 1) % UNSIGNED_MOD = st.inflightNodes_ + 1
    exact Nat.mod_eq_of_lt hfit
  refine ⟨h.noErr, h.devices, h.identity, ?_, h.remNodup, h.remFresh, h.allOk, h.rootDone,
    h.ready, ?_, ?_⟩
  · rw [hnew, hin]
    show (jobsOf ex p).length + slack + 1 = (jobsOf ex p).length + (slack + 1)
    omega
  · intro _
    exact h.cbNone (Or.inl (by omega))
  · intro h0
    rw [hnew] at h0
    omega

theorem flow_handleChild {nodes : List NodePtr} {cur c : NodePtr} {rest rem : List NodePtr}
    {ex : ThreadPoolExecutor} {st : ExecutionState} {ctx : ExecutionContext}
    {r : ThreadPoolExecutor × ExecutionState}
    (hwf : WellFormedDAG G root) (hdev : ∀ n, Reach G root n → (G n).nextDevice ∈ dm)
    (hnodes : ∀ n, Reach G root n → n ∈ nodes) (hfit : nodes.length < UNSIGNED_MOD)
    (hL : Ledger G root p cur (c :: rest) ex st rem)
    (h : Flow G root p dm cb runId (rem.length + 1) (c :: rest) ex st rem)
    (hcur : Reach G root cur) (hlog : Event.handling p cur none ctx ∈ ex.events)
    (hr : ThreadPoolExecutor.handleChild G ctx ex st c = .ok r) :
    Flow G root p dm cb runId (rem.length + 1) rest r.1 r.2 rem := by
  have hs := h.identity.2.2
  obtain ⟨pr, q, h1, h2, h3, h4⟩ := handleChild_ok hr
  obtain ⟨i1, hev⟩ := hL.propagate hs h1
  obtain ⟨hp1, -, hp3⟩ := propagatePlaceholdersForNode_ok h1
  have f1 : Flow G root p dm cb runId (rem.length + 1) (c :: rest) pr.1 pr.2 rem :=
    flow_quiet h [Event.propagated p c ctx] hev (by simp [dispatchedIn]) (by simp [handledIn])
      (by simp [callbacksIn]) (by rw [hp1]; rfl) (by rw [hp1]; rfl) (by rw [hp3])
      (by rw [hp3]; exact ⟨rfl, rfl, rfl⟩) (by rw [hp3])
  have hsv : Served pr.1.events p cur c := by
    rw [hev]
    exact Served.now hlog
  obtain ⟨i2, -⟩ := i1.credit hwf hcur hsv h2
  obtain ⟨prev, -, -, hq1, hq⟩ := incrementNodeParentsDone_ok h2
  have f2 : Flow G root p dm cb runId (rem.length + 1) (c :: rest) pr.1 q.2 rem :=
    flow_quiet f1 [] (by simp) rfl rfl rfl rfl rfl (by rw [hq]) (by rw [hq]; exact ⟨rfl, rfl, rfl⟩)
      (by rw [hq])
  have hlog1 : Event.handling p cur none ctx ∈ pr.1.events := by
    rw [hev]
    exact List.mem_append_left _ hlog
  have hcc : c ∈ (G cur).children := hL.postCur c (List.mem_cons_self _ _)
  have hreach : Reach G root c := Reach.step hcur hcc
  have hnr : c ∉ (G root).children := hwf.rootChildren cur hcur c hcc
  have hcrest : c ∉ rest := (List.nodup_cons.1 hL.postNodup).1
  have hcrem : c ∉ rem := fun hm => hnr (hL.remSub c hm)
  cases hready : q.1 with
  | false =>
    rw [h4 hready]
    refine ⟨f2.noErr, f2.devices, f2.identity, f2.inflight, f2.remNodup, f2.remFresh, f2.allOk,
      f2.rootDone, ?_, f2.cbNone, f2.cbDone⟩
    intro n hn hnroot hnrest hpar
    by_cases hnc : n = c
    · subst hnc
      exfalso
      have hfind : mapFind q.2.nodeParentsDone_ n = some ((prev + 1) % UNSIGNED_MOD) := by
        rw [hq]
        exact mapFind_mapAssign_self _ _ _
      have hv := credit_complete hwf i2 hreach hnr hcrest hfind hpar
      rw [hq1, hv, Nat.mod_eq_of_lt (hwf.parentsFit n hreach)] at hready
      simp at hready
    · apply f2.ready n hn hnroot ?_ hpar
      intro hmem
      rcases List.mem_cons.1 hmem with h5 | h5
      · exact hnc h5
      · exact hnrest h5
  | true =>
    have i4 : Ledger G root p cur rest
        { pr.1 with inflightBarrier_ := pr.1.inflightBarrier_.increment 1 }
        (q.2.incrementInflightNodes 1) rem :=
      i2.quiet [] (by simp) rfl rfl rfl (fun _ hn => hn) rfl
    have hs2 : q.2.self = p := f2.identity.2.2
    rcases executeDAGNode_ok (h3 hready) with ⟨he, -⟩ | ⟨-, hnd, -⟩ | ⟨-, -, nodeCtx, hfind, hres⟩
    · have hne : q.2.errorContainer_ = none := f2.noErr
      have he1 : q.2.errorContainer_.isSome = true := he
      rw [hne] at he1
      cases he1
    · have hd1 : pr.1.deviceManagers_ = dm := f2.devices
      have hnd1 : (G c).nextDevice ∉ pr.1.deviceManagers_ := hnd
      rw [hd1] at hnd1
      exact absurd (hdev c hreach) hnd1
    · have hcD : c ∉ dispatchedIn pr.1.events p := by
        intro hmem
        have hmv := i4.moved c hmem
        rw [hmv] at hfind
        cases hfind
      have hb := flow_bound hnodes i2 f2 hreach hcD hcrem
        (show cur ∈ handledIn pr.1.events p from by
          unfold handledIn
          rw [List.mem_filterMap]
          exact ⟨_, hlog1, by simp⟩)
      have hin := f2.inflight
      have f3 := flow_increment f2 (Nat.succ_pos _) (by omega)
        (pr.1.inflightBarrier_.increment 1)
      rw [hres]
      exact flow_dispatch f3 f2.remNodup (fun _ hn => hn) hcrem
        (fun n hn hnn => absurd hn hnn)
        (fun n hnrest => by
          by_cases hnc : n = c
          · exact Or.inl hnc
          · refine Or.inr ?_
            intro hmem
            rcases List.mem_cons.1 hmem with h5 | h5
            · exact hnc h5
            · exact hnrest h5)

theorem flow_handleChildren {nodes : List NodePtr} {cur : NodePtr} {rem : List NodePtr}
    {ctx : ExecutionContext}
    (hwf : WellFormedDAG G root) (hdev : ∀ n, Reach G root n → (G n).nextDevice ∈ dm)
    (hnodes : ∀ n, Reach G root n → n ∈ nodes) (hfit : nodes.length < UNSIGNED_MOD)
    (post : List NodePtr) {ex : ThreadPoolExecutor} {st : ExecutionState}
    {r : ThreadPoolExecutor × ExecutionState}
    (hL : Ledger G root p cur post ex st rem)
    (h : Flow G root p dm cb runId (rem.length + 1) post ex st rem)
    (hcur : Reach G root cur) (hlog : Event.handling p cur none ctx ∈ ex.events)
    (hr : ThreadPoolExecutor.handleChildren G ctx post ex st = .ok r) :
    Flow G root p dm cb runId (rem.length + 1) [] r.1 r.2 rem := by
  induction post generalizing ex st with
  | nil =>
    simp only [ThreadPoolExecutor.handleChildren] at hr
    injection hr with hr
    subst hr
    exact h
  | cons c rest ih =>
    simp only [ThreadPoolExecutor.handleChildren] at hr
    split at hr
    · cases hr
    · rename_i ex1 st1 h1
      obtain ⟨i1, hlog1⟩ := hL.handleChild hwf h.identity.2.2 hcur hlog h1
      exact ih i1 (flow_handleChild hwf hdev hnodes hfit hL h hcur hlog h1) hlog1 hr

/-- The end of `handleDeviceManagerResult`: the callback, with success, exactly
when the last node in flight is done. -/
theorem flow_finish {rem : List NodePtr} {ex : ThreadPoolExecutor} {st : ExecutionState}
    {r : ThreadPoolExecutor × ExecutionState}
    (h : Flow G root p dm cb runId (rem.length + 1) [] ex st rem)
    (hD : dispatchedIn ex.events p ≠ [])
    (hr : ThreadPoolExecutor.finishNode ex st = .ok r) :
    Flow G root p dm cb runId rem.length [] r.1 r.2 rem := by
  obtain ⟨-, -, h3⟩ := finishNode_ok hr
  have hin := h.inflight
  obtain ⟨hcb, hid, hself⟩ := h.identity
  rcases h3 with ⟨h1, rc, -, h5⟩ | ⟨h1, h5⟩
  · subst h5
    have hD1 : dispatchedIn
        (ex.events ++ [Event.callback (some st.self) st.cb_ st.runId_ st.errorContainer_ rc]) p =
        dispatchedIn ex.events p := by
      rw [dispatchedIn_append]
      simp [dispatchedIn]
    have hH1 : handledIn
        (ex.events ++ [Event.callback (some st.self) st.cb_ st.runId_ st.errorContainer_ rc]) p =
        handledIn ex.events p := by
      rw [handledIn_append]
      simp [handledIn]
    have hHo1 : handledOkIn
        (ex.events ++ [Event.callback (some st.self) st.cb_ st.runId_ st.errorContainer_ rc]) p =
        handledOkIn ex.events p := by
      rw [handledOkIn_append]
      simp [handledOkIn]
    have hC1 : callbacksIn
        (ex.events ++ [Event.callback (some st.self) st.cb_ st.runId_ st.errorContainer_ rc]) p =
        [Event.callback (some p) cb runId none rc] := by
      rw [callbacksIn_append, h.cbNone (Or.inl (by omega)), hself, hcb, hid, h.noErr]
      simp [callbacksIn]
    refine ⟨h.noErr, h.devices, h.identity, ?_, h.remNodup, ?_, ?_, ?_, ?_, ?_, ?_⟩
    · show 0 = (jobsOf ex p).length + rem.length
      omega
    · simp only [hD1]
      exact h.remFresh
    · simp only [hH1, hHo1]
      exact h.allOk
    · simp only [hD1]
      exact h.rootDone
    · simp only [hD1, hHo1]
      exact h.ready
    · intro hpre
      simp only [hD1] at hpre
      rcases hpre with h6 | h6
      · exact absurd h6 (Nat.lt_irrefl 0)
      · exact absurd h6 hD
    · intro _ _
      exact ⟨rc, hC1⟩
  · subst h5
    refine ⟨h.noErr, h.devices, h.identity, ?_, h.remNodup, h.remFresh, h.allOk, h.rootDone,
      h.ready, ?_, ?_⟩
    · show st.inflightNodes_ - 1 = (jobsOf ex p).length + rem.length
      omega
    · intro _
      exact h.cbNone (Or.inl (by omega))
    · intro h0
      have h00 : st.inflightNodes_ - 1 = 0 := h0
      omega

/-- The start of `handleDeviceManagerResult` for a completion without error. -/
theorem flow_enter {rem : List NodePtr} {ex : ThreadPoolExecutor}
    {st : ExecutionState} (hwf : WellFormedDAG G root)
    (h : Flow G root p dm cb runId rem.length [] ex st rem)
    {i : Nat} {j : Job} (hj : ex.outstanding[i]? = some j) (hjp : j.state = p)
    (ctx : ExecutionContext) :
    Flow G root p dm cb runId (rem.length + 1) (G j.node).children
      (ThreadPoolExecutor.log { ex with outstanding := ex.outstanding.eraseIdx i }
        (Event.handling p j.node none ctx)) st rem := by
  obtain ⟨l1, l2, hf1, hf2⟩ := filter_eraseIdx_of_mem (fun j => j.state == p) _ _ _ hj
    (by simpa using hjp)
  have hJ : jobsOf ex p = l1 ++ j :: l2 := hf1
  have hJ1 : jobsOf (ThreadPoolExecutor.log { ex with outstanding := ex.outstanding.eraseIdx i }
      (Event.handling p j.node none ctx)) p = l1 ++ l2 := hf2
  have hE : (ThreadPoolExecutor.log { ex with outstanding := ex.outstanding.eraseIdx i }
      (Event.handling p j.node none ctx)).events =
      ex.events ++ [Event.handling p j.node none ctx] := rfl
  have hD : dispatchedIn (ex.events ++ [Event.handling p j.node none ctx]) p =
      dispatchedIn ex.events p := by
    rw [dispatchedIn_append]
    simp [dispatchedIn]
  have hH : handledIn (ex.events ++ [Event.handling p j.node none ctx]) p =
      handledIn ex.events p ++ [j.node] := by
    rw [handledIn_append]
    simp [handledIn]
  have hHo : handledOkIn (ex.events ++ [Event.handling p j.node none ctx]) p =
      handledOkIn ex.events p ++ [j.node] := by
    rw [handledOkIn_append]
    simp [handledOkIn]
  have hC : callbacksIn (ex.events ++ [Event.handling p j.node none ctx]) p =
      callbacksIn ex.events p := by
    rw [callbacksIn_append]
    simp [callbacksIn]
  have hin := h.inflight
  refine ⟨h.noErr, h.devices, h.identity, ?_, h.remNodup, ?_, ?_, ?_, ?_, ?_, ?_⟩
  · rw [hJ1, hin, hJ]
    simp only [List.length_append, List.length_cons]
    omega
  · rw [hE, hD]
    exact h.remFresh
  · rw [hE, hH, hHo, h.allOk]
  · rw [hE, hD]
    exact h.rootDone
  · intro n hn hnr hnp hpar
    rw [hE, hD]
    rw [hE, hHo] at hpar
    apply h.ready n hn hnr (List.not_mem_nil n)
    intro q hq
    rcases List.mem_append.1 (hpar q hq) with h1 | h1
    · exact h1
    · exfalso
      rw [List.mem_singleton] at h1
      rw [h1] at hq
      exact hnp ((hwf.parents n hn hnr j.node).1 hq).2
  · rw [hE, hD, hC]
    exact h.cbNone
  · rw [hE, hD, hC]
    exact h.cbDone

end

section

variable {G : Graph} {root : NodePtr} {p : StatePtr} {dm : List DeviceIDTy} {cb : ResultCBTy}
  {runId : RunIdentifierTy}

theorem flow_handle {nodes : List NodePtr} {cur0 : NodePtr} {rem : List NodePtr}
    {ex : ThreadPoolExecutor} {st : ExecutionState} {i : Nat} {j : Job}
    {ctx : ExecutionContext} {r : ThreadPoolExecutor × ExecutionState}
    (hwf : WellFormedDAG G root) (hdev : ∀ n, Reach G root n → (G n).nextDevice ∈ dm)
    (hnodes : ∀ n, Reach G root n → n ∈ nodes) (hfit : nodes.length < UNSIGNED_MOD)
    (hL : Ledger G root p cur0 [] ex st rem)
    (h : Flow G root p dm cb runId rem.length [] ex st rem)
    (hj : ex.outstanding[i]? = some j) (hjp : j.state = p)
    (hr : ThreadPoolExecutor.handleDeviceManagerResult G
      { ex with outstanding := ex.outstanding.eraseIdx i } st none ctx j.node = .ok r) :
    Flow G root p dm cb runId rem.length [] r.1 r.2 rem := by
  have hs := h.identity.2.2
  obtain ⟨pr, hf, hp⟩ := handleDeviceManagerResult_ok hr
  rw [hs] at hp
  obtain ⟨hreach, i1⟩ := hL.enter hwf hj hjp ctx
  have f1 := flow_enter hwf h hj hjp ctx
  have hmem : j.node ∈ dispatchedIn
      (ThreadPoolExecutor.log { ex with outstanding := ex.outstanding.eraseIdx i }
        (Event.handling p j.node none ctx)).events p := by
    apply i1.perm.symm.subset
    apply List.mem_append_left
    show j.node ∈ handledIn (ex.events ++ [Event.handling p j.node none ctx]) p
    rw [handledIn_append]
    simp [handledIn]
  rcases hp with ⟨hne, -⟩ | ⟨-, hch, hp1, hp2⟩ | ⟨-, -, hp⟩
  · exact absurd rfl hne
  · rw [hch] at f1
    have hfr := (propagateOutputPairs_frame _ hp2).1
    have f2 : Flow G root p dm cb runId (rem.length + 1) [] pr.1 pr.2 rem :=
      flow_quiet f1 [] (by rw [hp1]; simp) rfl rfl rfl (by rw [hp1]) (by rw [hp1])
        (by rw [hfr]) (by rw [hfr]; exact ⟨rfl, rfl, rfl⟩) (by rw [hfr])
    refine flow_finish f2 ?_ hf
    rw [hp1]
    exact List.ne_nil_of_mem hmem
  · have f2 := flow_handleChildren hwf hdev hnodes hfit _ i1 f1 hreach
      (by simp [ThreadPoolExecutor.log]) hp
    refine flow_finish f2 ?_ hf
    obtain ⟨⟨-, -, evs, jobs, he, -, -, -⟩, -⟩ := appends_handleChildren _ hp
    rw [he, dispatchedIn_append]
    exact List.ne_nil_of_mem (List.mem_append_left _ hmem)

theorem flow_runChild {cur : NodePtr} {ex : ThreadPoolExecutor} {st : ExecutionState}
    {c : NodePtr} {rest : List NodePtr} {r : ThreadPoolExecutor × ExecutionState}
    (hdev : ∀ n, Reach G root n → (G n).nextDevice ∈ dm)
    (hL : Ledger G root p cur [] ex st (c :: rest))
    (h : Flow G root p dm cb runId (c :: rest).length [] ex st (c :: rest))
    (hr : ThreadPoolExecutor.runChild G ex st c = .ok r) :
    Flow G root p dm cb runId rest.length [] r.1 r.2 rest := by
  have hs := h.identity.2.2
  have hc : c ∈ (G root).children := hL.remSub c (List.mem_cons_self _ _)
  have hnd := List.nodup_cons.1 h.remNodup
  unfold ThreadPoolExecutor.runChild at hr
  split at hr
  · cases hr
  · rename_i rc hrc
    split at hr
    · cases hr
    · rename_i ex1 st1 h1
      obtain ⟨hp1, -, hp3⟩ := propagatePlaceholdersForNode_ok h1
      have hev : ex1.events = ex.events ++ [Event.propagated p c rc] := by
        have hp1a : ex1 = ex.log (Event.propagated st.self c rc) := hp1
        rw [hp1a, hs]
        rfl
      have hst : st1 = { st with inputCtxs_ := st1.inputCtxs_ } := hp3
      have hex : ex1 = ex.log (Event.propagated st.self c rc) := hp1
      have f1 : Flow G root p dm cb runId (rest.length + 1) [] ex1 st1 (c :: rest) :=
        flow_quiet h [Event.propagated p c rc] hev (by simp [dispatchedIn])
          (by simp [handledIn]) (by simp [callbacksIn]) (by rw [hex]; rfl) (by rw [hex]; rfl)
          (by rw [hst]) (by rw [hst]; exact ⟨rfl, rfl, rfl⟩) (by rw [hst])
      exact flow_execute f1 (hdev c (Reach.child hc)) hnd.2
        (fun n hn => List.mem_cons_of_mem _ hn) hnd.1
        (fun n hn hnr => by
          rcases List.mem_cons.1 hn with h5 | h5
          · exact h5
          · exact absurd h5 hnr)
        (fun n hn => Or.inr hn) hr

theorem flow_stable {rem : List NodePtr} {ex ex1 : ThreadPoolExecutor} {st : ExecutionState}
    {slack : Nat} (h : Flow G root p dm cb runId slack [] ex st rem)
    (hf : ForeignChange p ex ex1) : Flow G root p dm cb runId slack [] ex1 st rem := by
  obtain ⟨hdm, ⟨evs, hev, htag⟩, hjobs⟩ := hf
  obtain ⟨hd, hh⟩ := quiet_of_tags htag
  exact flow_quiet h evs hev hd hh (callbacksIn_of_tags htag) hjobs hdm rfl ⟨rfl, rfl, rfl⟩ rfl

theorem flow_initial {nodes : List NodePtr} {fuel : Nat} {context : ExecutionContext}
    (hwf : WellFormedDAG G root) (hnodes : ∀ n, Reach G root n → n ∈ nodes)
    (hfit : nodes.length < UNSIGNED_MOD) (ex : ThreadPoolExecutor) (st0 : ExecutionState)
    (hdm : ex.deviceManagers_ = dm) (hev : ∀ e ∈ ex.events, e.tag ≠ some p)
    (hjobs : jobsOf ex p = [])
    (hc : ExecutionState.create G fuel p runId root context cb = .ok st0) :
    Flow G root p dm cb runId (G root).children.length [] ex
      (st0.incrementInflightNodes (G root).children.length) (G root).children := by
  obtain ⟨hd, hh⟩ := quiet_of_tags hev
  have hho := handledOkIn_nil_of_handledIn hh
  obtain ⟨c1, c2, c3, -, c5, c6⟩ := create_frame hc
  have hk : (G root).children.length ≤ nodes.length :=
    length_le_of_nodup_subset hwf.rootNodup (fun n hn => hnodes n (Reach.child hn))
  have hin : (st0.incrementInflightNodes (G root).children.length).inflightNodes_ =
      (G root).children.length := by
    show (st0.inflightNodes_ + (G root).children.length) % UNSIGNED_MOD = _
    rw [c5, Nat.zero_add]
    exact Nat.mod_eq_of_lt (by omega)
  refine ⟨c6, hdm, ⟨c3, c2, c1⟩, ?_, hwf.rootNodup, ?_, ?_, ?_, ?_, ?_, ?_⟩
  · rw [hin, hjobs]
    simp
  · intro c _
    rw [hd]
    exact List.not_mem_nil c
  · rw [hh, hho]
  · intro c hc1 hc2
    exact absurd hc1 hc2
  · intro n hn hnr _ hpar
    exfalso
    rcases reach_cases hn with h1 | ⟨m, hm, hnm⟩
    · exact hnr h1
    · have := hpar m ((hwf.parents n hn hnr m).2 ⟨hm, hnm⟩)
      rw [hho] at this
      cases this
  · intro _
    exact callbacksIn_of_tags hev
  · intro _ hne
    exact absurd hd hne

/-- The bookkeeping of a run in which nothing fails holds in every world that
the run can reach. -/
theorem flow_reachable {dm : List DeviceIDTy} {before : List Label} {w0 : World}
    (h0 : steps G (World.init dm) before = .ok w0)
    {fuel : Nat} {context : ExecutionContext} {w1 : World} {k : Nat}
    (hacc : Accepted G w0 fuel root context runId cb w1 p k)
    (hwf : WellFormedDAG G root)
    {nodes : List NodePtr} (hnodes : ∀ n, Reach G root n → n ∈ nodes)
    (hfit : nodes.length < UNSIGNED_MOD)
    (hdev : ∀ n, Reach G root n → (G n).nextDevice ∈ dm)
    {after : List Label} {w : World} (h : steps G w1 after = .ok w)
    (hok : allCompletions G p (fun _ err _ => err = none) w1 after) :
    RunWorld p k dm (fun ex st rem => Ledger G root p root [] ex st rem ∧
      Flow G root p dm cb runId rem.length [] ex st rem) w := by
  have hsc : Scoped dm w0 := scoped_steps before (scoped_init dm) h0
  have hw1 : RunWorld p k dm (fun ex st rem => Ledger G root p root [] ex st rem ∧
      Flow G root p dm cb runId rem.length [] ex st rem) w1 :=
    runWorld_accepted _ hsc hacc
      (fun ex st0 hdm hev hjobs hc =>
        ⟨Ledger.initial ex st0 hev hjobs hc,
          flow_initial hwf hnodes hfit ex st0 hdm hev hjobs hc⟩)
  exact runWorld_steps G p k dm (fun _ err _ => err = none)
    (fun ex st rem => Ledger G root p root [] ex st rem ∧
      Flow G root p dm cb runId rem.length [] ex st rem)
    (fun ex ex1 st rem hi hf => ⟨hi.1.stable hf, flow_stable hi.2 hf⟩)
    (fun ex st c rest r _ hs hi hr => ⟨hi.1.runChild hs hr, flow_runChild hdev hi.1 hi.2 hr⟩)
    (fun ex st rem i j err ctx r _ hs hi hj hjp herr hr => by
      subst herr
      exact ⟨hi.1.handle hwf hs hj hjp hr,
        flow_handle hwf hdev hnodes hfit hi.1 hi.2 hj hjp hr⟩)
    after w1 w hw1 h hok

end

/-- C3 where root has a child: a run over a well-formed acyclic graph with at
least one child of root is accepted by an executor in any state it can reach,
every device that a reachable node selects is registered, and every completion
of the run is without error. When the schedule has run without an assertion
failing until the run has nothing left to do (the dispatch loop of `run` is
through and no device call of the run is outstanding), then every node that can
be reached from the children of root was passed to `runFunction` exactly once,
and the callback was called exactly once, with the run id and with success. The
graph is finite (`nodes`, fewer than 2^32) and acyclic (`rank` grows along every
child edge). -/
theorem dispatched_once_and_success (G : Graph) (dm : List DeviceIDTy) (before : List Label)
    (w0 : World) (h0 : steps G (World.init dm) before = .ok w0)
    (fuel : Nat) (root : NodePtr) (context : ExecutionContext) (runId : RunIdentifierTy)
    (cb : ResultCBTy) (w1 : World) (p : StatePtr) (k : Nat)
    (hacc : Accepted G w0 fuel root context runId cb w1 p k)
    (hwf : WellFormedDAG G root)
    (nodes : List NodePtr) (hnodes : ∀ n, Reach G root n → n ∈ nodes)
    (hfit : nodes.length < UNSIGNED_MOD)
    (rank : NodePtr → Nat)
    (hrank : ∀ m, Reach G root m → ∀ c ∈ (G m).children, rank m < rank c)
    (hroot : (G root).children ≠ [])
    (hdev : ∀ n, Reach G root n → (G n).nextDevice ∈ dm)
    (after : List Label) (w : World) (h : steps G w1 after = .ok w)
    (hok : allCompletions G p (fun _ err _ => err = none) w1 after)
    (hq : quiescent w p = true) :
    (∀ n, Reach G root n → dispatchCount w p n = 1) ∧
      ∃ rc, callbacksOf w p = [Event.callback (some p) cb runId none rc] := by
  obtain ⟨st, rem, hst, hfr, hL, hF⟩ := (flow_reachable h0 hacc hwf hnodes hfit hdev h hok).inv
  unfold quiescent at hq
  rw [Bool.and_eq_true, List.all_eq_true, List.all_eq_true] at hq
  obtain ⟨hq1, hq2⟩ := hq
  have hrem : rem = [] := by
    have h1 := hq1 _ (List.mem_iff_getElem?.2 ⟨k, hfr⟩)
    simpa using h1
  subst hrem
  have hjobs : jobsOf w.executor p = [] := by
    unfold jobsOf
    rw [List.filter_eq_nil_iff]
    intro j hj
    have h1 := hq2 j hj
    simpa using h1
  have hperm := hL.perm
  rw [hjobs, List.map_nil, List.append_nil, hF.allOk] at hperm
  have hall : ∀ (r : Nat) (n : NodePtr), rank n = r → Reach G root n →
      n ∈ dispatchedIn w.executor.events p := by
    intro r
    induction r using Nat.strong_induction_on with
    | _ r ih =>
      intro n hr hn
      by_cases hnr : n ∈ (G root).children
      · exact hF.rootDone n hnr (List.not_mem_nil n)
      · apply hF.ready n hn hnr (List.not_mem_nil n)
        intro q hq
        obtain ⟨hqr, hqc⟩ := (hwf.parents n hn hnr q).1 hq
        have hlt : rank q < r := by
          rw [← hr]
          exact hrank q hqr n hqc
        exact hperm.subset (ih (rank q) hlt q rfl hqr)
  constructor
  · intro n hn
    rw [dispatchCount_eq]
    exact List.count_eq_one_of_mem hL.dNodup (hall _ n rfl hn)
  · obtain ⟨c, hc⟩ := List.exists_mem_of_ne_nil _ hroot
    have hin := hF.inflight
    rw [hjobs] at hin
    exact hF.cbDone hin (List.ne_nil_of_mem (hall _ c rfl (Reach.child hc)))

/-- Witness for the run of the diamond of scenario S5: `A`, `B` and the join node
`C` are each dispatched once and the callback receives success. -/
theorem dispatched_once_and_success_witness :
    (∀ n, Reach diamondGraph 0 n →
        dispatchCount (worldAfter diamondGraph (World.init [0]) diamondSchedule) 0 n = 1) ∧
      ∃ rc, callbacksOf (worldAfter diamondGraph (World.init [0]) diamondSchedule) 0 =
        [Event.callback (some 0) 7 1 none rc] :=
  dispatched_once_and_success diamondGraph [0] [] (World.init [0]) rfl 8 0 callerContext 1 7
    (worldAfter diamondGraph (World.init [0]) [Label.run 8 (some 0) callerContext 1 7]) 0 0
    ⟨rfl, rfl, rfl, rfl⟩ wellFormed_diamondGraph [1, 2, 3]
    (fun n hn => by
      rcases reach_diamondGraph hn with h | h | h <;> subst h <;> decide)
    (by decide) (fun n => n)
    (fun m hm c hc => by
      rcases reach_diamondGraph hm with h | h | h <;> subst h <;>
        simp [diamondGraph, scenarioNode] at hc <;> subst hc <;> decide)
    (by decide)
    (fun n hn => by
      rcases reach_diamondGraph hn with h | h | h <;> subst h <;> decide)
    diamondCompletions (worldAfter diamondGraph (World.init [0]) diamondSchedule) rfl
    (allCompletions_of_check (fun _ err _ => decide (err = none))
      (fun j err ctx hc => by simpa using hc) _ _ rfl)
    rfl

/-! ## The contracts of the counters -/

/-- C17 as stated fails at the count 2^32 - 1: `increment(1)` makes `count()`
return 0, not 2^32, and the `decrement(1)` that follows fails its assertion
instead of restoring the count. -/
theorem barrier_increment_wraps :
    (InflightBarrier.increment { count_ := 4294967295 } 1).count = 0 ∧
      (InflightBarrier.increment { count_ := 4294967295 } 1).count ≠ 4294967295 + 1 ∧
      (InflightBarrier.increment { count_ := 4294967295 } 1).decrement 1 =
        .error Fault.barrierDecrement := by
  decide

/-- C17 amended: for every count `c` and every `n`, `increment(n)` makes `count()`
return `c + n` as an `unsigned` value, that is `(c + n) mod 2^32`, which is `c + n`
whenever `c + n < 2^32`; `decrement(n)` fails if and only if `n > c`, and
otherwise makes `count()` return `c - n`; hence, whenever `c + n < 2^32`,
`increment(n)` followed by `decrement(n)` restores the count; and the count is
never negative. -/
theorem barrier_arithmetic (b : InflightBarrier) (n : Nat) :
    (b.increment n).count = (b.count + n) % UNSIGNED_MOD ∧
      (b.count + n < UNSIGNED_MOD →
        (b.increment n).count = b.count + n ∧ (b.increment n).decrement n = .ok b) ∧
      ((∃ f, b.decrement n = .error f) ↔ n > b.count) ∧
      (n ≤ b.count → ∃ b1, b.decrement n = .ok b1 ∧ b1.count = b.count - n) ∧
      0 ≤ b.count := by
  refine ⟨rfl, ?_, ?_, ?_, Nat.zero_le _⟩
  · intro h
    have h1 : (b.increment n).count = b.count + n := Nat.mod_eq_of_lt h
    refine ⟨h1, ?_⟩
    unfold InflightBarrier.decrement
    have h2 : (b.increment n).count_ = b.count_ + n := h1
    rw [h2]
    simp
  · unfold InflightBarrier.decrement InflightBarrier.count
    by_cases h : b.count_ ≥ n
    · simp [h]
    · simp only [h, if_false]
      constructor
      · intro _
        omega
      · intro _
        exact ⟨_, rfl⟩
  · intro h
    unfold InflightBarrier.decrement InflightBarrier.count at *
    exact ⟨_, by simp [h], rfl⟩

/-- Witness for C17: the count 3 and `n = 2`. -/
theorem barrier_arithmetic_witness :
    (3 + 2 < UNSIGNED_MOD ∧ 2 ≤ 3) ∧
      (InflightBarrier.increment { count_ := 3 } 2).decrement 2 = .ok { count_ := 3 } ∧
      ∃ b1, InflightBarrier.decrement { count_ := 3 } 2 = .ok b1 ∧ b1.count = 3 - 2 :=
  ⟨by decide, ((barrier_arithmetic { count_ := 3 } 2).2.1 (by decide)).2,
    (barrier_arithmetic { count_ := 3 } 2).2.2.2.1 (by decide)⟩

/-! ## `insertIntoResultCtx` -/

/-- The three lookups of `insertIntoResultCtx` at the first slot named `name`. -/
theorem bindings_at_first_named (pre post : PlaceholderBindings) (ph : Placeholder)
    (old T : Tensor) (name : String) (hname : ph.name = name)
    (hpre : ∀ e ∈ pre, e.1.name ≠ name) :
    PlaceholderBindings.getPlaceholderByName (pre ++ (ph, old) :: post) name = some ph ∧
      PlaceholderBindings.get (pre ++ (ph, old) :: post) (some ph) = some old ∧
      PlaceholderBindings.assign (pre ++ (ph, old) :: post) ph T = pre ++ (ph, T) :: post := by
  induction pre with
  | nil =>
    simp [PlaceholderBindings.getPlaceholderByName, PlaceholderBindings.get,
      PlaceholderBindings.assign, hname]
  | cons e rest ih =>
    have he : e.1.name ≠ name := hpre e (List.mem_cons_self _ _)
    have hne : ¬ e.1 = ph := by
      intro heq
      rw [heq] at he
      exact he hname
    obtain ⟨h1, h2, h3⟩ := ih (fun e1 he1 => hpre e1 (List.mem_cons_of_mem _ he1))
    refine ⟨?_, ?_, ?_⟩
    · simpa [PlaceholderBindings.getPlaceholderByName, he] using h1
    · simpa [PlaceholderBindings.get, hne] using h2
    · simp only [List.cons_append, PlaceholderBindings.assign]
      simp [hne, h3]

theorem getPlaceholderByName_none {b : PlaceholderBindings} {name : String}
    (h : ∀ e ∈ b, e.1.name ≠ name) : b.getPlaceholderByName name = none := by
  unfold PlaceholderBindings.getPlaceholderByName
  rw [Option.map_eq_none', List.find?_eq_none]
  intro e he
  simpa using h e he

/-- C15: in a state that still holds its result context, `insertIntoResultCtx(name,
T)` returns without failure. When the result bindings have a slot for a
placeholder named `name` (the first such slot, after the slots `pre`), that slot
holds `T` afterwards, every other slot and every other member of the state is
unchanged; when they have no such slot, the state is unchanged. In both cases the
names bound in the result context are the same as before. -/
theorem insertIntoResultCtx_contract (st : ExecutionState) (rc : ExecutionContext)
    (name : String) (T : Tensor) (hrc : st.resultCtx_ = some rc) :
    (∀ (pre post : PlaceholderBindings) (ph : Placeholder) (old : Tensor),
        rc.placeholderBindings = pre ++ (ph, old) :: post → ph.name = name →
        (∀ e ∈ pre, e.1.name ≠ name) →
        st.insertIntoResultCtx name T =
          .ok { st with resultCtx_ := some { placeholderBindings := pre ++ (ph, T) :: post } }) ∧
      ((∀ e ∈ rc.placeholderBindings, e.1.name ≠ name) →
        st.insertIntoResultCtx name T = .ok st) ∧
      ∃ st1 rc1, st.insertIntoResultCtx name T = .ok st1 ∧ st1.resultCtx_ = some rc1 ∧
        slotNames rc1.placeholderBindings = slotNames rc.placeholderBindings := by
  refine ⟨?_, ?_, ?_⟩
  · intro pre post ph old hb hname hpre
    obtain ⟨h1, h2, h3⟩ := bindings_at_first_named pre post ph old T name hname hpre
    unfold ExecutionState.insertIntoResultCtx
    simp only [hrc, hb, h1, h2, h3]
  · intro hnone
    unfold ExecutionState.insertIntoResultCtx
    simp only [hrc, getPlaceholderByName_none hnone]
  · unfold ExecutionState.insertIntoResultCtx
    simp only [hrc]
    cases h1 : rc.placeholderBindings.getPlaceholderByName name with
    | none => exact ⟨st, rc, rfl, hrc, rfl⟩
    | some ph =>
      simp only
      cases h2 : rc.placeholderBindings.get (some ph) with
      | none => exact ⟨st, rc, rfl, hrc, rfl⟩
      | some old => exact ⟨_, _, rfl, rfl, slotNames_assign _ _ _⟩

/-- Witness for C15: the caller's context of the scenarios binds `x`; the tensor
with payload 5 is written into its slot. -/
theorem insertIntoResultCtx_contract_witness :
    (scenarioState 1).insertIntoResultCtx "x" { type := 0, payload := 5 } =
      .ok { scenarioState 1 with
        resultCtx_ := some { placeholderBindings :=
          [({ name := "x", type := 0, isTrainable := false }, { type := 0, payload := 5 })] } } :=
  (insertIntoResultCtx_contract (scenarioState 1) callerContext "x" { type := 0, payload := 5 }
    rfl).1 [] [] { name := "x", type := 0, isTrainable := false } { type := 0, payload := 1 } rfl
    rfl (fun e he => absurd he (List.not_mem_nil e))

/-! ## `createOrGetPlaceholder` -/

theorem createOrGetPlaceholder_keeps (st : ExecutionState) (name k : String) (type : TypeRef)
    (ph : Placeholder) (h : mapFind st.intermediatePlaceholders_ k = some ph) :
    mapFind (st.createOrGetPlaceholder name type).2.intermediatePlaceholders_ k = some ph := by
  unfold ExecutionState.createOrGetPlaceholder
  split
  · exact h
  · simp only [mapFind_mapInsert, h, Option.orElse]

theorem createOrGetAll_keeps (calls : List (String × TypeRef)) (st : ExecutionState) (k : String)
    (ph : Placeholder) (h : mapFind st.intermediatePlaceholders_ k = some ph) :
    mapFind (createOrGetAll calls st).intermediatePlaceholders_ k = some ph := by
  induction calls generalizing st with
  | nil => exact h
  | cons c rest ih =>
    simp only [createOrGetAll]
    exact ih _ (createOrGetPlaceholder_keeps st c.1 k c.2 ph h)

/-- C16: `createOrGetPlaceholder` memoizes. The first call for `name` (no entry
for `name` yet) returns a placeholder with that name, the given type and
`isTrainable = false`, and adds exactly one entry, for `name`, to
`intermediatePlaceholders_`, changing nothing else. After any further calls
`later`, a call for `name` with any type `type2` returns the same placeholder
and leaves the state unchanged; the stored placeholder has the type of the
first call. -/
theorem createOrGetPlaceholder_memoizes (st : ExecutionState) (name : String) (type : TypeRef)
    (hfirst : mapFind st.intermediatePlaceholders_ name = none) :
    (st.createOrGetPlaceholder name type).1 =
        { name := name, type := type, isTrainable := false } ∧
      (st.createOrGetPlaceholder name type).2 =
        { st with intermediatePlaceholders_ := st.intermediatePlaceholders_ ++
            [(name, { name := name, type := type, isTrainable := false })] } ∧
      ∀ (later : List (String × TypeRef)) (type2 : TypeRef),
        (createOrGetAll later (st.createOrGetPlaceholder name type).2).createOrGetPlaceholder
            name type2 =
          ((st.createOrGetPlaceholder name type).1,
            createOrGetAll later (st.createOrGetPlaceholder name type).2) ∧
        mapFind (createOrGetAll later
            (st.createOrGetPlaceholder name type).2).intermediatePlaceholders_ name =
          some { name := name, type := type, isTrainable := false } := by
  have h1 : st.createOrGetPlaceholder name type =
      ({ name := name, type := type, isTrainable := false },
        { st with intermediatePlaceholders_ := st.intermediatePlaceholders_ ++
            [(name, { name := name, type := type, isTrainable := false })] }) := by
    unfold ExecutionState.createOrGetPlaceholder
    simp only [hfirst, mapInsert]
  refine ⟨by rw [h1], by rw [h1], ?_⟩
  intro later type2
  have h2 : mapFind (st.createOrGetPlaceholder name type).2.intermediatePlaceholders_ name =
      some { name := name, type := type, isTrainable := false } := by
    rw [h1]
    simp only [mapFind_append, hfirst, Option.orElse, mapFind, if_true]
  have h3 := createOrGetAll_keeps later _ name _ h2
  refine ⟨?_, h3⟩
  rw [h1] at h3 ⊢
  unfold ExecutionState.createOrGetPlaceholder
  simp only [h3]

/-- Witness for C16: a state without placeholders; `x` is created with type 3, `y`
with type 4, and a later call for `x` with type 9 finds the placeholder of type 3. -/
theorem createOrGetPlaceholder_memoizes_witness :
    mapFind (scenarioState 0).intermediatePlaceholders_ "x" = none ∧
      ((createOrGetAll [("y", 4)]
          ((scenarioState 0).createOrGetPlaceholder "x" 3).2).createOrGetPlaceholder "x" 9).1 =
        { name := "x", type := 3, isTrainable := false } :=
  ⟨rfl, by
    rw [((createOrGetPlaceholder_memoizes (scenarioState 0) "x" 3 rfl).2.2 [("y", 4)] 9).1]
    exact (createOrGetPlaceholder_memoizes (scenarioState 0) "x" 3 rfl).1⟩

/-! ## `executeDAGNode` after an error -/

/-- A call of `incrementNodeParentsDone` that stays within the number of parents. -/
theorem incrementNodeParentsDone_within {G : Graph} {st : ExecutionState} {n : NodePtr}
    {c : Nat} (k : Nat) (hfind : mapFind st.nodeParentsDone_ n = some c)
    (hp : (G n).parents.length < UNSIGNED_MOD) (hle : c + k ≤ (G n).parents.length) :
    st.incrementNodeParentsDone G n k =
      .ok (decide (c + k = (G n).parents.length),
        { st with nodeParentsDone_ := mapAssign st.nodeParentsDone_ n (c + k) }) := by
  have h1 : (c + k) % UNSIGNED_MOD = c + k := Nat.mod_eq_of_lt (by omega)
  have h2 : (G n).parents.length % UNSIGNED_MOD = (G n).parents.length := Nat.mod_eq_of_lt hp
  unfold ExecutionState.incrementNodeParentsDone
  simp only [hfind, h1, h2]
  have h3 : ¬ c + k > (G n).parents.length := by omega
  simp only [h3, if_false]
  rw [show (c + k == (G n).parents.length) = decide (c + k = (G n).parents.length) from by
    by_cases h4 : c + k = (G n).parents.length <;> simp [h4]]

/-- The last of `m` unit increments that end at the number of parents returns
true, the others false. -/
theorem unitIncrements_last {G : Graph} {n : NodePtr} (hp : (G n).parents.length < UNSIGNED_MOD)
    (m : Nat) (c : Nat) (st : ExecutionState) (hfind : mapFind st.nodeParentsDone_ n = some c)
    (hend : c + (m + 1) = (G n).parents.length) :
    ∃ s, unitIncrements G n (m + 1) st = .ok (List.replicate m false ++ [true], s) := by
  induction m generalizing c st with
  | zero =>
    have h1 := incrementNodeParentsDone_within 1 hfind hp (by omega)
    refine ⟨{ st with nodeParentsDone_ := mapAssign st.nodeParentsDone_ n (c + 1) }, ?_⟩
    have heq : c + 1 = (G n).parents.length := by omega
    simp only [unitIncrements, h1]
    simp [heq]
  | succ m ih =>
    have h1 := incrementNodeParentsDone_within 1 hfind hp (by omega)
    have hne : ¬ c + 1 = (G n).parents.length := by omega
    obtain ⟨s, hs⟩ := ih (c + 1)
      { st with nodeParentsDone_ := mapAssign st.nodeParentsDone_ n (c + 1) }
      (mapFind_mapAssign_self _ _ _) (by omega)
    refine ⟨s, ?_⟩
    rw [unitIncrements, h1]
    simp only [hne, decide_False]
    rw [hs]
    rfl

/-- C12: for a node `n` whose `|n.parents| = p` is an `unsigned` value and whose
parents-done counter holds `c`: whenever `incrementNodeParentsDone(n, k)` returns,
it has set the counter to `c + k` (as an `unsigned` value, that is modulo 2^32)
and it returns true if and only if that value is `p`; it returns unless the new
value exceeds `p`, where the assertion fails. So for `c + k < 2^32` it returns
true if and only if `c + k = p`, and for `c + k ≤ p` it returns and sets the
counter to `c + k`. Consequently the `p ≥ 1` unit increments that start from 0
all return false but the last, which returns true. -/
theorem incrementNodeParentsDone_contract (G : Graph) (st : ExecutionState) (n : NodePtr)
    (c k : Nat) (hfind : mapFind st.nodeParentsDone_ n = some c)
    (hp : (G n).parents.length < UNSIGNED_MOD) :
    (∀ r, st.incrementNodeParentsDone G n k = .ok r →
        mapFind r.2.nodeParentsDone_ n = some ((c + k) % UNSIGNED_MOD) ∧
        (r.1 = true ↔ (c + k) % UNSIGNED_MOD = (G n).parents.length)) ∧
      ((∃ r, st.incrementNodeParentsDone G n k = .ok r) ↔
        (c + k) % UNSIGNED_MOD ≤ (G n).parents.length) ∧
      (c + k < UNSIGNED_MOD →
        ((∃ s, st.incrementNodeParentsDone G n k = .ok (true, s)) ↔
          c + k = (G n).parents.length)) ∧
      (c + k ≤ (G n).parents.length →
        ∃ s, st.incrementNodeParentsDone G n k =
            .ok (decide (c + k = (G n).parents.length), s) ∧
          mapFind s.nodeParentsDone_ n = some (c + k)) ∧
      (c = 0 → 1 ≤ (G n).parents.length →
        ∃ s, unitIncrements G n (G n).parents.length st =
          .ok (List.replicate ((G n).parents.length - 1) false ++ [true], s)) := by
  have h2 : (G n).parents.length % UNSIGNED_MOD = (G n).parents.length := Nat.mod_eq_of_lt hp
  have hret : ∀ r, st.incrementNodeParentsDone G n k = .ok r →
      mapFind r.2.nodeParentsDone_ n = some ((c + k) % UNSIGNED_MOD) ∧
      (r.1 = true ↔ (c + k) % UNSIGNED_MOD = (G n).parents.length) ∧
      (c + k) % UNSIGNED_MOD ≤ (G n).parents.length := by
    intro r hr
    obtain ⟨prev, h3, h4, h5, h6⟩ := incrementNodeParentsDone_ok hr
    rw [hfind] at h3
    injection h3 with h3
    subst h3
    rw [h2] at h4 h5
    refine ⟨?_, ?_, h4⟩
    · rw [h6]
      exact mapFind_mapAssign_self _ _ _
    · rw [h5]
      simp
  have hdef : (c + k) % UNSIGNED_MOD ≤ (G n).parents.length →
      st.incrementNodeParentsDone G n k =
        .ok ((c + k) % UNSIGNED_MOD == (G n).parents.length,
          { st with nodeParentsDone_ :=
              mapAssign st.nodeParentsDone_ n ((c + k) % UNSIGNED_MOD) }) := by
    intro hle
    unfold ExecutionState.incrementNodeParentsDone
    simp only [hfind, h2]
    have h3 : ¬ (c + k) % UNSIGNED_MOD > (G n).parents.length := by omega
    simp only [h3, if_false]
  refine ⟨fun r hr => ⟨(hret r hr).1, (hret r hr).2.1⟩, ?_, ?_, ?_, ?_⟩
  · constructor
    · rintro ⟨r, hr⟩
      exact (hret r hr).2.2
    · intro hle
      exact ⟨_, hdef hle⟩
  · intro hfit
    have h1 : (c + k) % UNSIGNED_MOD = c + k := Nat.mod_eq_of_lt hfit
    constructor
    · rintro ⟨s, hs⟩
      have := ((hret _ hs).2.1).1 rfl
      rw [h1] at this
      exact this
    · intro heq
      have hle : (c + k) % UNSIGNED_MOD ≤ (G n).parents.length := by omega
      refine ⟨{ st with nodeParentsDone_ :=
        (mapAssign st.nodeParentsDone_ n ((c + k) % UNSIGNED_MOD)) }, ?_⟩
      rw [hdef hle]
      simp [h1, heq, h2]
  · intro hle
    exact ⟨_, incrementNodeParentsDone_within k hfind hp hle, mapFind_mapAssign_self _ _ _⟩
  · intro hc hpos
    subst hc
    obtain ⟨s, hs⟩ := unitIncrements_last hp ((G n).parents.length - 1) 0 st hfind (by omega)
    have h4 : (G n).parents.length - 1 + 1 = (G n).parents.length := by omega
    rw [h4] at hs
    exact ⟨s, hs⟩

/-- Witness for C12: the join node `C` of the diamond, with two parents: the first
unit increment returns false, the second true. -/
theorem incrementNodeParentsDone_contract_witness :
    (1 ≤ (diamondGraph 3).parents.length) ∧
      ∃ s, unitIncrements diamondGraph 3 (diamondGraph 3).parents.length
          { scenarioState 1 with nodeParentsDone_ := [(3, 0)] } =
        .ok (List.replicate ((diamondGraph 3).parents.length - 1) false ++ [true], s) :=
  ⟨by decide,
    (incrementNodeParentsDone_contract diamondGraph
      { scenarioState 1 with nodeParentsDone_ := [(3, 0)] } 3 0 1 rfl (by decide)).2.2.2.2 rfl
      (by decide)⟩

/-- C12 as stated fails when the increment wraps the counter. The join node `C` of
the diamond has two parents; with its counter at 1, the call
`incrementNodeParentsDone(C, 2^32 - 1)` returns (false), and the counter is 0
after it, not 1 + (2^32 - 1) = 2^32: the new value is computed in an `unsigned`. -/
theorem parents_done_increment_wraps :
    (diamondGraph 3).parents.length = 2 ∧
      mapFind ({ scenarioState 1 with nodeParentsDone_ := [(3, 1)] } :
        ExecutionState).nodeParentsDone_ 3 = some 1 ∧
      (ExecutionState.incrementNodeParentsDone diamondGraph
          { scenarioState 1 with nodeParentsDone_ := [(3, 1)] } 3 4294967295).map
        (fun r => (r.1, r.2.nodeParentsDone_)) = .ok (false, [(3, 0)]) ∧
      1 + 4294967295 ≠ 0 := by
  decide

/-! ## `decrementInflightNodes` -/

/-- C13 as stated fails when an increment wraps: from 0, `incrementInflightNodes(2^32
- 1)`, `decrementInflightNodes(1)`, `incrementInflightNodes(2)` never underflows
and ends at 0 for the first time at its last step (the counter holds 2^32 - 1,
2^32 - 2, 0), and the only decrement returns false. -/
theorem inflight_wraps_to_zero :
    (inflightCalls [CounterCall.increment 4294967295, CounterCall.decrement 1,
        CounterCall.increment 2] (scenarioState 0)).map
      (fun r => (r.1, r.2.inflightNodes_)) =
    .ok ([(none, 4294967295), (some false, 4294967294), (none, 0)], 0) := by
  decide

/-- A decrement that returns true leaves the counter at 0. -/
theorem inflightCalls_true_at_zero (calls : List CounterCall) (st st1 : ExecutionState)
    (tr : List (Option Bool × Nat)) (h : inflightCalls calls st = .ok (tr, st1)) :
    ∀ e ∈ tr, e.1 = some true → e.2 = 0 := by
  induction calls generalizing st tr with
  | nil =>
    simp only [inflightCalls] at h
    injection h with h
    injection h with h1 h2
    subst h1
    intro e he
    cases he
  | cons c rest ih =>
    cases c with
    | increment k =>
      simp only [inflightCalls] at h
      split at h
      · cases h
      · rename_i tr1 st2 h1
        injection h with h
        injection h with h2 h3
        subst h2 h3
        intro e he
        rcases List.mem_cons.1 he with h4 | h4
        · subst h4
          intro h5
          cases h5
        · exact ih _ _ h1 e h4
    | decrement k =>
      simp only [inflightCalls] at h
      split at h
      · cases h
      · rename_i b st2 h0
        split at h
        · cases h
        · rename_i tr1 st3 h1
          injection h with h
          injection h with h2 h3
          subst h2 h3
          intro e he
          rcases List.mem_cons.1 he with h4 | h4
          · subst h4
            intro h5
            unfold ExecutionState.decrementInflightNodes at h0
            dsimp only at h0
            split at h0
            · cases h0
            · injection h0 with h0
              injection h0 with h6 h7
              subst h7
              simp only [Option.some.injEq] at h5
              rw [h5] at h6
              have h8 : st.inflightNodes_ = k := by simpa using h6
              show st.inflightNodes_ - k = 0
              omega
          · exact ih _ _ h1 e h4

/-- The state after a prefix of a sequence whose increments fit. -/
theorem incrementsFit_after (pre rest : List CounterCall) (st st1 : ExecutionState)
    (tr : List (Option Bool × Nat)) (hfit : incrementsFit (pre ++ rest) st = true)
    (h : inflightCalls pre st = .ok (tr, st1)) : incrementsFit rest st1 = true := by
  induction pre generalizing st tr with
  | nil =>
    simp only [inflightCalls] at h
    injection h with h
    injection h with h1 h2
    subst h2
    exact hfit
  | cons c more ih =>
    cases c with
    | increment k =>
      simp only [inflightCalls] at h
      split at h
      · cases h
      · rename_i tr1 st2 h1
        injection h with h
        injection h with h2 h3
        subst h3
        simp only [List.cons_append, incrementsFit, Bool.and_eq_true] at hfit
        exact ih _ _ hfit.2 h1
    | decrement k =>
      simp only [inflightCalls] at h
      split at h
      · cases h
      · rename_i b st2 h0
        split at h
        · cases h
        · rename_i tr1 st3 h1
          injection h with h
          injection h with h2 h3
          subst h3
          simp only [List.cons_append, incrementsFit, h0] at hfit
          exact ih _ _ hfit h1

/-- C13 amended: for every value `c` of `inflightNodes_` and every `k ≤ c`,
`decrementInflightNodes(k)` sets the counter to `c - k` and returns true if and
only if `c - k = 0`. Consequently, in a sequence of increments and decrements
in which no increment takes the counter past 2^32 - 1, that never underflows
(every call returns) and in which the counter is 0 after the last call `last`
but neither before it nor after any earlier call `pre`, the last call is a
decrement, it returns true, and no earlier decrement does. -/
theorem decrementInflightNodes_contract (st : ExecutionState) :
    (∀ k, k ≤ st.inflightNodes_ →
        st.decrementInflightNodes k =
          .ok (decide (st.inflightNodes_ - k = 0),
            { st with inflightNodes_ := st.inflightNodes_ - k })) ∧
      ∀ (pre : List CounterCall) (last : CounterCall) (tr tr2 : List (Option Bool × Nat))
        (st1 st2 : ExecutionState),
        incrementsFit (pre ++ [last]) st = true →
        inflightCalls pre st = .ok (tr, st1) → (∀ e ∈ tr, e.2 ≠ 0) →
        st1.inflightNodes_ ≠ 0 →
        inflightCalls [last] st1 = .ok (tr2, st2) → st2.inflightNodes_ = 0 →
        (∃ k, last = CounterCall.decrement k) ∧ tr2 = [(some true, 0)] ∧
          ∀ e ∈ tr, e.1 ≠ some true := by
  constructor
  · intro k hk
    unfold ExecutionState.decrementInflightNodes
    have h1 : ¬ st.inflightNodes_ < k := by omega
    simp only [h1, if_false]
    rw [show (st.inflightNodes_ == k) = decide (st.inflightNodes_ - k = 0) from by
      by_cases h4 : st.inflightNodes_ = k
      · simp [h4]
      · have h5 : ¬ st.inflightNodes_ - k = 0 := by omega
        simp [h4, h5]]
  · intro pre last tr tr2 st1 st2 hfit hpre hnz hprev hlast hzero
    have hfit1 := incrementsFit_after pre [last] st st1 tr hfit hpre
    have hearly : ∀ e ∈ tr, e.1 ≠ some true := by
      intro e he htrue
      exact hnz e he (inflightCalls_true_at_zero pre st st1 tr hpre e he htrue)
    cases last with
    | increment k =>
      exfalso
      simp only [incrementsFit, Bool.and_true, decide_eq_true_eq] at hfit1
      simp only [inflightCalls] at hlast
      injection hlast with hlast
      injection hlast with h1 h2
      subst h2
      have h3 : (st1.inflightNodes_ + k) % UNSIGNED_MOD = 0 := hzero
      rw [Nat.mod_eq_of_lt hfit1] at h3
      omega
    | decrement k =>
      refine ⟨⟨k, rfl⟩, ?_, hearly⟩
      simp only [inflightCalls] at hlast
      split at hlast
      · cases hlast
      · rename_i b st3 h0
        injection hlast with hlast
        injection hlast with h1 h2
        subst h2
        unfold ExecutionState.decrementInflightNodes at h0
        dsimp only at h0
        split at h0
        · cases h0
        · injection h0 with h0
          injection h0 with h6 h7
          subst h7
          have h8 : st1.inflightNodes_ - k = 0 := hzero
          have h9 : st1.inflightNodes_ = k := by omega
          rw [← h1, ← h6]
          simp [h9]

/-- Witness for C13: from 0 the calls increment(2), decrement(1), decrement(1); the
last call returns true, the decrement before it false. -/
theorem decrementInflightNodes_contract_witness :
    (incrementsFit ([CounterCall.increment 2, CounterCall.decrement 1] ++
        [CounterCall.decrement 1]) (scenarioState 0) = true ∧
      inflightCalls [CounterCall.increment 2, CounterCall.decrement 1] (scenarioState 0) =
        .ok ([(none, 2), (some false, 1)], scenarioState 1) ∧
      inflightCalls [CounterCall.decrement 1] (scenarioState 1) =
        .ok ([(some true, 0)], scenarioState 0)) ∧
      ((∃ k, CounterCall.decrement 1 = CounterCall.decrement k) ∧
        [(some true, 0)] = [((some true : Option Bool), 0)] ∧
        ∀ e ∈ [((none : Option Bool), 2), (some false, 1)], e.1 ≠ some true) :=
  ⟨⟨by decide, by decide, by decide⟩,
    (decrementInflightNodes_contract (scenarioState 0)).2
      [CounterCall.increment 2, CounterCall.decrement 1] (CounterCall.decrement 1)
      [(none, 2), (some false, 1)] [(some true, 0)] (scenarioState 1) (scenarioState 0)
      (by decide) (by decide) (by decide) (by decide) (by decide) rfl⟩

/-! ## A successful completion after an error -/

/-- C18 as stated fails. In root → {A, B} with two leaves, `A` fails and then `B`
completes with success, handing back `x` with payload 9: before the completion
of `B` is handled the result context binds `x` to the caller's payload 1, and the
callback receives the error together with a result context in which `x` has
payload 9. In root → {A, B}, A → C, B → D the same completion of `B` writes
payload 9 into the input bindings of `D` (address 4) and takes the parents-done
counter of `D` to 1; `D` is not handed to a device. -/
theorem success_after_error_still_propagates :
    (steps twoLeavesGraph (World.init [0]) firstChildFails).map
        (fun w => w.objects.map (fun st => (st.resultCtx_, st.errorContainer_))) =
      .ok [(some callerContext, some (ErrorCode.DEVICE_ERROR 1))] ∧
    (steps twoLeavesGraph (World.init [0])
        (firstChildFails ++ [Label.complete 0 none deviceContext])).map callbacks =
      .ok [Event.callback (some 0) 7 1 (some (ErrorCode.DEVICE_ERROR 1)) deviceContext] ∧
    (steps midRunFailureGraph (World.init [0])
        (firstChildFails ++ [Label.complete 0 none deviceContext])).map
        (fun w => (w.objects.map (fun st =>
          (mapFind st.inputCtxs_ 4, mapFind st.nodeParentsDone_ 4)), dispatchCount w 0 4)) =
      .ok ([(some (some deviceContext), some 1)], 0) := by
  refine ⟨?_, ?_, ?_⟩ <;> rfl

theorem markNoLongerExecuting_after_increment {ex : ThreadPoolExecutor} {st : ExecutionState}
    {r : ThreadPoolExecutor × ExecutionState} (hin : st.inflightNodes_ < UNSIGNED_MOD)
    (hb : ex.inflightBarrier_.count_ < UNSIGNED_MOD)
    (h : ThreadPoolExecutor.markNoLongerExecuting
      { ex with inflightBarrier_ := ex.inflightBarrier_.increment 1 }
      (st.incrementInflightNodes 1) = .ok r) :
    r = (ex, st) := by
  obtain ⟨h1, h2, h3⟩ := markNoLongerExecuting_ok h
  have h4 : 1 ≤ (st.inflightNodes_ + 1) % UNSIGNED_MOD := h1
  have h5 : 1 ≤ (ex.inflightBarrier_.count_ + 1) % UNSIGNED_MOD := h2
  have h6 : (st.inflightNodes_ + 1) % UNSIGNED_MOD = st.inflightNodes_ + 1 := by
    apply Nat.mod_eq_of_lt
    by_contra hc
    have : st.inflightNodes_ + 1 = UNSIGNED_MOD := by omega
    rw [this, Nat.mod_self] at h4
    omega
  have h7 : (ex.inflightBarrier_.count_ + 1) % UNSIGNED_MOD = ex.inflightBarrier_.count_ + 1 := by
    apply Nat.mod_eq_of_lt
    by_contra hc
    have : ex.inflightBarrier_.count_ + 1 = UNSIGNED_MOD := by omega
    rw [this, Nat.mod_self] at h5
    omega
  rw [h3]
  simp only [ExecutionState.incrementInflightNodes, InflightBarrier.increment, h6, h7,
    Nat.add_sub_cancel]

/-- What a child of a node that completed with success sees when the run has
failed already: its inputs and its counter are written, but it is not dispatched. -/
theorem handleChild_after_error {G : Graph} {ctx : ExecutionContext} {ex : ThreadPoolExecutor}
    {st : ExecutionState} {child : NodePtr} {e : ErrorCode}
    {r : ThreadPoolExecutor × ExecutionState} (herr : st.errorContainer_ = some e)
    (hin : st.inflightNodes_ < UNSIGNED_MOD)
    (hb : ex.inflightBarrier_.count_ < UNSIGNED_MOD)
    (h : ThreadPoolExecutor.handleChild G ctx ex st child = .ok r) :
    r.2.errorContainer_ = some e ∧ r.2.inflightNodes_ = st.inflightNodes_ ∧
      r.1.inflightBarrier_ = ex.inflightBarrier_ ∧ r.1.outstanding = ex.outstanding ∧
      r.1.events = ex.events ++ [Event.propagated st.self child ctx] := by
  obtain ⟨pr, q, h1, h2, h3, h4⟩ := handleChild_ok h
  obtain ⟨hp1, -, hp3⟩ := propagatePlaceholdersForNode_ok h1
  obtain ⟨prev, -, -, -, hq⟩ := incrementNodeParentsDone_ok h2
  have e1 : q.2.errorContainer_ = some e := by rw [hq, hp3]; exact herr
  have e2 : q.2.inflightNodes_ = st.inflightNodes_ := by rw [hq, hp3]
  cases hready : q.1 with
  | false =>
    rw [h4 hready]
    exact ⟨e1, e2, by rw [hp1]; rfl, by rw [hp1]; rfl, by rw [hp1]; rfl⟩
  | true =>
    rcases executeDAGNode_ok (h3 hready) with ⟨-, h5⟩ | ⟨h0, -⟩ | ⟨h0, -⟩
    · have h6 := markNoLongerExecuting_after_increment (by rw [e2]; exact hin)
        (by rw [hp1]; exact hb) h5
      rw [h6]
      exact ⟨e1, e2, by rw [hp1]; rfl, by rw [hp1]; rfl, by rw [hp1]; rfl⟩
    · have h7 : q.2.errorContainer_ = none := h0
      rw [e1] at h7
      cases h7
    · have h7 : q.2.errorContainer_ = none := h0
      rw [e1] at h7
      cases h7

theorem handleChildren_after_error {G : Graph} {ctx : ExecutionContext} (children : List NodePtr)
    {ex : ThreadPoolExecutor} {st : ExecutionState} {e : ErrorCode}
    {r : ThreadPoolExecutor × ExecutionState} (herr : st.errorContainer_ = some e)
    (hin : st.inflightNodes_ < UNSIGNED_MOD)
    (hb : ex.inflightBarrier_.count_ < UNSIGNED_MOD)
    (h : ThreadPoolExecutor.handleChildren G ctx children ex st = .ok r) :
    r.2.errorContainer_ = some e ∧ r.2.inflightNodes_ = st.inflightNodes_ ∧
      r.1.inflightBarrier_ = ex.inflightBarrier_ ∧ r.1.outstanding = ex.outstanding ∧
      ∃ evs, r.1.events = ex.events ++ evs ∧ ∀ ev ∈ evs, ev.isDispatch = false := by
  induction children generalizing ex st with
  | nil =>
    simp only [ThreadPoolExecutor.handleChildren] at h
    injection h with h
    subst h
    exact ⟨herr, rfl, rfl, rfl, [], by simp, by simp⟩
  | cons c rest ih =>
    simp only [ThreadPoolExecutor.handleChildren] at h
    split at h
    · cases h
    · rename_i ex1 st1 h1
      obtain ⟨a1, a2, a3, a4, a5⟩ := handleChild_after_error herr hin hb h1
      have a2a : st1.inflightNodes_ = st.inflightNodes_ := a2
      have a3a : ex1.inflightBarrier_ = ex.inflightBarrier_ := a3
      have a4a : ex1.outstanding = ex.outstanding := a4
      have a5a : ex1.events = ex.events ++ [Event.propagated st.self c ctx] := a5
      obtain ⟨b1, b2, b3, b4, evs, b5, b6⟩ := ih a1 (by rw [a2a]; exact hin)
        (by rw [a3a]; exact hb) h
      refine ⟨b1, b2.trans a2a, b3.trans a3a, b4.trans a4a,
        Event.propagated st.self c ctx :: evs, ?_, ?_⟩
      · rw [b5, a5a]
        simp
      · intro ev hev
        rcases List.mem_cons.1 hev with h2 | h2
        · rw [h2]
          rfl
        · exact b6 ev h2

/-- C18 amended: once the error slot of a run holds an error, handling the later
successful completion of a node that had been dispatched hands no child to a
device manager (no `getNextDevice` and no `runFunction` is called, no device call
becomes outstanding), leaves the error slot as it is, and leaves `inflightNodes_`
and the barrier count one lower than before; the outputs of the node are still
propagated as after any successful execution: for a node without children
`propagateOutputPlaceholders` runs on the result bindings, for a node with
children the loop over the children runs, before the final decrements. -/
theorem handle_success_after_error (G : Graph) (ex : ThreadPoolExecutor) (st : ExecutionState)
    (ctx : ExecutionContext) (node : NodePtr) (e : ErrorCode)
    (r : ThreadPoolExecutor × ExecutionState)
    (herr : st.errorContainer_ = some e) (hin : st.inflightNodes_ < UNSIGNED_MOD)
    (hb : ex.inflightBarrier_.count_ < UNSIGNED_MOD)
    (hr : ThreadPoolExecutor.handleDeviceManagerResult G ex st none ctx node = .ok r) :
    r.1.outstanding = ex.outstanding ∧
      (∃ evs, r.1.events = ex.events ++ evs ∧ ∀ ev ∈ evs, ev.isDispatch = false) ∧
      r.2.errorContainer_ = some e ∧
      r.2.inflightNodes_ + 1 = st.inflightNodes_ ∧
      r.1.inflightBarrier_.count + 1 = ex.inflightBarrier_.count ∧
      ((G node).children = [] →
        ∃ st1, ThreadPoolExecutor.propagateOutputPlaceholders st ctx.placeholderBindings =
            .ok st1 ∧
          ThreadPoolExecutor.finishNode (ex.log (Event.handling st.self node none ctx)) st1 =
            .ok r) ∧
      ((G node).children ≠ [] →
        ∃ p, ThreadPoolExecutor.handleChildren G ctx (G node).children
            (ex.log (Event.handling st.self node none ctx)) st = .ok p ∧
          ThreadPoolExecutor.finishNode p.1 p.2 = .ok r) := by
  obtain ⟨pr, hf, hp⟩ := handleDeviceManagerResult_ok hr
  have key : pr.2.errorContainer_ = some e ∧ pr.2.inflightNodes_ = st.inflightNodes_ ∧
      pr.1.inflightBarrier_ = ex.inflightBarrier_ ∧ pr.1.outstanding = ex.outstanding ∧
      ∃ evs, pr.1.events = ex.events ++ evs ∧ ∀ ev ∈ evs, ev.isDispatch = false := by
    rcases hp with ⟨hne, -⟩ | ⟨-, -, hp1, hp2⟩ | ⟨-, -, hp⟩
    · exact absurd rfl hne
    · have hfr := (propagateOutputPairs_frame _ hp2).1
      refine ⟨by rw [hfr]; exact herr, by rw [hfr], by rw [hp1]; rfl, by rw [hp1]; rfl,
        [Event.handling st.self node none ctx], by rw [hp1]; rfl, ?_⟩
      intro ev hev
      rw [List.mem_singleton] at hev
      rw [hev]
      rfl
    · obtain ⟨b1, b2, b3, b4, evs, b5, b6⟩ := handleChildren_after_error _ herr hin
        (show (ex.log (Event.handling st.self node none ctx)).inflightBarrier_.count_ <
          UNSIGNED_MOD from hb) hp
      refine ⟨b1, b2, b3, b4, Event.handling st.self node none ctx :: evs, ?_, ?_⟩
      · rw [b5]
        simp [ThreadPoolExecutor.log]
      · intro ev hev
        rcases List.mem_cons.1 hev with h2 | h2
        · rw [h2]
          rfl
        · exact b6 ev h2
  obtain ⟨k1, k2, k3, k4, evs, k5, k6⟩ := key
  obtain ⟨f1, f2, f3⟩ := finishNode_ok hf
  have k3c : pr.1.inflightBarrier_.count_ = ex.inflightBarrier_.count_ := by rw [k3]
  have hleaf : (G node).children = [] →
      ∃ st1, ThreadPoolExecutor.propagateOutputPlaceholders st ctx.placeholderBindings =
          .ok st1 ∧
        ThreadPoolExecutor.finishNode (ex.log (Event.handling st.self node none ctx)) st1 =
          .ok r := by
    intro hch
    rcases hp with ⟨hne, -⟩ | ⟨-, -, hp1, hp2⟩ | ⟨-, hne, -⟩
    · exact absurd rfl hne
    · refine ⟨pr.2, hp2, ?_⟩
      rw [← hp1]
      exact hf
    · exact absurd hch hne
  have hinner : (G node).children ≠ [] →
      ∃ p, ThreadPoolExecutor.handleChildren G ctx (G node).children
          (ex.log (Event.handling st.self node none ctx)) st = .ok p ∧
        ThreadPoolExecutor.finishNode p.1 p.2 = .ok r := by
    intro hch
    rcases hp with ⟨hne, -⟩ | ⟨-, he, -, -⟩ | ⟨-, -, hp⟩
    · exact absurd rfl hne
    · exact absurd he hch
    · exact ⟨pr, hp, hf⟩
  rcases f3 with ⟨g1, rc, -, h5⟩ | ⟨g1, h5⟩
  · rw [h5]
    refine ⟨k4, ⟨evs ++ [Event.callback (some pr.2.self) pr.2.cb_ pr.2.runId_
      pr.2.errorContainer_ rc], ?_, ?_⟩, k1, ?_, ?_, ?_, ?_⟩
    · show pr.1.events ++ _ = _
      rw [k5, List.append_assoc]
    · intro ev hev
      rcases List.mem_append.1 hev with h2 | h2
      · exact k6 ev h2
      · rw [List.mem_singleton] at h2
        rw [h2]
        rfl
    · show 0 + 1 = st.inflightNodes_
      omega
    · show pr.1.inflightBarrier_.count_ - 1 + 1 = ex.inflightBarrier_.count_
      omega
    · rw [← h5]
      exact hleaf
    · rw [← h5]
      exact hinner
  · rw [h5]
    refine ⟨k4, ⟨evs, k5, k6⟩, k1, ?_, ?_, ?_, ?_⟩
    · show pr.2.inflightNodes_ - 1 + 1 = st.inflightNodes_
      omega
    · show pr.1.inflightBarrier_.count_ - 1 + 1 = ex.inflightBarrier_.count_
      omega
    · rw [← h5]
      exact hleaf
    · rw [← h5]
      exact hinner

/-- Witness for C18: the leaf `B` of root → {A, B} completes with success after the
run has failed. -/
theorem handle_success_after_error_witness :
    ThreadPoolExecutor.handleDeviceManagerResult twoLeavesGraph afterErrorExecutor
        afterErrorState none deviceContext 2 = .ok afterErrorResult ∧
      afterErrorResult.2.inflightNodes_ + 1 = afterErrorState.inflightNodes_ ∧
      afterErrorResult.1.inflightBarrier_.count + 1 = afterErrorExecutor.inflightBarrier_.count :=
  ⟨rfl,
    (handle_success_after_error twoLeavesGraph afterErrorExecutor afterErrorState deviceContext 2
      (ErrorCode.DEVICE_ERROR 1) afterErrorResult rfl (by decide) (by decide) rfl).2.2.2.1,
    (handle_success_after_error twoLeavesGraph afterErrorExecutor afterErrorState deviceContext 2
      (ErrorCode.DEVICE_ERROR 1) afterErrorResult rfl (by decide) (by decide) rfl).2.2.2.2.1⟩

/-! ## The breadth-first walk of the constructor -/

theorem mem_mapKeys_iff {κ ν : Type} [DecidableEq κ] (m : List (κ × ν)) (k : κ) :
    k ∈ mapKeys m ↔ (mapFind m k).isSome = true := by
  induction m with
  | nil => simp [mapKeys, mapFind]
  | cons e rest ih =>
    by_cases h : e.1 = k
    · simp [mapKeys, mapFind, h]
    · have h1 : ¬ k = e.1 := fun h2 => h h2.symm
      simp only [mapKeys, List.map_cons, List.mem_cons, h1, false_or, mapFind, h, if_false]
      exact ih

theorem mem_mapKeys_mapAssign {κ ν : Type} [DecidableEq κ] (m : List (κ × ν)) (k x : κ) (v : ν) :
    x ∈ mapKeys (mapAssign m k v) ↔ x = k ∨ x ∈ mapKeys m := by
  rw [mem_mapKeys_iff, mem_mapKeys_iff]
  by_cases h : x = k
  · subst h
    simp [mapFind_mapAssign_self]
  · rw [mapFind_mapAssign_ne _ _ h]
    simp [h]

theorem mem_mapKeys_mapInsert {κ ν : Type} [DecidableEq κ] (m : List (κ × ν)) (k x : κ) (v : ν) :
    x ∈ mapKeys (mapInsert m k v) ↔ x = k ∨ x ∈ mapKeys m := by
  rw [mem_mapKeys_iff, mem_mapKeys_iff, mapFind_mapInsert]
  by_cases h : k = x
  · subst h
    cases hf : mapFind m k <;> simp
  · have h1 : ¬ x = k := fun h2 => h h2.symm
    cases hf : mapFind m x <;> simp [h, h1]

theorem nodup_mapKeys_mapAssign {κ ν : Type} [DecidableEq κ] (m : List (κ × ν)) (k : κ) (v : ν)
    (h : (mapKeys m).Nodup) : (mapKeys (mapAssign m k v)).Nodup := by
  induction m with
  | nil => simp [mapAssign, mapKeys]
  | cons e rest ih =>
    have h1 : e.1 ∉ mapKeys rest ∧ (mapKeys rest).Nodup := by
      simpa [mapKeys] using h
    unfold mapAssign
    by_cases he : e.1 = k
    · simp only [he, if_true]
      rw [he] at h1
      simpa [mapKeys] using h1
    · simp only [he, if_false]
      have h2 : e.1 ∉ mapKeys (mapAssign rest k v) := by
        rw [mem_mapKeys_mapAssign]
        intro h3
        rcases h3 with h3 | h3
        · exact he h3
        · exact h1.1 h3
      have h3 := ih h1.2
      simp only [mapKeys, List.map_cons, List.nodup_cons]
      exact ⟨h2, h3⟩

theorem nodup_mapKeys_mapInsert {κ ν : Type} [DecidableEq κ] (m : List (κ × ν)) (k : κ) (v : ν)
    (h : (mapKeys m).Nodup) : (mapKeys (mapInsert m k v)).Nodup := by
  unfold mapInsert
  cases hf : mapFind m k with
  | some w => exact h
  | none =>
    have hk : k ∉ mapKeys m := by
      rw [mem_mapKeys_iff, hf]
      simp
    simp only [mapKeys, List.map_append, List.map_cons, List.map_nil]
    refine List.Nodup.append h (List.nodup_singleton k) ?_
    intro a ha hak
    rw [List.mem_singleton] at hak
    rw [hak] at ha
    exact hk ha

theorem visit_counters (G : Graph) (st : ExecutionState) (node : NodePtr) :
    (ExecutionState.visit G st node).nodeParentsDone_ = mapAssign st.nodeParentsDone_ node 0 := by
  unfold ExecutionState.visit
  dsimp only
  rw [allocateSymbols_frame]

theorem visit_inputs (G : Graph) (st : ExecutionState) (node : NodePtr) :
    ∃ ctx, (ExecutionState.visit G st node).inputCtxs_ =
      mapInsert st.inputCtxs_ node (some ctx) := by
  unfold ExecutionState.visit
  dsimp only
  rw [allocateSymbols_frame]
  exact ⟨_, rfl⟩

/-- One iteration of the breadth-first loop keeps the invariant. -/
theorem walked_visit {G : Graph} {root : NodePtr} {node : NodePtr} {q : List NodePtr}
    {st : ExecutionState} (h : Walked G root (node :: q) st) :
    Walked G root
      (q ++ (G node).children.filter
        (fun child => (mapFind (ExecutionState.visit G st node).nodeParentsDone_ child).isNone))
      (ExecutionState.visit G st node) := by
  obtain ⟨ctx, hin⟩ := visit_inputs G st node
  have hc := visit_counters G st node
  have hnode : Reach G root node := h.queued node (List.mem_cons_self _ _)
  refine ⟨?_, ?_, ?_, ?_, ?_, ?_, ?_⟩
  · intro n
    rw [hin, hc, mem_mapKeys_mapInsert, mem_mapKeys_mapAssign, h.sameKeys]
  · intro n hn
    rw [hc, mem_mapKeys_mapAssign] at hn
    rcases hn with hn | hn
    · rw [hn]
      exact hnode
    · exact h.visited n hn
  · intro n hn
    rcases List.mem_append.1 hn with h1 | h1
    · exact h.queued n (List.mem_cons_of_mem _ h1)
    · exact Reach.step hnode (List.mem_filter.1 h1).1
  · intro n hn c hcn
    by_cases hv : c ∈ mapKeys (ExecutionState.visit G st node).nodeParentsDone_
    · exact Or.inl hv
    · right
      rw [hc, mem_mapKeys_mapAssign] at hn
      rcases hn with hn | hn
      · subst hn
        apply List.mem_append_right
        rw [List.mem_filter]
        refine ⟨hcn, ?_⟩
        rw [mem_mapKeys_iff] at hv
        simpa using hv
      · rcases h.closed n hn c hcn with h1 | h1
        · exfalso
          apply hv
          rw [hc, mem_mapKeys_mapAssign]
          exact Or.inr h1
        · rcases List.mem_cons.1 h1 with h2 | h2
          · exfalso
            apply hv
            rw [hc, mem_mapKeys_mapAssign]
            exact Or.inl h2
          · exact List.mem_append_left _ h2
  · intro c hcr
    rcases h.roots c hcr with h1 | h1
    · left
      rw [hc, mem_mapKeys_mapAssign]
      exact Or.inr h1
    · rcases List.mem_cons.1 h1 with h2 | h2
      · left
        rw [hc, mem_mapKeys_mapAssign]
        exact Or.inl h2
      · exact Or.inr (List.mem_append_left _ h2)
  · rw [hc]
    exact nodup_mapKeys_mapAssign _ _ _ h.countersNodup
  · rw [hin]
    exact nodup_mapKeys_mapInsert _ _ _ h.inputsNodup

theorem walked_bfs {G : Graph} {root : NodePtr} (fuel : Nat) (q : List NodePtr)
    {st st1 : ExecutionState} (h : Walked G root q st)
    (hb : ExecutionState.bfs G fuel q st = .ok st1) : Walked G root [] st1 := by
  induction fuel generalizing q st with
  | zero =>
    cases q with
    | nil =>
      simp only [ExecutionState.bfs] at hb
      injection hb with hb
      subst hb
      exact h
    | cons n q => simp [ExecutionState.bfs] at hb
  | succ k ih =>
    cases q with
    | nil =>
      simp only [ExecutionState.bfs] at hb
      injection hb with hb
      subst hb
      exact h
    | cons n q =>
      simp only [ExecutionState.bfs] at hb
      exact ih _ (walked_visit h) hb

/-- When the queue is empty, the nodes with a key are the nodes that can be reached. -/
theorem walked_done {G : Graph} {root : NodePtr} {st : ExecutionState}
    (h : Walked G root [] st) (n : NodePtr) :
    n ∈ mapKeys st.nodeParentsDone_ ↔ Reach G root n := by
  constructor
  · exact h.visited n
  · intro hn
    induction hn with
    | child hc =>
      rcases h.roots _ hc with h1 | h1
      · exact h1
      · cases h1
    | step _ hc ih =>
      rcases h.closed _ ih _ hc with h1 | h1
      · exact h1
      · cases h1

/-- The state that the constructor builds, whatever the number of iterations. -/
theorem builtFor_create {G : Graph} {fuel : Nat} {self : StatePtr} {id : RunIdentifierTy}
    {root : NodePtr} {ctx : ExecutionContext} {cb : ResultCBTy} {st : ExecutionState}
    (h : ExecutionState.create G fuel self id root ctx cb = .ok st) : BuiltFor G root st := by
  have hcon := constructed_create h
  have hfr := create_frame h
  unfold ExecutionState.create at h
  have hw : Walked G root [] st := by
    refine walked_bfs fuel _ ⟨?_, ?_, ?_, ?_, ?_, ?_, ?_⟩ h
    · intro n
      simp [mapKeys]
    · intro n hn
      simp [mapKeys] at hn
    · intro n hn
      exact Reach.child hn
    · intro n hn
      simp [mapKeys] at hn
    · intro c hc
      exact Or.inr hc
    · simp [mapKeys]
    · simp [mapKeys]
  have hkeys := walked_done hw
  refine ⟨hkeys, ?_, hw.countersNodup, hw.inputsNodup, ?_, hfr.2.2.2.2.1, ?_⟩
  · intro n
    rw [hw.sameKeys]
    exact hkeys n
  · intro n hn
    have h1 := (hkeys n).2 hn
    rw [mem_mapKeys_iff] at h1
    cases hf : mapFind st.nodeParentsDone_ n with
    | none =>
      rw [hf] at h1
      cases h1
    | some c =>
      rw [hcon.counters n c hf]
  · intro n hn
    have h1 := (hw.sameKeys n).2 ((hkeys n).2 hn)
    rw [mem_mapKeys_iff] at h1
    cases hf : mapFind st.inputCtxs_ n with
    | none =>
      rw [hf] at h1
      cases h1
    | some c =>
      obtain ⟨c1, hc1, hs⟩ := hcon.slots n c hf
      subst hc1
      exact ⟨c1, rfl, hs⟩

/-! ## The breadth-first walk terminates -/

theorem countP_lt_countP {α : Type} (l : List α) (p q : α → Bool)
    (himp : ∀ x ∈ l, p x = true → q x = true) (x : α) (hx : x ∈ l) (hq : q x = true)
    (hp : p x = false) : l.countP p < l.countP q := by
  induction l with
  | nil => cases hx
  | cons a rest ih =>
    have hle : rest.countP p ≤ rest.countP q :=
      List.countP_mono_left (fun y hy => himp y (List.mem_cons_of_mem _ hy))
    rw [List.countP_cons, List.countP_cons]
    rcases List.mem_cons.1 hx with h1 | h1
    · subst h1
      simp only [hp, hq, if_true, Bool.false_eq_true, if_false]
      omega
    · have h2 := ih (fun y hy => himp y (List.mem_cons_of_mem _ hy)) h1
      by_cases hpa : p a = true
      · simp only [hpa, himp a (List.mem_cons_self _ _) hpa, if_true]
        omega
      · have hpf : p a = false := by simpa using hpa
        by_cases hqa : q a = true
        · simp only [hpf, hqa, if_true, Bool.false_eq_true, if_false]
          omega
        · have hqf : q a = false := by simpa using hqa
          simp only [hpf, hqf, Bool.false_eq_true, if_false]
          omega

theorem visit_isNone (G : Graph) (st : ExecutionState) (node n : NodePtr) :
    (mapFind (ExecutionState.visit G st node).nodeParentsDone_ n).isNone =
      (decide (n ≠ node) && (mapFind st.nodeParentsDone_ n).isNone) := by
  rw [visit_counters]
  by_cases h : n = node
  · subst h
    simp [mapFind_mapAssign_self]
  · rw [mapFind_mapAssign_ne _ _ h]
    simp [h]

/-- The breadth-first loop returns when it is given enough iterations: every
iteration either gives a counter to a node that had none, or removes from the
queue an entry for a node that has one and adds only entries for nodes that
have none. -/
theorem bfs_terminates (G : Graph) (root : NodePtr) (nodes : List NodePtr)
    (hnodes : ∀ n, Reach G root n → n ∈ nodes) :
    ∀ (u v : Nat) (q : List NodePtr) (st : ExecutionState), (∀ n ∈ q, Reach G root n) →
      unvisitedCount nodes st = u → staleCount q st = v →
      ∃ F, ∀ fuel, F ≤ fuel → ∃ st1, ExecutionState.bfs G fuel q st = .ok st1 := by
  intro u
  induction u using Nat.strong_induction_on with
  | _ u ihu =>
    intro v
    induction v using Nat.strong_induction_on with
    | _ v ihv =>
      intro q st hq hu hv
      cases q with
      | nil =>
        refine ⟨0, fun fuel _ => ⟨st, ?_⟩⟩
        cases fuel <;> rfl
      | cons x rest =>
        have hq1 : ∀ n ∈ rest ++ (G x).children.filter
            (fun child => (mapFind (ExecutionState.visit G st x).nodeParentsDone_ child).isNone),
            Reach G root n := by
          intro n hn
          rcases List.mem_append.1 hn with h1 | h1
          · exact hq n (List.mem_cons_of_mem _ h1)
          · exact Reach.step (hq x (List.mem_cons_self _ _)) (List.mem_filter.1 h1).1
        have hstep : ∀ F, (∀ fuel, F ≤ fuel → ∃ st1, ExecutionState.bfs G fuel
            (rest ++ (G x).children.filter
              (fun child =>
                (mapFind (ExecutionState.visit G st x).nodeParentsDone_ child).isNone))
            (ExecutionState.visit G st x) = .ok st1) →
            ∀ fuel, F + 1 ≤ fuel → ∃ st1, ExecutionState.bfs G fuel (x :: rest) st = .ok st1 := by
          intro F hF fuel hfuel
          cases fuel with
          | zero => omega
          | succ f =>
            simp only [ExecutionState.bfs]
            exact hF f (by omega)
        by_cases hx : (mapFind st.nodeParentsDone_ x).isSome = true
        · have hu1 : unvisitedCount nodes (ExecutionState.visit G st x) = u := by
            rw [← hu]
            unfold unvisitedCount
            apply List.countP_congr
            intro n _
            rw [visit_isNone]
            by_cases hn : n = x
            · subst hn
              cases hf : mapFind st.nodeParentsDone_ n with
              | none => simp [hf] at hx
              | some c => simp
            · simp [hn]
          have hv1 : staleCount (rest ++ (G x).children.filter
              (fun child =>
                (mapFind (ExecutionState.visit G st x).nodeParentsDone_ child).isNone))
              (ExecutionState.visit G st x) < v := by
            rw [← hv]
            unfold staleCount
            rw [List.countP_append, List.countP_cons]
            have h1 : List.countP
                (fun n => (mapFind (ExecutionState.visit G st x).nodeParentsDone_ n).isSome)
                ((G x).children.filter (fun child =>
                  (mapFind (ExecutionState.visit G st x).nodeParentsDone_ child).isNone)) = 0 := by
              rw [List.countP_eq_zero]
              intro a ha
              have h2 := (List.mem_filter.1 ha).2
              cases hf : mapFind (ExecutionState.visit G st x).nodeParentsDone_ a with
              | none => simp
              | some c => simp [hf] at h2
            have h2 : List.countP
                (fun n => (mapFind (ExecutionState.visit G st x).nodeParentsDone_ n).isSome) rest =
                List.countP (fun n => (mapFind st.nodeParentsDone_ n).isSome) rest := by
              apply List.countP_congr
              intro n _
              have h3 := visit_isNone G st x n
              by_cases hn : n = x
              · subst hn
                cases hf : mapFind (ExecutionState.visit G st n).nodeParentsDone_ n with
                | none =>
                  rw [visit_counters, mapFind_mapAssign_self] at hf
                  cases hf
                | some c => simp [hx]
              · simp only [hn, ne_eq, not_false_eq_true, decide_True, Bool.true_and] at h3
                cases hf : mapFind (ExecutionState.visit G st x).nodeParentsDone_ n with
                | none =>
                  rw [hf] at h3
                  cases hg : mapFind st.nodeParentsDone_ n with
                  | none => simp
                  | some c => simp [hg] at h3
                | some c =>
                  rw [hf] at h3
                  cases hg : mapFind st.nodeParentsDone_ n with
                  | none => simp [hg] at h3
                  | some c1 => simp
            rw [h1, h2]
            simp only [hx, if_true]
            omega
          obtain ⟨F, hF⟩ := ihv _ hv1 _ _ hq1 hu1 rfl
          exact ⟨F + 1, hstep F hF⟩
        · have hxn : (mapFind st.nodeParentsDone_ x).isNone = true := by
            cases hf : mapFind st.nodeParentsDone_ x with
            | none => rfl
            | some c => simp [hf] at hx
          have hu1 : unvisitedCount nodes (ExecutionState.visit G st x) < u := by
            rw [← hu]
            unfold unvisitedCount
            apply countP_lt_countP nodes _ _ ?_ x (hnodes x (hq x (List.mem_cons_self _ _))) hxn
            · rw [visit_isNone]
              simp
            · intro n _ hn
              rw [visit_isNone] at hn
              simp only [Bool.and_eq_true] at hn
              exact hn.2
          obtain ⟨F, hF⟩ := ihu _ hu1 _ _ _ hq1 rfl rfl
          exact ⟨F + 1, hstep F hF⟩

/-- The constructor returns for every finite graph, given enough iterations. -/
theorem create_terminates (G : Graph) (root : NodePtr) (nodes : List NodePtr)
    (hnodes : ∀ n, Reach G root n → n ∈ nodes) (self : StatePtr) (id : RunIdentifierTy)
    (ctx : ExecutionContext) (cb : ResultCBTy) :
    ∃ F, ∀ fuel, F ≤ fuel → ∃ st, ExecutionState.create G fuel self id root ctx cb = .ok st := by
  unfold ExecutionState.create
  exact bfs_terminates G root nodes hnodes _ _ _ _ (fun n hn => Reach.child hn) rfl rfl

/-- C14: for a finite graph (the nodes that can be reached from the children of
root are among `nodes`) the construction of an `ExecutionState` returns, given
enough iterations of its loop, and in the state it returns the keys of
`inputCtxs_` and of `nodeParentsDone_` are exactly the nodes that can be reached
from the children of root by child edges, each key once; every parents-done
counter is 0; `inflightNodes_` is 0; and the input bindings of each node hold one
slot for each symbol of category Placeholder of that node, in the order of the
symbol table, and no slot for a symbol of another category. -/
theorem constructor_builds_reachable (G : Graph) (root : NodePtr) (nodes : List NodePtr)
    (hnodes : ∀ n, Reach G root n → n ∈ nodes) (self : StatePtr) (id : RunIdentifierTy)
    (ctx : ExecutionContext) (cb : ResultCBTy) :
    ∃ F, ∀ fuel, F ≤ fuel →
      ∃ st, ExecutionState.create G fuel self id root ctx cb = .ok st ∧ BuiltFor G root st := by
  obtain ⟨F, hF⟩ := create_terminates G root nodes hnodes self id ctx cb
  refine ⟨F, fun fuel hfuel => ?_⟩
  obtain ⟨st, hst⟩ := hF fuel hfuel
  exact ⟨st, hst, builtFor_create hst⟩

/-- Witness for C14: the diamond of scenario S5, whose reachable nodes are `A`, `B`
and `C`. -/
theorem constructor_builds_reachable_witness :
    (∀ n, Reach diamondGraph 0 n → n ∈ [1, 2, 3]) ∧
      ∃ F, ∀ fuel, F ≤ fuel →
        ∃ st, ExecutionState.create diamondGraph fuel 0 1 0 callerContext 7 = .ok st ∧
          BuiltFor diamondGraph 0 st :=
  ⟨fun n hn => by
      rcases reach_diamondGraph hn with h | h | h <;> subst h <;> decide,
    constructor_builds_reachable diamondGraph 0 [1, 2, 3]
      (fun n hn => by
        rcases reach_diamondGraph hn with h | h | h <;> subst h <;> decide)
      0 1 callerContext 7⟩

/-- The order `bfsOrder` lists is the order of the iterations of the loop: when
the loop returns, its state is the one obtained by initialising the nodes of
`bfsOrder` one after the other, and it has made one iteration for each. -/
theorem bfs_follows_bfsOrder (G : Graph) (fuel : Nat) (q : List NodePtr)
    {st st1 : ExecutionState} (h : ExecutionState.bfs G fuel q st = .ok st1) :
    st1 = (bfsOrder G fuel q st).foldl (ExecutionState.visit G) st ∧
      (bfsOrder G fuel q st).length ≤ fuel := by
  induction fuel generalizing q st with
  | zero =>
    cases q with
    | nil =>
      simp only [ExecutionState.bfs] at h
      injection h with h
      subst h
      exact ⟨rfl, Nat.le_refl _⟩
    | cons n q => simp [ExecutionState.bfs] at h
  | succ k ih =>
    cases q with
    | nil =>
      simp only [ExecutionState.bfs] at h
      injection h with h
      subst h
      exact ⟨rfl, Nat.zero_le _⟩
    | cons n q =>
      simp only [ExecutionState.bfs] at h
      obtain ⟨h1, h2⟩ := ih _ h
      simp only [bfsOrder, List.foldl_cons, List.length_cons]
      exact ⟨h1, by omega⟩

/-- C20, the code at the failing input: the diamond root → {A, B} → C of scenario
S5 (addresses 0, 1, 2, 3). The loop of the constructor takes `A`, `B`, `C` and
then `C` again from its queue: `C` is pushed once for `A` and once for `B`,
because it gets its parents-done counter only when it is taken from the queue.
So `C` is initialised twice, and the walk of three nodes needs four
iterations: it is cut off after three and returns after four. -/
theorem join_node_visited_twice :
    visitOrder diamondGraph 8 0 1 0 callerContext 7 = [1, 2, 3, 3] ∧
      (visitOrder diamondGraph 8 0 1 0 callerContext 7).count 3 = 2 ∧
      ExecutionState.create diamondGraph 3 0 1 0 callerContext 7 = .error Fault.outOfFuel ∧
      (ExecutionState.create diamondGraph 4 0 1 0 callerContext 7).map
        (fun st => mapKeys st.nodeParentsDone_) = .ok [1, 2, 3] := by
  refine ⟨?_, ?_, ?_, ?_⟩ <;> rfl

/-! ## The barrier at the moment of the callback -/

/-- `handleDeviceManagerResult` is `handleOutputs` followed by `finishNode`. -/
theorem handleDeviceManagerResult_split (G : Graph) (ex : ThreadPoolExecutor)
    (st : ExecutionState) (err : Error) (ctx : ExecutionContext) (node : NodePtr) :
    ThreadPoolExecutor.handleDeviceManagerResult G ex st err ctx node =
      match ThreadPoolExecutor.handleOutputs G ex st err ctx node with
      | .error f => .error f
      | .ok (ex1, st1) => ThreadPoolExecutor.finishNode ex1 st1 := rfl

theorem sum_eraseIdx {α : Type} (f : α → Nat) (l : List α) (i : Nat) (a : α)
    (h : l[i]? = some a) : (l.map f).sum = ((l.eraseIdx i).map f).sum + f a := by
  induction l generalizing i with
  | nil => simp at h
  | cons x xs ih =>
    cases i with
    | zero =>
      simp only [List.getElem?_cons_zero, Option.some.injEq] at h
      subst h
      simp only [List.eraseIdx_cons_zero, List.map_cons, List.sum_cons]
      omega
    | succ j =>
      simp only [List.getElem?_cons_succ] at h
      have := ih j h
      simp only [List.eraseIdx_cons_succ, List.map_cons, List.sum_cons]
      omega

/-- The barrier counts the inflight nodes of all runs, modulo 2^32, in every world
that can be reached. -/
theorem barrier_reachable {G : Graph} (schedule : List Label)
    {w0 w : World} (hb : w0.executor.inflightBarrier_.count_ < UNSIGNED_MOD)
    (hs : w0.executor.inflightBarrier_.count_ = sumInflight w0 % UNSIGNED_MOD)
    (h : steps G w0 schedule = .ok w) :
    w.executor.inflightBarrier_.count_ < UNSIGNED_MOD ∧
      w.executor.inflightBarrier_.count_ = sumInflight w % UNSIGNED_MOD := by
  induction schedule generalizing w0 with
  | nil =>
    simp only [steps] at h
    injection h with h
    subst h
    exact ⟨hb, hs⟩
  | cons l rest ih =>
    simp only [steps] at h
    split at h
    · cases h
    · rename_i w1 h1
      obtain ⟨hb1, hs1⟩ := barrier_step h1 hb hs
      exact ih hb1 hs1 h

/-- More iterations than the loop needs do not change what it returns. -/
theorem bfs_more_fuel (G : Graph) (fuel : Nat) (q : List NodePtr) {st st1 : ExecutionState}
    (h : ExecutionState.bfs G fuel q st = .ok st1) :
    ∀ more, fuel ≤ more → ExecutionState.bfs G more q st = .ok st1 := by
  induction fuel generalizing q st with
  | zero =>
    intro more _
    cases q with
    | nil =>
      simp only [ExecutionState.bfs] at h
      cases more <;> exact h
    | cons n q => simp [ExecutionState.bfs] at h
  | succ k ih =>
    intro more hmore
    cases q with
    | nil =>
      simp only [ExecutionState.bfs] at h
      cases more <;> exact h
    | cons n q =>
      cases more with
      | zero => omega
      | succ m =>
        simp only [ExecutionState.bfs] at h ⊢
        exact ih _ h m (by omega)

theorem reach_tangledGraph {n : NodePtr} (h : Reach tangledGraph 0 n) :
    n = 1 ∨ n = 2 ∨ n = 3 := by
  induction h with
  | child hc =>
    simp only [tangledGraph, scenarioRoot, List.mem_cons, List.mem_singleton, List.not_mem_nil,
      or_false] at hc
    rcases hc with hc | hc | hc
    · exact Or.inl hc
    · exact Or.inl hc
    · exact Or.inr (Or.inl hc)
  | step _ hc ih =>
    rcases ih with ih | ih | ih <;> subst ih <;>
      simp only [tangledGraph, scenarioNode, List.mem_cons, List.mem_singleton,
        List.not_mem_nil, or_false] at hc
    · rcases hc with hc | hc
      · exact Or.inr (Or.inl hc)
      · exact Or.inr (Or.inr hc)
    · rcases hc with hc | hc | hc
      · exact Or.inr (Or.inr hc)
      · exact Or.inl hc
      · exact Or.inr (Or.inr hc)
    · exact Or.inr (Or.inr hc)

/-- C24: the breadth-first walk of the constructor terminates for every finite
node graph: when the nodes that can be reached from the children of root are
among the list `nodes` (nothing else is asked of the graph: it may have cycles,
shared children and duplicate entries in a children list), there is a number
of iterations `F` after which the loop has emptied its queue, so that the
constructor returns a state `st`, the same for every bound `fuel ≥ F` that the
model puts on the number of iterations. -/
theorem constructor_walk_terminates (G : Graph) (root : NodePtr) (nodes : List NodePtr)
    (hnodes : ∀ n, Reach G root n → n ∈ nodes) (self : StatePtr) (id : RunIdentifierTy)
    (ctx : ExecutionContext) (cb : ResultCBTy) :
    ∃ F st, ∀ fuel, F ≤ fuel →
      ExecutionState.create G fuel self id root ctx cb = .ok st ∧
      (bfsOrder G fuel (G root).children
        { self := self, runId_ := id, cb_ := cb, resultCtx_ := some ctx, inflightNodes_ := 0,
          inputCtxs_ := [], nodeParentsDone_ := [], intermediatePlaceholders_ := [],
          errorContainer_ := none }).length ≤ F := by
  obtain ⟨F, hF⟩ := create_terminates G root nodes hnodes self id ctx cb
  obtain ⟨st, hst⟩ := hF F (Nat.le_refl F)
  refine ⟨F, st, fun fuel hfuel => ?_⟩
  unfold ExecutionState.create at hst ⊢
  have h1 := bfs_more_fuel G F _ hst fuel hfuel
  refine ⟨h1, ?_⟩
  have h2 := (bfs_follows_bfsOrder G F _ hst).2
  have h3 : ∀ (f1 : Nat) (q : List NodePtr) (s s1 : ExecutionState),
      ExecutionState.bfs G f1 q s = .ok s1 → ∀ f2, f1 ≤ f2 →
      bfsOrder G f2 q s = bfsOrder G f1 q s := by
    intro f1
    induction f1 with
    | zero =>
      intro q s s1 hb f2 _
      cases q with
      | nil => cases f2 <;> rfl
      | cons n q => simp [ExecutionState.bfs] at hb
    | succ k ih =>
      intro q s s1 hb f2 hf2
      cases q with
      | nil => cases f2 <;> rfl
      | cons n q =>
        cases f2 with
        | zero => omega
        | succ m =>
          simp only [ExecutionState.bfs] at hb
          simp only [bfsOrder]
          rw [ih _ _ _ hb m (by omega)]
  rw [h3 F _ _ _ hst fuel hfuel]
  exact h2

/-- Witness for C24: a graph with a cycle, a shared child, a self loop and
duplicate entries in children lists; its reachable nodes are `A`, `B` and `C`. -/
theorem constructor_walk_terminates_witness :
    (∀ n, Reach tangledGraph 0 n → n ∈ [1, 2, 3]) ∧
      ∃ F st, ∀ fuel, F ≤ fuel →
        ExecutionState.create tangledGraph fuel 0 1 0 callerContext 7 = .ok st ∧
        (bfsOrder tangledGraph fuel (tangledGraph 0).children
          { self := 0, runId_ := 1, cb_ := 7, resultCtx_ := some callerContext,
            inflightNodes_ := 0, inputCtxs_ := [], nodeParentsDone_ := [],
            intermediatePlaceholders_ := [], errorContainer_ := none }).length ≤ F :=
  ⟨fun n hn => by
      rcases reach_tangledGraph hn with h | h | h <;> subst h <;> decide,
    constructor_walk_terminates tangledGraph 0 [1, 2, 3]
      (fun n hn => by
        rcases reach_tangledGraph hn with h | h | h <;> subst h <;> decide)
      0 1 callerContext 7⟩

/-! ## Propagation and the category of a symbol -/

theorem lookupName_isSome_of_mem {b : PlaceholderBindings} {x : String}
    (h : x ∈ slotNames b) : ∃ t, lookupName b x = some t := by
  induction b with
  | nil => simp [slotNames] at h
  | cons e rest ih =>
    by_cases he : e.1.name = x
    · exact ⟨e.2, by simp [lookupName, he]⟩
    · have h1 : x ∈ slotNames rest := by
        simp only [slotNames, List.map_cons, List.mem_cons] at h
        rcases h with h | h
        · exact absurd h.symm he
        · exact h
      obtain ⟨t, ht⟩ := ih h1
      exact ⟨t, by simpa [lookupName, he] using ht⟩

theorem insertIntoNodeCtx_of_slot {st : ExecutionState} {node : NodePtr} {c : ExecutionContext}
    {name : String} (T : Tensor) (hc : mapFind st.inputCtxs_ node = some (some c))
    (hn : name ∈ slotNames c.placeholderBindings) :
    ∃ ph st2, st.insertIntoNodeCtx node name T = .ok st2 ∧
      st2 = { st with inputCtxs_ := st2.inputCtxs_ } ∧
      st2.inputCtxs_ = mapAssign st.inputCtxs_ node
        (some { placeholderBindings := c.placeholderBindings.assign ph T }) := by
  obtain ⟨t, ht⟩ := lookupName_isSome_of_mem hn
  have h1 := get_getPlaceholderByName c.placeholderBindings name
  rw [ht] at h1
  cases hp : c.placeholderBindings.getPlaceholderByName name with
  | none => simp [hp, PlaceholderBindings.get] at h1
  | some ph =>
    rw [hp] at h1
    refine ⟨ph, { st with inputCtxs_ := (mapAssign st.inputCtxs_ node
      (some { placeholderBindings := c.placeholderBindings.assign ph T })) }, ?_, rfl, rfl⟩
    unfold ExecutionState.insertIntoNodeCtx
    simp only [hc, hp, h1]

/-- The loop of `propagatePlaceholdersForNode` completes when the input bindings
of the node have a slot for every symbol name that the source context binds; it
changes the input bindings of that node only, and leaves the slots what they
were. -/
theorem propagateSymbols_of_slots (node : NodePtr) (ctx : ExecutionContext) :
    ∀ (syms : List (String × RuntimeSymbolInfo)) (st : ExecutionState) (c : ExecutionContext),
      mapFind st.inputCtxs_ node = some (some c) →
      (∀ sp ∈ syms, ctx.placeholderBindings.getPlaceholderByName sp.1 ≠ none →
        sp.1 ∈ slotNames c.placeholderBindings) →
      ∃ st1 c1, ThreadPoolExecutor.propagateSymbols node ctx syms st = .ok st1 ∧
        st1 = { st with inputCtxs_ := st1.inputCtxs_ } ∧
        mapFind st1.inputCtxs_ node = some (some c1) ∧
        slotNames c1.placeholderBindings = slotNames c.placeholderBindings ∧
        ∀ n, n ≠ node → mapFind st1.inputCtxs_ n = mapFind st.inputCtxs_ n := by
  intro syms
  induction syms with
  | nil =>
    intro st c hc _
    exact ⟨st, c, rfl, rfl, hc, rfl, fun _ _ => rfl⟩
  | cons sp rest ih =>
    intro st c hc hs
    simp only [ThreadPoolExecutor.propagateSymbols]
    cases hp : ctx.placeholderBindings.getPlaceholderByName sp.1 with
    | none =>
      exact ih st c hc (fun s hs1 => hs s (List.mem_cons_of_mem _ hs1))
    | some ph =>
      simp only []
      have hget := get_getPlaceholderByName ctx.placeholderBindings sp.1
      rw [hp] at hget
      have hname : sp.1 ∈ slotNames ctx.placeholderBindings := by
        have := getPlaceholderByName_name hp
        unfold PlaceholderBindings.getPlaceholderByName at hp
        cases hf : ctx.placeholderBindings.find? (fun e => e.1.name == sp.1) with
        | none => simp [hf] at hp
        | some e =>
          have hm := List.mem_of_find?_eq_some hf
          have he : e.1.name = sp.1 := by simpa using List.find?_some hf
          rw [← he]
          exact List.mem_map_of_mem _ hm
      obtain ⟨t, ht⟩ := lookupName_isSome_of_mem hname
      rw [ht] at hget
      rw [hget]
      simp only []
      have hslot := hs sp (List.mem_cons_self _ _) (by rw [hp]; simp)
      obtain ⟨ph1, st2, hins, hfr, hmap⟩ := insertIntoNodeCtx_of_slot t.clone hc hslot
      rw [hins]
      simp only []
      have hc1 : mapFind st2.inputCtxs_ node =
          some (some { placeholderBindings := c.placeholderBindings.assign ph1 t.clone }) := by
        rw [hmap]
        exact mapFind_mapAssign_self _ _ _
      obtain ⟨st1, c1, h1, h2, h3, h4, h5⟩ := ih st2 _ hc1 (fun s hs1 hb => by
        show s.1 ∈ slotNames (c.placeholderBindings.assign ph1 t.clone)
        rw [slotNames_assign]
        exact hs s (List.mem_cons_of_mem _ hs1) hb)
      refine ⟨st1, c1, h1, ?_, h3, ?_, ?_⟩
      · rw [h2, hfr]
      · rw [h4]
        exact slotNames_assign _ _ _
      · intro n hn
        rw [h5 n hn, hmap]
        exact mapFind_mapAssign_ne _ _ hn

/-- On a state built by the constructor, `propagatePlaceholdersForNode` completes
for every node that can be reached and every source context that binds no name
of a symbol of the node other than names of its symbols of category Placeholder;
it writes to the input bindings of that node only, whose slots stay those of the
symbols of category Placeholder. -/
theorem propagation_of_placeholders_completes (G : Graph) (fuel : Nat) (self : StatePtr)
    (id : RunIdentifierTy) (root : NodePtr) (rc : ExecutionContext) (cb : ResultCBTy)
    (st : ExecutionState) (hst : ExecutionState.create G fuel self id root rc cb = .ok st)
    (ex : ThreadPoolExecutor) (node : NodePtr) (hnode : Reach G root node)
    (ctx : ExecutionContext)
    (hctx : ∀ sp ∈ (G node).symbolTable,
      ctx.placeholderBindings.getPlaceholderByName sp.1 ≠ none →
        sp.1 ∈ placeholderNames (G node).symbolTable) :
    ∃ st1 c1, ThreadPoolExecutor.propagatePlaceholdersForNode G ex st node ctx =
        .ok (ex.log (Event.propagated st.self node ctx), st1) ∧
      st1 = { st with inputCtxs_ := st1.inputCtxs_ } ∧
      mapFind st1.inputCtxs_ node = some (some c1) ∧
      slotNames c1.placeholderBindings = placeholderNames (G node).symbolTable ∧
      ∀ n, n ≠ node → mapFind st1.inputCtxs_ n = mapFind st.inputCtxs_ n := by
  obtain ⟨c, hc, hslots⟩ := (builtFor_create hst).slots node hnode
  obtain ⟨st1, c1, h1, h2, h3, h4, h5⟩ := propagateSymbols_of_slots node ctx
    (G node).symbolTable st c hc (fun sp hsp hb => by rw [hslots]; exact hctx sp hsp hb)
  refine ⟨st1, c1, ?_, h2, h3, h4.trans hslots, h5⟩
  unfold ThreadPoolExecutor.propagatePlaceholdersForNode
  rw [h1]

/-- C21: `propagatePlaceholdersForNode` does not look at the category of a symbol.
For root → `A`, where the symbol table of `A` has the Placeholder symbol `x` and the
Constant symbol `w`, the constructor builds input bindings for `A` with the one
slot `x`; the context of the caller binds `x` and `w`, so the loop calls
`insertIntoNodeCtx(A, "w", …)`, which finds no placeholder `w` in the bindings of
`A` and fails its assertion "Placeholder should have already been created":
neither the propagation for `A` nor the call of `run` returns. -/
theorem constant_symbol_reaches_assertion :
    ExecutionState.create constantGraph 5 0 1 0 weightContext 7 = .ok constantState ∧
      Reach constantGraph 0 1 ∧
      ThreadPoolExecutor.propagatePlaceholdersForNode constantGraph (World.init [0]).executor
        constantState 1 weightContext = .error Fault.placeholderNotCreated ∧
      run constantGraph 5 (World.init [0]) (some 0) weightContext 1 7 =
        .error Fault.placeholderNotCreated :=
  ⟨rfl, Reach.child (by decide), rfl, rfl⟩

/-! ## What `inflightNodes_` counts, in every run -/

section

variable {G : Graph} {p : StatePtr}

theorem tally_quiet {slack : Nat} {ex ex1 : ThreadPoolExecutor} {st st1 : ExecutionState}
    (h : Tally p slack ex st) (hj : jobsOf ex1 p = jobsOf ex p)
    (hin : st1.inflightNodes_ = st.inflightNodes_) : Tally p slack ex1 st1 := by
  unfold Tally at h ⊢
  rw [hj, hin]
  exact h

theorem tally_mark {slack : Nat} {ex : ThreadPoolExecutor} {st : ExecutionState}
    {r : ThreadPoolExecutor × ExecutionState} (h : Tally p (slack + 1) ex st)
    (hr : ThreadPoolExecutor.markNoLongerExecuting ex st = .ok r) : Tally p slack r.1 r.2 := by
  obtain ⟨h1, -, h3⟩ := markNoLongerExecuting_ok hr
  subst h3
  unfold Tally at h ⊢
  show st.inflightNodes_ - 1 = ((jobsOf ex p).length + slack) % UNSIGNED_MOD
  unfold UNSIGNED_MOD at *
  omega

theorem tally_execute {slack : Nat} {ex : ThreadPoolExecutor} {st : ExecutionState}
    {c : NodePtr} {r : ThreadPoolExecutor × ExecutionState} (h : Tally p (slack + 1) ex st)
    (hs : st.self = p) (hr : ThreadPoolExecutor.executeDAGNode G ex st c = .ok r) :
    Tally p slack r.1 r.2 ∧
      ((jobsOf r.1 p).length = (jobsOf ex p).length ∨
        (jobsOf r.1 p).length = (jobsOf ex p).length + 1) := by
  rcases executeDAGNode_ok hr with ⟨-, h1⟩ | ⟨-, -, h1⟩ | ⟨-, -, nodeCtx, -, h1⟩
  · refine ⟨tally_mark h h1, Or.inl ?_⟩
    obtain ⟨-, -, h3⟩ := markNoLongerExecuting_ok h1
    subst h3
    rfl
  · have h2 : Tally p (slack + 1) (ex.log (Event.getNextDevice st.self c))
        (st.setError (some ErrorCode.RUNTIME_DEVICE_NOT_FOUND)) :=
      tally_quiet h rfl (setError_frame st _).2.2.2.1
    refine ⟨tally_mark h2 h1, Or.inl ?_⟩
    obtain ⟨-, -, h3⟩ := markNoLongerExecuting_ok h1
    subst h3
    rfl
  · subst h1 hs
    have hJ : jobsOf { ex with
          events := ex.events ++
            [Event.getNextDevice st.self c, Event.runFunction st.self c nodeCtx],
          outstanding := ex.outstanding ++ [{ state := st.self, node := c, ctx := nodeCtx }] }
          st.self
        = jobsOf ex st.self ++ [{ state := st.self, node := c, ctx := nodeCtx }] := by
      simp [jobsOf, List.filter_append]
    refine ⟨?_, Or.inr ?_⟩
    · unfold Tally at h ⊢
      simp only [hJ, List.length_append, List.length_singleton]
      rw [h]
      congr 1
      omega
    · simp only [hJ, List.length_append, List.length_singleton]

theorem tally_propagate {slack : Nat} {ex : ThreadPoolExecutor} {st : ExecutionState}
    {n : NodePtr} {src : ExecutionContext} {r : ThreadPoolExecutor × ExecutionState}
    (h : Tally p slack ex st)
    (hr : ThreadPoolExecutor.propagatePlaceholdersForNode G ex st n src = .ok r) :
    Tally p slack r.1 r.2 ∧ jobsOf r.1 p = jobsOf ex p := by
  obtain ⟨h1, -, h3⟩ := propagatePlaceholdersForNode_ok hr
  have hj : jobsOf r.1 p = jobsOf ex p := by rw [h1]; rfl
  exact ⟨tally_quiet h hj (by rw [h3]), hj⟩

theorem tally_increment {slack : Nat} {ex : ThreadPoolExecutor} {st : ExecutionState}
    (h : Tally p slack ex st) (b : InflightBarrier) :
    Tally p (slack + 1) { ex with inflightBarrier_ := b } (st.incrementInflightNodes 1) := by
  unfold Tally at h ⊢
  show (st.inflightNodes_ + 1) % UNSIGNED_MOD = ((jobsOf ex p).length + (slack + 1)) % UNSIGNED_MOD
  rw [h]
  unfold UNSIGNED_MOD
  omega

theorem tally_handleChild {slack : Nat} {ctx : ExecutionContext} {ex : ThreadPoolExecutor}
    {st : ExecutionState} {c : NodePtr} {r : ThreadPoolExecutor × ExecutionState}
    (h : Tally p slack ex st) (hs : st.self = p)
    (hr : ThreadPoolExecutor.handleChild G ctx ex st c = .ok r) : Tally p slack r.1 r.2 := by
  obtain ⟨pr, q, h1, h2, h3, h4⟩ := handleChild_ok hr
  obtain ⟨t1, -⟩ := tally_propagate h h1
  obtain ⟨-, s1⟩ := appends_propagate h1
  obtain ⟨prev, -, -, -, hq⟩ := incrementNodeParentsDone_ok h2
  have t2 : Tally p slack pr.1 q.2 := tally_quiet t1 rfl (by rw [hq])
  cases hready : q.1 with
  | false =>
    rw [h4 hready]
    exact t2
  | true =>
    have hs2 : (q.2.incrementInflightNodes 1).self = p := by
      show q.2.self = p
      rw [hq]
      exact s1.trans hs
    exact (tally_execute (tally_increment t2 _) hs2 (h3 hready)).1

theorem tally_handleChildren {slack : Nat} {ctx : ExecutionContext} (post : List NodePtr)
    {ex : ThreadPoolExecutor} {st : ExecutionState} {r : ThreadPoolExecutor × ExecutionState}
    (h : Tally p slack ex st) (hs : st.self = p)
    (hr : ThreadPoolExecutor.handleChildren G ctx post ex st = .ok r) :
    Tally p slack r.1 r.2 := by
  induction post generalizing ex st with
  | nil =>
    simp only [ThreadPoolExecutor.handleChildren] at hr
    injection hr with hr
    subst hr
    exact h
  | cons c rest ih =>
    simp only [ThreadPoolExecutor.handleChildren] at hr
    split at hr
    · cases hr
    · rename_i ex1 st1 h1
      obtain ⟨-, s1⟩ := appends_handleChild h1
      exact ih (tally_handleChild h hs h1) (s1.trans hs) hr

theorem tally_finish {slack : Nat} {ex : ThreadPoolExecutor} {st : ExecutionState}
    {r : ThreadPoolExecutor × ExecutionState} (h : Tally p (slack + 1) ex st)
    (hr : ThreadPoolExecutor.finishNode ex st = .ok r) : Tally p slack r.1 r.2 := by
  obtain ⟨h1, -, h3⟩ := finishNode_ok hr
  unfold Tally at h ⊢
  rcases h3 with ⟨h4, rc, -, h5⟩ | ⟨-, h5⟩
  · subst h5
    show 0 = ((jobsOf ex p).length + slack) % UNSIGNED_MOD
    unfold UNSIGNED_MOD at *
    omega
  · subst h5
    show st.inflightNodes_ - 1 = ((jobsOf ex p).length + slack) % UNSIGNED_MOD
    unfold UNSIGNED_MOD at *
    omega

/-- The start of `handleDeviceManagerResult` for an outstanding call of the run:
the call is no longer outstanding, and its node is still counted. -/
theorem tally_enter {slack : Nat} {ex : ThreadPoolExecutor} {st : ExecutionState}
    (h : Tally p slack ex st) {i : Nat} {j : Job} (hj : ex.outstanding[i]? = some j)
    (hjp : j.state = p) (e : Event) :
    Tally p (slack + 1)
        (ThreadPoolExecutor.log { ex with outstanding := ex.outstanding.eraseIdx i } e) st ∧
      (jobsOf (ThreadPoolExecutor.log { ex with outstanding := ex.outstanding.eraseIdx i } e)
        p).length + 1 = (jobsOf ex p).length := by
  obtain ⟨l1, l2, hf1, hf2⟩ := filter_eraseIdx_of_mem (fun j => j.state == p) _ _ _ hj
    (by simpa using hjp)
  have hJ : jobsOf ex p = l1 ++ j :: l2 := hf1
  have hJ1 : jobsOf (ThreadPoolExecutor.log { ex with outstanding := ex.outstanding.eraseIdx i }
      e) p = l1 ++ l2 := hf2
  unfold Tally at h ⊢
  rw [hJ1, hJ]
  rw [hJ] at h
  simp only [List.length_append, List.length_cons] at h ⊢
  refine ⟨?_, by omega⟩
  rw [h]
  congr 1
  omega

theorem tally_handle {slack : Nat} {ex : ThreadPoolExecutor} {st : ExecutionState} {i : Nat}
    {j : Job} {err : Error} {ctx : ExecutionContext} {r : ThreadPoolExecutor × ExecutionState}
    (h : Tally p slack ex st) (hs : st.self = p) (hj : ex.outstanding[i]? = some j)
    (hjp : j.state = p)
    (hr : ThreadPoolExecutor.handleDeviceManagerResult G
      { ex with outstanding := ex.outstanding.eraseIdx i } st err ctx j.node = .ok r) :
    Tally p slack r.1 r.2 := by
  obtain ⟨pr, hf, hp⟩ := handleDeviceManagerResult_ok hr
  obtain ⟨t1, -⟩ := tally_enter h hj hjp (Event.handling st.self j.node err ctx)
  refine tally_finish ?_ hf
  rcases hp with ⟨-, hp⟩ | ⟨-, -, hp1, hp2⟩ | ⟨-, -, hp⟩
  · rw [hp]
    exact tally_quiet t1 rfl (setError_frame st err).2.2.2.1
  · have hfr := (propagateOutputPairs_frame _ hp2).1
    exact tally_quiet t1 (by rw [hp1]) (by rw [hfr])
  · exact tally_handleChildren _ t1 hs hp

theorem tally_runChild {slack : Nat} {ex : ThreadPoolExecutor} {st : ExecutionState}
    {c : NodePtr} {r : ThreadPoolExecutor × ExecutionState} (h : Tally p (slack + 1) ex st)
    (hs : st.self = p) (hr : ThreadPoolExecutor.runChild G ex st c = .ok r) :
    Tally p slack r.1 r.2 := by
  unfold ThreadPoolExecutor.runChild at hr
  split at hr
  · cases hr
  · split at hr
    · cases hr
    · rename_i ex1 st1 h1
      obtain ⟨t1, -⟩ := tally_propagate h h1
      obtain ⟨-, s1⟩ := appends_propagate h1
      exact (tally_execute t1 (s1.trans hs) hr).1

theorem tally_initial {fuel : Nat} {context : ExecutionContext} {runId : RunIdentifierTy}
    {cb : ResultCBTy} {root : NodePtr} (ex : ThreadPoolExecutor) (st0 : ExecutionState)
    (hjobs : jobsOf ex p = [])
    (hc : ExecutionState.create G fuel p runId root context cb = .ok st0) :
    Tally p (G root).children.length ex
      (st0.incrementInflightNodes (G root).children.length) := by
  obtain ⟨-, -, -, -, c5, -⟩ := create_frame hc
  unfold Tally
  show (st0.inflightNodes_ + (G root).children.length) % UNSIGNED_MOD = _
  rw [c5, hjobs]
  simp

/-- In every world that a run can reach, with any failures of nodes and devices
and any graph, its counter `inflightNodes_` is, as an `unsigned`, the number of
its outstanding device calls plus the number of children of root that `run` has
not dispatched yet. -/
theorem tally_reachable {dm : List DeviceIDTy} {before : List Label} {w0 : World}
    (h0 : steps G (World.init dm) before = .ok w0)
    {fuel : Nat} {root : NodePtr} {context : ExecutionContext} {runId : RunIdentifierTy}
    {cb : ResultCBTy} {w1 : World} {k : Nat}
    (hacc : Accepted G w0 fuel root context runId cb w1 p k)
    {after : List Label} {w : World} (h : steps G w1 after = .ok w) :
    RunWorld p k dm (fun ex st rem => Tally p rem.length ex st) w := by
  have hsc : Scoped dm w0 := scoped_steps before (scoped_init dm) h0
  have hw1 : RunWorld p k dm (fun ex st rem => Tally p rem.length ex st) w1 :=
    runWorld_accepted _ hsc hacc (fun ex st0 _ _ hjobs hc => tally_initial ex st0 hjobs hc)
  exact runWorld_steps G p k dm (fun _ _ _ => True)
    (fun ex st rem => Tally p rem.length ex st)
    (fun ex ex1 st rem hi hf => tally_quiet hi hf.2.2 rfl)
    (fun ex st c rest r _ hs hi hr => tally_runChild hi hs hr)
    (fun ex st rem i j err ctx r _ hs hi hj hjp _ hr => tally_handle hi hs hj hjp hr)
    after w1 w hw1 h (allCompletions_trivial G p after w1)

end

/-! ## The counter at the nested calls of `executeDAGNode` -/

section

variable {G : Graph} {p : StatePtr}

/-- Inside the loop over the children of a handled node, whose own node is still
counted (`slack ≥ 1`), the counter is at least 2 when a child is handed to
`executeDAGNode` and at least 1 when that call has returned, as long as the
counter cannot wrap. -/
theorem nestedCalls_counter {ctx : ExecutionContext} {slack : Nat} (hpos : 1 ≤ slack)
    (post : List NodePtr) {ex : ThreadPoolExecutor} {st : ExecutionState}
    (h : Tally p slack ex st) (hs : st.self = p)
    (hb : (jobsOf ex p).length + slack + post.length < UNSIGNED_MOD) :
    ∀ e ∈ ThreadPoolExecutor.nestedCalls G ctx post ex st,
      2 ≤ e.2.1 ∧ ∀ a, e.2.2 = some a → 1 ≤ a := by
  induction post generalizing ex st with
  | nil =>
    intro e he
    simp [ThreadPoolExecutor.nestedCalls] at he
  | cons c rest ih =>
    intro e he
    simp only [ThreadPoolExecutor.nestedCalls] at he
    simp only [List.length_cons] at hb
    split at he
    · simp at he
    · rename_i ex1 st1 h1
      obtain ⟨t1, j1⟩ := tally_propagate h h1
      obtain ⟨-, s1⟩ := appends_propagate h1
      split at he
      · simp at he
      · rename_i ready st2 h2
        obtain ⟨prev, -, -, -, hq⟩ := incrementNodeParentsDone_ok h2
        simp only at hq
        have t2 : Tally p slack ex1 st2 := tally_quiet t1 rfl (by rw [hq])
        have s2 : st2.self = p := by
          rw [hq]
          exact s1.trans hs
        by_cases hready : ready = true
        · rw [if_pos hready] at he
          have t3 := tally_increment t2 (ex1.inflightBarrier_.increment 1)
          have hj3 : (jobsOf { ex1 with inflightBarrier_ := ex1.inflightBarrier_.increment 1 }
              p).length = (jobsOf ex p).length := by
            rw [← j1]
            rfl
          have hv3 : (st2.incrementInflightNodes 1).inflightNodes_ =
              (jobsOf ex p).length + slack + 1 := by
            rw [t3, hj3]
            exact Nat.mod_eq_of_lt (by omega)
          split at he
          · simp only [List.mem_singleton] at he
            subst he
            exact ⟨by simp only [hv3]; omega, by simp⟩
          · rename_i ex4 st4 h4
            obtain ⟨t4, j4⟩ := tally_execute t3 s2 h4
            rw [hj3] at j4
            obtain ⟨-, s4⟩ := appends_executeDAGNode h4
            have hv4 : 1 ≤ st4.inflightNodes_ := by
              have h5 : st4.inflightNodes_ = (jobsOf ex4 p).length + slack := by
                rw [t4]
                exact Nat.mod_eq_of_lt (by omega)
              omega
            rcases List.mem_cons.1 he with he1 | he1
            · subst he1
              refine ⟨by simp only [hv3]; omega, ?_⟩
              intro a ha
              simp only [Option.some.injEq] at ha
              omega
            · exact ih t4 (s4.trans s2) (by omega) e he1
        · rw [if_neg hready] at he
          exact ih t2 s2 (by rw [j1]; omega) e he

end

/-- C23, with the bound that keeps the counter from wrapping: in every world `w`
that the accepted run of state `p` can reach, over any graph and with any
failures, let `j` be an outstanding device call of the run, `rem` the children of
root that `run` has not dispatched yet, and let the number of outstanding device
calls of the run plus `|rem|` plus the number of children of `j.node` be below
2^32. Then for every call `executeDAGNode(state, child)` that
`handleDeviceManagerResult(state, err, ctx, j.node)` makes, `inflightNodes_` is at
least 2 when the call is made and at least 1 when it has returned: a decrement
inside the nested call does not take the counter to 0. -/
theorem nested_execute_counter (G : Graph) (dm : List DeviceIDTy) (before : List Label)
    (w0 : World) (h0 : steps G (World.init dm) before = .ok w0)
    (fuel : Nat) (root : NodePtr) (context : ExecutionContext) (runId : RunIdentifierTy)
    (cb : ResultCBTy) (w1 : World) (p : StatePtr) (k : Nat)
    (hacc : Accepted G w0 fuel root context runId cb w1 p k)
    (after : List Label) (w : World) (h : steps G w1 after = .ok w)
    (job : Nat) (j : Job) (hj : w.executor.outstanding[job]? = some j) (hjp : j.state = p)
    (st : ExecutionState) (hst : w.objects[p]? = some st)
    (rem : List NodePtr) (hfr : w.frames[k]? = some { state := p, remaining := rem })
    (hfit : (jobsOf w.executor p).length + rem.length + (G j.node).children.length
      < UNSIGNED_MOD)
    (err : Error) (ctx : ExecutionContext) :
    ∀ e ∈ ThreadPoolExecutor.handlerCalls G
        { w.executor with outstanding := w.executor.outstanding.eraseIdx job } st err ctx j.node,
      2 ≤ e.2.1 ∧ ∀ a, e.2.2 = some a → 1 ≤ a := by
  obtain ⟨hself, -, -, st1, rem1, hst1, hfr1, ht⟩ := tally_reachable h0 hacc h
  rw [hst] at hst1
  injection hst1 with hst1
  subst hst1
  rw [hfr] at hfr1
  injection hfr1 with hfr1
  injection hfr1 with _ hfr1
  subst hfr1
  have hs := hself p st hst
  intro e he
  unfold ThreadPoolExecutor.handlerCalls at he
  cases err with
  | some c => simp at he
  | none =>
    simp only [Option.isNone_none, if_true] at he
    split at he
    · simp at he
    · obtain ⟨t1, j1⟩ := tally_enter ht hj hjp (Event.handling st.self j.node none ctx)
      have hse : st.setError none = st := by
        unfold ExecutionState.setError
        split
        · rfl
        · rename_i hn
          cases st
          simp only at hn
          subst hn
          rfl
      rw [hse] at he
      exact nestedCalls_counter (Nat.le_add_left 1 rem.length) _ t1 hs (by omega) e he

/-- Witness for C23: in the diamond, when the completion of `B` is handled after
that of `A`, the join node `C` is handed to `executeDAGNode` with the counter at
2 (`B` and `C`), and the counter is 2 when the call has returned. -/
theorem nested_execute_counter_witness :
    diamondJoinWorld.executor.outstanding[0]? =
        some { state := 0, node := 2, ctx := callerContext } ∧
      diamondJoinWorld.objects[0]? = some diamondJoinState ∧
      ThreadPoolExecutor.handlerCalls diamondGraph
        { diamondJoinWorld.executor with
          outstanding := diamondJoinWorld.executor.outstanding.eraseIdx 0 }
        diamondJoinState none callerContext 2 = [(3, 2, some 2)] ∧
      ∀ e ∈ ThreadPoolExecutor.handlerCalls diamondGraph
          { diamondJoinWorld.executor with
            outstanding := diamondJoinWorld.executor.outstanding.eraseIdx 0 }
          diamondJoinState none callerContext 2,
        2 ≤ e.2.1 ∧ ∀ a, e.2.2 = some a → 1 ≤ a :=
  ⟨rfl, rfl, rfl,
    nested_execute_counter diamondGraph [0] [] (World.init [0]) rfl 8 0 callerContext 1 7
      (worldAfter diamondGraph (World.init [0]) [Label.run 8 (some 0) callerContext 1 7]) 0 0
      ⟨rfl, rfl, rfl, rfl⟩ (diamondCompletions.take 3) diamondJoinWorld rfl
      0 { state := 0, node := 2, ctx := callerContext } rfl rfl diamondJoinState rfl
      [] rfl (by decide) none callerContext⟩

/-! ## A run with 2^32 nodes -/

theorem mapAssign_of_none {κ ν : Type} [DecidableEq κ] (m : List (κ × ν)) (k : κ) (v : ν)
    (h : mapFind m k = none) : mapAssign m k v = m ++ [(k, v)] := by
  induction m with
  | nil => rfl
  | cons e rest ih =>
    unfold mapFind at h
    by_cases he : e.1 = k
    · simp [he] at h
    · simp only [he, if_false] at h
      simp only [mapAssign, he, if_false, ih h, List.cons_append]

theorem mapFind_map_none {ν : Type} (ls : List NodePtr) (f : NodePtr → ν) (n : NodePtr)
    (h : n ∉ ls) : mapFind (ls.map (fun a => (a, f a))) n = none := by
  induction ls with
  | nil => rfl
  | cons a rest ih =>
    have h1 : a ≠ n := fun he => h (he ▸ List.mem_cons_self _ _)
    have h2 : n ∉ rest := fun hm => h (List.mem_cons_of_mem _ hm)
    simp only [List.map_cons, mapFind, h1, if_false]
    exact ih h2

/-- The loop of the constructor over distinct fresh leaves without symbols, which
stand at the front of the queue: each gets its counter and its input context. -/
theorem bfs_leaves (G : Graph) (ls : List NodePtr)
    (hleaf : ∀ n ∈ ls, (G n).children = [] ∧ (G n).symbolTable = []) (hnd : ls.Nodup) :
    ∀ (fuel : Nat) (rest : List NodePtr) (s : ExecutionState),
      (∀ n ∈ ls, mapFind s.nodeParentsDone_ n = none ∧ mapFind s.inputCtxs_ n = none) →
      ExecutionState.bfs G (fuel + ls.length) (ls ++ rest) s =
        ExecutionState.bfs G fuel rest
          { s with
            nodeParentsDone_ := s.nodeParentsDone_ ++ ls.map (fun n => (n, 0)),
            inputCtxs_ := s.inputCtxs_ ++ ls.map (fun n => (n, some emptyContext)) } := by
  induction ls with
  | nil =>
    intro fuel rest s _
    simp
  | cons a ls ih =>
    intro fuel rest s hfresh
    obtain ⟨hch, hsym⟩ := hleaf a (List.mem_cons_self _ _)
    obtain ⟨hf1, hf2⟩ := hfresh a (List.mem_cons_self _ _)
    have hnd1 := List.nodup_cons.1 hnd
    have hv : ExecutionState.visit G s a =
        { s with
          nodeParentsDone_ := s.nodeParentsDone_ ++ [(a, 0)],
          inputCtxs_ := s.inputCtxs_ ++ [(a, some emptyContext)] } := by
      unfold ExecutionState.visit
      simp only [hsym, ExecutionState.allocateSymbols, mapAssign_of_none _ _ _ hf1, mapInsert, hf2]
      rfl
    have hlen : fuel + (a :: ls).length = (fuel + ls.length) + 1 := by
      simp only [List.length_cons]
      omega
    rw [hlen, List.cons_append]
    simp only [ExecutionState.bfs, hch, List.filter_nil, List.append_nil, hv]
    rw [ih (fun n hn => hleaf n (List.mem_cons_of_mem _ hn)) hnd1.2 fuel rest]
    · simp only [List.map_cons, List.append_assoc, List.singleton_append]
    · intro n hn
      have hne : a ≠ n := fun he => hnd1.1 (he ▸ hn)
      obtain ⟨g1, g2⟩ := hfresh n (List.mem_cons_of_mem _ hn)
      simp only [mapFind_append, g1, g2, mapFind, hne, if_false]
      exact ⟨rfl, rfl⟩

theorem mem_fanLeaves {k : Nat} {n : Nat} : n ∈ fanLeaves k ↔ 3 ≤ n ∧ n < k + 3 := by
  unfold fanLeaves
  simp only [List.mem_map, List.mem_range]
  constructor
  · rintro ⟨i, hi, rfl⟩
    exact ⟨by omega, by omega⟩
  · intro h
    exact ⟨n - 3, by omega, by omega⟩

theorem nodup_fanLeaves (k : Nat) : (fanLeaves k).Nodup := by
  unfold fanLeaves
  exact (List.nodup_range k).map (fun (a b : Nat) (h : a + 3 = b + 3) => by omega)

theorem length_fanLeaves (k : Nat) : (fanLeaves k).length = k := by
  simp [fanLeaves]

theorem fanGraph_leaf (k : Nat) {n : Nat} (h : 3 ≤ n) :
    (fanGraph k n).children = [] ∧ (fanGraph k n).symbolTable = [] := by
  have h0 : n ≠ 0 := by omega
  have h1 : n ≠ 1 := by omega
  have h2 : n ≠ 2 := by omega
  simp [fanGraph, h0, h1, h2]

theorem create_fanGraph (k : Nat) :
    ExecutionState.create (fanGraph k) (k + 2) 0 1 0 emptyContext 7 =
      .ok (fanState k 0 (some emptyContext)) := by
  unfold ExecutionState.create
  have h0 : ((fanGraph k) 0).children = 1 :: fanLeaves k := rfl
  have h1 : ((fanGraph k) 1).children = [2] := rfl
  rw [h0]
  have hlen : k + 2 = (1 + (fanLeaves k).length) + 1 := by
    rw [length_fanLeaves]
    exact Nat.add_comm 1 k ▸ rfl
  rw [hlen]
  simp only [ExecutionState.bfs, h1]
  have hv : ExecutionState.visit (fanGraph k)
      { self := 0, runId_ := 1, cb_ := 7, resultCtx_ := some emptyContext, inflightNodes_ := 0,
        inputCtxs_ := [], nodeParentsDone_ := [], intermediatePlaceholders_ := [],
        errorContainer_ := none } 1 =
      { self := 0, runId_ := 1, cb_ := 7, resultCtx_ := some emptyContext, inflightNodes_ := 0,
        inputCtxs_ := [(1, some emptyContext)], nodeParentsDone_ := [(1, 0)],
        intermediatePlaceholders_ := [], errorContainer_ := none } := rfl
  rw [hv]
  have hfil : List.filter (fun child => (mapFind [((1 : NodePtr), 0)] child).isNone) [2] = [2] :=
    rfl
  simp only [hfil]
  rw [bfs_leaves (fanGraph k) (fanLeaves k)
    (fun n hn => fanGraph_leaf k (mem_fanLeaves.1 hn).1) (nodup_fanLeaves k) 1 [2]]
  · have h2 : ((fanGraph k) 2).children = [] := rfl
    have hn2 : (2 : Nat) ∉ fanLeaves k := fun hm =>
      absurd (mem_fanLeaves.1 hm).1 (by decide)
    simp only [ExecutionState.bfs, h2, List.filter_nil, List.append_nil]
    unfold ExecutionState.visit
    have hs2 : ((fanGraph k) 2).symbolTable = [] := rfl
    have hf1 : mapFind ([((1 : NodePtr), 0)] ++ (fanLeaves k).map (fun n => (n, 0))) 2 = none := by
      rw [mapFind_append, mapFind_map_none _ (fun _ => 0) _ hn2]
      rfl
    have hf2 : mapFind ([((1 : NodePtr), some emptyContext)] ++
        (fanLeaves k).map (fun n => (n, some emptyContext))) 2 = none := by
      rw [mapFind_append, mapFind_map_none _ (fun _ => some emptyContext) _ hn2]
      rfl
    simp only [hs2, ExecutionState.allocateSymbols, mapAssign_of_none _ _ _ hf1, mapInsert, hf2]
    rfl
  · intro n hn
    have h3 : 3 ≤ (n : Nat) := (mem_fanLeaves.1 hn).1
    have hne : ¬ (1 : Nat) = n := fun he => by
      rw [← he] at h3
      exact absurd h3 (by decide)
    simp [mapFind, hne]

theorem accept_fanGraph (k : Nat) :
    step (fanGraph k) (World.init [0]) (Label.run (k + 2) (some 0) emptyContext 1 7) =
      .ok (fanAccepted k) := by
  have hc := create_fanGraph k
  have hlen : ((fanGraph k) 0).children.length = k + 1 := by
    show (1 :: fanLeaves k).length = k + 1
    rw [List.length_cons, length_fanLeaves]
  simp only [step, ThreadPoolExecutor.runPrologue, World.init, mapFind, List.length_nil, hc,
    hlen]
  simp [mapInsert, mapFind, InflightBarrier.increment, ExecutionState.incrementInflightNodes,
    fanGraph, scenarioRoot, fanAccepted, fanState]

theorem dispatch_fanGraph (k : Nat) :
    steps (fanGraph k) (fanAccepted k) [Label.dispatch 0] = .ok (fanWorld k) := rfl

/-- The schedule `fanSchedule k` runs in the fresh executor over device 0 and ends
in `fanWorld k`, for every number of leaves. -/
theorem steps_fanGraph (k : Nat) :
    steps (fanGraph k) (World.init [0]) (fanSchedule k) = .ok (fanWorld k) := by
  simp only [fanSchedule, steps, accept_fanGraph k]
  rfl

theorem fanState_counter (k c : Nat) (a : Option ExecutionContext) :
    mapFind (fanState k c a).nodeParentsDone_ 2 = some 0 := by
  have hn2 : (2 : Nat) ∉ fanLeaves k := fun hm =>
    absurd (mem_fanLeaves.1 hm).1 (by decide)
  show mapFind ((1, 0) :: ((fanLeaves k).map (fun n => (n, 0)) ++ [(2, 0)])) 2 = some 0
  have h1 : ¬ (1 : Nat) = 2 := by decide
  simp only [mapFind, h1, if_false]
  rw [mapFind_append, mapFind_map_none _ (fun _ => 0) _ hn2]
  rfl

theorem fanState_input (k c : Nat) (a : Option ExecutionContext) :
    mapFind (fanState k c a).inputCtxs_ 2 = some (some emptyContext) := by
  have hn2 : (2 : Nat) ∉ fanLeaves k := fun hm =>
    absurd (mem_fanLeaves.1 hm).1 (by decide)
  show mapFind ((1, a) :: ((fanLeaves k).map (fun n => (n, some emptyContext)) ++
    [(2, some emptyContext)])) 2 = some (some emptyContext)
  have h1 : ¬ (1 : Nat) = 2 := by decide
  simp only [mapFind, h1, if_false]
  rw [mapFind_append, mapFind_map_none _ (fun _ => some emptyContext) _ hn2]
  rfl

/-- `executeDAGNode` hands the node to its device when no error is stored, the
device is registered and the input context of the node is there. -/
theorem executeDAGNode_dispatch (nodeCtx : ExecutionContext) {G : Graph}
    {ex : ThreadPoolExecutor} {st : ExecutionState} {node : NodePtr} (he : st.errorContainer_ = none)
    (hd : (G node).nextDevice ∈ ex.deviceManagers_)
    (hf : mapFind st.inputCtxs_ node = some (some nodeCtx)) :
    ThreadPoolExecutor.executeDAGNode G ex st node =
      .ok ({ ex with
              events := ex.events ++
                [Event.getNextDevice st.self node, Event.runFunction st.self node nodeCtx],
              outstanding := ex.outstanding ++
                [{ state := st.self, node := node, ctx := nodeCtx }] },
           { st with inputCtxs_ := mapAssign st.inputCtxs_ node none }) := by
  unfold ThreadPoolExecutor.executeDAGNode
  have he1 : st.containsErr = false := by simp [ExecutionState.containsErr, he]
  simp [he1, ThreadPoolExecutor.log, hd, ExecutionState.getUniqueNodeContextPtr, hf]

/-- The loop body of the handler for a child without symbols whose counter
reaches the number of its parents: the child is handed to `executeDAGNode`
after both counters were incremented. -/
theorem handleChild_ready {G : Graph} {ctx : ExecutionContext} {ex : ThreadPoolExecutor}
    {st : ExecutionState} {c : NodePtr} (hsym : (G c).symbolTable = []) {prev : Nat}
    (hf : mapFind st.nodeParentsDone_ c = some prev)
    (hready : (prev + 1) % UNSIGNED_MOD = (G c).parents.length % UNSIGNED_MOD) :
    ThreadPoolExecutor.handleChild G ctx ex st c =
      ThreadPoolExecutor.executeDAGNode G
        { ex.log (Event.propagated st.self c ctx) with
          inflightBarrier_ := ex.inflightBarrier_.increment 1 }
        (ExecutionState.incrementInflightNodes
          { st with nodeParentsDone_ :=
              (mapAssign st.nodeParentsDone_ c ((prev + 1) % UNSIGNED_MOD)) } 1) c := by
  unfold ThreadPoolExecutor.handleChild ThreadPoolExecutor.propagatePlaceholdersForNode
  simp only [hsym, ThreadPoolExecutor.propagateSymbols]
  unfold ExecutionState.incrementNodeParentsDone
  simp only [hf, hready, gt_iff_lt, Nat.lt_irrefl, if_false, beq_self_eq_true, if_true]
  rfl

theorem handlerCalls_fanGraph (k : Nat) :
    ThreadPoolExecutor.handlerCalls (fanGraph k)
        { (fanWorld k).executor with outstanding := (fanWorld k).executor.outstanding.eraseIdx 0 }
        (fanState k ((k + 1) % UNSIGNED_MOD) none) none emptyContext 1 =
      [(2, ((k + 1) % UNSIGNED_MOD + 1) % UNSIGNED_MOD,
        some (((k + 1) % UNSIGNED_MOD + 1) % UNSIGNED_MOD))] := by
  have hc1 : ((fanGraph k) 1).children = [2] := rfl
  have hs2 : ((fanGraph k) 2).symbolTable = [] := rfl
  have hp2 : ((fanGraph k) 2).parents = [1] := rfl
  have hf := fanState_counter k ((k + 1) % UNSIGNED_MOD) none
  have hi := fanState_input k ((k + 1) % UNSIGNED_MOD) none
  have hse : (fanState k ((k + 1) % UNSIGNED_MOD) none).setError none =
      fanState k ((k + 1) % UNSIGNED_MOD) none := rfl
  have hinc : ExecutionState.incrementNodeParentsDone (fanGraph k)
      (fanState k ((k + 1) % UNSIGNED_MOD) none) 2 1 =
      .ok (true, { fanState k ((k + 1) % UNSIGNED_MOD) none with
        nodeParentsDone_ :=
          (mapAssign (fanState k ((k + 1) % UNSIGNED_MOD) none).nodeParentsDone_ 2 1) }) := by
    unfold ExecutionState.incrementNodeParentsDone
    simp only [hf, hp2]
    rfl
  simp only [ThreadPoolExecutor.handlerCalls, Option.isNone_none, if_true, hc1,
    ThreadPoolExecutor.nestedCalls, ThreadPoolExecutor.propagatePlaceholdersForNode, hs2,
    ThreadPoolExecutor.propagateSymbols, hse, hinc]
  rw [executeDAGNode_dispatch emptyContext]
  · rfl
  · rfl
  · exact List.mem_cons_self 0 []
  · exact hi

theorem handle_fanGraph (k : Nat) (hk : ((k + 1) % UNSIGNED_MOD + 1) % UNSIGNED_MOD = 0) :
    step (fanGraph k) (fanWorld k) (Label.complete 0 none emptyContext) =
      .error Fault.inflightUnderflow := by
  have hc1 : ((fanGraph k) 1).children = [2] := rfl
  have hs2 : ((fanGraph k) 2).symbolTable = [] := rfl
  have hf := fanState_counter k ((k + 1) % UNSIGNED_MOD) none
  have hi := fanState_input k ((k + 1) % UNSIGNED_MOD) none
  have hse : (fanState k ((k + 1) % UNSIGNED_MOD) none).setError none =
      fanState k ((k + 1) % UNSIGNED_MOD) none := rfl
  have h0 : (fanWorld k).executor.outstanding[0]? =
      some { state := 0, node := 1, ctx := emptyContext } := rfl
  have h1 : (fanWorld k).objects[0]? = some (fanState k ((k + 1) % UNSIGNED_MOD) none) := rfl
  simp only [step, h0, h1, ThreadPoolExecutor.handleDeviceManagerResult, Option.isNone_none,
    if_true, hc1, hse, ThreadPoolExecutor.handleChildren]
  rw [handleChild_ready hs2 hf rfl, executeDAGNode_dispatch emptyContext]
  rotate_left
  · rfl
  · exact List.mem_cons_self 0 []
  · exact hi
  simp only [List.isEmpty_cons, Bool.false_eq_true, if_false]
  unfold ThreadPoolExecutor.finishNode ExecutionState.decrementInflightNodes
  simp only [ExecutionState.incrementInflightNodes]
  have hin : (fanState k ((k + 1) % UNSIGNED_MOD) none).inflightNodes_ =
      (k + 1) % UNSIGNED_MOD := rfl
  simp only [hin, hk, Nat.lt_one_iff, if_true]

theorem reach_fanGraph {k : Nat} {n : NodePtr} (h : Reach (fanGraph k) 0 n) :
    n = 1 ∨ n = 2 ∨ n ∈ fanLeaves k := by
  induction h with
  | child hc =>
    have h0 : ((fanGraph k) 0).children = 1 :: fanLeaves k := rfl
    rw [h0] at hc
    rcases List.mem_cons.1 hc with h1 | h1
    · exact Or.inl h1
    · exact Or.inr (Or.inr h1)
  | step _ hc ih =>
    rcases ih with ih | ih | ih
    · subst ih
      have h1 : ((fanGraph k) 1).children = [2] := rfl
      rw [h1] at hc
      exact Or.inr (Or.inl (List.mem_singleton.1 hc))
    · subst ih
      have h2 : ((fanGraph k) 2).children = [] := rfl
      rw [h2] at hc
      cases hc
    · rw [(fanGraph_leaf k (mem_fanLeaves.1 ih).1).1] at hc
      cases hc

theorem fanGraph_children {k : Nat} {m c : NodePtr} (hc : c ∈ ((fanGraph k) m).children) :
    (m = 0 ∧ (c = 1 ∨ c ∈ fanLeaves k)) ∨ (m = 1 ∧ c = 2) := by
  by_cases h0 : m = 0
  · subst h0
    have h : ((fanGraph k) 0).children = 1 :: fanLeaves k := rfl
    rw [h] at hc
    exact Or.inl ⟨rfl, List.mem_cons.1 hc⟩
  · by_cases h1 : m = 1
    · subst h1
      have h : ((fanGraph k) 1).children = [2] := rfl
      rw [h] at hc
      exact Or.inr ⟨rfl, List.mem_singleton.1 hc⟩
    · exfalso
      have h : ((fanGraph k) m).children = [] := by
        unfold fanGraph
        simp only [h0, h1, if_false]
        split <;> rfl
      rw [h] at hc
      cases hc

/-- The graph `fanGraph k` is well-formed under its root, for every `k`. -/
theorem wellFormed_fanGraph (k : Nat) : WellFormedDAG (fanGraph k) 0 := by
  have h0 : ((fanGraph k) 0).children = 1 :: fanLeaves k := rfl
  have hn1 : (1 : Nat) ∉ fanLeaves k := fun hm => absurd (mem_fanLeaves.1 hm).1 (by decide)
  have hn2 : (2 : Nat) ∉ fanLeaves k := fun hm => absurd (mem_fanLeaves.1 hm).1 (by decide)
  have hroot : ∀ n, Reach (fanGraph k) 0 n → n ∉ ((fanGraph k) 0).children → n = 2 := by
    intro n hn hnr
    rw [h0] at hnr
    rcases reach_fanGraph hn with h | h | h
    · exact absurd (h ▸ List.mem_cons_self _ _) hnr
    · exact h
    · exact absurd (List.mem_cons_of_mem _ h) hnr
  refine ⟨?_, ?_, ?_, ?_, ?_, ?_⟩
  · rw [h0]
    exact List.nodup_cons.2 ⟨hn1, nodup_fanLeaves k⟩
  · intro m hm
    rcases reach_fanGraph hm with h | h | h
    · subst h
      exact List.nodup_singleton 2
    · subst h
      exact List.nodup_nil
    · rw [(fanGraph_leaf k (mem_fanLeaves.1 h).1).1]
      exact List.nodup_nil
  · intro m hm c hc
    have hm0 : m ≠ 0 := by
      intro h
      subst h
      rcases reach_fanGraph hm with h | h | h
      · exact absurd h (by decide)
      · exact absurd h (by decide)
      · exact absurd (mem_fanLeaves.1 h).1 (by decide)
    rcases fanGraph_children hc with ⟨h, _⟩ | ⟨_, hc2⟩
    · exact absurd h hm0
    · subst hc2
      rw [h0]
      intro hmem
      rcases List.mem_cons.1 hmem with h3 | h3
      · exact absurd h3 (by decide)
      · exact hn2 h3
  · intro n hn hnr
    rw [hroot n hn hnr]
    exact List.nodup_singleton 1
  · intro n hn hnr m
    rw [hroot n hn hnr]
    have hp : ((fanGraph k) 2).parents = [1] := rfl
    rw [hp, List.mem_singleton]
    constructor
    · intro hm
      subst hm
      exact ⟨Reach.child (by rw [h0]; exact List.mem_cons_self _ _), List.mem_singleton_self 2⟩
    · rintro ⟨_, hc⟩
      rcases fanGraph_children hc with ⟨_, h3⟩ | ⟨h3, _⟩
      · rcases h3 with h3 | h3
        · exact absurd h3 (by decide)
        · exact absurd h3 hn2
      · exact h3
  · intro n _
    have : ((fanGraph k) n).parents.length ≤ 1 := by
      unfold fanGraph
      split
      · simp [scenarioRoot]
      · split
        · simp
        · split <;> simp
    exact Nat.lt_of_le_of_lt this (by decide)

theorem fanRank_grows (k : Nat) (m c : NodePtr) (hc : c ∈ ((fanGraph k) m).children) :
    fanRank m < fanRank c := by
  rcases fanGraph_children hc with ⟨hm, h1 | h1⟩ | ⟨hm, h1⟩
  · subst hm h1
    decide
  · subst hm
    have h3 : 3 ≤ (c : Nat) := (mem_fanLeaves.1 h1).1
    have hc0 : ¬ c = 0 := fun h => by rw [h] at h3; exact absurd h3 (by decide)
    have hc1 : ¬ c = 1 := fun h => by rw [h] at h3; exact absurd h3 (by decide)
    simp [fanRank, hc0, hc1]
  · subst hm h1
    decide

/-- C23 as stated fails when the counter wraps. Root has 2^32 - 1 distinct
children, `A` and 2^32 - 2 leaves, and `A` has the one child `C`; the graph is
well-formed. The run is accepted, which takes `inflightNodes_` to 2^32 - 1, and
`A` is dispatched. When the completion of `A` is handled, `C` is ready: the
increment wraps the counter to 0, so `executeDAGNode(state, C)` is called with
the counter at 0, not at 2 or more, and the counter is 0 when the call has
returned. -/
theorem nested_call_with_counter_at_zero :
    WellFormedDAG (fanGraph 4294967294) 0 ∧
      steps (fanGraph 4294967294) (World.init [0]) (fanSchedule 4294967294) =
        .ok (fanWorld 4294967294) ∧
      (fanWorld 4294967294).executor.outstanding[0]? =
        some { state := 0, node := 1, ctx := emptyContext } ∧
      (fanWorld 4294967294).objects[0]? = some (fanState 4294967294 4294967295 none) ∧
      ThreadPoolExecutor.handlerCalls (fanGraph 4294967294)
          { (fanWorld 4294967294).executor with
            outstanding := (fanWorld 4294967294).executor.outstanding.eraseIdx 0 }
          (fanState 4294967294 4294967295 none) none emptyContext 1 =
        [(2, 0, some 0)] :=
  ⟨wellFormed_fanGraph 4294967294, steps_fanGraph 4294967294, rfl, rfl,
    handlerCalls_fanGraph 4294967294⟩

/-! ## The nodes that a run still has to dispatch -/

section

variable {G : Graph} {root : NodePtr} {p : StatePtr}

theorem pending_quiet {rem : List NodePtr} {ex ex1 : ThreadPoolExecutor}
    {st st1 : ExecutionState} (h : Pending G root p ex st rem) (evs : List Event)
    (hev : ex1.events = ex.events ++ evs) (hd : dispatchedIn evs p = [])
    (hc : st1.nodeParentsDone_ = st.nodeParentsDone_) : Pending G root p ex1 st1 rem := by
  have hD : dispatchedIn ex1.events p = dispatchedIn ex.events p := by
    rw [hev, dispatchedIn_append, hd, List.append_nil]
  refine ⟨h.remNodup, ?_, ?_, ?_, ?_⟩
  · rw [hD]
    exact h.remFresh
  · rw [hD, hc]
    exact h.full
  · rw [hc]
    exact h.rootZero
  · rw [hc]
    exact h.counterKeys

theorem pending_shrink {rem rem1 : List NodePtr} {ex : ThreadPoolExecutor}
    {st : ExecutionState} (h : Pending G root p ex st rem) (hrem1 : rem1.Nodup)
    (hsub : ∀ n ∈ rem1, n ∈ rem) : Pending G root p ex st rem1 :=
  ⟨hrem1, fun c hc => h.remFresh c (hsub c hc), h.full, h.rootZero, h.counterKeys⟩

theorem pending_dispatch {rem : List NodePtr} {ex : ThreadPoolExecutor}
    {st : ExecutionState} (h : Pending G root p ex st rem) {c : NodePtr}
    (nodeCtx : ExecutionContext) (hc1 : c ∉ rem)
    (hfull : c ∉ (G root).children →
      mapFind st.nodeParentsDone_ c = some (G c).parents.length) :
    Pending G root p
      { ex with
        events := ex.events ++ [Event.getNextDevice p c, Event.runFunction p c nodeCtx],
        outstanding := ex.outstanding ++ [{ state := p, node := c, ctx := nodeCtx }] }
      { st with inputCtxs_ := mapAssign st.inputCtxs_ c none } rem := by
  have hD : dispatchedIn (ex.events ++ [Event.getNextDevice p c, Event.runFunction p c nodeCtx]) p
      = dispatchedIn ex.events p ++ [c] := by
    rw [dispatchedIn_append]
    simp [dispatchedIn]
  refine ⟨h.remNodup, ?_, ?_, h.rootZero, h.counterKeys⟩
  · intro n hn
    simp only [hD, List.mem_append, List.mem_singleton, not_or]
    refine ⟨h.remFresh n hn, ?_⟩
    intro hnc
    subst hnc
    exact hc1 hn
  · intro n hn hnr
    simp only [hD, List.mem_append, List.mem_singleton] at hn
    rcases hn with hn | hn
    · exact h.full n hn hnr
    · subst hn
      exact hfull hnr

theorem pending_execute {rem : List NodePtr} {ex : ThreadPoolExecutor} {st : ExecutionState}
    {c : NodePtr} {r : ThreadPoolExecutor × ExecutionState} (h : Pending G root p ex st rem)
    (hs : st.self = p) (hc1 : c ∉ rem)
    (hfull : c ∉ (G root).children →
      mapFind st.nodeParentsDone_ c = some (G c).parents.length)
    (hr : ThreadPoolExecutor.executeDAGNode G ex st c = .ok r) :
    Pending G root p r.1 r.2 rem := by
  rcases executeDAGNode_ok hr with ⟨-, h1⟩ | ⟨-, -, h1⟩ | ⟨-, -, nodeCtx, -, h1⟩
  · obtain ⟨-, -, h3⟩ := markNoLongerExecuting_ok h1
    subst h3
    exact pending_quiet h [] (by simp) rfl rfl
  · obtain ⟨-, -, h3⟩ := markNoLongerExecuting_ok h1
    subst h3
    exact pending_quiet h [Event.getNextDevice st.self c] rfl (by simp [dispatchedIn])
      (setError_frame st _).2.2.1
  · subst h1 hs
    exact pending_dispatch h nodeCtx hc1 hfull

theorem pending_propagate {rem : List NodePtr} {ex : ThreadPoolExecutor} {st : ExecutionState}
    {n : NodePtr} {src : ExecutionContext} {r : ThreadPoolExecutor × ExecutionState}
    (h : Pending G root p ex st rem)
    (hr : ThreadPoolExecutor.propagatePlaceholdersForNode G ex st n src = .ok r) :
    Pending G root p r.1 r.2 rem := by
  obtain ⟨h1, -, h3⟩ := propagatePlaceholdersForNode_ok hr
  refine pending_quiet h [Event.propagated st.self n src] (by rw [h1]; rfl)
    (by simp [dispatchedIn]) (by rw [h3])

/-- The counter of a child of the handled node is below the number of its parents
before the handler increments it, so the child was not dispatched. -/
theorem pending_not_dispatched {cur c : NodePtr} {post rem : List NodePtr}
    {ex : ThreadPoolExecutor} {st : ExecutionState} (hwf : WellFormedDAG G root)
    (hL : Ledger G root p cur post ex st rem) (h : Pending G root p ex st rem)
    (hc : Reach G root c) (hnr : c ∉ (G root).children) (hpost : c ∈ post) :
    c ∉ dispatchedIn ex.events p := by
  intro hD
  have hf := h.full c hD hnr
  have hcount := hL.counters c _ hc hnr hf
  rw [if_pos hpost] at hcount
  have hlen := (hL.credited_le hwf hc hnr).length_le
  omega

theorem pending_handleChild {cur c : NodePtr} {rest rem : List NodePtr}
    {ex : ThreadPoolExecutor} {st : ExecutionState} {ctx : ExecutionContext}
    {r : ThreadPoolExecutor × ExecutionState} (hwf : WellFormedDAG G root)
    (hL : Ledger G root p cur (c :: rest) ex st rem) (h : Pending G root p ex st rem)
    (hs : st.self = p) (hcur : Reach G root cur)
    (hr : ThreadPoolExecutor.handleChild G ctx ex st c = .ok r) :
    Pending G root p r.1 r.2 rem := by
  obtain ⟨pr, q, h1, h2, h3, h4⟩ := handleChild_ok hr
  obtain ⟨i1, -⟩ := hL.propagate hs h1
  have p1 := pending_propagate h h1
  obtain ⟨-, s1⟩ := appends_propagate h1
  obtain ⟨prev, hfind, -, hready, hq⟩ := incrementNodeParentsDone_ok h2
  have hcc : c ∈ (G cur).children := hL.postCur c (List.mem_cons_self _ _)
  have hreach : Reach G root c := Reach.step hcur hcc
  have hnr : c ∉ (G root).children := hwf.rootChildren cur hcur c hcc
  have hcD := pending_not_dispatched hwf i1 p1 hreach hnr (List.mem_cons_self _ _)
  have p2 : Pending G root p pr.1 q.2 rem := by
    rw [hq]
    refine ⟨p1.remNodup, p1.remFresh, ?_, ?_, ?_⟩
    · intro n hn hnr1
      have hne : n ≠ c := fun he => hcD (he ▸ hn)
      show mapFind (mapAssign _ c _) n = _
      rw [mapFind_mapAssign_ne _ _ hne]
      exact p1.full n hn hnr1
    · intro n hn v hv
      have hne : n ≠ c := fun he => hnr (he ▸ hn)
      simp only at hv
      rw [mapFind_mapAssign_ne _ _ hne] at hv
      exact p1.rootZero n hn v hv
    · intro n v hv
      by_cases hne : n = c
      · rw [hne]
        exact hreach
      · simp only at hv
        rw [mapFind_mapAssign_ne _ _ hne] at hv
        exact p1.counterKeys n v hv
  cases hr1 : q.1 with
  | false =>
    rw [h4 hr1]
    exact p2
  | true =>
    have p3 : Pending G root p
        { pr.1 with inflightBarrier_ := pr.1.inflightBarrier_.increment 1 }
        (q.2.incrementInflightNodes 1) rem :=
      pending_quiet p2 [] (by simp) rfl rfl
    have hs2 : (q.2.incrementInflightNodes 1).self = p := by
      show q.2.self = p
      rw [hq]
      exact s1.trans hs
    refine pending_execute p3 hs2 (fun hm => hnr (hL.remSub c hm)) ?_ (h3 hr1)
    intro _
    show mapFind q.2.nodeParentsDone_ c = _
    rw [hq]
    simp only
    rw [mapFind_mapAssign_self]
    rw [hready] at hr1
    have hfit := hwf.parentsFit c hreach
    have h5 : (prev + 1) % UNSIGNED_MOD = (G c).parents.length % UNSIGNED_MOD := by
      simpa using hr1
    rw [h5, Nat.mod_eq_of_lt hfit]

theorem pending_handleChildren {cur : NodePtr} {rem : List NodePtr} {ctx : ExecutionContext}
    (hwf : WellFormedDAG G root) (post : List NodePtr) {ex : ThreadPoolExecutor}
    {st : ExecutionState} {r : ThreadPoolExecutor × ExecutionState}
    (hL : Ledger G root p cur post ex st rem) (h : Pending G root p ex st rem)
    (hs : st.self = p) (hcur : Reach G root cur)
    (hlog : Event.handling p cur none ctx ∈ ex.events)
    (hr : ThreadPoolExecutor.handleChildren G ctx post ex st = .ok r) :
    Pending G root p r.1 r.2 rem := by
  induction post generalizing ex st with
  | nil =>
    simp only [ThreadPoolExecutor.handleChildren] at hr
    injection hr with hr
    subst hr
    exact h
  | cons c rest ih =>
    simp only [ThreadPoolExecutor.handleChildren] at hr
    split at hr
    · cases hr
    · rename_i ex1 st1 h1
      obtain ⟨i1, hlog1⟩ := hL.handleChild hwf hs hcur hlog h1
      obtain ⟨-, s1⟩ := appends_handleChild h1
      exact ih i1 (pending_handleChild hwf hL h hs hcur h1) (s1.trans hs) hlog1 hr

theorem pending_finish {rem : List NodePtr} {ex : ThreadPoolExecutor} {st : ExecutionState}
    {r : ThreadPoolExecutor × ExecutionState} (h : Pending G root p ex st rem)
    (hr : ThreadPoolExecutor.finishNode ex st = .ok r) : Pending G root p r.1 r.2 rem := by
  obtain ⟨-, -, h3⟩ := finishNode_ok hr
  rcases h3 with ⟨-, rc, -, h5⟩ | ⟨-, h5⟩
  · subst h5
    exact pending_quiet h [Event.callback (some st.self) st.cb_ st.runId_ st.errorContainer_ rc]
      rfl (by simp [dispatchedIn]) rfl
  · subst h5
    exact pending_quiet h [] (by simp) rfl rfl

theorem pending_handle {cur0 : NodePtr} {rem : List NodePtr} {ex : ThreadPoolExecutor}
    {st : ExecutionState} {i : Nat} {j : Job} {err : Error} {ctx : ExecutionContext}
    {r : ThreadPoolExecutor × ExecutionState} (hwf : WellFormedDAG G root)
    (hL : Ledger G root p cur0 [] ex st rem) (h : Pending G root p ex st rem)
    (hs : st.self = p) (hj : ex.outstanding[i]? = some j) (hjp : j.state = p)
    (hr : ThreadPoolExecutor.handleDeviceManagerResult G
      { ex with outstanding := ex.outstanding.eraseIdx i } st err ctx j.node = .ok r) :
    Pending G root p r.1 r.2 rem := by
  obtain ⟨pr, hf, hp⟩ := handleDeviceManagerResult_ok hr
  have p0 : Pending G root p
      (ThreadPoolExecutor.log { ex with outstanding := ex.outstanding.eraseIdx i }
        (Event.handling st.self j.node err ctx)) st rem :=
    pending_quiet h [Event.handling st.self j.node err ctx] rfl (by simp [dispatchedIn]) rfl
  refine pending_finish ?_ hf
  rcases hp with ⟨-, hp⟩ | ⟨-, -, hp1, hp2⟩ | ⟨he, -, hp⟩
  · rw [hp]
    exact pending_quiet p0 [] (by simp) rfl (setError_frame st err).2.2.1
  · have hfr := (propagateOutputPairs_frame _ hp2).1
    exact pending_quiet p0 [] (by rw [hp1]; simp) rfl (by rw [hfr])
  · subst he
    rw [hs] at hp p0
    obtain ⟨hreach, i1⟩ := hL.enter hwf hj hjp ctx
    exact pending_handleChildren hwf _ i1 p0 hs hreach (by simp [ThreadPoolExecutor.log]) hp

theorem pending_runChild {cur : NodePtr} {ex : ThreadPoolExecutor} {st : ExecutionState}
    {c : NodePtr} {rest : List NodePtr} {r : ThreadPoolExecutor × ExecutionState}
    (hL : Ledger G root p cur [] ex st (c :: rest)) (h : Pending G root p ex st (c :: rest))
    (hs : st.self = p) (hr : ThreadPoolExecutor.runChild G ex st c = .ok r) :
    Pending G root p r.1 r.2 rest := by
  have hc : c ∈ (G root).children := hL.remSub c (List.mem_cons_self _ _)
  have hnd := List.nodup_cons.1 h.remNodup
  have h0 : Pending G root p ex st rest :=
    pending_shrink h hnd.2 (fun n hn => List.mem_cons_of_mem _ hn)
  unfold ThreadPoolExecutor.runChild at hr
  split at hr
  · cases hr
  · split at hr
    · cases hr
    · rename_i ex1 st1 h1
      have p1 := pending_propagate h0 h1
      obtain ⟨-, s1⟩ := appends_propagate h1
      exact pending_execute p1 (s1.trans hs) hnd.1 (fun hn => absurd hc hn) hr

theorem pending_stable {rem : List NodePtr} {ex ex1 : ThreadPoolExecutor} {st : ExecutionState}
    (h : Pending G root p ex st rem) (hf : ForeignChange p ex ex1) :
    Pending G root p ex1 st rem := by
  obtain ⟨-, ⟨evs, hev, htag⟩, -⟩ := hf
  exact pending_quiet h evs hev (quiet_of_tags htag).1 rfl

theorem pending_initial {fuel : Nat} {context : ExecutionContext} {runId : RunIdentifierTy}
    {cb : ResultCBTy} (hwf : WellFormedDAG G root) (ex : ThreadPoolExecutor)
    (st0 : ExecutionState) (hev : ∀ e ∈ ex.events, e.tag ≠ some p)
    (hc : ExecutionState.create G fuel p runId root context cb = .ok st0) :
    Pending G root p ex (st0.incrementInflightNodes (G root).children.length)
      (G root).children := by
  obtain ⟨hd, -⟩ := quiet_of_tags hev
  have hb := builtFor_create hc
  refine ⟨hwf.rootNodup, ?_, ?_, ?_, ?_⟩
  · intro c _
    rw [hd]
    exact List.not_mem_nil c
  · intro n hn
    rw [hd] at hn
    cases hn
  · intro n _ c hf
    exact (constructed_create hc).counters n c hf
  · intro n c hf
    apply (hb.counterKeys n).1
    refine (mem_mapKeys_iff _ n).2 ?_
    have hf1 : mapFind st0.nodeParentsDone_ n = some c := hf
    rw [hf1]
    rfl

/-- The three invariants of a run over a well-formed graph hold in every world
that the run can reach, with any failures. -/
theorem pending_reachable {dm : List DeviceIDTy} {before : List Label} {w0 : World}
    (h0 : steps G (World.init dm) before = .ok w0)
    {fuel : Nat} {context : ExecutionContext} {runId : RunIdentifierTy} {cb : ResultCBTy}
    {w1 : World} {k : Nat} (hacc : Accepted G w0 fuel root context runId cb w1 p k)
    (hwf : WellFormedDAG G root)
    {after : List Label} {w : World} (h : steps G w1 after = .ok w) :
    RunWorld p k dm (fun ex st rem => Ledger G root p root [] ex st rem ∧
      Tally p rem.length ex st ∧ Pending G root p ex st rem) w := by
  have hsc : Scoped dm w0 := scoped_steps before (scoped_init dm) h0
  have hw1 : RunWorld p k dm (fun ex st rem => Ledger G root p root [] ex st rem ∧
      Tally p rem.length ex st ∧ Pending G root p ex st rem) w1 :=
    runWorld_accepted _ hsc hacc
      (fun ex st0 _ hev hjobs hc =>
        ⟨Ledger.initial ex st0 hev hjobs hc, tally_initial ex st0 hjobs hc,
          pending_initial hwf ex st0 hev hc⟩)
  exact runWorld_steps G p k dm (fun _ _ _ => True)
    (fun ex st rem => Ledger G root p root [] ex st rem ∧
      Tally p rem.length ex st ∧ Pending G root p ex st rem)
    (fun ex ex1 st rem hi hf =>
      ⟨hi.1.stable hf, tally_quiet hi.2.1 hf.2.2 rfl, pending_stable hi.2.2 hf⟩)
    (fun ex st c rest r _ hs hi hr =>
      ⟨hi.1.runChild hs hr, tally_runChild hi.2.1 hs hr, pending_runChild hi.1 hi.2.2 hs hr⟩)
    (fun ex st rem i j err ctx r _ hs hi hj hjp _ hr =>
      ⟨hi.1.handle hwf hs hj hjp hr, tally_handle hi.2.1 hs hj hjp hr,
        pending_handle hwf hi.1 hi.2.2 hs hj hjp hr⟩)
    after w1 w hw1 h (allCompletions_trivial G p after w1)

end

/-! ## Which assertions a step of a run can reach -/

section

variable {G : Graph} {root : NodePtr} {p : StatePtr} {C : Prop}

theorem counterSafe_of_ne {f : Fault} (h1 : f ≠ Fault.parentsDoneOverflow)
    (h2 : f ≠ Fault.inflightUnderflow) (h3 : f ≠ Fault.barrierDecrement) : CounterSafe C f :=
  ⟨h1, h2, fun _ => h3⟩

theorem safe_mark {ex : ThreadPoolExecutor} {st : ExecutionState} {f : Fault}
    (hin : 1 ≤ st.inflightNodes_) (hb : C → 1 ≤ ex.inflightBarrier_.count_)
    (hr : ThreadPoolExecutor.markNoLongerExecuting ex st = .error f) : CounterSafe C f := by
  unfold ThreadPoolExecutor.markNoLongerExecuting ExecutionState.decrementInflightNodes
    InflightBarrier.decrement at hr
  have h1 : ¬ st.inflightNodes_ < 1 := by omega
  by_cases h2 : ex.inflightBarrier_.count_ ≥ 1
  · simp [h1, h2] at hr
  · simp only [h1, if_false, h2] at hr
    injection hr with hr
    subst hr
    exact ⟨by decide, by decide, fun hC => absurd (hb hC) h2⟩

theorem safe_execute {ex : ThreadPoolExecutor} {st : ExecutionState} {c : NodePtr} {f : Fault}
    (hin : 1 ≤ st.inflightNodes_) (hb : C → 1 ≤ ex.inflightBarrier_.count_)
    (hr : ThreadPoolExecutor.executeDAGNode G ex st c = .error f) : CounterSafe C f := by
  unfold ThreadPoolExecutor.executeDAGNode at hr
  by_cases he : st.containsErr = true
  · rw [if_pos he] at hr
    exact safe_mark hin hb hr
  · rw [if_neg he] at hr
    by_cases hd : (G c).nextDevice ∈ ex.deviceManagers_
    · simp only [ThreadPoolExecutor.log, hd, if_true] at hr
      unfold ExecutionState.getUniqueNodeContextPtr at hr
      cases hf : mapFind st.inputCtxs_ c with
      | none =>
        simp only [hf] at hr
        injection hr with hr
        subst hr
        exact counterSafe_of_ne (by decide) (by decide) (by decide)
      | some v =>
        cases v with
        | none =>
          simp only [hf] at hr
          injection hr with hr
          subst hr
          exact counterSafe_of_ne (by decide) (by decide) (by decide)
        | some nodeCtx => simp [hf] at hr
    · simp only [ThreadPoolExecutor.log, hd, if_false] at hr
      refine safe_mark ?_ ?_ hr
      · rw [(setError_frame st _).2.2.2.1]
        exact hin
      · exact hb

theorem insertIntoNodeCtx_error {st : ExecutionState} {node : NodePtr} {name : String}
    {T : Tensor} {f : Fault} (hr : st.insertIntoNodeCtx node name T = .error f) :
    f = Fault.inputBindingsNotFound ∨ f = Fault.nullContext ∨
      f = Fault.placeholderNotCreated := by
  unfold ExecutionState.insertIntoNodeCtx at hr
  split at hr
  · injection hr with hr
    exact Or.inl hr.symm
  · injection hr with hr
    exact Or.inr (Or.inl hr.symm)
  · dsimp only at hr
    split at hr
    · injection hr with hr
      exact Or.inr (Or.inr hr.symm)
    · split at hr
      · injection hr with hr
        exact Or.inr (Or.inr hr.symm)
      · cases hr

theorem propagateSymbols_error {node : NodePtr} {ctx : ExecutionContext}
    (syms : List (String × RuntimeSymbolInfo)) {st : ExecutionState} {f : Fault}
    (hr : ThreadPoolExecutor.propagateSymbols node ctx syms st = .error f) :
    f = Fault.inputBindingsNotFound ∨ f = Fault.nullContext ∨
      f = Fault.placeholderNotCreated := by
  induction syms generalizing st with
  | nil => simp [ThreadPoolExecutor.propagateSymbols] at hr
  | cons s rest ih =>
    simp only [ThreadPoolExecutor.propagateSymbols] at hr
    split at hr
    · exact ih hr
    · split at hr
      · injection hr with hr
        exact Or.inr (Or.inl hr.symm)
      · split at hr
        · rename_i f1 h1
          injection hr with hr
          subst hr
          exact insertIntoNodeCtx_error h1
        · exact ih hr

theorem safe_propagate {ex : ThreadPoolExecutor} {st : ExecutionState} {n : NodePtr}
    {src : ExecutionContext} {f : Fault}
    (hr : ThreadPoolExecutor.propagatePlaceholdersForNode G ex st n src = .error f) :
    CounterSafe C f := by
  unfold ThreadPoolExecutor.propagatePlaceholdersForNode at hr
  split at hr
  · rename_i f1 h1
    injection hr with hr
    subst hr
    rcases propagateSymbols_error _ h1 with h | h | h <;> subst h <;>
      exact counterSafe_of_ne (by decide) (by decide) (by decide)
  · cases hr

/-- The increment of the parents-done counter of a child of the handled node
does not go beyond the number of parents of the child. -/
theorem safe_increment {cur c : NodePtr} {rest rem : List NodePtr} {ex : ThreadPoolExecutor}
    {st : ExecutionState} {f : Fault} (hwf : WellFormedDAG G root)
    (hL : Ledger G root p cur (c :: rest) ex st rem) (hcur : Reach G root cur)
    (hr : st.incrementNodeParentsDone G c 1 = .error f) : f = Fault.parentsDoneNotFound := by
  have hcc : c ∈ (G cur).children := hL.postCur c (List.mem_cons_self _ _)
  have hreach : Reach G root c := Reach.step hcur hcc
  have hnr : c ∉ (G root).children := hwf.rootChildren cur hcur c hcc
  unfold ExecutionState.incrementNodeParentsDone at hr
  split at hr
  · injection hr with hr
    exact hr.symm
  · rename_i prev hprev
    exfalso
    have hcount := hL.counters c prev hreach hnr hprev
    simp only [List.mem_cons, true_or, if_true] at hcount
    have hlen := (hL.credited_le hwf hreach hnr).length_le
    have hfit := hwf.parentsFit c hreach
    dsimp only at hr
    have h1 : (prev + 1) % UNSIGNED_MOD = prev + 1 := Nat.mod_eq_of_lt (by omega)
    have h2 : (G c).parents.length % UNSIGNED_MOD = (G c).parents.length :=
      Nat.mod_eq_of_lt hfit
    rw [h1, h2] at hr
    have h3 : ¬ prev + 1 > (G c).parents.length := by omega
    simp [h3] at hr

/-- What `executeDAGNode` does to the two counters: nothing when it dispatches
the node, one decrement of each when it does not. -/
theorem executeDAGNode_counters {ex : ThreadPoolExecutor} {st : ExecutionState} {c : NodePtr}
    {r : ThreadPoolExecutor × ExecutionState}
    (hr : ThreadPoolExecutor.executeDAGNode G ex st c = .ok r) :
    (r.2.inflightNodes_ = st.inflightNodes_ ∧
        r.1.inflightBarrier_.count_ = ex.inflightBarrier_.count_) ∨
      (r.2.inflightNodes_ + 1 = st.inflightNodes_ ∧
        r.1.inflightBarrier_.count_ + 1 = ex.inflightBarrier_.count_) := by
  rcases executeDAGNode_ok hr with ⟨-, h1⟩ | ⟨-, -, h1⟩ | ⟨-, -, nodeCtx, -, h1⟩
  · obtain ⟨a1, a2, h3⟩ := markNoLongerExecuting_ok h1
    subst h3
    right
    exact ⟨by simp only; omega, by simp only; omega⟩
  · obtain ⟨a1, a2, h3⟩ := markNoLongerExecuting_ok h1
    subst h3
    rw [(setError_frame st _).2.2.2.1] at a1
    right
    refine ⟨?_, ?_⟩
    · show (st.setError _).inflightNodes_ - 1 + 1 = st.inflightNodes_
      rw [(setError_frame st _).2.2.2.1]
      omega
    · show ex.inflightBarrier_.count_ - 1 + 1 = ex.inflightBarrier_.count_
      have a3 : 1 ≤ ex.inflightBarrier_.count_ := a2
      omega
  · subst h1
    exact Or.inl ⟨rfl, rfl⟩

theorem handleChild_counters {ctx : ExecutionContext} {ex : ThreadPoolExecutor}
    {st : ExecutionState} {c : NodePtr} {r : ThreadPoolExecutor × ExecutionState}
    (hr : ThreadPoolExecutor.handleChild G ctx ex st c = .ok r) :
    (st.inflightNodes_ + 1 < UNSIGNED_MOD →
        st.inflightNodes_ ≤ r.2.inflightNodes_ ∧ r.2.inflightNodes_ ≤ st.inflightNodes_ + 1) ∧
      (ex.inflightBarrier_.count_ + 1 < UNSIGNED_MOD →
        ex.inflightBarrier_.count_ ≤ r.1.inflightBarrier_.count_ ∧
          r.1.inflightBarrier_.count_ ≤ ex.inflightBarrier_.count_ + 1) := by
  obtain ⟨pr, q, h1, h2, h3, h4⟩ := handleChild_ok hr
  obtain ⟨e1, -, e3⟩ := propagatePlaceholdersForNode_ok h1
  obtain ⟨prev, -, -, -, hq⟩ := incrementNodeParentsDone_ok h2
  have hi : q.2.inflightNodes_ = st.inflightNodes_ := by rw [hq, e3]
  have hb : pr.1.inflightBarrier_.count_ = ex.inflightBarrier_.count_ := by rw [e1]; rfl
  cases hr1 : q.1 with
  | false =>
    rw [h4 hr1]
    simp only [hi, hb]
    exact ⟨fun _ => ⟨Nat.le_refl _, Nat.le_succ _⟩, fun _ => ⟨Nat.le_refl _, Nat.le_succ _⟩⟩
  | true =>
    have h5 := executeDAGNode_counters (h3 hr1)
    have hi3 : (q.2.incrementInflightNodes 1).inflightNodes_ =
        (st.inflightNodes_ + 1) % UNSIGNED_MOD := by
      show (q.2.inflightNodes_ + 1) % UNSIGNED_MOD = _
      rw [hi]
    have hb3 : (pr.1.inflightBarrier_.increment 1).count_ =
        (ex.inflightBarrier_.count_ + 1) % UNSIGNED_MOD := by
      show (pr.1.inflightBarrier_.count_ + 1) % UNSIGNED_MOD = _
      rw [hb]
    simp only [hi3, hb3] at h5
    constructor
    · intro hroom
      rw [Nat.mod_eq_of_lt hroom] at h5
      rcases h5 with ⟨a, -⟩ | ⟨a, -⟩ <;> omega
    · intro hroom
      rw [Nat.mod_eq_of_lt hroom] at h5
      rcases h5 with ⟨-, a⟩ | ⟨-, a⟩ <;> omega

theorem safe_handleChild {cur c : NodePtr} {rest rem : List NodePtr} {ex : ThreadPoolExecutor}
    {st : ExecutionState} {ctx : ExecutionContext} {f : Fault} (hwf : WellFormedDAG G root)
    (hL : Ledger G root p cur (c :: rest) ex st rem) (hs : st.self = p)
    (hcur : Reach G root cur) (hroom : st.inflightNodes_ + 1 < UNSIGNED_MOD)
    (hb : C → ex.inflightBarrier_.count_ + 1 < UNSIGNED_MOD)
    (hr : ThreadPoolExecutor.handleChild G ctx ex st c = .error f) : CounterSafe C f := by
  unfold ThreadPoolExecutor.handleChild at hr
  split at hr
  · rename_i f1 h1
    injection hr with hr
    subst hr
    exact safe_propagate h1
  · rename_i ex1 st1 h1
    obtain ⟨i1, -⟩ := hL.propagate hs h1
    obtain ⟨e1, -, e3⟩ := propagatePlaceholdersForNode_ok h1
    simp only at e1 e3
    split at hr
    · rename_i f1 h2
      injection hr with hr
      subst hr
      rw [safe_increment hwf i1 hcur h2]
      exact counterSafe_of_ne (by decide) (by decide) (by decide)
    · rename_i ready st2 h2
      obtain ⟨prev, -, -, -, hq⟩ := incrementNodeParentsDone_ok h2
      simp only at hq
      split at hr
      · refine safe_execute ?_ ?_ hr
        · show 1 ≤ (st2.inflightNodes_ + 1) % UNSIGNED_MOD
          rw [hq, e3]
          simp only
          rw [Nat.mod_eq_of_lt hroom]
          omega
        · intro hC
          show 1 ≤ (ex1.inflightBarrier_.count_ + 1) % UNSIGNED_MOD
          rw [e1]
          show 1 ≤ (ex.inflightBarrier_.count_ + 1) % UNSIGNED_MOD
          rw [Nat.mod_eq_of_lt (hb hC)]
          omega
      · cases hr

theorem safe_handleChildren {cur : NodePtr} {rem : List NodePtr} {ctx : ExecutionContext}
    (hwf : WellFormedDAG G root) (post : List NodePtr) {ex : ThreadPoolExecutor}
    {st : ExecutionState} (hL : Ledger G root p cur post ex st rem) (hs : st.self = p)
    (hcur : Reach G root cur) (hlog : Event.handling p cur none ctx ∈ ex.events)
    (hin : 1 ≤ st.inflightNodes_) (hroom : st.inflightNodes_ + post.length < UNSIGNED_MOD)
    (hb : C → 1 ≤ ex.inflightBarrier_.count_ ∧
      ex.inflightBarrier_.count_ + post.length < UNSIGNED_MOD) :
    (∀ f, ThreadPoolExecutor.handleChildren G ctx post ex st = .error f → CounterSafe C f) ∧
      (∀ r, ThreadPoolExecutor.handleChildren G ctx post ex st = .ok r →
        1 ≤ r.2.inflightNodes_ ∧ (C → 1 ≤ r.1.inflightBarrier_.count_)) := by
  induction post generalizing ex st with
  | nil =>
    refine ⟨?_, ?_⟩
    · intro f hr
      simp [ThreadPoolExecutor.handleChildren] at hr
    · intro r hr
      simp only [ThreadPoolExecutor.handleChildren] at hr
      injection hr with hr
      subst hr
      exact ⟨hin, fun hC => (hb hC).1⟩
  | cons c rest ih =>
    simp only [List.length_cons] at hroom hb
    have key : ∀ ex1 st1, ThreadPoolExecutor.handleChild G ctx ex st c = .ok (ex1, st1) →
        (∀ f, ThreadPoolExecutor.handleChildren G ctx rest ex1 st1 = .error f →
          CounterSafe C f) ∧
        (∀ r, ThreadPoolExecutor.handleChildren G ctx rest ex1 st1 = .ok r →
          1 ≤ r.2.inflightNodes_ ∧ (C → 1 ≤ r.1.inflightBarrier_.count_)) := by
      intro ex1 st1 h1
      obtain ⟨i1, hlog1⟩ := hL.handleChild hwf hs hcur hlog h1
      obtain ⟨-, s1⟩ := appends_handleChild h1
      obtain ⟨n1, n2⟩ := handleChild_counters h1
      have m1 := n1 (by omega)
      simp only at m1 s1
      refine ih i1 (s1.trans hs) hlog1 (by omega) (by omega) ?_
      intro hC
      have m2 := n2 (by have := (hb hC).2; omega)
      simp only at m2
      have := hb hC
      exact ⟨by omega, by omega⟩
    refine ⟨?_, ?_⟩
    · intro f hr
      simp only [ThreadPoolExecutor.handleChildren] at hr
      split at hr
      · rename_i f1 h1
        injection hr with hr
        subst hr
        exact safe_handleChild hwf hL hs hcur (by omega)
          (fun hC => by have := (hb hC).2; omega) h1
      · rename_i ex1 st1 h1
        exact (key ex1 st1 h1).1 f hr
    · intro r hr
      simp only [ThreadPoolExecutor.handleChildren] at hr
      split at hr
      · cases hr
      · rename_i ex1 st1 h1
        exact (key ex1 st1 h1).2 r hr

theorem safe_finish {ex : ThreadPoolExecutor} {st : ExecutionState} {f : Fault}
    (hin : 1 ≤ st.inflightNodes_) (hb : C → 1 ≤ ex.inflightBarrier_.count_)
    (hr : ThreadPoolExecutor.finishNode ex st = .error f) : CounterSafe C f := by
  unfold ThreadPoolExecutor.finishNode ExecutionState.decrementInflightNodes at hr
  have h1 : ¬ st.inflightNodes_ < 1 := by omega
  simp only [h1, if_false] at hr
  by_cases h2 : (st.inflightNodes_ == 1) = true
  · simp only [h2, if_true, ExecutionState.getUniqueResultContextPtr] at hr
    cases hrc : st.resultCtx_ with
    | none =>
      simp only [hrc] at hr
      injection hr with hr
      subst hr
      exact counterSafe_of_ne (by decide) (by decide) (by decide)
    | some rc =>
      simp only [hrc, ThreadPoolExecutor.log, InflightBarrier.decrement] at hr
      by_cases h3 : ex.inflightBarrier_.count_ ≥ 1
      · simp [h3] at hr
      · simp only [h3, if_false] at hr
        injection hr with hr
        subst hr
        exact ⟨by decide, by decide, fun hC => absurd (hb hC) h3⟩
  · simp only [h2, Bool.false_eq_true, if_false, InflightBarrier.decrement] at hr
    by_cases h3 : ex.inflightBarrier_.count_ ≥ 1
    · simp [h3] at hr
    · simp only [h3, if_false] at hr
      injection hr with hr
      subst hr
      exact ⟨by decide, by decide, fun hC => absurd (hb hC) h3⟩

theorem propagateOutputPairs_error (pairs : List (Placeholder × Tensor)) {st : ExecutionState}
    {f : Fault} (hr : ThreadPoolExecutor.propagateOutputPairs pairs st = .error f) :
    f = Fault.resultBindingsMissing := by
  induction pairs generalizing st with
  | nil => simp [ThreadPoolExecutor.propagateOutputPairs] at hr
  | cons e rest ih =>
    simp only [ThreadPoolExecutor.propagateOutputPairs] at hr
    split at hr
    · rename_i f1 h1
      injection hr with hr
      subst hr
      unfold ExecutionState.insertIntoResultCtx at h1
      split at h1
      · injection h1 with h1
        exact h1.symm
      · dsimp only at h1
        split at h1
        · cases h1
        · split at h1 <;> cases h1
    · exact ih hr

/-- The handling of a completion of the run reaches no counter assertion, given
that the two counters are positive and have room for the children of the node. -/
theorem safe_handle {cur0 : NodePtr} {rem : List NodePtr} {ex : ThreadPoolExecutor}
    {st : ExecutionState} {i : Nat} {j : Job} {err : Error} {ctx : ExecutionContext}
    {f : Fault} (hwf : WellFormedDAG G root) (hL : Ledger G root p cur0 [] ex st rem)
    (hs : st.self = p) (hj : ex.outstanding[i]? = some j) (hjp : j.state = p)
    (hin : 1 ≤ st.inflightNodes_)
    (hroom : st.inflightNodes_ + (G j.node).children.length < UNSIGNED_MOD)
    (hb : C → 1 ≤ ex.inflightBarrier_.count_ ∧
      ex.inflightBarrier_.count_ + (G j.node).children.length < UNSIGNED_MOD)
    (hr : ThreadPoolExecutor.handleDeviceManagerResult G
      { ex with outstanding := ex.outstanding.eraseIdx i } st err ctx j.node = .error f) :
    CounterSafe C f := by
  rw [handleDeviceManagerResult_split] at hr
  unfold ThreadPoolExecutor.handleOutputs at hr
  dsimp only at hr
  cases err with
  | some e =>
    simp only [Option.isNone_some, Bool.false_eq_true, if_false] at hr
    refine safe_finish ?_ ?_ hr
    · rw [(setError_frame st _).2.2.2.1]
      exact hin
    · exact fun hC => (hb hC).1
  | none =>
    have hse : st.setError none = st := by
      unfold ExecutionState.setError
      split
      · rfl
      · rename_i hn
        cases st
        simp only at hn
        subst hn
        rfl
    simp only [Option.isNone_none, if_true, hse] at hr
    by_cases hch : (G j.node).children.isEmpty = true
    · simp only [hch, if_true] at hr
      split at hr
      · rename_i f1 h1
        injection hr with hr
        subst hr
        split at h1
        · rename_i f2 h2
          injection h1 with h1
          subst h1
          rw [propagateOutputPairs_error _ h2]
          exact counterSafe_of_ne (by decide) (by decide) (by decide)
        · cases h1
      · rename_i ex1 st1 h1
        split at h1
        · cases h1
        · rename_i st2 h2
          injection h1 with h1
          injection h1 with h1a h1b
          subst h1a h1b
          have hfr := (propagateOutputPairs_frame _ h2).1
          refine safe_finish ?_ ?_ hr
          · rw [hfr]
            exact hin
          · exact fun hC => (hb hC).1
    · simp only [hch, Bool.false_eq_true, if_false] at hr
      obtain ⟨hreach, i1⟩ := hL.enter hwf hj hjp ctx
      subst hs
      have hlog : Event.handling st.self j.node none ctx ∈
          (ThreadPoolExecutor.log { ex with outstanding := ex.outstanding.eraseIdx i }
            (Event.handling st.self j.node none ctx)).events := by
        simp [ThreadPoolExecutor.log]
      obtain ⟨g1, g2⟩ := safe_handleChildren hwf (G j.node).children i1 rfl hreach
        hlog hin hroom hb
      split at hr
      · rename_i f1 h1
        injection hr with hr
        subst hr
        exact g1 _ h1
      · rename_i ex1 st1 h1
        obtain ⟨g3, g4⟩ := g2 _ h1
        exact safe_finish g3 g4 hr

end

/-! ## The counter assertions in a run over a well-formed graph -/

section

variable {G : Graph} {root : NodePtr} {p : StatePtr} {C : Prop}

theorem safe_runChild {ex : ThreadPoolExecutor} {st : ExecutionState} {c : NodePtr} {f : Fault}
    (hin : 1 ≤ st.inflightNodes_) (hb : C → 1 ≤ ex.inflightBarrier_.count_)
    (hr : ThreadPoolExecutor.runChild G ex st c = .error f) : CounterSafe C f := by
  unfold ThreadPoolExecutor.runChild at hr
  split at hr
  · rename_i f1 h1
    injection hr with hr
    subst hr
    unfold ExecutionState.getRawResultContextPtr at h1
    split at h1
    · injection h1 with h1
      subst h1
      exact counterSafe_of_ne (by decide) (by decide) (by decide)
    · cases h1
  · split at hr
    · rename_i f1 h1
      injection hr with hr
      subst hr
      exact safe_propagate h1
    · rename_i ex1 st1 h1
      obtain ⟨e1, -, e3⟩ := propagatePlaceholdersForNode_ok h1
      simp only at e1 e3
      refine safe_execute ?_ ?_ hr
      · rw [e3]
        exact hin
      · rw [e1]
        exact hb

/-- The outstanding device calls of the run and the children of root that are
not dispatched yet are distinct nodes of the graph. -/
theorem pending_bound_run {nodes : List NodePtr} (hnodes : ∀ n, Reach G root n → n ∈ nodes)
    {cur : NodePtr} {rem : List NodePtr} {ex : ThreadPoolExecutor} {st : ExecutionState}
    (hL : Ledger G root p cur [] ex st rem) (h : Pending G root p ex st rem) :
    (jobsOf ex p).length + rem.length ≤ nodes.length := by
  have hnd : (rem ++ dispatchedIn ex.events p).Nodup :=
    List.Nodup.append h.remNodup hL.dNodup (fun a ha hd => h.remFresh a ha hd)
  have hsub : ∀ n ∈ rem ++ dispatchedIn ex.events p, n ∈ nodes := by
    intro n hn
    rcases List.mem_append.1 hn with h1 | h1
    · exact hnodes n (Reach.child (hL.remSub n h1))
    · exact hnodes n (hL.reach n h1)
  have hlen := length_le_of_nodup_subset hnd hsub
  have hperm := hL.perm.length_eq
  simp only [List.length_append, List.length_map] at hlen hperm
  omega

/-- The outstanding device calls of the run, the children of root that are not
dispatched yet and the children of a node whose call is outstanding are
distinct nodes of the graph. -/
theorem pending_bound_handle {nodes : List NodePtr} (hwf : WellFormedDAG G root)
    (hnodes : ∀ n, Reach G root n → n ∈ nodes)
    {cur : NodePtr} {rem : List NodePtr} {ex : ThreadPoolExecutor} {st : ExecutionState}
    (hL : Ledger G root p cur [] ex st rem) (h : Pending G root p ex st rem)
    {i : Nat} {j : Job} (hj : ex.outstanding[i]? = some j) (hjp : j.state = p) :
    (jobsOf ex p).length + rem.length + (G j.node).children.length ≤ nodes.length := by
  obtain ⟨hreach, i1⟩ := hL.enter hwf hj hjp j.ctx
  have p0 : Pending G root p
      (ThreadPoolExecutor.log { ex with outstanding := ex.outstanding.eraseIdx i }
        (Event.handling p j.node none j.ctx)) st rem :=
    pending_quiet h [Event.handling p j.node none j.ctx] rfl (by simp [dispatchedIn]) rfl
  have hD : dispatchedIn (ThreadPoolExecutor.log
      { ex with outstanding := ex.outstanding.eraseIdx i }
      (Event.handling p j.node none j.ctx)).events p = dispatchedIn ex.events p := by
    show dispatchedIn (ex.events ++ [Event.handling p j.node none j.ctx]) p = _
    rw [dispatchedIn_append]
    simp [dispatchedIn]
  have hcD : ∀ c ∈ (G j.node).children, c ∉ dispatchedIn ex.events p := by
    intro c hc
    rw [← hD]
    exact pending_not_dispatched hwf i1 p0 (Reach.step hreach hc)
      (hwf.rootChildren j.node hreach c hc) hc
  have hnd1 : (rem ++ dispatchedIn ex.events p).Nodup :=
    List.Nodup.append h.remNodup hL.dNodup (fun a ha hd => h.remFresh a ha hd)
  have hnd : ((G j.node).children ++ (rem ++ dispatchedIn ex.events p)).Nodup := by
    refine List.Nodup.append (hwf.childrenNodup j.node hreach) hnd1 ?_
    intro a ha hb
    rcases List.mem_append.1 hb with h1 | h1
    · exact hwf.rootChildren j.node hreach a ha (hL.remSub a h1)
    · exact hcD a ha h1
  have hsub : ∀ n ∈ (G j.node).children ++ (rem ++ dispatchedIn ex.events p), n ∈ nodes := by
    intro n hn
    rcases List.mem_append.1 hn with h1 | h1
    · exact hnodes n (Reach.step hreach h1)
    · rcases List.mem_append.1 h1 with h2 | h2
      · exact hnodes n (Reach.child (hL.remSub n h2))
      · exact hnodes n (hL.reach n h2)
  have hlen := length_le_of_nodup_subset hnd hsub
  have hperm := hL.perm.length_eq
  simp only [List.length_append, List.length_map] at hlen hperm
  omega

end

/-- C22, for graphs with fewer than 2^32 nodes: a run over a well-formed graph
`G` under `root`, whose reachable nodes are among `nodes` with `|nodes| < 2^32`, is
accepted by an executor in any state it can reach. In every world `w` that
follows, along any schedule with any mix of succeeding and failing node
executions and missing devices: every parents-done counter of the run is at
most the number of parents of its node; and neither the next iteration of the
dispatch loop of the run nor the handling of the completion of any of its
outstanding device calls fails the assertion of `incrementNodeParentsDone` or
that of `decrementInflightNodes`, nor, when the `inflightNodes_` counters of the
other runs plus `|nodes|` stay below 2^32, the assertion of
`InflightBarrier::decrement`. -/
theorem counter_assertions_unreachable (G : Graph) (dm : List DeviceIDTy)
    (before : List Label) (w0 : World) (h0 : steps G (World.init dm) before = .ok w0)
    (fuel : Nat) (root : NodePtr) (context : ExecutionContext) (runId : RunIdentifierTy)
    (cb : ResultCBTy) (w1 : World) (p : StatePtr) (k : Nat)
    (hacc : Accepted G w0 fuel root context runId cb w1 p k)
    (hwf : WellFormedDAG G root) (nodes : List NodePtr)
    (hnodes : ∀ n, Reach G root n → n ∈ nodes) (hfit : nodes.length < UNSIGNED_MOD)
    (after : List Label) (w : World) (h : steps G w1 after = .ok w) :
    (∀ st, w.objects[p]? = some st → ∀ n c, mapFind st.nodeParentsDone_ n = some c →
        c ≤ (G n).parents.length) ∧
      (∀ f, step G w (Label.dispatch k) = .error f →
        CounterSafe (othersInflight w p + nodes.length < UNSIGNED_MOD) f) ∧
      (∀ job j err ctx f, w.executor.outstanding[job]? = some j → j.state = p →
        step G w (Label.complete job err ctx) = .error f →
        CounterSafe (othersInflight w p + nodes.length < UNSIGNED_MOD) f) := by
  obtain ⟨hself, -, -, st, rem, hst, hfr, hL, hT, hP⟩ := pending_reachable h0 hacc hwf h
  have hs := hself p st hst
  -- the barrier counts the nodes in flight of all runs
  have hbar : w.executor.inflightBarrier_.count_ =
      (othersInflight w p + st.inflightNodes_) % UNSIGNED_MOD := by
    obtain ⟨b0, s0⟩ := barrier_reachable before
      (show (World.init dm).executor.inflightBarrier_.count_ < UNSIGNED_MOD from by
        simp [World.init, UNSIGNED_MOD])
      (show (World.init dm).executor.inflightBarrier_.count_ =
        sumInflight (World.init dm) % UNSIGNED_MOD from by simp [World.init, sumInflight]) h0
    obtain ⟨b1, s1⟩ := barrier_step hacc.1 b0 s0
    obtain ⟨-, s2⟩ := barrier_reachable after b1 s1 h
    rw [s2]
    unfold sumInflight othersInflight
    rw [sum_eraseIdx (fun (s : ExecutionState) => s.inflightNodes_) w.objects p st hst]
  have hrun := pending_bound_run hnodes hL hP
  have hTe : st.inflightNodes_ = (jobsOf w.executor p).length + rem.length := by
    rw [hT]
    exact Nat.mod_eq_of_lt (by omega)
  have hbarC : othersInflight w p + nodes.length < UNSIGNED_MOD →
      w.executor.inflightBarrier_.count_ = othersInflight w p + st.inflightNodes_ := by
    intro hC
    rw [hbar]
    exact Nat.mod_eq_of_lt (by omega)
  refine ⟨?_, ?_, ?_⟩
  · intro st1 hst1 n c hf
    rw [hst] at hst1
    injection hst1 with hst1
    subst hst1
    have hreach := hP.counterKeys n c hf
    by_cases hnr : n ∈ (G root).children
    · rw [hP.rootZero n hnr c hf]
      exact Nat.zero_le _
    · have hcount := hL.counters n c hreach hnr hf
      have hlen := (hL.credited_le hwf hreach hnr).length_le
      simp only [List.not_mem_nil, if_false, Nat.add_zero] at hcount
      omega
  · intro f hr
    simp only [step, hfr] at hr
    cases hrem : rem with
    | nil =>
      simp only [hrem] at hr
      injection hr with hr
      subst hr
      exact counterSafe_of_ne (by decide) (by decide) (by decide)
    | cons c rest =>
      simp only [hrem, hst] at hr
      split at hr
      · rename_i f1 h1
        injection hr with hr
        subst hr
        refine safe_runChild ?_ ?_ h1
        · rw [hTe, hrem]
          simp only [List.length_cons]
          omega
        · intro hC
          rw [hbarC hC, hTe, hrem]
          simp only [List.length_cons]
          omega
      · cases hr
  · intro job j err ctx f hj hjp hr
    simp only [step, hj, hjp, hst] at hr
    split at hr
    · rename_i f1 h1
      injection hr with hr
      subst hr
      have hbound := pending_bound_handle hwf hnodes hL hP hj hjp
      obtain ⟨l1, l2, hf1, -⟩ := filter_eraseIdx_of_mem (fun j => j.state == p) _ _ _ hj
        (by simpa using hjp)
      have hJ : jobsOf w.executor p = l1 ++ j :: l2 := hf1
      have hJ1 : 1 ≤ (jobsOf w.executor p).length := by
        rw [hJ]
        simp only [List.length_append, List.length_cons]
        omega
      refine safe_handle hwf hL hs hj hjp (by omega) (by omega) ?_ h1
      intro hC
      rw [hbarC hC]
      exact ⟨by omega, by omega⟩
    · cases hr

/-- Witness for C22: the diamond of scenario S5, in the world where `A` and `B`
were dispatched and the completion of `A` was handled; the other runs have no
node in flight. -/
theorem counter_assertions_unreachable_witness :
    (∀ n, Reach diamondGraph 0 n → n ∈ [1, 2, 3]) ∧
      othersInflight diamondJoinWorld 0 + 3 < UNSIGNED_MOD ∧
      ((∀ st, diamondJoinWorld.objects[0]? = some st →
          ∀ n c, mapFind st.nodeParentsDone_ n = some c → c ≤ (diamondGraph n).parents.length) ∧
        (∀ f, step diamondGraph diamondJoinWorld (Label.dispatch 0) = .error f →
          CounterSafe
            (othersInflight diamondJoinWorld 0 + ([1, 2, 3] : List NodePtr).length
              < UNSIGNED_MOD) f) ∧
        (∀ job j err ctx f, diamondJoinWorld.executor.outstanding[job]? = some j →
          j.state = 0 →
          step diamondGraph diamondJoinWorld (Label.complete job err ctx) = .error f →
          CounterSafe
            (othersInflight diamondJoinWorld 0 + ([1, 2, 3] : List NodePtr).length
              < UNSIGNED_MOD) f)) :=
  ⟨fun n hn => by
      rcases reach_diamondGraph hn with h | h | h <;> subst h <;> decide,
    by decide,
    counter_assertions_unreachable diamondGraph [0] [] (World.init [0]) rfl 8 0 callerContext
      1 7 (worldAfter diamondGraph (World.init [0]) [Label.run 8 (some 0) callerContext 1 7])
      0 0 ⟨rfl, rfl, rfl, rfl⟩ wellFormed_diamondGraph [1, 2, 3]
      (fun n hn => by
        rcases reach_diamondGraph hn with h | h | h <;> subst h <;> decide)
      (by decide) (diamondCompletions.take 3) diamondJoinWorld rfl⟩

/-- C22 as stated fails when a counter wraps. Root has 2^32 - 1 distinct children,
`A` and 2^32 - 2 leaves, and `A` has the one child `C`: the graph is well-formed
and acyclic (`fanRank` grows along every child edge) and has 2^32 nodes. The run
is accepted, which takes `inflightNodes_` to 2^32 - 1, and `A` is dispatched. When
the completion of `A` is handled without error, the increment for the ready
child `C` wraps the counter to 0, `C` is dispatched, and the final
`decrementInflightNodes(1)` of the handler exceeds the counter: its assertion
fails. -/
theorem inflight_assertion_in_wide_run :
    WellFormedDAG (fanGraph 4294967294) 0 ∧
      (∀ m c, c ∈ ((fanGraph 4294967294) m).children → fanRank m < fanRank c) ∧
      Accepted (fanGraph 4294967294) (World.init [0]) 4294967296 0 emptyContext 1 7
        (fanAccepted 4294967294) 0 0 ∧
      steps (fanGraph 4294967294) (fanAccepted 4294967294) [Label.dispatch 0] =
        .ok (fanWorld 4294967294) ∧
      (fanWorld 4294967294).executor.outstanding[0]? =
        some { state := 0, node := 1, ctx := emptyContext } ∧
      step (fanGraph 4294967294) (fanWorld 4294967294) (Label.complete 0 none emptyContext) =
        .error Fault.inflightUnderflow :=
  ⟨wellFormed_fanGraph 4294967294, fanRank_grows 4294967294,
    ⟨accept_fanGraph 4294967294, rfl, rfl, rfl⟩, dispatch_fanGraph 4294967294, rfl,
    handle_fanGraph 4294967294 (by decide)⟩

end runtime
end glow
